import Mathlib

/-!
# Vyasa: the markdown transducer of the display components

A shallow embedding of `parseMarkdown` as it is written in
`Frontend/src/components/Notes/GetNotes.jsx` (and its copies in
`SummarizeFile.jsx`, `RoadmapGenerator.jsx` and `QuestionBank.jsx`).

`parseMarkdown` is a chain of `String.prototype.replace` calls with regular
expression patterns.  The embedding therefore has three layers:

* `Regex`, `Regex.run`: the regular expressions of the sources, as syntax trees,
  with the backtracking, continuation-passing matcher of ECMAScript
  (a matcher takes a state and a continuation; a quantifier tries its
  alternatives in priority order and the first success of the continuation wins);
* `expand`, `replaceWith`, `replace`: `replace` with a global pattern and a
  replacement template (`$1`, `$2`);
* `transform`, `parseMarkdown`: the guard and the chain of calls, in source order.

A JavaScript string is modelled as a `List Char`.  The patterns of the sources carry
no `u` flag and only test single characters, so a character outside the
patterns (whether one or two UTF-16 code units) is just copied or captured; a
string with an unpaired surrogate has no counterpart in the model.

The development then gives each pattern a first-order closed form (`lineM`,
`spanM`, `fenceM`, `orderedM`, `bracketM`, `paragraphM`, `mergeM`, `newlineM`),
proves it equal to the matcher on the pattern, and states the properties of the
specification on `parseMarkdown` itself.

The print export `handlePrintPDF` of the four components is embedded on a small
model of the DOM: elements with an identity, the children of `document.body`,
and `window.print` as a parameter that returns or throws.
-/

namespace Vyasa

/-! ## Characters -/

/-- LineTerminator of ECMAScript: LF, CR, LS and PS.  These are the characters
that `.` refuses and next to which `^` and `$` hold under the `m` flag. -/
def isLineTerminator (c : Char) : Bool :=
  c == '\n' || c == '\r' || c == Char.ofNat 0x2028 || c == Char.ofNat 0x2029

/-- The class `\s`: WhiteSpace and LineTerminator of ECMAScript. -/
def isWhiteSpace (c : Char) : Bool :=
  c == '\t' || c == '\n' || c == Char.ofNat 0x0B || c == Char.ofNat 0x0C || c == '\r' ||
  c == ' ' || c == Char.ofNat 0xA0 || c == Char.ofNat 0x1680 ||
  (Char.ofNat 0x2000 ≤ c && c ≤ Char.ofNat 0x200A) ||
  c == Char.ofNat 0x2028 || c == Char.ofNat 0x2029 || c == Char.ofNat 0x202F ||
  c == Char.ofNat 0x205F || c == Char.ofNat 0x3000 || c == Char.ofNat 0xFEFF

/-- The class `\d`. -/
def isDigit (c : Char) : Bool := '0' ≤ c && c ≤ '9'

/-- Canonicalize of ECMAScript for a pattern without the `u` flag, on the ASCII
range: under `i` a lower-case ASCII letter is compared as its upper-case form.
A character outside ASCII never canonicalizes to an ASCII character, and every
pattern character of the sources is ASCII, so such a character is left as it is. -/
def canonicalize (ignoreCase : Bool) (c : Char) : Char :=
  if ignoreCase && ('a' ≤ c && c ≤ 'z') then Char.ofNat (c.toNat - 32) else c

/-- The flags of a pattern that change how it matches (`g` is part of `replace`). -/
structure Flags where
  ignoreCase : Bool
  multiline : Bool

/-- The flags `gim`. -/
def Flags.gim : Flags := ⟨true, true⟩
/-- The flag `g` alone. -/
def Flags.g : Flags := ⟨false, false⟩
/-- The flags `gi`. -/
def Flags.gi : Flags := ⟨true, false⟩

/-! ## Regular expressions -/

/-- A pattern that consumes exactly one character. -/
inductive Atom where
  /-- a pattern character, such as `#` or an escaped `\*` -/
  | lit (c : Char)
  /-- `.` -/
  | dot
  /-- `\d` -/
  | digit
  /-- `\s` -/
  | space
  /-- `[\s\S]` -/
  | any
  /-- `[^c]` -/
  | notLit (c : Char)
  /-- `[lo-hi]`, for a range of ASCII letters of one case (the sources only have `[a-z]`) -/
  | range (lo hi : Char)

/-- Whether an atom accepts a character. -/
def Atom.test (f : Flags) : Atom → Char → Bool
  | .lit c, x => canonicalize f.ignoreCase x == canonicalize f.ignoreCase c
  | .dot, x => !isLineTerminator x
  | .digit, x => isDigit x
  | .space, x => isWhiteSpace x
  | .any, _ => true
  | .notLit c, x => !(canonicalize f.ignoreCase x == canonicalize f.ignoreCase c)
  | .range lo hi, x =>
      (lo ≤ x && x ≤ hi) ||
      (canonicalize f.ignoreCase lo ≤ canonicalize f.ignoreCase x &&
        canonicalize f.ignoreCase x ≤ canonicalize f.ignoreCase hi)

/-- The regular expressions of the sources.  Every quantifier of the sources
is applied to a single-character pattern. -/
inductive Regex where
  /-- the empty pattern -/
  | empty
  /-- a single-character pattern -/
  | atom (a : Atom)
  /-- `^` -/
  | bol
  /-- `$` -/
  | eol
  /-- concatenation -/
  | seq (a b : Regex)
  /-- `a|b` -/
  | alt (a b : Regex)
  /-- `a*` -/
  | star (a : Atom)
  /-- `a*?` -/
  | lazyStar (a : Atom)
  /-- `a+` -/
  | plus (a : Atom)
  /-- the capturing group number `i` -/
  | group (i : Nat) (r : Regex)
  /-- `(?!r)` -/
  | notAhead (r : Regex)

/-- The pattern that matches the characters of `s` one after the other. -/
def Regex.str (s : String) : Regex :=
  s.data.foldr (fun c r => Regex.seq (.atom (.lit c)) r) .empty

/-- Concatenation of a list of patterns. -/
def Regex.cat (rs : List Regex) : Regex :=
  rs.foldr Regex.seq .empty

/-- The state of a match: the character before the current position (none at
the start of the input), the input from the current position on, and the
captures made so far (most recent first). -/
structure MatchState where
  prev : Option Char
  rest : List Char
  caps : List (Nat × List Char)

/-- A continuation: the rest of the pattern, to be tried from a state. -/
abbrev Cont := MatchState → Option MatchState

/-- Greedy `a*`: take one more character first, fall back to the continuation. -/
def starGreedy (p : Char → Bool) (k : Cont) (caps : List (Nat × List Char)) :
    Option Char → List Char → Option MatchState
  | prev, [] => k ⟨prev, [], caps⟩
  | prev, c :: cs =>
    if p c then
      match starGreedy p k caps (some c) cs with
      | some r => some r
      | none => k ⟨prev, c :: cs, caps⟩
    else k ⟨prev, c :: cs, caps⟩

/-- Lazy `a*?`: try the continuation first, take one more character if it fails. -/
def starLazy (p : Char → Bool) (k : Cont) (caps : List (Nat × List Char)) :
    Option Char → List Char → Option MatchState
  | prev, [] => k ⟨prev, [], caps⟩
  | prev, c :: cs =>
    match k ⟨prev, c :: cs, caps⟩ with
    | some r => some r
    | none => if p c then starLazy p k caps (some c) cs else none

/-- The backtracking matcher: `r.run f s k` matches `r` from the state `s` and
hands every state it can reach to `k`, in priority order; the first state
that `k` accepts is the result. -/
def Regex.run (f : Flags) : Regex → MatchState → Cont → Option MatchState
  | .empty, s, k => k s
  | .atom a, s, k =>
    match s.rest with
    | [] => none
    | c :: cs => if a.test f c then k ⟨some c, cs, s.caps⟩ else none
  | .bol, s, k =>
    match s.prev with
    | none => k s
    | some c => if f.multiline && isLineTerminator c then k s else none
  | .eol, s, k =>
    match s.rest with
    | [] => k s
    | c :: _ => if f.multiline && isLineTerminator c then k s else none
  | .seq a b, s, k => a.run f s (fun s1 => b.run f s1 k)
  | .alt a b, s, k =>
    match a.run f s k with
    | some r => some r
    | none => b.run f s k
  | .star a, s, k => starGreedy (a.test f) k s.caps s.prev s.rest
  | .lazyStar a, s, k => starLazy (a.test f) k s.caps s.prev s.rest
  | .plus a, s, k =>
    match s.rest with
    | [] => none
    | c :: cs => if a.test f c then starGreedy (a.test f) k s.caps (some c) cs else none
  | .group i r, s, k =>
    r.run f s (fun s1 =>
      k ⟨s1.prev, s1.rest, (i, s.rest.take (s.rest.length - s1.rest.length)) :: s1.caps⟩)
  | .notAhead r, s, k =>
    match r.run f s some with
    | some _ => none
    | none => k s

/-- The captures of a match, most recent first. -/
abbrev Captures := List (Nat × List Char)

/-- One match attempt at a position (the character before it, the input from
it on): the input left after the match and the captures, or none. -/
abbrev Matcher := Option Char → List Char → Option (List Char × Captures)

/-- One match attempt of `re` at a position. -/
def matchAt (f : Flags) (re : Regex) : Matcher := fun prev rest =>
  (re.run f ⟨prev, rest, []⟩ some).map (fun s => (s.rest, s.caps))

/-! ## Replacement -/

/-- The text of capture `i`; a group that took no part in the match gives the
empty string. -/
def capture (caps : Captures) (i : Nat) : List Char :=
  (caps.lookup i).getD []

/-- GetSubstitution: the replacement template with `$$`, `$&` and `$1`..`$9`
expanded (`matched` is the matched text).  The templates of the sources only
use `$1` and `$2`, each for a group of its pattern. -/
def expand (caps : Captures) (matched : List Char) : List Char → List Char
  | [] => []
  | [c] => [c]
  | c :: d :: cs =>
    if c = '$' then
      if d = '$' then '$' :: expand caps matched cs
      else if d = '&' then matched ++ expand caps matched cs
      else if '1' ≤ d ∧ d ≤ '9' then capture caps (d.toNat - 48) ++ expand caps matched cs
      else c :: expand caps matched (d :: cs)
    else c :: expand caps matched (d :: cs)

/-- The loop of `replace` for a global pattern, at a position of the input.
`skip` counts the characters of the current match that are still to be passed
over.  After an empty match the search resumes one character further, and that
character is copied. -/
def replaceWith (m : Matcher) (tmpl : List Char) :
    Option Char → List Char → Nat → List Char
  | _, [], _ + 1 => []
  | _, c :: cs, skip + 1 => replaceWith m tmpl (some c) cs skip
  | prev, [], 0 =>
    match m prev [] with
    | none => []
    | some (_, caps) => expand caps [] tmpl
  | prev, c :: cs, 0 =>
    match m prev (c :: cs) with
    | none => c :: replaceWith m tmpl (some c) cs 0
    | some (rest, caps) =>
      let n := (c :: cs).length - rest.length
      expand caps ((c :: cs).take n) tmpl ++
        (if n = 0 then c :: replaceWith m tmpl (some c) cs 0
         else replaceWith m tmpl (some c) cs (n - 1))

/-- The call `input.replace(re, tmpl)` for a pattern `re` with the `g` flag. -/
def replace (f : Flags) (re : Regex) (tmpl : String) (input : List Char) : List Char :=
  replaceWith (matchAt f re) tmpl.data none input 0

/-! ## The patterns of `parseMarkdown` -/

open Regex Atom in
/-- The pattern for a line rule: `^` marker `(.*$)`. -/
def lineRule (marker : Regex) : Regex :=
  cat [bol, marker, group 1 (cat [star dot, eol])]

open Regex Atom in
/-- The pattern for a span: open `(.*?)` close. -/
def spanRule (delim : String) : Regex :=
  cat [str delim, group 1 (lazyStar dot), str delim]

open Regex Atom in
/-- The pattern `/```(.*?)\n([\s\S]*?)```/`. -/
def fenceRule : Regex :=
  cat [str "```", group 1 (lazyStar dot), atom (lit '\n'), group 2 (lazyStar any), str "```"]

open Regex Atom in
/-- The pattern `/^\d+\. (.*$)/`. -/
def orderedRule : Regex :=
  cat [bol, plus digit, str ". ", group 1 (cat [star dot, eol])]

open Regex Atom in
/-- The pattern `/\[([^\]]+)\]\(([^)]+)\)/`. -/
def linkRule : Regex :=
  cat [str "[", group 1 (plus (notLit ']')), str "](", group 2 (plus (notLit ')')), str ")"]

open Regex Atom in
/-- The pattern `/!\[([^\]]+)\]\(([^)]+)\)/`. -/
def imageRule : Regex :=
  cat [str "![", group 1 (plus (notLit ']')), str "](", group 2 (plus (notLit ')')), str ")"]

open Regex Atom in
/-- The pattern `/^(?!<[a-z])(.*$)/`. -/
def paragraphRule : Regex :=
  cat [bol, notAhead (cat [str "<", atom (range 'a' 'z')]), group 1 (cat [star dot, eol])]

open Regex Atom in
/-- The pattern `/<\/ul>\s*<ul>/` (with `tag` = `ul`) and `/<\/ol>\s*<ol>/`. -/
def mergeRule (tag : String) : Regex :=
  cat [str ("</" ++ tag ++ ">"), star space, str ("<" ++ tag ++ ">")]

/-- The replacement template of the link rule in `GetNotes.jsx` and
`SummarizeFile.jsx`. -/
def plainAnchor : String :=
  "<a href=\"$2\" target=\"_blank\" rel=\"noopener noreferrer\">$1</a>"

/-- The replacement template of the link rule in `RoadmapGenerator.jsx` and
`QuestionBank.jsx`. -/
def styledAnchor : String :=
  "<a href=\"$2\" target=\"_blank\" rel=\"noopener noreferrer\" style=\"color: #60a5fa; text-decoration: underline;\">$1</a>"

/-- The body of `parseMarkdown` after the guard: the chain of `replace` calls,
in source order.  The four copies differ only in the template of the link rule. -/
def transform (anchor : String) (markdown : List Char) : List Char :=
  markdown
    |> replace .gim (lineRule (.str "### ")) "<h3>$1</h3>"
    |> replace .gim (lineRule (.str "## ")) "<h2>$1</h2>"
    |> replace .gim (lineRule (.str "# ")) "<h1>$1</h1>"
    |> replace .gim (spanRule "**") "<strong>$1</strong>"
    |> replace .gim (spanRule "__") "<strong>$1</strong>"
    |> replace .gim (spanRule "*") "<em>$1</em>"
    |> replace .gim (spanRule "_") "<em>$1</em>"
    |> replace .gim fenceRule "<pre><code class=\"language-$1\">$2</code></pre>"
    |> replace .gim (spanRule "`") "<code>$1</code>"
    |> replace .gim (lineRule (.str "* ")) "<ul><li>$1</li></ul>"
    |> replace .gim (lineRule (.str "- ")) "<ul><li>$1</li></ul>"
    |> replace .gim (lineRule (.str "+ ")) "<ul><li>$1</li></ul>"
    |> replace .gim orderedRule "<ol><li>$1</li></ol>"
    |> replace .gim linkRule anchor
    |> replace .gim imageRule "<img src=\"$2\" alt=\"$1\" class=\"max-w-full h-auto\" />"
    |> replace .gim (lineRule (.str "> ")) "<blockquote>$1</blockquote>"
    |> replace .gim paragraphRule "<p>$1</p>"
    |> replace .g (mergeRule "ul") ""
    |> replace .g (mergeRule "ol") ""
    |> replace .g (.atom (.lit '\n')) "<br />"

/-- `parseMarkdown` of `GetNotes.jsx`.  The argument is absent (`undefined` or
`null`) or a string; `!markdown` holds for an absent argument and for the
empty string. -/
def GetNotes.parseMarkdown (markdown : Option String) : String :=
  match markdown with
  | none => ""
  | some md => if md = "" then "" else String.mk (transform plainAnchor md.data)

/-- `parseMarkdown` of `SummarizeFile.jsx`: the same chain and the same link
template as in `GetNotes.jsx`. -/
def SummarizeFile.parseMarkdown (markdown : Option String) : String :=
  match markdown with
  | none => ""
  | some md => if md = "" then "" else String.mk (transform plainAnchor md.data)

/-- `parseMarkdown` of `QuestionBank.jsx`: the link template carries a `style`
attribute. -/
def QuestionBank.parseMarkdown (markdown : Option String) : String :=
  match markdown with
  | none => ""
  | some md => if md = "" then "" else String.mk (transform styledAnchor md.data)

open Regex in
/-- The pattern
`/<h2>(Online Courses|Tutorials|Books|YouTube|Community|Resources|Free Resources)<\/h2>/`
of `RoadmapGenerator.jsx`. -/
def resourceRule : Regex :=
  cat [str "<h2>",
    group 1 (alt (str "Online Courses") (alt (str "Tutorials") (alt (str "Books")
      (alt (str "YouTube") (alt (str "Community") (alt (str "Resources")
        (str "Free Resources"))))))),
    str "</h2>"]

/-- `parseMarkdown` of `RoadmapGenerator.jsx`: the chain with the styled link
template, then the highlighting of the resource headings. -/
def RoadmapGenerator.parseMarkdown (markdown : Option String) : String :=
  match markdown with
  | none => ""
  | some md =>
    if md = "" then ""
    else String.mk (replace .gi resourceRule "<h2 style=\"color: #93c5fd;\">$1</h2>"
      (transform styledAnchor md.data))

/-! ## The print export

`handlePrintPDF` works on the DOM.  The model keeps what the function touches:
elements with an identity, the children of `document.body`, and the platform
print action, which is a parameter. -/

/-- A DOM element, as far as `handlePrintPDF` uses one: its identity `ref`, its
tag name, its `id`, the markup assigned to `innerHTML`, and the children
appended to it afterwards. -/
structure Element where
  ref : Nat
  tag : String
  id : String
  innerHTML : String
  children : List Element

/-- The document: the number of elements created so far (the identity of the
next one) and the children of `document.body`. -/
structure Document where
  created : Nat
  body : List Element

/-- The call `document.createElement(tag)`: a new element, in no tree. -/
def Document.createElement (doc : Document) (tag : String) : Element × Document :=
  (⟨doc.created, tag, "", "", []⟩, { doc with created := doc.created + 1 })

/-- The call `parent.appendChild(child)` on an element. -/
def Element.appendChild (parent child : Element) : Element :=
  { parent with children := parent.children ++ [child] }

/-- The call `document.body.appendChild(child)`: the child is taken out of the
body if it is there, and becomes the last child. -/
def Document.appendChild (doc : Document) (child : Element) : Document :=
  { doc with body := doc.body.filter (fun e => e.ref != child.ref) ++ [child] }

/-- The call `document.body.removeChild(child)`: throws a `NotFoundError` when
the element is no child of the body. -/
def Document.removeChild (doc : Document) (child : Element) : Except String Document :=
  if doc.body.any (fun e => e.ref == child.ref) then
    .ok { doc with body := doc.body.filter (fun e => e.ref != child.ref) }
  else .error "NotFoundError"

/-- The style sheet of the print container in `GetNotes.jsx` and `SummarizeFile.jsx`. -/
def printStyle : String :=
  "\n" ++
  "      @media print \x7b\n" ++
  "        body * \x7b\n" ++
  "          visibility: hidden;\n" ++
  "        \x7d\n" ++
  "        #print-container, #print-container * \x7b\n" ++
  "          visibility: visible;\n" ++
  "        \x7d\n" ++
  "        #print-container \x7b\n" ++
  "          position: absolute;\n" ++
  "          left: 0;\n" ++
  "          top: 0;\n" ++
  "          width: 100%;\n" ++
  "        \x7d\n" ++
  "        @page \x7b\n" ++
  "          size: auto;\n" ++
  "          margin: 20mm;\n" ++
  "        \x7d\n" ++
  "      \x7d\n" ++
  "    "

/-- The style sheet of the print container in `QuestionBank.jsx` and
`RoadmapGenerator.jsx`. -/
def printStyleColored : String :=
  "\n" ++
  "      @media print \x7b\n" ++
  "        body * \x7b\n" ++
  "          visibility: hidden;\n" ++
  "        \x7d\n" ++
  "        #print-container, #print-container * \x7b\n" ++
  "          visibility: visible;\n" ++
  "        \x7d\n" ++
  "        #print-container \x7b\n" ++
  "          position: absolute;\n" ++
  "          left: 0;\n" ++
  "          top: 0;\n" ++
  "          width: 100%;\n" ++
  "        \x7d\n" ++
  "        @page \x7b\n" ++
  "          size: auto;\n" ++
  "          margin: 20mm;\n" ++
  "        \x7d\n" ++
  "        h1, h2, h3 \x7b color: #333; \x7d\n" ++
  "        a \x7b color: #0066cc !important; text-decoration: underline !important; \x7d\n" ++
  "      \x7d\n" ++
  "    "

/-- The template literal that `handlePrintPDF` of `GetNotes.jsx` assigns to
`printContent.innerHTML`. -/
def GetNotes.printMarkup (youtubeUrl notes : String) : String :=
  "\n" ++
  "      <div style=\"font-family: Arial, sans-serif; max-width: 800px; margin: 0 auto; padding: 20px;\">\n" ++
  "        <h1 style=\"font-size: 24px; color: #333;\">YouTube Notes</h1>\n" ++
  "        <div style=\"font-style: italic; color: #666; margin-bottom: 20px;\">" ++
  "Source: " ++
  youtubeUrl ++
  "</div>" ++
  "\n" ++
  "        " ++
  "<div>" ++
  GetNotes.parseMarkdown (some notes) ++
  "</div>" ++
  "\n" ++
  "        <div style=\"margin-top: 40px; border-top: 1px solid #eee; padding-top: 12px; font-size: 12px; color: #999;\">\n" ++
  "          Generated via YouTube Notes Generator\n" ++
  "        </div>\n" ++
  "      </div>\n" ++
  "    "

/-- The print container that `handlePrintPDF` of `GetNotes.jsx` builds before it
touches the document body (lines 90 to 123): a new `div` with the print markup as
`innerHTML`, the id `print-container`, and a new `style` element as last child. -/
def GetNotes.printContent (youtubeUrl notes : String) (doc : Document) : Element × Document :=
  let (printContent, doc) := doc.createElement "div"
  let printContent := { printContent with innerHTML := GetNotes.printMarkup youtubeUrl notes }
  let (style, doc) := doc.createElement "style"
  let style := { style with innerHTML := printStyle }
  let printContent := { printContent with id := "print-container" }
  let printContent := printContent.appendChild style
  (printContent, doc)

/-- `handlePrintPDF` of `GetNotes.jsx`: the container is appended to the body, the
platform print action `windowPrint` runs, and the container is removed.  The
result is the outcome (a normal return or the exception thrown) and the
document as it is left. -/
def GetNotes.handlePrintPDF (windowPrint : Document → Except String Unit) (youtubeUrl notes : String)
    (doc : Document) : Except String Unit × Document :=
  let (printContent, doc) := GetNotes.printContent youtubeUrl notes doc
  let doc := doc.appendChild printContent
  match windowPrint doc with
  | .error e => (.error e, doc)
  | .ok _ =>
    match doc.removeChild printContent with
    | .error e => (.error e, doc)
    | .ok doc => (.ok (), doc)

/-- The template literal that `handlePrintPDF` of `SummarizeFile.jsx` assigns to
`printContent.innerHTML`. -/
def SummarizeFile.printMarkup (fileData : Option String) (summary : String) : String :=
  "\n" ++
  "      <div style=\"font-family: Arial, sans-serif; max-width: 800px; margin: 0 auto; padding: 20px;\">\n" ++
  "        <h1 style=\"font-size: 24px; color: #333;\">Document Analysis</h1>\n" ++
  "        <div style=\"margin-bottom: 20px; font-style: italic; color: #666;\">\n" ++
  "          File: " ++
  (match fileData with | some name => name | none => "Unknown file") ++
  "\n" ++
  "        </div>\n" ++
  "        " ++
  "<div>" ++
  SummarizeFile.parseMarkdown (some summary) ++
  "</div>" ++
  "\n" ++
  "        <div style=\"margin-top: 40px; border-top: 1px solid #eee; padding-top: 12px; font-size: 12px; color: #999;\">\n" ++
  "          Generated via Document Analysis Tool\n" ++
  "        </div>\n" ++
  "      </div>\n" ++
  "    "

/-- The print container that `handlePrintPDF` of `SummarizeFile.jsx` builds before it
touches the document body (the statements before `document.body.appendChild`; `fileData` is the name of the uploaded file, if there is one): a new `div` with the print markup as
`innerHTML`, the id `print-container`, and a new `style` element as last child. -/
def SummarizeFile.printContent (fileData : Option String) (summary : String) (doc : Document) : Element × Document :=
  let (printContent, doc) := doc.createElement "div"
  let printContent := { printContent with innerHTML := SummarizeFile.printMarkup fileData summary }
  let (style, doc) := doc.createElement "style"
  let style := { style with innerHTML := printStyle }
  let printContent := { printContent with id := "print-container" }
  let printContent := printContent.appendChild style
  (printContent, doc)

/-- `handlePrintPDF` of `SummarizeFile.jsx`: the container is appended to the body, the
platform print action `windowPrint` runs, and the container is removed.  The
result is the outcome (a normal return or the exception thrown) and the
document as it is left. -/
def SummarizeFile.handlePrintPDF (windowPrint : Document → Except String Unit) (fileData : Option String) (summary : String)
    (doc : Document) : Except String Unit × Document :=
  let (printContent, doc) := SummarizeFile.printContent fileData summary doc
  let doc := doc.appendChild printContent
  match windowPrint doc with
  | .error e => (.error e, doc)
  | .ok _ =>
    match doc.removeChild printContent with
    | .error e => (.error e, doc)
    | .ok doc => (.ok (), doc)

/-- The template literal that `handlePrintPDF` of `QuestionBank.jsx` assigns to
`printContent.innerHTML`. -/
def QuestionBank.printMarkup (fileData : Option String) (questions : String) : String :=
  "\n" ++
  "      <div style=\"font-family: Arial, sans-serif; max-width: 800px; margin: 0 auto; padding: 20px;\">\n" ++
  "        <h1 style=\"font-size: 24px; color: #333;\">Question Bank</h1>\n" ++
  "        <div style=\"margin-bottom: 20px; font-style: italic; color: #666;\">\n" ++
  "          Generated from: " ++
  (match fileData with | some name => name | none => "Unknown file") ++
  "\n" ++
  "        </div>\n" ++
  "        " ++
  "<div>" ++
  QuestionBank.parseMarkdown (some questions) ++
  "</div>" ++
  "\n" ++
  "        <div style=\"margin-top: 40px; border-top: 1px solid #eee; padding-top: 12px; font-size: 12px; color: #999;\">\n" ++
  "          Generated via Question Bank Generator\n" ++
  "        </div>\n" ++
  "      </div>\n" ++
  "    "

/-- The print container that `handlePrintPDF` of `QuestionBank.jsx` builds before it
touches the document body (the statements before `document.body.appendChild`; `fileData` is the name of the uploaded file, if there is one): a new `div` with the print markup as
`innerHTML`, the id `print-container`, and a new `style` element as last child. -/
def QuestionBank.printContent (fileData : Option String) (questions : String) (doc : Document) : Element × Document :=
  let (printContent, doc) := doc.createElement "div"
  let printContent := { printContent with innerHTML := QuestionBank.printMarkup fileData questions }
  let (style, doc) := doc.createElement "style"
  let style := { style with innerHTML := printStyleColored }
  let printContent := { printContent with id := "print-container" }
  let printContent := printContent.appendChild style
  (printContent, doc)

/-- `handlePrintPDF` of `QuestionBank.jsx`: the container is appended to the body, the
platform print action `windowPrint` runs, and the container is removed.  The
result is the outcome (a normal return or the exception thrown) and the
document as it is left. -/
def QuestionBank.handlePrintPDF (windowPrint : Document → Except String Unit) (fileData : Option String) (questions : String)
    (doc : Document) : Except String Unit × Document :=
  let (printContent, doc) := QuestionBank.printContent fileData questions doc
  let doc := doc.appendChild printContent
  match windowPrint doc with
  | .error e => (.error e, doc)
  | .ok _ =>
    match doc.removeChild printContent with
    | .error e => (.error e, doc)
    | .ok doc => (.ok (), doc)

/-- The roadmap object of `RoadmapGenerator.jsx`, as far as `handlePrintPDF`
reads it; a section may be absent. -/
structure Roadmap where
  topic : String
  overview : Option String
  learning_stages : Option String
  recommended_resources : Option String
  learning_projects : Option String

/-- The template literal that `handlePrintPDF` of `RoadmapGenerator.jsx` assigns to
`printContent.innerHTML`. -/
def RoadmapGenerator.printMarkup (roadmap : Roadmap) : String :=
  "\n" ++
  "      <div style=\"font-family: Arial, sans-serif; max-width: 800px; margin: 0 auto; padding: 20px;\">\n" ++
  "        <h1 style=\"text-align: center; margin-bottom: 20px;\">" ++
  roadmap.topic ++
  " Learning Roadmap</h1>\n" ++
  "        \n" ++
  "        <div style=\"margin-bottom: 30px;\">\n" ++
  "          <h2>Overview</h2>\n" ++
  "          " ++
  RoadmapGenerator.parseMarkdown roadmap.overview ++
  "\n" ++
  "        </div>\n" ++
  "        \n" ++
  "        <div style=\"margin-bottom: 30px;\">\n" ++
  "          <h2>Learning Stages</h2>\n" ++
  "          " ++
  RoadmapGenerator.parseMarkdown roadmap.learning_stages ++
  "\n" ++
  "        </div>\n" ++
  "        \n" ++
  "        <div style=\"margin-bottom: 30px;\">\n" ++
  "          <h2 style=\"color: #60a5fa;\">Recommended Resources</h2>\n" ++
  "          " ++
  RoadmapGenerator.parseMarkdown roadmap.recommended_resources ++
  "\n" ++
  "        </div>\n" ++
  "        \n" ++
  "        <div style=\"margin-bottom: 30px;\">\n" ++
  "          <h2>Learning Projects</h2>\n" ++
  "          " ++
  RoadmapGenerator.parseMarkdown roadmap.learning_projects ++
  "\n" ++
  "        </div>\n" ++
  "        \n" ++
  "        <div style=\"margin-top: 40px; border-top: 1px solid #eee; padding-top: 12px; font-size: 12px; color: #999;\">\n" ++
  "          Generated via Learning Roadmap Generator\n" ++
  "        </div>\n" ++
  "      </div>\n" ++
  "    "

/-- The print container that `handlePrintPDF` of `RoadmapGenerator.jsx` builds before it
touches the document body (lines 123 to 179): a new `div` with the print markup as
`innerHTML`, the id `print-container`, and a new `style` element as last child. -/
def RoadmapGenerator.printContent (roadmap : Roadmap) (doc : Document) : Element × Document :=
  let (printContent, doc) := doc.createElement "div"
  let printContent := { printContent with innerHTML := RoadmapGenerator.printMarkup roadmap }
  let (style, doc) := doc.createElement "style"
  let style := { style with innerHTML := printStyleColored }
  let printContent := { printContent with id := "print-container" }
  let printContent := printContent.appendChild style
  (printContent, doc)

/-- `handlePrintPDF` of `RoadmapGenerator.jsx`: the container is appended to the body, the
platform print action `windowPrint` runs, and the container is removed.  The
result is the outcome (a normal return or the exception thrown) and the
document as it is left. -/
def RoadmapGenerator.handlePrintPDF (windowPrint : Document → Except String Unit) (roadmap : Roadmap)
    (doc : Document) : Except String Unit × Document :=
  let (printContent, doc) := RoadmapGenerator.printContent roadmap doc
  let doc := doc.appendChild printContent
  match windowPrint doc with
  | .error e => (.error e, doc)
  | .ok _ =>
    match doc.removeChild printContent with
    | .error e => (.error e, doc)
    | .ok doc => (.ok (), doc)

/-! ## The sanitize configurations -/

/-- The configuration object that `renderMarkdown` passes to `DOMPurify.sanitize`. -/
structure SanitizeConfig where
  ADD_TAGS : List String
  ADD_ATTR : List String
  deriving DecidableEq

/-- The configuration in `renderMarkdown` of `GetNotes.jsx` (lines 80 to 83). -/
def GetNotes.sanitizeConfig : SanitizeConfig :=
  { ADD_TAGS := ["h1", "h2", "h3", "ul", "ol", "li", "code", "pre"]
    ADD_ATTR := ["class", "target", "rel"] }

/-- The configuration in `renderMarkdown` of `SummarizeFile.jsx` (lines 52 to 55). -/
def SummarizeFile.sanitizeConfig : SanitizeConfig :=
  { ADD_TAGS := ["h1", "h2", "h3", "ul", "ol", "li", "code", "pre"]
    ADD_ATTR := ["class", "target", "rel"] }

/-- The configuration in `renderMarkdown` of `QuestionBank.jsx` (lines 53 to 56). -/
def QuestionBank.sanitizeConfig : SanitizeConfig :=
  { ADD_TAGS := ["h1", "h2", "h3", "ul", "ol", "li", "code", "pre", "a"]
    ADD_ATTR := ["class", "target", "rel", "href", "style"] }

/-- The configuration in `renderMarkdown` of `RoadmapGenerator.jsx` (lines 114 to 117). -/
def RoadmapGenerator.sanitizeConfig : SanitizeConfig :=
  { ADD_TAGS := ["h1", "h2", "h3", "ul", "ol", "li", "code", "pre", "a"]
    ADD_ATTR := ["class", "target", "rel", "href", "style"] }

/-! ## The file uploader -/

/-- A `File` object, as far as `FileUploader.jsx` reads it: its name, its MIME
type and its size in bytes. -/
structure File where
  name : String
  type : String
  size : Nat

namespace FileUploader

/-- The state of the component that `validateFile` and `processFile` write,
and the calls of the `onFileUpload` callback made so far. -/
structure State where
  file : Option File
  fileName : String
  fileSize : String
  error : Option String
  uploaded : List File

/-- The constant `allowedTypes` of `FileUploader.jsx`. -/
def allowedTypes : List String :=
  ["application/pdf",
   "application/msword",
   "application/vnd.openxmlformats-officedocument.wordprocessingml.document",
   "application/vnd.ms-excel",
   "application/vnd.openxmlformats-officedocument.spreadsheetml.sheet",
   "text/plain"]

/-- The constant `maxSize` of `FileUploader.jsx`. -/
def maxSize : Nat := 30 * 1024 * 1024

/-- `validateFile`: the result, and the state with the error message it sets. -/
def validateFile (file : File) (s : State) : Bool × State :=
  if !allowedTypes.contains file.type then
    let message := "File type not supported. Please upload PDF, Word, Excel or text files."
    (false, { s with error := some message })
  else if file.size > maxSize then
    (false, { s with error := some "File size exceeds 30MB limit." })
  else (true, s)

/-- The call `(bytes / d).toFixed(2)` for a divisor `d` that is a power of two:
the quotient is then an exact floating-point number, and `toFixed` rounds its
exact value to two decimals, half up. -/
def toFixed2 (bytes d : Nat) : String :=
  let n := (200 * bytes + d) / (2 * d)
  toString (n / 100) ++ "." ++ (if n % 100 < 10 then "0" else "") ++ toString (n % 100)

/-- `formatFileSize`. -/
def formatFileSize (bytes : Nat) : String :=
  if bytes < 1024 then toString bytes ++ " bytes"
  else if bytes < 1048576 then toFixed2 bytes 1024 ++ " KB"
  else toFixed2 bytes 1048576 ++ " MB"

/-- `processFile`; `hasCallback` says whether the `onFileUpload` prop is given. -/
def processFile (hasCallback : Bool) (file : File) (s : State) : State :=
  let (ok, s) := validateFile file s
  if !ok then s
  else
    let s := { s with file := some file }
    let s := { s with fileName := file.name }
    let s := { s with fileSize := formatFileSize file.size }
    let s := { s with error := none }
    if hasCallback then { s with uploaded := s.uploaded ++ [file] } else s

end FileUploader

/-! ## The call on any value

`parseMarkdown` is an untyped function: the guard `!markdown` and the method
calls `.replace(...)` are defined for every value and the method calls can
throw.  This section embeds the function at that level. -/

/-- A JavaScript value, as far as `parseMarkdown` tells values apart:
`undefined`, `null`, a string, or any other value that has no method `replace`
(a boolean, a number, an array, a plain object), of which only the truth value
matters.  A string is a sequence of characters of any length. -/
inductive Value where
  | undefined
  | null
  | string (s : String)
  | other (truthy : Bool)
  deriving DecidableEq

/-- An exception thrown by a call. -/
inductive JSError where
  /-- `TypeError`: a property of `undefined` or `null` is read, or a value that
  is not a function is called -/
  | typeError
  deriving DecidableEq

/-- ToBoolean: `undefined`, `null` and the empty string are falsy. -/
def Value.toBoolean : Value → Bool
  | .undefined => false
  | .null => false
  | .string s => s != ""
  | .other truthy => truthy

/-- The method call `v.replace(re, tmpl)` for a pattern `re` with the `g` flag:
on a string it is `String.prototype.replace`, which returns a string; reading
`replace` off `undefined` or `null` throws, and on any other value the property
is `undefined` and calling it throws. -/
def Value.callReplace (f : Flags) (re : Regex) (tmpl : String) : Value → Except JSError Value
  | .string s => .ok (.string (String.mk (replace f re tmpl s.data)))
  | _ => .error .typeError

/-- `parseMarkdown` of `GetNotes.jsx` on any value: the guard, then the chain
of method calls, each on the result of the one before. -/
def GetNotes.parseMarkdownValue (markdown : Value) : Except JSError Value :=
  if !markdown.toBoolean then .ok (.string "")
  else do
    let html ← Value.callReplace .gim (lineRule (.str "### ")) "<h3>$1</h3>" markdown
      >>= Value.callReplace .gim (lineRule (.str "## ")) "<h2>$1</h2>"
      >>= Value.callReplace .gim (lineRule (.str "# ")) "<h1>$1</h1>"
      >>= Value.callReplace .gim (spanRule "**") "<strong>$1</strong>"
      >>= Value.callReplace .gim (spanRule "__") "<strong>$1</strong>"
      >>= Value.callReplace .gim (spanRule "*") "<em>$1</em>"
      >>= Value.callReplace .gim (spanRule "_") "<em>$1</em>"
      >>= Value.callReplace .gim fenceRule "<pre><code class=\"language-$1\">$2</code></pre>"
      >>= Value.callReplace .gim (spanRule "`") "<code>$1</code>"
      >>= Value.callReplace .gim (lineRule (.str "* ")) "<ul><li>$1</li></ul>"
      >>= Value.callReplace .gim (lineRule (.str "- ")) "<ul><li>$1</li></ul>"
      >>= Value.callReplace .gim (lineRule (.str "+ ")) "<ul><li>$1</li></ul>"
      >>= Value.callReplace .gim orderedRule "<ol><li>$1</li></ol>"
      >>= Value.callReplace .gim linkRule plainAnchor
      >>= Value.callReplace .gim imageRule
        "<img src=\"$2\" alt=\"$1\" class=\"max-w-full h-auto\" />"
      >>= Value.callReplace .gim (lineRule (.str "> ")) "<blockquote>$1</blockquote>"
      >>= Value.callReplace .gim paragraphRule "<p>$1</p>"
    let html ← html.callReplace .g (mergeRule "ul") ""
    let html ← html.callReplace .g (mergeRule "ol") ""
    let html ← html.callReplace .g (.atom (.lit '\n')) "<br />"
    return html

/-! ## Positions, literal text and closed forms of the patterns

The functions of this section are not part of the sources: they state, in first-order
form, what each pattern of `parseMarkdown` matches.  Each is proved equal to
`matchAt` on the pattern further down. -/

/-- The character before the position reached after reading `cs`. -/
def advance (prev : Option Char) (cs : List Char) : Option Char :=
  cs.foldl (fun _ c => some c) prev

/-- Whether `^` holds under the `m` flag: at the start of the input or after a
line terminator. -/
def lineStart : Option Char → Bool
  | none => true
  | some c => isLineTerminator c

/-- Reads the literal text `ds` off the front of the input. -/
def chop : List Char → List Char → Option (List Char)
  | [], r => some r
  | _ :: _, [] => none
  | d :: ds, c :: cs => if c = d then chop ds cs else none

/-- An ASCII letter. -/
def isAsciiLetter (c : Char) : Bool :=
  ('a' ≤ c && c ≤ 'z') || ('A' ≤ c && c ≤ 'Z')

/-- A literal text is matched character by character, exactly, when the
pattern is case-sensitive or the text has no letter. -/
def LitOK (f : Flags) (ds : List Char) : Prop :=
  f.ignoreCase = false ∨ ∀ d ∈ ds, isAsciiLetter d = false

/-- A character that `.` accepts. -/
def notLT (c : Char) : Bool := !isLineTerminator c

/-- The lazy quantifier in closed form: the shortest run `acc` of characters
accepted by `p` after which `g` succeeds (`g` receives the run, the character
before the position, and the input left). -/
def lazyFind {α : Type} (p : Char → Bool) (g : List Char → Option Char → List Char → Option α) :
    List Char → Option Char → List Char → Option α
  | acc, prev, [] => g acc prev []
  | acc, prev, c :: cs =>
    match g acc prev (c :: cs) with
    | some r => some r
    | none => if p c then lazyFind p g (acc ++ [c]) (some c) cs else none

/-- Closed form of a line rule `^` marker `(.*$)`: at a line start, after the
marker, the rest of the line is captured. -/
def lineM (marker : List Char) : Matcher := fun prev rest =>
  if lineStart prev then
    match chop marker rest with
    | some r => some (r.dropWhile notLT, [(1, r.takeWhile notLT)])
    | none => none
  else none

/-- Closed form of `^\d+\. (.*$)`. -/
def orderedM : Matcher := fun prev rest =>
  if lineStart prev then
    match rest with
    | [] => none
    | c :: cs =>
      if isDigit c then
        match chop ['.', ' '] (cs.dropWhile isDigit) with
        | some r => some (r.dropWhile notLT, [(1, r.takeWhile notLT)])
        | none => none
      else none
  else none

/-- Closed form of a span rule: the delimiter, the shortest text without a
line terminator that is followed by the delimiter, the delimiter. -/
def spanM (delim : List Char) : Matcher := fun prev rest =>
  match chop delim rest with
  | some r =>
    lazyFind notLT (fun m _ r1 => (chop delim r1).map (fun r2 => (r2, [(1, m)])))
      [] (advance prev delim) r
  | none => none

/-- Closed form of the fenced code rule. -/
def fenceM : Matcher := fun prev rest =>
  match chop "```".data rest with
  | some r =>
    lazyFind notLT (fun lang _ r1 =>
      match r1 with
      | [] => none
      | c :: r2 =>
        if c = '\n' then
          lazyFind (fun _ => true) (fun body _ r3 =>
            (chop "```".data r3).map (fun r4 => (r4, [(2, body), (1, lang)])))
            [] (some c) r2
        else none)
      [] (advance prev "```".data) r
  | none => none

/-- Closed form of the link and image rules, after the opening text `opener`
(`[` or `![`): the longest text without `]`, then `](`, the longest text
without `)`, then `)`; both texts are non-empty. -/
def bracketM (opener : List Char) : Matcher := fun _ rest =>
  match chop opener rest with
  | some r =>
    let label := r.takeWhile (fun c => !(c == ']'))
    if label = [] then none
    else
      match chop [']', '('] (r.dropWhile (fun c => !(c == ']'))) with
      | some r1 =>
        let url := r1.takeWhile (fun c => !(c == ')'))
        if url = [] then none
        else
          match chop [')'] (r1.dropWhile (fun c => !(c == ')'))) with
          | some r2 => some (r2, [(2, url), (1, label)])
          | none => none
      | none => none
  | none => none

/-- Whether the input starts with `<` and an ASCII letter (the lookahead of the
paragraph rule). -/
def tagAhead : List Char → Bool
  | c :: d :: _ => c == '<' && isAsciiLetter d
  | _ => false

/-- Closed form of `^(?!<[a-z])(.*$)`. -/
def paragraphM : Matcher := fun prev rest =>
  if lineStart prev && !tagAhead rest then
    some (rest.dropWhile notLT, [(1, rest.takeWhile notLT)])
  else none

/-- Closed form of the cleanup rules: the closing tag, white space, the opening tag. -/
def mergeM (tag : List Char) : Matcher := fun _ rest =>
  match chop ('<' :: '/' :: (tag ++ ['>'])) rest with
  | some r =>
    match chop ('<' :: (tag ++ ['>'])) (r.dropWhile isWhiteSpace) with
    | some r1 => some (r1, [])
    | none => none
  | none => none

/-- Closed form of `/\n/`. -/
def newlineM : Matcher := fun _ rest =>
  match rest with
  | [] => none
  | c :: cs => if c = '\n' then some (cs, []) else none

/-- One call of the chain on the closed form `m` of its pattern. -/
def stage (m : Matcher) (tmpl : String) (input : List Char) : List Char :=
  replaceWith m tmpl.data none input 0

/-- An ASCII letter, a digit or a space. -/
def isPlain (c : Char) : Bool := c.isAlphanum || c == ' '

/-- A pattern that finds nothing away from a line start. -/
def Anchored (m : Matcher) : Prop :=
  ∀ p cs, lineStart p = false → m p cs = none

/-- A pattern that can only start at the character `d`. -/
def StartsWith (m : Matcher) (d : Char) : Prop :=
  (∀ p, m p [] = none) ∧ ∀ p c cs, c ≠ d → m p (c :: cs) = none

/-- The calls of the chain, in source order, on the closed forms of their patterns. -/
def stages (anchor : String) : List (List Char → List Char) :=
  [stage (lineM "### ".data) "<h3>$1</h3>",
   stage (lineM "## ".data) "<h2>$1</h2>",
   stage (lineM "# ".data) "<h1>$1</h1>",
   stage (spanM "**".data) "<strong>$1</strong>",
   stage (spanM "__".data) "<strong>$1</strong>",
   stage (spanM "*".data) "<em>$1</em>",
   stage (spanM "_".data) "<em>$1</em>",
   stage fenceM "<pre><code class=\"language-$1\">$2</code></pre>",
   stage (spanM [Char.ofNat 96]) "<code>$1</code>",
   stage (lineM "* ".data) "<ul><li>$1</li></ul>",
   stage (lineM "- ".data) "<ul><li>$1</li></ul>",
   stage (lineM "+ ".data) "<ul><li>$1</li></ul>",
   stage orderedM "<ol><li>$1</li></ol>",
   stage (bracketM "[".data) anchor,
   stage (bracketM "![".data) "<img src=\"$2\" alt=\"$1\" class=\"max-w-full h-auto\" />",
   stage (lineM "> ".data) "<blockquote>$1</blockquote>",
   stage paragraphM "<p>$1</p>",
   stage (mergeM "ul".data) "",
   stage (mergeM "ol".data) "",
   stage newlineM "<br />"]

/-- Runs a list of calls one after the other. -/
def runStages (fs : List (List Char → List Char)) (input : List Char) : List Char :=
  fs.foldl (fun acc f => f acc) input

/-- A pattern that only matches an input in which the character `d` occurs. -/
def Needs (m : Matcher) (d : Char) : Prop :=
  ∀ p s r caps, m p s = some (r, caps) → d ∈ s

/-- A text on which no call of the chain has anything to do: a single line
that starts with a tag, has none of the characters with which a span, a code
fence or a link starts, and in which the two cleanup rules find nothing. -/
def Settled (s : List Char) : Prop :=
  (∀ c ∈ s, notLT c = true ∧ c ≠ '*' ∧ c ≠ '_' ∧ c ≠ Char.ofNat 96 ∧ c ≠ '[') ∧
  tagAhead s = true ∧
  stage (mergeM "ul".data) "" s = s ∧ stage (mergeM "ol".data) "" s = s

/-- A character that is no line terminator and none of `*`, `_`, the
backtick, `[` and `<`. -/
def inert (c : Char) : Bool :=
  notLT c && c != '*' && c != '_' && c != Char.ofNat 96 && c != '[' && c != '<'

/-- Whether the text `w` occurs in `s` at some position. -/
def occurs (w : List Char) : List Char → Bool
  | [] => (chop w []).isSome
  | c :: cs => (chop w (c :: cs)).isSome || occurs w cs

/-- The string `s` contains the string `sub` (`s.includes(sub)`). -/
def hasSubstring (s sub : String) : Prop :=
  occurs sub.data s.data = true

instance (s sub : String) : Decidable (hasSubstring s sub) :=
  inferInstanceAs (Decidable (occurs sub.data s.data = true))

/-- The lines `ls`, each preceded by a newline. -/
def tailLines : List (List Char) → List Char
  | [] => []
  | l :: ls => '\n' :: (l ++ tailLines ls)

/-- The lines `ls` joined by newlines. -/
def joinLines : List (List Char) → List Char
  | [] => []
  | l :: ls => l ++ tailLines ls

/-- The elements `<li>t</li>` for the texts `ts`, one after the other. -/
def liItems (ts : List (List Char)) : List Char :=
  (ts.map (fun t => "<li>".data ++ (t ++ "</li>".data))).flatten

/-- The single-item list that the list rules make of a line with the text `t`. -/
def ulLine (t : List Char) : List Char :=
  "<ul><li>".data ++ (t ++ "</li></ul>".data)

/-- A pattern whose captures are made of characters of the input. -/
def CapsFrom (m : Matcher) : Prop :=
  ∀ p s r caps, m p s = some (r, caps) → ∀ x ∈ caps, ∀ c ∈ x.2, c ∈ s

/-- A single line that starts with `pre` and ends with `suf`. -/
def Framed (pre suf : List Char) (s : List Char) : Prop :=
  ∃ t, s = pre ++ (t ++ suf) ∧ ∀ c ∈ t, notLT c = true

/-- A text that starts with `mk`, followed by characters with the property `P`. -/
def Marked (mk : List Char) (P : Char → Prop) (s : List Char) : Prop :=
  ∃ t, s = mk ++ t ∧ ∀ c ∈ t, P c

/-- The string `s` starts with the string `p` (`s.startsWith(p)`). -/
def startsWithStr (s p : String) : Bool :=
  (chop p.data s.data).isSome

/-- The string `s` ends with the string `p` (`s.endsWith(p)`). -/
def endsWithStr (s p : String) : Bool :=
  (chop p.data.reverse s.data.reverse).isSome

/-- A line on which an anchored pattern has nothing to do. -/
def QuietLine (m : Matcher) (l : List Char) : Prop :=
  l ≠ [] ∧ (∀ c ∈ l, notLT c = true) ∧ ∀ p r, m p (l ++ r) = none

/-- Whether a pattern has a match somewhere in the input, from the position
after `prev` on (`re.test(input)` for a pattern without state). -/
def hasMatch (m : Matcher) : Option Char → List Char → Bool
  | prev, [] => (m prev []).isSome
  | prev, c :: cs => (m prev (c :: cs)).isSome || hasMatch m (some c) cs

/-- Reads the literal text `ds` off the front of the input as a pattern with
the `i` flag does: characters are compared after `canonicalize`. -/
def chopCI : List Char → List Char → Option (List Char)
  | [], r => some r
  | _ :: _, [] => none
  | d :: ds, c :: cs =>
    if canonicalize true c = canonicalize true d then chopCI ds cs else none

/-- The names in the alternation of `resourceRule`, in source order. -/
def resourceNames : List String :=
  ["Online Courses", "Tutorials", "Books", "YouTube", "Community", "Resources",
    "Free Resources"]

/-- The alternation of `resourceRule` and the `</h2>` after it, in closed form:
the first name that can be read, with `</h2>` after it, is the capture. -/
def resourceTail (r1 : List Char) : List String → Option (List Char × Captures)
  | [] => none
  | n :: ns =>
    match (chopCI n.data r1).bind (chopCI "</h2>".data) with
    | some r3 => some (r3, [(1, r1.take n.length)])
    | none => resourceTail r1 ns

/-- The pattern `resourceRule` in closed form. -/
def resourceM : Matcher := fun _ rest =>
  match chopCI "<h2>".data rest with
  | none => none
  | some r1 => resourceTail r1 resourceNames

/-- Two texts that a pattern with the `i` flag does not tell apart. -/
def sameIgnoringCase (a b : String) : Bool :=
  a.data.map (canonicalize true) == b.data.map (canonicalize true)

/-- The calls of the chain before the link rule, in source order. -/
def beforeLinks (markdown : List Char) : List Char :=
  markdown
    |> replace .gim (lineRule (.str "### ")) "<h3>$1</h3>"
    |> replace .gim (lineRule (.str "## ")) "<h2>$1</h2>"
    |> replace .gim (lineRule (.str "# ")) "<h1>$1</h1>"
    |> replace .gim (spanRule "**") "<strong>$1</strong>"
    |> replace .gim (spanRule "__") "<strong>$1</strong>"
    |> replace .gim (spanRule "*") "<em>$1</em>"
    |> replace .gim (spanRule "_") "<em>$1</em>"
    |> replace .gim fenceRule "<pre><code class=\"language-$1\">$2</code></pre>"
    |> replace .gim (spanRule "`") "<code>$1</code>"
    |> replace .gim (lineRule (.str "* ")) "<ul><li>$1</li></ul>"
    |> replace .gim (lineRule (.str "- ")) "<ul><li>$1</li></ul>"
    |> replace .gim (lineRule (.str "+ ")) "<ul><li>$1</li></ul>"
    |> replace .gim orderedRule "<ol><li>$1</li></ol>"

/-- The calls of the chain after the link rule, in source order. -/
def afterLinks (s : List Char) : List Char :=
  s
    |> replace .gim imageRule "<img src=\"$2\" alt=\"$1\" class=\"max-w-full h-auto\" />"
    |> replace .gim (lineRule (.str "> ")) "<blockquote>$1</blockquote>"
    |> replace .gim paragraphRule "<p>$1</p>"
    |> replace .g (mergeRule "ul") ""
    |> replace .g (mergeRule "ol") ""
    |> replace .g (.atom (.lit '\n')) "<br />"

/-- The texts that follow a `<` in the templates of the chain, up to the
character that ends the tag name (`>` or a space); after `<ul>` and `<ol>` the
templates always write `<li>`. -/
def tagTokens : List (List Char) :=
  ["h1>", "h2>", "h3>", "p>", "strong>", "em>", "pre>", "code>", "code ", "ul><li>", "ol><li>",
   "li>", "a ", "img ", "blockquote>", "br ",
   "/h1>", "/h2>", "/h3>", "/p>", "/strong>", "/em>", "/pre>", "/code>", "/ul>", "/ol>", "/li>",
   "/a>", "/blockquote>"].map String.data

/-- Whether the text after a `<` starts with one of the tag tokens. -/
def okAfter (b : List Char) : Bool :=
  tagTokens.any (fun w => (chop w b).isSome)

/-- Whether every `<` of a text is followed by one of the tag tokens. -/
def wellTagged : List Char → Bool
  | [] => true
  | c :: cs => (c != '<' || okAfter cs) && wellTagged cs

/-- A character that occurs in a tag token. -/
def tokenChar (c : Char) : Bool :=
  tagTokens.any (fun w => w.contains c)

/-- The tag names of the output alphabet. -/
def tagNames : List String :=
  ["h1", "h2", "h3", "p", "strong", "em", "pre", "code", "ul", "ol", "li", "a", "img",
    "blockquote", "br"]

/-- A pattern that finds nothing inside a tag token. -/
def NoStartInToken (m : Matcher) : Prop :=
  ∀ w ∈ tagTokens, ∀ a c b, w = a ++ c :: b → ∀ r,
    m (advance (some '<') a) (c :: (b ++ r)) = none

/-- A template that gives a well tagged text when the captures are well tagged. -/
def TemplateOK (tmpl : String) : Prop :=
  ∀ caps matched, (∀ x ∈ caps, wellTagged x.2 = true) →
    wellTagged (expand caps matched tmpl.data) = true

/-- Whether every `<` of a text is followed by a character other than `l` and
`b` (so the text runs into neither `<li>` nor `<br />`). -/
def sealedText : List Char → Bool
  | [] => true
  | c :: cs => (c != '<' || (cs.head?.isSome && cs.head? != some 'l' && cs.head? != some 'b')) &&
      sealedText cs

/-! ## Characters: lemmas -/

theorem toNat_ofNat_small (n : Nat) (h : n < 0xd800) : (Char.ofNat n).toNat = n := by
  unfold Char.ofNat
  have hv : n.isValidChar := Or.inl h
  simp only [hv, Char.ofNatAux, Char.toNat, dite_true]
  rfl

theorem char_le_iff (a b : Char) : a ≤ b ↔ a.toNat ≤ b.toNat := Iff.rfl

theorem char_eq_of_toNat {a b : Char} (h : a.toNat = b.toNat) : a = b := by
  rw [← Char.ofNat_toNat a, ← Char.ofNat_toNat b, h]

theorem canonicalize_false (c : Char) : canonicalize false c = c := by
  simp [canonicalize]

theorem canonicalize_of_not_letter {d : Char} (ic : Bool) (hd : isAsciiLetter d = false) :
    canonicalize ic d = d := by
  unfold canonicalize
  split
  · rename_i h
    simp only [isAsciiLetter, Bool.or_eq_false_iff, Bool.and_eq_false_iff] at hd
    simp only [Bool.and_eq_true] at h
    have := hd.1
    simp_all
  · rfl

theorem canonicalize_eq_lit {d : Char} (ic : Bool) (hd : isAsciiLetter d = false) (x : Char) :
    (canonicalize ic x == canonicalize ic d) = (x == d) := by
  rw [canonicalize_of_not_letter ic hd]
  unfold canonicalize
  split
  · rename_i h
    simp only [Bool.and_eq_true, decide_eq_true_eq, char_le_iff] at h
    have h1 : 97 ≤ x.toNat := h.2.1
    have h2 : x.toNat ≤ 122 := h.2.2
    have hx : (Char.ofNat (x.toNat - 32)).toNat = x.toNat - 32 := toNat_ofNat_small _ (by omega)
    have hxd : x ≠ d := by
      rintro rfl
      simp only [isAsciiLetter, Bool.or_eq_false_iff, Bool.and_eq_false_iff, decide_eq_false_iff_not,
        char_le_iff] at hd
      have := hd.1
      have e1 : 'a'.toNat = 97 := rfl
      have e2 : 'z'.toNat = 122 := rfl
      omega
    have hcd : Char.ofNat (x.toNat - 32) ≠ d := by
      intro e
      rw [← e] at hd
      simp only [isAsciiLetter, Bool.or_eq_false_iff, Bool.and_eq_false_iff, decide_eq_false_iff_not,
        char_le_iff, hx] at hd
      have := hd.2
      have e1 : 'A'.toNat = 65 := rfl
      have e2 : 'Z'.toNat = 90 := rfl
      omega
    simp [hxd, hcd]
  · rfl

theorem test_lit {f : Flags} {d : Char} (h : LitOK f [d]) (x : Char) :
    Atom.test f (.lit d) x = (x == d) := by
  show (canonicalize f.ignoreCase x == canonicalize f.ignoreCase d) = (x == d)
  rcases h with h | h
  · rw [h, canonicalize_false, canonicalize_false]
  · exact canonicalize_eq_lit _ (h d (by simp)) x

theorem test_notLit {f : Flags} {d : Char} (h : LitOK f [d]) (x : Char) :
    Atom.test f (.notLit d) x = !(x == d) := by
  show (!(canonicalize f.ignoreCase x == canonicalize f.ignoreCase d)) = !(x == d)
  rcases h with h | h
  · rw [h, canonicalize_false, canonicalize_false]
  · rw [canonicalize_eq_lit _ (h d (by simp)) x]

theorem litOK_cons {f : Flags} {d : Char} {ds : List Char} (h : LitOK f (d :: ds)) :
    LitOK f [d] ∧ LitOK f ds := by
  rcases h with h | h
  · exact ⟨Or.inl h, Or.inl h⟩
  · exact ⟨Or.inr (fun x hx => h x (by simp_all)), Or.inr (fun x hx => h x (by simp_all))⟩

/-! ## Positions and literal text: lemmas -/

@[simp] theorem advance_nil (prev : Option Char) : advance prev [] = prev := rfl

@[simp] theorem advance_cons (prev : Option Char) (c : Char) (cs : List Char) :
    advance prev (c :: cs) = advance (some c) cs := rfl

theorem advance_append (prev : Option Char) (a b : List Char) :
    advance prev (a ++ b) = advance (advance prev a) b := by
  simp [advance, List.foldl_append]

theorem advance_concat (prev : Option Char) (a : List Char) (c : Char) :
    advance prev (a ++ [c]) = some c := by
  simp [advance, List.foldl_append]

@[simp] theorem chop_nil (r : List Char) : chop [] r = some r := by
  cases r <;> rfl

theorem chop_eq_some {ds r r1 : List Char} : chop ds r = some r1 ↔ r = ds ++ r1 := by
  induction ds generalizing r with
  | nil => simp [eq_comm]
  | cons d ds ih =>
    cases r with
    | nil => simp [chop]
    | cons c cs =>
      simp only [chop, List.cons_append, List.cons.injEq]
      split
      · rename_i h
        simp [ih, h]
      · rename_i h
        simp [h]

theorem chop_append (ds r : List Char) : chop ds (ds ++ r) = some r :=
  chop_eq_some.mpr rfl

theorem chop_cons_ne {d c : Char} (h : c ≠ d) (ds cs : List Char) :
    chop (d :: ds) (c :: cs) = none := by
  simp [chop, h]

/-! ## The matcher on literal text and on quantifiers -/

/-- A literal text in a pattern reads exactly that text off the input. -/
theorem run_lits {f : Flags} (ds : List Char) (h : LitOK f ds) (prev : Option Char)
    (rest : List Char) (caps : Captures) (k : Cont) :
    (ds.foldr (fun c r => Regex.seq (.atom (.lit c)) r) .empty).run f ⟨prev, rest, caps⟩ k =
      match chop ds rest with
      | some r => k ⟨advance prev ds, r, caps⟩
      | none => none := by
  induction ds generalizing prev rest with
  | nil => simp [Regex.run]
  | cons d ds ih =>
    have h2 := litOK_cons h
    cases rest with
    | nil => simp [Regex.run, chop]
    | cons c cs =>
      simp only [List.foldr_cons, Regex.run, test_lit h2.1, chop, advance_cons]
      by_cases hcd : c = d
      · simp [hcd, ih h2.2]
      · simp [hcd]

theorem run_str {f : Flags} (s : String) (h : LitOK f s.data) (prev : Option Char)
    (rest : List Char) (caps : Captures) (k : Cont) :
    (Regex.str s).run f ⟨prev, rest, caps⟩ k =
      match chop s.data rest with
      | some r => k ⟨advance prev s.data, r, caps⟩
      | none => none :=
  run_lits s.data h prev rest caps k

/-- A greedy quantifier whose continuation refuses every character that the
quantifier accepts takes the longest run and never gives anything back. -/
theorem starGreedy_det (p : Char → Bool) (k : Cont) (caps : Captures)
    (hk : ∀ prev c cs, p c = true → k ⟨prev, c :: cs, caps⟩ = none)
    (prev : Option Char) (r : List Char) :
    starGreedy p k caps prev r =
      k ⟨advance prev (r.takeWhile p), r.dropWhile p, caps⟩ := by
  induction r generalizing prev with
  | nil => simp [starGreedy]
  | cons c cs ih =>
    by_cases hc : p c = true
    · simp only [starGreedy, hc, if_true, List.takeWhile_cons_of_pos, List.dropWhile_cons_of_pos,
        advance_cons, ih]
      cases hres : k ⟨advance (some c) (cs.takeWhile p), cs.dropWhile p, caps⟩ with
      | some r => rfl
      | none => simp [hk prev c cs hc]
    · simp [starGreedy, hc]

theorem take_length_sub_dropWhile (p : Char → Bool) (r : List Char) :
    r.take (r.length - (r.dropWhile p).length) = r.takeWhile p := by
  have h := List.takeWhile_append_dropWhile p r
  have hl : r.length = (r.takeWhile p).length + (r.dropWhile p).length := by
    rw [← List.length_append, h]
  rw [hl, Nat.add_sub_cancel]
  have h2 := @List.take_left _ (r.takeWhile p) (r.dropWhile p)
  rwa [h] at h2

/-! ## Closed forms: proofs -/

theorem test_dot (f : Flags) : Atom.test f .dot = notLT := rfl

theorem test_any (f : Flags) : Atom.test f .any = fun _ => true := rfl

theorem test_digit (f : Flags) : Atom.test f .digit = isDigit := rfl

theorem test_space (f : Flags) : Atom.test f .space = isWhiteSpace := rfl

theorem dropWhile_head_not (p : Char → Bool) (r : List Char) :
    r.dropWhile p = [] ∨ ∃ c cs, r.dropWhile p = c :: cs ∧ p c = false := by
  induction r with
  | nil => simp
  | cons c cs ih =>
    by_cases hc : p c = true
    · simpa [hc] using ih
    · right; exact ⟨c, cs, by simp [hc], by simpa using hc⟩

/-- The tail `(.*$)` of a line rule captures the rest of the line. -/
theorem run_captureLine (i : Nat) (prev : Option Char) (r : List Char) (caps : Captures)
    (k : Cont) :
    (Regex.group i (Regex.cat [.star .dot, .eol])).run .gim ⟨prev, r, caps⟩ k =
      k ⟨advance prev (r.takeWhile notLT), r.dropWhile notLT, (i, r.takeWhile notLT) :: caps⟩ := by
  simp only [Regex.cat, List.foldr_cons, List.foldr_nil, Regex.run, test_dot]
  rw [starGreedy_det]
  · have ht := take_length_sub_dropWhile notLT r
    rcases dropWhile_head_not notLT r with h | ⟨c, cs, h, hc⟩
    · simp only [h] at ht ⊢
      simp only [ht]
    · have hc2 : isLineTerminator c = true := by simpa [notLT] using hc
      simp only [h] at ht ⊢
      simp only [Flags.gim, hc2, Bool.and_self, if_true, ht]
  · intro p c cs hc
    have hc2 : isLineTerminator c = false := by simpa [notLT] using hc
    simp [Flags.gim, hc2]

theorem run_seq (f : Flags) (a b : Regex) (s : MatchState) (k : Cont) :
    (Regex.seq a b).run f s k = a.run f s (fun s1 => b.run f s1 k) := rfl

theorem run_empty (f : Flags) (s : MatchState) (k : Cont) : Regex.empty.run f s k = k s := rfl

theorem run_bol_gim (prev : Option Char) (rest : List Char) (caps : Captures) (k : Cont) :
    Regex.bol.run .gim ⟨prev, rest, caps⟩ k =
      if lineStart prev then k ⟨prev, rest, caps⟩ else none := by
  cases prev with
  | none => simp [Regex.run, lineStart]
  | some c => simp [Regex.run, lineStart, Flags.gim]

theorem matchAt_lineRule (mk : String) (h : LitOK .gim mk.data) :
    matchAt .gim (lineRule (.str mk)) = lineM mk.data := by
  funext prev rest
  have e : lineRule (.str mk) =
      .seq .bol (.seq (.str mk) (.seq (.group 1 (Regex.cat [.star .dot, .eol])) .empty)) := rfl
  rw [e]
  simp only [matchAt, run_seq, run_bol_gim, run_str mk h, run_captureLine, run_empty, lineM]
  by_cases hl : lineStart prev = true
  · simp only [hl, if_true]
    cases chop mk.data rest <;> rfl
  · simp [hl]

theorem lazyFind_map {α β : Type} (p : Char → Bool)
    (g : List Char → Option Char → List Char → Option α) (h : α → β)
    (acc : List Char) (prev : Option Char) (r : List Char) :
    (lazyFind p g acc prev r).map h = lazyFind p (fun a b c => (g a b c).map h) acc prev r := by
  induction r generalizing acc prev with
  | nil => simp [lazyFind]
  | cons c cs ih =>
    simp only [lazyFind]
    cases hg : g acc prev (c :: cs) with
    | some x => simp
    | none =>
      by_cases hc : p c = true
      · simp [hc, ih]
      · simp [hc]

/-- A captured lazy quantifier in closed form. -/
theorem starLazy_group (p : Char → Bool) (k : Cont) (i : Nat) (caps : Captures)
    (acc : List Char) (prev : Option Char) (cur : List Char) :
    starLazy p (fun s1 => k ⟨s1.prev, s1.rest,
        (i, (acc ++ cur).take ((acc ++ cur).length - s1.rest.length)) :: s1.caps⟩) caps prev cur =
      lazyFind p (fun m q r => k ⟨q, r, (i, m) :: caps⟩) acc prev cur := by
  induction cur generalizing acc prev with
  | nil => simp [starLazy, lazyFind]
  | cons c cs ih =>
    simp only [starLazy, lazyFind]
    have e1 : (acc ++ c :: cs).take ((acc ++ c :: cs).length - (c :: cs).length) = acc := by
      rw [List.length_append, Nat.add_sub_cancel, List.take_left]
    rw [e1]
    cases hk : k ⟨prev, c :: cs, (i, acc) :: caps⟩ with
    | some x => rfl
    | none =>
      by_cases hc : p c = true
      · simp only [hc, if_true]
        have e2 : acc ++ c :: cs = (acc ++ [c]) ++ cs := by simp
        rw [e2]
        exact ih (acc ++ [c]) (some c)
      · simp [hc]

theorem run_group_lazy (f : Flags) (i : Nat) (a : Atom) (prev : Option Char) (r : List Char)
    (caps : Captures) (k : Cont) :
    (Regex.group i (.lazyStar a)).run f ⟨prev, r, caps⟩ k =
      lazyFind (a.test f) (fun m q r1 => k ⟨q, r1, (i, m) :: caps⟩) [] prev r := by
  have h := starLazy_group (a.test f) k i caps [] prev r
  simpa [Regex.run] using h

theorem matchAt_spanRule (d : String) (h : LitOK .gim d.data) :
    matchAt .gim (spanRule d) = spanM d.data := by
  funext prev rest
  have e : spanRule d =
      .seq (.str d) (.seq (.group 1 (.lazyStar .dot)) (.seq (.str d) .empty)) := rfl
  rw [e]
  simp only [matchAt, run_seq, run_str d h, run_group_lazy, run_empty, spanM, test_dot]
  cases hc : chop d.data rest with
  | none => rfl
  | some r =>
    simp only [lazyFind_map]
    congr 1
    funext m q r1
    cases chop d.data r1 <;> rfl

theorem run_atom (f : Flags) (a : Atom) (prev : Option Char) (rest : List Char)
    (caps : Captures) (k : Cont) :
    (Regex.atom a).run f ⟨prev, rest, caps⟩ k =
      match rest with
      | [] => none
      | c :: cs => if a.test f c then k ⟨some c, cs, caps⟩ else none := rfl

theorem matchAt_fenceRule : matchAt .gim fenceRule = fenceM := by
  funext prev rest
  have e : fenceRule =
      .seq (.str "```") (.seq (.group 1 (.lazyStar .dot)) (.seq (.atom (.lit '\n'))
        (.seq (.group 2 (.lazyStar .any)) (.seq (.str "```") .empty)))) := rfl
  have h : LitOK .gim "```".data := Or.inr (by decide)
  have hn : LitOK .gim ['\n'] := Or.inr (by decide)
  rw [e]
  simp only [matchAt, run_seq, run_str _ h, run_group_lazy, run_empty, fenceM, test_dot,
    test_any, run_atom, test_lit hn]
  cases hc : chop "```".data rest with
  | none => rfl
  | some r =>
    simp only [lazyFind_map]
    congr 1
    funext m q r1
    cases r1 with
    | nil => rfl
    | cons c r2 =>
      by_cases hcn : c = '\n'
      · simp only [hcn, beq_self_eq_true, if_true, lazyFind_map]
        congr 1
        funext m2 q2 r3
        cases chop "```".data r3 <;> rfl
      · simp [hcn]

/-- A captured greedy `+` whose continuation refuses every character that the
quantifier accepts. -/
theorem run_group_plus_det (f : Flags) (i : Nat) (a : Atom) (k : Cont)
    (hk : ∀ prev c cs caps, a.test f c = true → k ⟨prev, c :: cs, caps⟩ = none)
    (prev : Option Char) (r : List Char) (caps : Captures) :
    (Regex.group i (.plus a)).run f ⟨prev, r, caps⟩ k =
      if r.takeWhile (a.test f) = [] then none
      else k ⟨advance prev (r.takeWhile (a.test f)), r.dropWhile (a.test f),
        (i, r.takeWhile (a.test f)) :: caps⟩ := by
  cases r with
  | nil => simp [Regex.run]
  | cons c cs =>
    by_cases hc : a.test f c = true
    · simp only [Regex.run, hc, if_true]
      rw [starGreedy_det]
      · have ht := take_length_sub_dropWhile (a.test f) (c :: cs)
        simp only [List.takeWhile_cons_of_pos hc, List.dropWhile_cons_of_pos hc,
          List.length_cons] at ht
        simp [hc, ht]
      · intro p c1 cs1 hc1
        exact hk _ _ _ _ hc1
    · simp [Regex.run, hc]

theorem run_plus_det (f : Flags) (a : Atom) (k : Cont)
    (hk : ∀ prev c cs caps, a.test f c = true → k ⟨prev, c :: cs, caps⟩ = none)
    (prev : Option Char) (r : List Char) (caps : Captures) :
    (Regex.plus a).run f ⟨prev, r, caps⟩ k =
      match r with
      | [] => none
      | c :: cs =>
        if a.test f c then
          k ⟨advance (some c) (cs.takeWhile (a.test f)), cs.dropWhile (a.test f), caps⟩
        else none := by
  cases r with
  | nil => simp [Regex.run]
  | cons c cs =>
    by_cases hc : a.test f c = true
    · simp only [Regex.run, hc, if_true]
      rw [starGreedy_det]
      intro p c1 cs1 hc1
      exact hk _ _ _ _ hc1
    · simp [Regex.run, hc]

theorem matchAt_orderedRule : matchAt .gim orderedRule = orderedM := by
  funext prev rest
  have e : orderedRule =
      .seq .bol (.seq (.plus .digit) (.seq (.str ". ")
        (.seq (.group 1 (Regex.cat [.star .dot, .eol])) .empty))) := rfl
  have h : LitOK .gim ". ".data := Or.inr (by decide)
  rw [e]
  simp only [matchAt, run_seq, run_bol_gim, orderedM]
  by_cases hl : lineStart prev = true
  · simp only [hl, if_true]
    rw [run_plus_det]
    · cases rest with
      | nil => rfl
      | cons c cs =>
        simp only [test_digit, run_str _ h, run_captureLine, run_empty]
        by_cases hd : isDigit c = true
        · simp only [hd, if_true]
          cases chop ['.', ' '] (cs.dropWhile isDigit) <;> rfl
        · simp [hd]
    · intro p c cs caps hc
      rw [run_str _ h]
      have hne : c ≠ '.' := by
        rintro rfl
        exact absurd hc (by decide)
      have e2 : chop ". ".data (c :: cs) = none := chop_cons_ne hne _ _
      rw [e2]
  · simp [hl]

/-- The part `([^)]+)\)` of the link and image rules. -/
theorem run_urlPart (prev : Option Char) (r : List Char) (caps : Captures) :
    (Regex.seq (.group 2 (.plus (.notLit ')'))) (.seq (.str ")") .empty)).run .gim
        ⟨prev, r, caps⟩ some =
      if r.takeWhile (fun c => !(c == ')')) = [] then none
      else
        match chop [')'] (r.dropWhile (fun c => !(c == ')'))) with
        | some r2 =>
          some ⟨advance (advance prev (r.takeWhile (fun c => !(c == ')')))) [')'], r2,
            (2, r.takeWhile (fun c => !(c == ')'))) :: caps⟩
        | none => none := by
  have h : LitOK .gim ")".data := Or.inr (by decide)
  have ht : Atom.test .gim (.notLit ')') = fun c => !(c == ')') := by
    funext x
    exact test_notLit (Or.inr (by decide)) x
  rw [run_seq, run_group_plus_det]
  · simp only [ht, run_seq, run_str _ h, run_empty]
  · intro p c cs caps1 hc
    rw [ht] at hc
    have hne : c ≠ ')' := by simpa using hc
    rw [run_seq, run_str _ h]
    have e2 : chop ")".data (c :: cs) = none := chop_cons_ne hne _ _
    rw [e2]

/-- The part `([^\]]+)\]\(([^)]+)\)` of the link and image rules. -/
theorem run_labelPart (prev : Option Char) (r : List Char) (caps : Captures) :
    (Regex.seq (.group 1 (.plus (.notLit ']'))) (.seq (.str "](")
        (.seq (.group 2 (.plus (.notLit ')'))) (.seq (.str ")") .empty)))).run .gim
        ⟨prev, r, caps⟩ some =
      if r.takeWhile (fun c => !(c == ']')) = [] then none
      else
        match chop [']', '('] (r.dropWhile (fun c => !(c == ']'))) with
        | some r1 =>
          (Regex.seq (.group 2 (.plus (.notLit ')'))) (.seq (.str ")") .empty)).run .gim
            ⟨advance (advance prev (r.takeWhile (fun c => !(c == ']')))) [']', '('], r1,
              (1, r.takeWhile (fun c => !(c == ']'))) :: caps⟩ some
        | none => none := by
  have h : LitOK .gim "](".data := Or.inr (by decide)
  have ht : Atom.test .gim (.notLit ']') = fun c => !(c == ']') := by
    funext x
    exact test_notLit (Or.inr (by decide)) x
  rw [run_seq, run_group_plus_det]
  · simp only [ht, run_seq, run_str _ h]
  · intro p c cs caps1 hc
    rw [ht] at hc
    have hne : c ≠ ']' := by simpa using hc
    rw [run_seq, run_str _ h]
    have e2 : chop "](".data (c :: cs) = none := chop_cons_ne hne _ _
    rw [e2]

theorem matchAt_bracket (opener : String) (h : LitOK .gim opener.data) :
    matchAt .gim (Regex.cat [.str opener, .group 1 (.plus (.notLit ']')), .str "](",
      .group 2 (.plus (.notLit ')')), .str ")"]) = bracketM opener.data := by
  funext prev rest
  have e : Regex.cat [.str opener, .group 1 (.plus (.notLit ']')), .str "](",
      .group 2 (.plus (.notLit ')')), .str ")"] =
      .seq (.str opener) (.seq (.group 1 (.plus (.notLit ']'))) (.seq (.str "](")
        (.seq (.group 2 (.plus (.notLit ')'))) (.seq (.str ")") .empty)))) := rfl
  rw [e]
  simp only [matchAt, run_seq (a := .str opener), run_str _ h, bracketM]
  cases hc : chop opener.data rest with
  | none => rfl
  | some r =>
    simp only [run_labelPart]
    by_cases h1 : r.takeWhile (fun c => !(c == ']')) = []
    · simp [h1]
    · simp only [h1, if_false]
      cases hc1 : chop [']', '('] (r.dropWhile (fun c => !(c == ']'))) with
      | none => rfl
      | some r1 =>
        simp only [run_urlPart]
        by_cases h2 : r1.takeWhile (fun c => !(c == ')')) = []
        · simp [h2]
        · simp only [h2, if_false]
          cases chop [')'] (r1.dropWhile (fun c => !(c == ')'))) <;> rfl

theorem matchAt_linkRule : matchAt .gim linkRule = bracketM ['['] :=
  matchAt_bracket "[" (Or.inr (by decide))

theorem matchAt_imageRule : matchAt .gim imageRule = bracketM ['!', '['] :=
  matchAt_bracket "![" (Or.inr (by decide))

theorem test_range_az (x : Char) : Atom.test .gim (.range 'a' 'z') x = isAsciiLetter x := by
  show (('a' ≤ x && x ≤ 'z') ||
    (canonicalize true 'a' ≤ canonicalize true x && canonicalize true x ≤ canonicalize true 'z'))
      = isAsciiLetter x
  have ea : canonicalize true 'a' = 'A' := by decide
  have ez : canonicalize true 'z' = 'Z' := by decide
  rw [ea, ez]
  unfold isAsciiLetter canonicalize
  by_cases h : ('a' ≤ x && x ≤ 'z') = true
  · simp [h]
  · have h2 : ('a' ≤ x && x ≤ 'z') = false := by simpa using h
    simp [h2]

theorem run_star (f : Flags) (a : Atom) (prev : Option Char) (rest : List Char)
    (caps : Captures) (k : Cont) :
    (Regex.star a).run f ⟨prev, rest, caps⟩ k = starGreedy (a.test f) k caps prev rest := rfl

theorem run_notAhead (f : Flags) (r : Regex) (s : MatchState) (k : Cont) :
    (Regex.notAhead r).run f s k =
      match r.run f s some with
      | some _ => none
      | none => k s := rfl

theorem run_tagAhead (prev : Option Char) (rest : List Char) (caps : Captures) :
    ((Regex.seq (.str "<") (.seq (.atom (.range 'a' 'z')) .empty)).run .gim
      ⟨prev, rest, caps⟩ some).isSome = tagAhead rest := by
  have h : LitOK .gim "<".data := Or.inr (by decide)
  rw [run_seq, run_str _ h]
  cases rest with
  | nil => rfl
  | cons c cs =>
    by_cases hc : c = '<'
    · subst hc
      have e : chop "<".data ('<' :: cs) = some cs := chop_append ['<'] cs
      rw [e]
      cases cs with
      | nil => rfl
      | cons d ds =>
        simp only [run_seq, run_atom, test_range_az, run_empty, tagAhead]
        cases isAsciiLetter d <;> simp
    · have e : chop "<".data (c :: cs) = none := chop_cons_ne hc _ _
      rw [e]
      cases cs with
      | nil => rfl
      | cons d ds => simp [tagAhead, hc]

theorem matchAt_paragraphRule : matchAt .gim paragraphRule = paragraphM := by
  funext prev rest
  have e : paragraphRule =
      .seq .bol (.seq (.notAhead (.seq (.str "<") (.seq (.atom (.range 'a' 'z')) .empty)))
        (.seq (.group 1 (Regex.cat [.star .dot, .eol])) .empty)) := rfl
  rw [e]
  simp only [matchAt, run_seq, run_bol_gim, run_notAhead, run_captureLine, run_empty, paragraphM]
  have ht := run_tagAhead prev rest []
  simp only [run_seq, run_empty] at ht
  by_cases hl : lineStart prev = true
  · simp only [hl, if_true, Bool.true_and]
    cases hr : Regex.run Flags.gim (Regex.str "<") ⟨prev, rest, []⟩
        (fun s1 => Regex.run Flags.gim (Regex.atom (Atom.range 'a' 'z')) s1
          (fun s1 => some s1)) with
    | some x =>
      rw [hr] at ht
      simp [← ht]
    | none =>
      rw [hr] at ht
      simp [← ht]
  · simp [hl]

theorem matchAt_mergeRule (tag : String) :
    matchAt .g (mergeRule tag) = mergeM tag.data := by
  funext prev rest
  have e : mergeRule tag =
      .seq (.str ("</" ++ tag ++ ">")) (.seq (.star .space)
        (.seq (.str ("<" ++ tag ++ ">")) .empty)) := rfl
  have h1 : LitOK .g ("</" ++ tag ++ ">").data := Or.inl rfl
  have h2 : LitOK .g ("<" ++ tag ++ ">").data := Or.inl rfl
  have d1 : ("</" ++ tag ++ ">").data = '<' :: '/' :: (tag.data ++ ['>']) := by simp
  have d2 : ("<" ++ tag ++ ">").data = '<' :: (tag.data ++ ['>']) := by simp
  rw [e]
  simp only [matchAt, run_seq, run_str _ h1, run_str _ h2, run_empty, run_star, test_space,
    mergeM, d1, d2]
  cases hc : chop ('<' :: '/' :: (tag.data ++ ['>'])) rest with
  | none => rfl
  | some r =>
    simp only []
    rw [starGreedy_det]
    · cases chop ('<' :: (tag.data ++ ['>'])) (r.dropWhile isWhiteSpace) <;> rfl
    · intro p c cs hc
      have hne : c ≠ '<' := by
        rintro rfl
        exact absurd hc (by decide)
      simp only [chop_cons_ne hne]

theorem matchAt_newline : matchAt .g (.atom (.lit '\n')) = newlineM := by
  funext prev rest
  have hn : LitOK .g ['\n'] := Or.inl rfl
  simp only [matchAt, run_atom, test_lit hn, newlineM]
  cases rest with
  | nil => rfl
  | cons c cs =>
    by_cases hc : c = '\n'
    · simp [hc]
    · simp [hc]

/-! ## The replacement loop: lemmas -/

theorem replaceWith_nil (m : Matcher) (tmpl : List Char) (prev : Option Char) :
    replaceWith m tmpl prev [] 0 =
      match m prev [] with
      | none => []
      | some (_, caps) => expand caps [] tmpl := rfl

theorem replaceWith_skip (m : Matcher) (tmpl : List Char) (a r : List Char) (prev : Option Char) :
    replaceWith m tmpl prev (a ++ r) a.length = replaceWith m tmpl (advance prev a) r 0 := by
  induction a generalizing prev with
  | nil => rfl
  | cons c cs ih => simpa [replaceWith] using ih (some c)

theorem replaceWith_cons_none {m : Matcher} {prev : Option Char} {c : Char} {cs : List Char}
    (h : m prev (c :: cs) = none) (tmpl : List Char) :
    replaceWith m tmpl prev (c :: cs) 0 = c :: replaceWith m tmpl (some c) cs 0 := by
  simp [replaceWith, h]

theorem replaceWith_cons_some {m : Matcher} {prev : Option Char} {c : Char} {cs rest : List Char}
    {caps : Captures} (h : m prev (c :: cs) = some (rest, caps)) (tmpl : List Char) :
    replaceWith m tmpl prev (c :: cs) 0 =
      expand caps ((c :: cs).take ((c :: cs).length - rest.length)) tmpl ++
        (if (c :: cs).length - rest.length = 0 then c :: replaceWith m tmpl (some c) cs 0
         else replaceWith m tmpl (some c) cs ((c :: cs).length - rest.length - 1)) := by
  simp [replaceWith, h]

/-- A non-empty match is replaced by the expanded template and the loop
resumes after it. -/
theorem replaceWith_match {m : Matcher} {prev : Option Char} {a r : List Char} {caps : Captures}
    (h : m prev (a ++ r) = some (r, caps)) (ha : a ≠ []) (tmpl : List Char) :
    replaceWith m tmpl prev (a ++ r) 0 =
      expand caps a tmpl ++ replaceWith m tmpl (advance prev a) r 0 := by
  cases a with
  | nil => exact absurd rfl ha
  | cons c cs =>
    have hlen : (c :: (cs ++ r)).length - r.length = cs.length + 1 := by
      simp only [List.length_cons, List.length_append]
      omega
    have h2 : m prev (c :: (cs ++ r)) = some (r, caps) := h
    rw [List.cons_append, replaceWith_cons_some h2, hlen, if_neg (by omega), Nat.add_sub_cancel,
      replaceWith_skip, advance_cons]
    have e : (c :: (cs ++ r)).take (cs.length + 1) = c :: cs := by
      rw [List.take_succ_cons, List.take_left]
    rw [e]

/-- An empty match inserts the expanded template; the next character is copied. -/
theorem replaceWith_match_empty {m : Matcher} {prev : Option Char} {c : Char} {cs : List Char}
    {caps : Captures} (h : m prev (c :: cs) = some (c :: cs, caps)) (tmpl : List Char) :
    replaceWith m tmpl prev (c :: cs) 0 =
      expand caps [] tmpl ++ c :: replaceWith m tmpl (some c) cs 0 := by
  simp [replaceWith, h]

/-- The loop copies a stretch of input in which no match starts. -/
theorem replaceWith_pass {m : Matcher} (tmpl : List Char) (t r : List Char) (prev : Option Char)
    (h : ∀ a c b, t = a ++ c :: b → m (advance prev a) (c :: (b ++ r)) = none) :
    replaceWith m tmpl prev (t ++ r) 0 = t ++ replaceWith m tmpl (advance prev t) r 0 := by
  induction t generalizing prev with
  | nil => rfl
  | cons c cs ih =>
    have h0 : m prev (c :: (cs ++ r)) = none := h [] c cs rfl
    rw [List.cons_append, replaceWith_cons_none h0, advance_cons, List.cons_append]
    congr 1
    apply ih
    intro a d b hab
    have := h (c :: a) d b (by rw [hab]; rfl)
    simpa using this

/-- A stretch without any character at which the pattern can start is copied. -/
theorem replaceWith_pass_head {m : Matcher} {t : List Char}
    (h : ∀ c ∈ t, ∀ p cs, m p (c :: cs) = none) (tmpl : List Char) (r : List Char)
    (prev : Option Char) :
    replaceWith m tmpl prev (t ++ r) 0 = t ++ replaceWith m tmpl (advance prev t) r 0 := by
  apply replaceWith_pass
  intro a c b hab
  exact h c (by rw [hab]; simp) _ _

theorem lineStart_advance {prev : Option Char} {t : List Char}
    (hp : lineStart prev = false) (ht : ∀ c ∈ t, notLT c = true) :
    lineStart (advance prev t) = false := by
  induction t generalizing prev with
  | nil => exact hp
  | cons c cs ih =>
    rw [advance_cons]
    apply ih
    · have := ht c (by simp)
      simpa [lineStart, notLT] using this
    · intro d hd
      exact ht d (by simp [hd])

/-- A pattern that starts with `^` finds nothing inside a line. -/
theorem replaceWith_pass_anchored {m : Matcher} {t : List Char} {prev : Option Char}
    (h : ∀ p cs, lineStart p = false → m p cs = none)
    (hp : lineStart prev = false) (ht : ∀ c ∈ t, notLT c = true) (tmpl : List Char)
    (r : List Char) :
    replaceWith m tmpl prev (t ++ r) 0 = t ++ replaceWith m tmpl (advance prev t) r 0 := by
  apply replaceWith_pass
  intro a c b hab
  apply h
  apply lineStart_advance hp
  intro d hd
  exact ht d (by rw [hab]; simp [hd])

/-! ## The chain in closed form -/

/-- One call of the chain, on the closed form of its pattern. -/
theorem transform_eq (anchor : String) (md : List Char) :
    transform anchor md =
      (md
        |> stage (lineM "### ".data) "<h3>$1</h3>"
        |> stage (lineM "## ".data) "<h2>$1</h2>"
        |> stage (lineM "# ".data) "<h1>$1</h1>"
        |> stage (spanM "**".data) "<strong>$1</strong>"
        |> stage (spanM "__".data) "<strong>$1</strong>"
        |> stage (spanM "*".data) "<em>$1</em>"
        |> stage (spanM "_".data) "<em>$1</em>"
        |> stage fenceM "<pre><code class=\"language-$1\">$2</code></pre>"
        |> stage (spanM "`".data) "<code>$1</code>"
        |> stage (lineM "* ".data) "<ul><li>$1</li></ul>"
        |> stage (lineM "- ".data) "<ul><li>$1</li></ul>"
        |> stage (lineM "+ ".data) "<ul><li>$1</li></ul>"
        |> stage orderedM "<ol><li>$1</li></ol>"
        |> stage (bracketM "[".data) anchor
        |> stage (bracketM "![".data) "<img src=\"$2\" alt=\"$1\" class=\"max-w-full h-auto\" />"
        |> stage (lineM "> ".data) "<blockquote>$1</blockquote>"
        |> stage paragraphM "<p>$1</p>"
        |> stage (mergeM "ul".data) ""
        |> stage (mergeM "ol".data) ""
        |> stage newlineM "<br />") := by
  unfold transform replace stage
  rw [matchAt_lineRule "### " (Or.inr (by decide)), matchAt_lineRule "## " (Or.inr (by decide)),
    matchAt_lineRule "# " (Or.inr (by decide)), matchAt_lineRule "* " (Or.inr (by decide)),
    matchAt_lineRule "- " (Or.inr (by decide)), matchAt_lineRule "+ " (Or.inr (by decide)),
    matchAt_lineRule "> " (Or.inr (by decide)),
    matchAt_spanRule "**" (Or.inr (by decide)), matchAt_spanRule "__" (Or.inr (by decide)),
    matchAt_spanRule "*" (Or.inr (by decide)), matchAt_spanRule "_" (Or.inr (by decide)),
    matchAt_spanRule "`" (Or.inr (by decide)),
    matchAt_fenceRule, matchAt_orderedRule, matchAt_linkRule, matchAt_imageRule,
    matchAt_paragraphRule, matchAt_mergeRule, matchAt_mergeRule, matchAt_newline]

/-! ## Where each pattern can start -/

theorem lineM_anchored (mk : List Char) : Anchored (lineM mk) := by
  intro p cs h
  simp [lineM, h]

theorem orderedM_anchored : Anchored orderedM := by
  intro p cs h
  simp [orderedM, h]

theorem paragraphM_anchored : Anchored paragraphM := by
  intro p cs h
  simp [paragraphM, h]

theorem lineM_none_of_chop {mk : List Char} {p : Option Char} {cs : List Char}
    (h : chop mk cs = none) : lineM mk p cs = none := by
  simp [lineM, h]

theorem lazyFind_nil_startsWith (p : Char → Bool) (d : Char) (ds : List Char)
    (acc : List Char) (prev : Option Char) (f : List Char → List Char → List Char × Captures) :
    lazyFind p (fun m _ r1 => (chop (d :: ds) r1).map (f m)) acc prev [] = none := by
  simp [lazyFind, chop]

theorem spanM_startsWith (d : Char) (ds : List Char) : StartsWith (spanM (d :: ds)) d := by
  constructor
  · intro p
    simp [spanM, chop]
  · intro p c cs h
    simp [spanM, chop_cons_ne h]

theorem fenceM_startsWith : StartsWith fenceM (Char.ofNat 96) := by
  constructor
  · intro p
    rfl
  · intro p c cs h
    have e : chop "```".data (c :: cs) = none := chop_cons_ne h _ _
    simp only [fenceM, e]

theorem bracketM_startsWith (d : Char) (ds : List Char) : StartsWith (bracketM (d :: ds)) d := by
  constructor
  · intro p
    simp [bracketM, chop]
  · intro p c cs h
    simp [bracketM, chop_cons_ne h]

theorem mergeM_startsWith (tag : List Char) : StartsWith (mergeM tag) '<' := by
  constructor
  · intro p
    simp [mergeM, chop]
  · intro p c cs h
    simp [mergeM, chop_cons_ne h]

theorem newlineM_startsWith : StartsWith newlineM '\n' := by
  constructor
  · intro p
    rfl
  · intro p c cs h
    simp [newlineM, h]

/-! ## Calls that change nothing -/

/-- A call whose pattern needs a character that the input does not have
returns the input. -/
theorem stage_id_of_startsWith {m : Matcher} {d : Char} (hm : StartsWith m d) (tmpl : String)
    {s : List Char} (hs : ∀ c ∈ s, c ≠ d) : stage m tmpl s = s := by
  unfold stage
  have h := replaceWith_pass_head (m := m) (t := s) (fun c hc p cs => hm.2 p c cs (hs c hc))
    tmpl.data [] none
  rw [List.append_nil] at h
  rw [h, replaceWith_nil, hm.1]
  simp

/-- A call with an anchored pattern that does not match at the start of a
single line returns the line. -/
theorem stage_id_of_anchored {m : Matcher} (hm : Anchored m) (tmpl : String)
    {s : List Char} (hs : ∀ c ∈ s, notLT c = true) (h0 : m none s = none) :
    stage m tmpl s = s := by
  unfold stage
  cases s with
  | nil => simp [replaceWith_nil, h0]
  | cons c cs =>
    have hc : lineStart (some c) = false := by
      have := hs c (by simp)
      simpa [lineStart, notLT] using this
    have hcs : ∀ d ∈ cs, notLT d = true := fun d hd => hs d (by simp [hd])
    have h := replaceWith_pass_anchored hm hc hcs tmpl.data []
    rw [List.append_nil] at h
    rw [replaceWith_cons_none h0, h, replaceWith_nil, hm _ _ (lineStart_advance hc hcs)]
    simp

/-- A call with an anchored pattern that matches a whole single line replaces it. -/
theorem stage_line_of_anchored {m : Matcher} (hm : Anchored m) (tmpl : String)
    {s : List Char} {caps : Captures} (hs : ∀ c ∈ s, notLT c = true) (hne : s ≠ [])
    (h0 : m none s = some ([], caps)) :
    stage m tmpl s = expand caps s tmpl.data := by
  unfold stage
  have h1 : m none (s ++ []) = some ([], caps) := by rwa [List.append_nil]
  have h := replaceWith_match h1 hne tmpl.data
  rw [List.append_nil] at h
  have hl : lineStart (advance none s) = false := by
    cases s with
    | nil => exact absurd rfl hne
    | cons c cs =>
      have hc : lineStart (some c) = false := by
        have := hs c (by simp)
        simpa [lineStart, notLT] using this
      rw [advance_cons]
      exact lineStart_advance hc (fun d hd => hs d (by simp [hd]))
  rw [h, replaceWith_nil, hm _ _ hl]
  simp

theorem takeWhile_eq_self {p : Char → Bool} {s : List Char} (h : ∀ c ∈ s, p c = true) :
    s.takeWhile p = s := by
  induction s with
  | nil => rfl
  | cons c cs ih =>
    rw [List.takeWhile_cons_of_pos (h c (by simp)), ih (fun d hd => h d (by simp [hd]))]

theorem dropWhile_eq_nil {p : Char → Bool} {s : List Char} (h : ∀ c ∈ s, p c = true) :
    s.dropWhile p = [] := by
  induction s with
  | nil => rfl
  | cons c cs ih =>
    rw [List.dropWhile_cons_of_pos (h c (by simp)), ih (fun d hd => h d (by simp [hd]))]

theorem transform_eq_runStages (anchor : String) (md : List Char) :
    transform anchor md = runStages (stages anchor) md := by
  rw [transform_eq]
  simp only [runStages, stages, List.foldl]

theorem runStages_split (k : Nat) (fs : List (List Char → List Char)) (md : List Char) :
    runStages fs md = runStages (fs.drop k) (runStages (fs.take k) md) := by
  unfold runStages
  rw [← List.foldl_append, List.take_append_drop]

theorem runStages_id {fs : List (List Char → List Char)} {s : List Char}
    (h : ∀ f ∈ fs, f s = s) : runStages fs s = s := by
  unfold runStages
  induction fs with
  | nil => rfl
  | cons f fs ih =>
    rw [List.foldl_cons, h f (by simp)]
    exact ih (fun g hg => h g (by simp [hg]))

/-! ## Calls that change nothing, continued -/

theorem needs_of_startsWith {m : Matcher} {d : Char} (h : StartsWith m d) : Needs m d := by
  intro p s r caps hs
  cases s with
  | nil => rw [h.1] at hs; exact absurd hs (by simp)
  | cons c cs =>
    by_cases hc : c = d
    · simp [hc]
    · rw [h.2 p c cs hc] at hs; exact absurd hs (by simp)

/-- A call whose pattern needs a character that the input does not have
returns the input. -/
theorem stage_id_of_needs {m : Matcher} {d : Char} (hm : Needs m d) (tmpl : String)
    {s : List Char} (hs : ∀ c ∈ s, c ≠ d) : stage m tmpl s = s := by
  unfold stage
  have hnone : ∀ p u, (∀ c ∈ u, c ∈ s) → m p u = none := by
    intro p u hu
    cases hmu : m p u with
    | none => rfl
    | some x =>
      have := hm p u x.1 x.2 hmu
      exact absurd rfl (hs d (hu d this))
  have h := replaceWith_pass (m := m) tmpl.data s [] none (by
    intro a c b hab
    apply hnone
    intro x hx
    rw [hab]
    simp only [List.append_nil] at hx
    simp [hx])
  rw [List.append_nil] at h
  rw [h, replaceWith_nil, hnone _ [] (by simp)]
  simp

theorem bracketM_needs {opener : List Char} (ho : '[' ∈ opener) :
    Needs (bracketM opener) '[' := by
  intro p s r caps h
  unfold bracketM at h
  cases hc : chop opener s with
  | none => simp [hc] at h
  | some r0 =>
    rw [chop_eq_some.mp hc]
    simp [ho]

theorem stage_lineM_id (d : Char) (ds : List Char) (tmpl : String) {s : List Char}
    (hs : ∀ c ∈ s, notLT c = true) (h0 : s.head? ≠ some d) :
    stage (lineM (d :: ds)) tmpl s = s := by
  apply stage_id_of_anchored (lineM_anchored _) _ hs
  apply lineM_none_of_chop
  cases s with
  | nil => rfl
  | cons c cs =>
    apply chop_cons_ne
    intro h
    exact h0 (by simp [h])

theorem notLT_ne_newline {c : Char} (h : notLT c = true) : c ≠ '\n' := by
  rintro rfl
  exact absurd h (by decide)

theorem tagAhead_head {s : List Char} (h : tagAhead s = true) :
    ∃ d rest, s = '<' :: d :: rest ∧ isAsciiLetter d = true := by
  cases s with
  | nil => exact absurd h (by decide)
  | cons c cs =>
    cases cs with
    | nil => simp [tagAhead] at h
    | cons d ds =>
      simp only [tagAhead, Bool.and_eq_true, beq_iff_eq] at h
      exact ⟨d, ds, by rw [h.1], h.2⟩

/-- Every call of the chain returns a settled text as it is. -/
theorem settled_stage (anchor : String) {s : List Char} (hs : Settled s) :
    ∀ f ∈ stages anchor, f s = s := by
  obtain ⟨hch, htag, hul, hol⟩ := hs
  obtain ⟨d, rest, hsd, hd⟩ := tagAhead_head htag
  have hLT : ∀ c ∈ s, notLT c = true := fun c hc => (hch c hc).1
  have hhead : ∀ x, x ≠ '<' → s.head? ≠ some x := by
    intro x hx h
    rw [hsd] at h
    simp only [List.head?_cons, Option.some.injEq] at h
    exact hx h.symm
  intro f hf
  simp only [stages, List.mem_cons, List.mem_singleton, List.not_mem_nil, or_false] at hf
  rcases hf with rfl | rfl | rfl | rfl | rfl | rfl | rfl | rfl | rfl | rfl | rfl | rfl | rfl |
    rfl | rfl | rfl | rfl | rfl | rfl | rfl
  · exact stage_lineM_id _ _ _ hLT (hhead _ (by decide))
  · exact stage_lineM_id _ _ _ hLT (hhead _ (by decide))
  · exact stage_lineM_id _ _ _ hLT (hhead _ (by decide))
  · exact stage_id_of_needs (needs_of_startsWith (spanM_startsWith _ _)) _
      (fun c hc => (hch c hc).2.1)
  · exact stage_id_of_needs (needs_of_startsWith (spanM_startsWith _ _)) _
      (fun c hc => (hch c hc).2.2.1)
  · exact stage_id_of_needs (needs_of_startsWith (spanM_startsWith _ _)) _
      (fun c hc => (hch c hc).2.1)
  · exact stage_id_of_needs (needs_of_startsWith (spanM_startsWith _ _)) _
      (fun c hc => (hch c hc).2.2.1)
  · exact stage_id_of_needs (needs_of_startsWith fenceM_startsWith) _
      (fun c hc => (hch c hc).2.2.2.1)
  · exact stage_id_of_needs (needs_of_startsWith (spanM_startsWith _ _)) _
      (fun c hc => (hch c hc).2.2.2.1)
  · exact stage_lineM_id _ _ _ hLT (hhead _ (by decide))
  · exact stage_lineM_id _ _ _ hLT (hhead _ (by decide))
  · exact stage_lineM_id _ _ _ hLT (hhead _ (by decide))
  · apply stage_id_of_anchored orderedM_anchored _ hLT
    rw [hsd]
    simp [orderedM, isDigit]
  · exact stage_id_of_needs (bracketM_needs (by decide)) _ (fun c hc => (hch c hc).2.2.2.2)
  · exact stage_id_of_needs (bracketM_needs (by decide)) _ (fun c hc => (hch c hc).2.2.2.2)
  · exact stage_lineM_id _ _ _ hLT (hhead _ (by decide))
  · apply stage_id_of_anchored paragraphM_anchored _ hLT
    simp [paragraphM, htag]
  · exact hul
  · exact hol
  · exact stage_id_of_needs (needs_of_startsWith newlineM_startsWith) _
      (fun c hc => notLT_ne_newline (hLT c hc))

/-- The calls from number `k` on return a settled text as it is. -/
theorem runStages_settled (anchor : String) (k : Nat) {s : List Char} (hs : Settled s) :
    runStages ((stages anchor).drop k) s = s :=
  runStages_id (fun f hf => settled_stage anchor hs f (List.mem_of_mem_drop hf))

/-! ## Settled texts -/

theorem inert_spec {c : Char} (h : inert c = true) :
    notLT c = true ∧ c ≠ '*' ∧ c ≠ '_' ∧ c ≠ Char.ofNat 96 ∧ c ≠ '[' ∧ c ≠ '<' := by
  simpa [inert, and_assoc] using h

theorem plain_ne {c d : Char} (hc : isPlain c = true) (hd : isPlain d = false) : c ≠ d := by
  rintro rfl
  rw [hc] at hd
  exact absurd hd (by decide)

theorem plain_notLT {c : Char} (hc : isPlain c = true) : notLT c = true := by
  unfold notLT isLineTerminator
  have h1 := plain_ne hc (d := '\n') (by decide)
  have h2 := plain_ne hc (d := '\r') (by decide)
  have h3 := plain_ne hc (d := Char.ofNat 0x2028) (by decide)
  have h4 := plain_ne hc (d := Char.ofNat 0x2029) (by decide)
  simp [h1, h2, h3, h4]

theorem plain_inert {c : Char} (hc : isPlain c = true) : inert c = true := by
  have h0 := plain_notLT hc
  have h1 := plain_ne hc (d := '*') (by decide)
  have h2 := plain_ne hc (d := '_') (by decide)
  have h3 := plain_ne hc (d := Char.ofNat 96) (by decide)
  have h4 := plain_ne hc (d := '[') (by decide)
  have h5 := plain_ne hc (d := '<') (by decide)
  simp [inert, h0, h1, h2, h3, h4, h5]

theorem mergeM_none_of_ne_lt (tag : List Char) {c : Char} (h : c ≠ '<') (p : Option Char)
    (cs : List Char) : mergeM tag p (c :: cs) = none :=
  (mergeM_startsWith tag).2 p c cs h

/-- An element `<n>t</n>` whose name `n` starts with a letter other than `u` and
`o`, around an inert text `t`, is settled. -/
theorem settled_element (l : Char) (ns t : List Char) (hl : isAsciiLetter l = true)
    (hlu : l ≠ 'u') (hlo : l ≠ 'o') (hn : ∀ c ∈ l :: ns, inert c = true)
    (ht : ∀ c ∈ t, inert c = true) :
    Settled ('<' :: l :: (ns ++ '>' :: (t ++ '<' :: '/' :: l :: (ns ++ ['>'])))) := by
  have hl1 := inert_spec (hn l (by simp))
  have hns : ∀ c ∈ ns, inert c = true := fun c hc => hn c (by simp [hc])
  have hqn : ∀ tag, ∀ c ∈ ns, ∀ p cs, mergeM tag p (c :: cs) = none :=
    fun tag c hc p cs => mergeM_none_of_ne_lt tag (inert_spec (hns c hc)).2.2.2.2.2 p cs
  have hqt : ∀ tag, ∀ c ∈ t, ∀ p cs, mergeM tag p (c :: cs) = none :=
    fun tag c hc p cs => mergeM_none_of_ne_lt tag (inert_spec (ht c hc)).2.2.2.2.2 p cs
  have hsl : l ≠ '/' := by
    rintro rfl
    exact absurd hl (by decide)
  refine ⟨?_, ?_, ?_, ?_⟩
  · intro c hc
    simp only [List.mem_cons, List.mem_append, List.mem_singleton, List.not_mem_nil,
      or_false] at hc
    have key : ∀ x, inert x = true →
        notLT x = true ∧ x ≠ '*' ∧ x ≠ '_' ∧ x ≠ Char.ofNat 96 ∧ x ≠ '[' := by
      intro x hx
      have := inert_spec hx
      exact ⟨this.1, this.2.1, this.2.2.1, this.2.2.2.1, this.2.2.2.2.1⟩
    rcases hc with rfl | rfl | hc | rfl | hc | rfl | rfl | rfl | hc | rfl
    · decide
    · exact key _ (hn _ (by simp))
    · exact key _ (hns _ hc)
    · decide
    · exact key _ (ht _ hc)
    · decide
    · decide
    · exact key _ (hn _ (by simp))
    · exact key _ (hns _ hc)
    · decide
  · simp [tagAhead, hl]
  · simp [stage, replaceWith_cons_none, replaceWith_pass_head (hqn _),
      replaceWith_pass_head (hqt _), replaceWith_nil, mergeM, chop, hlu, hsl, hl1.2.2.2.2.2]
  · simp [stage, replaceWith_cons_none, replaceWith_pass_head (hqn _),
      replaceWith_pass_head (hqt _), replaceWith_nil, mergeM, chop, hlo, hsl, hl1.2.2.2.2.2]

/-! ## The guard of `parseMarkdown` -/

theorem parseMarkdown_some (md : String) (h : md ≠ "") :
    GetNotes.parseMarkdown (some md) = String.mk (transform plainAnchor md.data) := by
  simp [GetNotes.parseMarkdown, h]

theorem data_ne_nil {t : String} (h : t ≠ "") : t.data ≠ [] := by
  intro e
  apply h
  exact String.ext e

/-- The chain, cut at call number `k` (counted from 0). -/
theorem runStages_at (k : Nat) (fs : List (List Char → List Char)) (f : List Char → List Char)
    (h : fs.get? k = some f) (md : List Char) :
    runStages fs md = runStages (fs.drop (k + 1)) (f (runStages (fs.take k) md)) := by
  induction fs generalizing k md with
  | nil => simp at h
  | cons g gs ih =>
    cases k with
    | zero =>
      simp only [List.get?_cons_zero, Option.some.injEq] at h
      subst h
      rfl
    | succ k =>
      simp only [List.get?_cons_succ] at h
      exact ih k h (g md)

/-! ## Plain text -/

theorem orderedM_none_of_no_dot {p : Option Char} {s : List Char} (h : ∀ c ∈ s, c ≠ '.') :
    orderedM p s = none := by
  unfold orderedM
  cases s with
  | nil => simp
  | cons c cs =>
    have hd : chop ['.', ' '] (cs.dropWhile isDigit) = none := by
      rcases hcs : cs.dropWhile isDigit with _ | ⟨x, xs⟩
      · rfl
      · apply chop_cons_ne
        have hx : x ∈ cs.dropWhile isDigit := by rw [hcs]; simp
        exact h x (List.mem_cons_of_mem _ ((List.dropWhile_sublist _).subset hx))
    simp [hd]

/-- The calls before the paragraph rule leave a plain text as it is. -/
theorem plain_stage_id (anchor : String) {t : List Char} (ht : ∀ c ∈ t, isPlain c = true) :
    ∀ f ∈ (stages anchor).take 16, f t = t := by
  have hLT : ∀ c ∈ t, notLT c = true := fun c hc => plain_notLT (ht c hc)
  have hd : ∀ d, isPlain d = false → ∀ c ∈ t, c ≠ d := fun d hd c hc => plain_ne (ht c hc) hd
  have hh : ∀ d, isPlain d = false → t.head? ≠ some d := by
    intro d hd1 h
    cases t with
    | nil => simp at h
    | cons c cs =>
      simp only [List.head?_cons, Option.some.injEq] at h
      exact hd d hd1 c (by simp) h
  intro f hf
  simp only [stages, List.take_succ_cons, List.take_zero, List.mem_cons, List.not_mem_nil,
    or_false] at hf
  rcases hf with rfl | rfl | rfl | rfl | rfl | rfl | rfl | rfl | rfl | rfl | rfl | rfl | rfl |
    rfl | rfl | rfl
  · exact stage_lineM_id _ _ _ hLT (hh _ (by decide))
  · exact stage_lineM_id _ _ _ hLT (hh _ (by decide))
  · exact stage_lineM_id _ _ _ hLT (hh _ (by decide))
  · exact stage_id_of_needs (needs_of_startsWith (spanM_startsWith _ _)) _ (hd _ (by decide))
  · exact stage_id_of_needs (needs_of_startsWith (spanM_startsWith _ _)) _ (hd _ (by decide))
  · exact stage_id_of_needs (needs_of_startsWith (spanM_startsWith _ _)) _ (hd _ (by decide))
  · exact stage_id_of_needs (needs_of_startsWith (spanM_startsWith _ _)) _ (hd _ (by decide))
  · exact stage_id_of_needs (needs_of_startsWith fenceM_startsWith) _ (hd _ (by decide))
  · exact stage_id_of_needs (needs_of_startsWith (spanM_startsWith _ _)) _ (hd _ (by decide))
  · exact stage_lineM_id _ _ _ hLT (hh _ (by decide))
  · exact stage_lineM_id _ _ _ hLT (hh _ (by decide))
  · exact stage_lineM_id _ _ _ hLT (hh _ (by decide))
  · exact stage_id_of_anchored orderedM_anchored _ hLT
      (orderedM_none_of_no_dot (hd _ (by decide)))
  · exact stage_id_of_needs (bracketM_needs (by decide)) _ (hd _ (by decide))
  · exact stage_id_of_needs (bracketM_needs (by decide)) _ (hd _ (by decide))
  · exact stage_lineM_id _ _ _ hLT (hh _ (by decide))

theorem expand_p (t m : List Char) :
    expand [(1, t)] m "<p>$1</p>".data = "<p>".data ++ (t ++ "</p>".data) := rfl

theorem transform_plain (anchor : String) (t : List Char) (hne : t ≠ [])
    (ht : ∀ c ∈ t, isPlain c = true) :
    transform anchor t = "<p>".data ++ (t ++ "</p>".data) := by
  have hLT : ∀ c ∈ t, notLT c = true := fun c hc => plain_notLT (ht c hc)
  have hp : paragraphM none t = some ([], [(1, t)]) := by
    have hta : tagAhead t = false := by
      cases t with
      | nil => rfl
      | cons c cs =>
        cases cs with
        | nil => rfl
        | cons d ds => simp [tagAhead, plain_ne (ht c (by simp)) (d := '<') (by decide)]
    simp [paragraphM, lineStart, hta, takeWhile_eq_self hLT, dropWhile_eq_nil hLT]
  rw [transform_eq_runStages, runStages_at 16 (stages anchor) (stage paragraphM "<p>$1</p>") rfl,
    runStages_id (plain_stage_id anchor ht),
    stage_line_of_anchored paragraphM_anchored _ hLT hne hp, expand_p]
  exact runStages_settled anchor 17
    (settled_element 'p' [] t (by decide) (by decide) (by decide) (by decide)
      (fun c hc => plain_inert (ht c hc)))


/-! ## Line rules on a marked line -/

theorem lineM_marked (mk t : List Char) (ht : ∀ c ∈ t, notLT c = true) :
    lineM mk none (mk ++ t) = some ([], [(1, t)]) := by
  simp [lineM, lineStart, chop_append, takeWhile_eq_self ht, dropWhile_eq_nil ht]

/-- The calls for spans, code and links leave a text without their opening
characters as it is. -/
theorem inline_stage_id (anchor : String) {s : List Char}
    (hch : ∀ c ∈ s, c ≠ '*' ∧ c ≠ '_' ∧ c ≠ Char.ofNat 96 ∧ c ≠ '[') :
    stage (spanM "**".data) "<strong>$1</strong>" s = s ∧
    stage (spanM "__".data) "<strong>$1</strong>" s = s ∧
    stage (spanM "*".data) "<em>$1</em>" s = s ∧
    stage (spanM "_".data) "<em>$1</em>" s = s ∧
    stage fenceM "<pre><code class=\"language-$1\">$2</code></pre>" s = s ∧
    stage (spanM [Char.ofNat 96]) "<code>$1</code>" s = s ∧
    stage (bracketM "[".data) anchor s = s ∧
    stage (bracketM "![".data) "<img src=\"$2\" alt=\"$1\" class=\"max-w-full h-auto\" />" s = s :=
  ⟨stage_id_of_needs (needs_of_startsWith (spanM_startsWith _ _)) _ (fun c hc => (hch c hc).1),
   stage_id_of_needs (needs_of_startsWith (spanM_startsWith _ _)) _ (fun c hc => (hch c hc).2.1),
   stage_id_of_needs (needs_of_startsWith (spanM_startsWith _ _)) _ (fun c hc => (hch c hc).1),
   stage_id_of_needs (needs_of_startsWith (spanM_startsWith _ _)) _ (fun c hc => (hch c hc).2.1),
   stage_id_of_needs (needs_of_startsWith fenceM_startsWith) _ (fun c hc => (hch c hc).2.2.1),
   stage_id_of_needs (needs_of_startsWith (spanM_startsWith _ _)) _ (fun c hc => (hch c hc).2.2.1),
   stage_id_of_needs (bracketM_needs (by decide)) _ (fun c hc => (hch c hc).2.2.2),
   stage_id_of_needs (bracketM_needs (by decide)) _ (fun c hc => (hch c hc).2.2.2)⟩

theorem inert_marked (mk : List Char) {t : List Char} (hmk : ∀ c ∈ mk, inert c = true)
    (ht : ∀ c ∈ t, inert c = true) :
    (∀ c ∈ mk ++ t, notLT c = true) ∧
    (∀ c ∈ mk ++ t, c ≠ '*' ∧ c ≠ '_' ∧ c ≠ Char.ofNat 96 ∧ c ≠ '[') := by
  have h : ∀ c ∈ mk ++ t, inert c = true := by
    intro c hc
    rcases List.mem_append.mp hc with h | h
    · exact hmk c h
    · exact ht c h
  exact ⟨fun c hc => (inert_spec (h c hc)).1,
    fun c hc => ⟨(inert_spec (h c hc)).2.1, (inert_spec (h c hc)).2.2.1,
      (inert_spec (h c hc)).2.2.2.1, (inert_spec (h c hc)).2.2.2.2.1⟩⟩

theorem transform_heading3 (anchor : String) (t : List Char) (ht : ∀ c ∈ t, inert c = true) :
    transform anchor ("### ".data ++ t) = "<h3>".data ++ (t ++ "</h3>".data) := by
  obtain ⟨hLT, -⟩ := inert_marked "### ".data (by decide) ht
  have hLTt : ∀ c ∈ t, notLT c = true := fun c hc => (inert_spec (ht c hc)).1
  rw [transform_eq_runStages,
    runStages_at 0 (stages anchor) (stage (lineM "### ".data) "<h3>$1</h3>") rfl]
  have e : runStages (List.take 0 (stages anchor)) ("### ".data ++ t) = "### ".data ++ t := rfl
  rw [e, stage_line_of_anchored (lineM_anchored _) _ hLT (by simp) (lineM_marked _ _ hLTt)]
  exact runStages_settled anchor 1
    (settled_element 'h' ['3'] t (by decide) (by decide) (by decide) (by decide) ht)

theorem transform_heading2 (anchor : String) (t : List Char) (ht : ∀ c ∈ t, inert c = true) :
    transform anchor ("## ".data ++ t) = "<h2>".data ++ (t ++ "</h2>".data) := by
  obtain ⟨hLT, -⟩ := inert_marked "## ".data (by decide) ht
  have hLTt : ∀ c ∈ t, notLT c = true := fun c hc => (inert_spec (ht c hc)).1
  have hpre : ∀ f ∈ (stages anchor).take 1, f ("## ".data ++ t) = "## ".data ++ t := by
    intro f hf
    simp only [stages, List.take_succ_cons, List.take_zero, List.mem_cons, List.not_mem_nil,
      or_false] at hf
    subst hf
    exact stage_id_of_anchored (lineM_anchored _) _ hLT (lineM_none_of_chop (by simp [chop]))
  rw [transform_eq_runStages,
    runStages_at 1 (stages anchor) (stage (lineM "## ".data) "<h2>$1</h2>") rfl,
    runStages_id hpre,
    stage_line_of_anchored (lineM_anchored _) _ hLT (by simp) (lineM_marked _ _ hLTt)]
  exact runStages_settled anchor 2
    (settled_element 'h' ['2'] t (by decide) (by decide) (by decide) (by decide) ht)

theorem transform_heading1 (anchor : String) (t : List Char) (ht : ∀ c ∈ t, inert c = true) :
    transform anchor ("# ".data ++ t) = "<h1>".data ++ (t ++ "</h1>".data) := by
  obtain ⟨hLT, -⟩ := inert_marked "# ".data (by decide) ht
  have hLTt : ∀ c ∈ t, notLT c = true := fun c hc => (inert_spec (ht c hc)).1
  have hpre : ∀ f ∈ (stages anchor).take 2, f ("# ".data ++ t) = "# ".data ++ t := by
    intro f hf
    simp only [stages, List.take_succ_cons, List.take_zero, List.mem_cons, List.not_mem_nil,
      or_false] at hf
    rcases hf with rfl | rfl
    · exact stage_id_of_anchored (lineM_anchored _) _ hLT (lineM_none_of_chop (by simp [chop]))
    · exact stage_id_of_anchored (lineM_anchored _) _ hLT (lineM_none_of_chop (by simp [chop]))
  rw [transform_eq_runStages,
    runStages_at 2 (stages anchor) (stage (lineM "# ".data) "<h1>$1</h1>") rfl,
    runStages_id hpre,
    stage_line_of_anchored (lineM_anchored _) _ hLT (by simp) (lineM_marked _ _ hLTt)]
  exact runStages_settled anchor 3
    (settled_element 'h' ['1'] t (by decide) (by decide) (by decide) (by decide) ht)

theorem transform_blockquote (anchor : String) (t : List Char) (ht : ∀ c ∈ t, inert c = true) :
    transform anchor ("> ".data ++ t) = "<blockquote>".data ++ (t ++ "</blockquote>".data) := by
  obtain ⟨hLT, hch⟩ := inert_marked "> ".data (by decide) ht
  have hLTt : ∀ c ∈ t, notLT c = true := fun c hc => (inert_spec (ht c hc)).1
  obtain ⟨i1, i2, i3, i4, i5, i6, i7, i8⟩ := inline_stage_id anchor hch
  have hpre : ∀ f ∈ (stages anchor).take 15, f ("> ".data ++ t) = "> ".data ++ t := by
    intro f hf
    simp only [stages, List.take_succ_cons, List.take_zero, List.mem_cons, List.not_mem_nil,
      or_false] at hf
    rcases hf with rfl | rfl | rfl | rfl | rfl | rfl | rfl | rfl | rfl | rfl | rfl | rfl | rfl |
      rfl | rfl
    · exact stage_id_of_anchored (lineM_anchored _) _ hLT (lineM_none_of_chop (by simp [chop]))
    · exact stage_id_of_anchored (lineM_anchored _) _ hLT (lineM_none_of_chop (by simp [chop]))
    · exact stage_id_of_anchored (lineM_anchored _) _ hLT (lineM_none_of_chop (by simp [chop]))
    · exact i1
    · exact i2
    · exact i3
    · exact i4
    · exact i5
    · exact i6
    · exact stage_id_of_anchored (lineM_anchored _) _ hLT (lineM_none_of_chop (by simp [chop]))
    · exact stage_id_of_anchored (lineM_anchored _) _ hLT (lineM_none_of_chop (by simp [chop]))
    · exact stage_id_of_anchored (lineM_anchored _) _ hLT (lineM_none_of_chop (by simp [chop]))
    · exact stage_id_of_anchored orderedM_anchored _ hLT (by simp [orderedM, isDigit])
    · exact i7
    · exact i8
  rw [transform_eq_runStages,
    runStages_at 15 (stages anchor) (stage (lineM "> ".data) "<blockquote>$1</blockquote>") rfl,
    runStages_id hpre,
    stage_line_of_anchored (lineM_anchored _) _ hLT (by simp) (lineM_marked _ _ hLTt)]
  exact runStages_settled anchor 16
    (settled_element 'b' "lockquote".data t (by decide) (by decide) (by decide) (by decide) ht)

/-! ## Occurrences of a text -/

theorem occurs_iff (w s : List Char) : occurs w s = true ↔ ∃ a b, s = a ++ w ++ b := by
  induction s with
  | nil =>
    simp only [occurs, Option.isSome_iff_exists, chop_eq_some]
    constructor
    · rintro ⟨r, hr⟩
      exact ⟨[], r, by simpa using hr⟩
    · rintro ⟨a, b, h⟩
      have h1 : a = [] ∧ w = [] ∧ b = [] := by simpa [and_assoc] using h.symm
      exact ⟨[], by simp [h1.2.1]⟩
  | cons c cs ih =>
    simp only [occurs, Bool.or_eq_true, Option.isSome_iff_exists, chop_eq_some, ih]
    constructor
    · rintro (⟨r, hr⟩ | ⟨a, b, h⟩)
      · exact ⟨[], r, by simpa using hr⟩
      · exact ⟨c :: a, b, by simp [h]⟩
    · rintro ⟨a, b, h⟩
      cases a with
      | nil => exact Or.inl ⟨b, by simpa using h⟩
      | cons x xs =>
        simp only [List.cons_append, List.cons.injEq] at h
        exact Or.inr ⟨xs, b, by simpa using h.2⟩

/-- A text that starts with `x` does not start inside a stretch without `x`. -/
theorem occurs_append_of_not_mem {x : Char} (w : List Char) {t : List Char}
    (ht : ∀ c ∈ t, c ≠ x) (r : List Char) :
    occurs (x :: w) (t ++ r) = occurs (x :: w) r := by
  induction t with
  | nil => rfl
  | cons c cs ih =>
    rw [List.cons_append, occurs, chop_cons_ne (ht c (by simp)), ih (fun d hd => ht d (by simp [hd]))]
    rfl


/-! ## Spans -/

/-- The lazy search passes a stretch of accepted characters at which its
continuation fails. -/
theorem lazyFind_pass {α : Type} (p : Char → Bool)
    (g : List Char → Option Char → List Char → Option α) (t : List Char)
    (ht : ∀ c ∈ t, p c = true ∧ ∀ acc q cs, g acc q (c :: cs) = none)
    (acc : List Char) (prev : Option Char) (r : List Char) :
    lazyFind p g acc prev (t ++ r) = lazyFind p g (acc ++ t) (advance prev t) r := by
  induction t generalizing acc prev with
  | nil => simp
  | cons c cs ih =>
    have hc := ht c (by simp)
    rw [List.cons_append, lazyFind, hc.2, advance_cons]
    simp only [hc.1, if_true]
    rw [ih (fun d hd => ht d (by simp [hd]))]
    simp

theorem lazyFind_found {α : Type} (p : Char → Bool)
    (g : List Char → Option Char → List Char → Option α) (acc : List Char) (prev : Option Char)
    (r : List Char) (x : α) (h : g acc prev r = some x) :
    lazyFind p g acc prev r = some x := by
  cases r with
  | nil => simpa [lazyFind] using h
  | cons c cs => simp [lazyFind, h]

/-- A span rule matches the delimiter, a text without the first delimiter
character and without line terminators, and the delimiter. -/
theorem spanM_match (d0 : Char) (ds t r : List Char) (prev : Option Char)
    (ht : ∀ c ∈ t, notLT c = true ∧ c ≠ d0) :
    spanM (d0 :: ds) prev ((d0 :: ds) ++ (t ++ ((d0 :: ds) ++ r))) = some (r, [(1, t)]) := by
  unfold spanM
  rw [chop_append]
  simp only []
  rw [lazyFind_pass]
  · apply lazyFind_found
    have e := chop_append (d0 :: ds) r
    simp only [List.nil_append, e, Option.map_some']
  · intro c hc
    refine ⟨(ht c hc).1, ?_⟩
    intro acc q cs
    simp [chop_cons_ne (ht c hc).2]

theorem alnum_plain {c : Char} (h : c.isAlphanum = true) : isPlain c = true := by
  simp [isPlain, h]

theorem expand_strong (t m : List Char) :
    expand [(1, t)] m "<strong>$1</strong>".data = "<strong>".data ++ (t ++ "</strong>".data) :=
  rfl

theorem expand_em (t m : List Char) :
    expand [(1, t)] m "<em>$1</em>".data = "<em>".data ++ (t ++ "</em>".data) := rfl

/-- The list form of the bold-and-italic property. -/
theorem transform_bold_italic (anchor : String) (a b : List Char) (_ha0 : a ≠ []) (hb0 : b ≠ [])
    (ha : ∀ c ∈ a, c.isAlphanum = true) (hb : ∀ c ∈ b, c.isAlphanum = true) :
    transform anchor ("**".data ++ (a ++ ("** and *".data ++ (b ++ "*".data)))) =
      "<strong>".data ++ (a ++ ("</strong> and <em>".data ++ (b ++ "</em>".data))) := by
  have hai : ∀ c ∈ a, inert c = true := fun c hc => plain_inert (alnum_plain (ha c hc))
  have hbi : ∀ c ∈ b, inert c = true := fun c hc => plain_inert (alnum_plain (hb c hc))
  have haLT : ∀ c ∈ a, notLT c = true := fun c hc => (inert_spec (hai c hc)).1
  have hbLT : ∀ c ∈ b, notLT c = true := fun c hc => (inert_spec (hbi c hc)).1
  have hastar : ∀ c ∈ a, c ≠ '*' := fun c hc => (inert_spec (hai c hc)).2.1
  have hbstar : ∀ c ∈ b, c ≠ '*' := fun c hc => (inert_spec (hbi c hc)).2.1
  obtain ⟨b0, bs, rfl⟩ := List.exists_cons_of_ne_nil hb0
  have hb0s : b0 ≠ '*' := hbstar b0 (by simp)
  have hbss : ∀ c ∈ bs, c ≠ '*' := fun c hc => hbstar c (by simp [hc])
  -- the input is a single line that does not start with a line marker
  have hLT0 : ∀ c ∈ "**".data ++ (a ++ ("** and *".data ++ (b0 :: bs ++ "*".data))),
      notLT c = true := by
    simp only [List.forall_mem_append]
    exact ⟨by decide, haLT, by decide, hbLT, by decide⟩
  have s0 : ∀ tmpl, stage (lineM "### ".data) tmpl
      ("**".data ++ (a ++ ("** and *".data ++ (b0 :: bs ++ "*".data)))) = _ := fun tmpl =>
    stage_lineM_id _ _ tmpl hLT0 (by simp)
  have s1 : ∀ tmpl, stage (lineM "## ".data) tmpl
      ("**".data ++ (a ++ ("** and *".data ++ (b0 :: bs ++ "*".data)))) = _ := fun tmpl =>
    stage_lineM_id _ _ tmpl hLT0 (by simp)
  have s2 : ∀ tmpl, stage (lineM "# ".data) tmpl
      ("**".data ++ (a ++ ("** and *".data ++ (b0 :: bs ++ "*".data)))) = _ := fun tmpl =>
    stage_lineM_id _ _ tmpl hLT0 (by simp)
  -- the bold rule
  have hq2 : ∀ t : List Char, (∀ c ∈ t, c ≠ '*') → ∀ c ∈ t, ∀ p cs,
      spanM "**".data p (c :: cs) = none :=
    fun t ht c hc p cs => (spanM_startsWith _ _).2 p c cs (ht c hc)
  have s3 : stage (spanM "**".data) "<strong>$1</strong>"
      ("**".data ++ (a ++ ("** and *".data ++ (b0 :: bs ++ "*".data)))) =
      "<strong>".data ++ (a ++ ("</strong> and *".data ++ (b0 :: bs ++ "*".data))) := by
    have hm := spanM_match '*' ['*'] a (" and *".data ++ (b0 :: bs ++ "*".data)) none
      (fun c hc => ⟨haLT c hc, hastar c hc⟩)
    have hm2 : spanM "**".data none (("**".data ++ (a ++ "**".data)) ++
        (" and *".data ++ (b0 :: bs ++ "*".data))) =
        some (" and *".data ++ (b0 :: bs ++ "*".data), [(1, a)]) := by
      simpa using hm
    have e : "**".data ++ (a ++ ("** and *".data ++ (b0 :: bs ++ "*".data))) =
        ("**".data ++ (a ++ "**".data)) ++ (" and *".data ++ (b0 :: bs ++ "*".data)) := by simp
    rw [e]
    unfold stage
    rw [replaceWith_match hm2 (by simp), expand_strong]
    simp [replaceWith_cons_none, replaceWith_pass_head (hq2 bs hbss), replaceWith_nil, spanM,
      chop, hb0s]
  have s4 : stage (spanM "__".data) "<strong>$1</strong>"
      ("<strong>".data ++ (a ++ ("</strong> and *".data ++ (b0 :: bs ++ "*".data)))) =
      "<strong>".data ++ (a ++ ("</strong> and *".data ++ (b0 :: bs ++ "*".data))) := by
    apply stage_id_of_needs (needs_of_startsWith (spanM_startsWith _ _))
    simp only [List.forall_mem_append]
    exact ⟨by decide, fun c hc => (inert_spec (hai c hc)).2.2.1, by decide,
      fun c hc => (inert_spec (hbi c hc)).2.2.1, by decide⟩
  -- the italic rule
  have hq1 : ∀ t : List Char, (∀ c ∈ t, c ≠ '*') → ∀ c ∈ t, ∀ p cs,
      spanM "*".data p (c :: cs) = none :=
    fun t ht c hc p cs => (spanM_startsWith _ _).2 p c cs (ht c hc)
  have s5 : stage (spanM "*".data) "<em>$1</em>"
      ("<strong>".data ++ (a ++ ("</strong> and *".data ++ (b0 :: bs ++ "*".data)))) =
      "<strong>".data ++ (a ++ ("</strong> and <em>".data ++ (b0 :: bs ++ "</em>".data))) := by
    have hm := spanM_match '*' [] (b0 :: bs) [] (some ' ')
      (fun c hc => ⟨hbLT c hc, hbstar c hc⟩)
    have hm2 : spanM "*".data (some ' ') (("*".data ++ (b0 :: bs ++ "*".data)) ++ []) =
        some ([], [(1, b0 :: bs)]) := by
      simpa using hm
    have hr := replaceWith_match hm2 (by simp) "<em>$1</em>".data
    rw [expand_em] at hr
    simp only [List.append_nil] at hr
    unfold stage
    simp [replaceWith_cons_none, replaceWith_pass_head (hq1 a hastar), spanM, chop]
    simpa [replaceWith_nil, spanM, chop] using hr
  -- what is left is settled
  have hset : Settled ("<strong>".data ++ (a ++ ("</strong> and <em>".data ++
      (b0 :: bs ++ "</em>".data)))) := by
    have hqa : ∀ tag, ∀ c ∈ a, ∀ p cs, mergeM tag p (c :: cs) = none :=
      fun tag c hc p cs => mergeM_none_of_ne_lt tag (inert_spec (hai c hc)).2.2.2.2.2 p cs
    have hqb : ∀ tag, ∀ c ∈ bs, ∀ p cs, mergeM tag p (c :: cs) = none :=
      fun tag c hc p cs =>
        mergeM_none_of_ne_lt tag (inert_spec (hbi c (by simp [hc]))).2.2.2.2.2 p cs
    have hb0lt : b0 ≠ '<' := (inert_spec (hbi b0 (by simp))).2.2.2.2.2
    have key : ∀ x, inert x = true →
        notLT x = true ∧ x ≠ '*' ∧ x ≠ '_' ∧ x ≠ Char.ofNat 96 ∧ x ≠ '[' := by
      intro x hx
      have := inert_spec hx
      exact ⟨this.1, this.2.1, this.2.2.1, this.2.2.2.1, this.2.2.2.2.1⟩
    refine ⟨?_, by simp [tagAhead, isAsciiLetter], ?_, ?_⟩
    · simp only [List.forall_mem_append]
      exact ⟨by decide, fun c hc => key c (hai c hc), by decide,
        fun c hc => key c (hbi c hc), by decide⟩
    · simp [stage, replaceWith_cons_none, replaceWith_pass_head (hqa _),
        replaceWith_pass_head (hqb _), replaceWith_nil, mergeM, chop, hb0lt]
    · simp [stage, replaceWith_cons_none, replaceWith_pass_head (hqa _),
        replaceWith_pass_head (hqb _), replaceWith_nil, mergeM, chop, hb0lt]
  rw [transform_eq_runStages, runStages_split 6]
  have e : runStages ((stages anchor).take 6)
      ("**".data ++ (a ++ ("** and *".data ++ (b0 :: bs ++ "*".data)))) =
      stage (spanM "*".data) "<em>$1</em>" (stage (spanM "__".data) "<strong>$1</strong>"
        (stage (spanM "**".data) "<strong>$1</strong>" (stage (lineM "# ".data) "<h1>$1</h1>"
          (stage (lineM "## ".data) "<h2>$1</h2>" (stage (lineM "### ".data) "<h3>$1</h3>"
            ("**".data ++ (a ++ ("** and *".data ++ (b0 :: bs ++ "*".data))))))))) := rfl
  rw [e, s0, s1, s2, s3, s4, s5]
  exact runStages_settled anchor 6 hset



/-! ## Several lines -/

theorem intercalate_go_data (acc : String) (ls : List String) :
    (String.intercalate.go acc "\n" ls).data = acc.data ++ tailLines (ls.map String.data) := by
  induction ls generalizing acc with
  | nil => simp [String.intercalate.go, tailLines]
  | cons l ls ih => simp [String.intercalate.go, tailLines, ih]

theorem intercalate_data (ls : List String) :
    ("\n".intercalate ls).data = joinLines (ls.map String.data) := by
  cases ls with
  | nil => rfl
  | cons l ls => simp [String.intercalate, intercalate_go_data, joinLines]

theorem mem_tailLines {c : Char} {ls : List (List Char)} (h : c ∈ tailLines ls) :
    c = '\n' ∨ ∃ l ∈ ls, c ∈ l := by
  induction ls with
  | nil => simp [tailLines] at h
  | cons l ls ih =>
    simp only [tailLines, List.mem_cons, List.mem_append] at h
    rcases h with h | h | h
    · exact Or.inl h
    · exact Or.inr ⟨l, by simp, h⟩
    · rcases ih h with h1 | ⟨l1, hl1, hc⟩
      · exact Or.inl h1
      · exact Or.inr ⟨l1, by simp [hl1], hc⟩

theorem mem_joinLines {c : Char} {ls : List (List Char)} (h : c ∈ joinLines ls) :
    c = '\n' ∨ ∃ l ∈ ls, c ∈ l := by
  cases ls with
  | nil => simp [joinLines] at h
  | cons l ls =>
    simp only [joinLines, List.mem_append] at h
    rcases h with h | h
    · exact Or.inr ⟨l, by simp, h⟩
    · rcases mem_tailLines h with h1 | ⟨l1, hl1, hc⟩
      · exact Or.inl h1
      · exact Or.inr ⟨l1, by simp [hl1], hc⟩

theorem lineStart_advance_ne {l : List Char} (hne : l ≠ []) (hl : ∀ c ∈ l, notLT c = true)
    (prev : Option Char) : lineStart (advance prev l) = false := by
  cases l with
  | nil => exact absurd rfl hne
  | cons c cs =>
    rw [advance_cons]
    apply lineStart_advance
    · have := hl c (by simp)
      simpa [lineStart, notLT] using this
    · intro d hd
      exact hl d (by simp [hd])

/-- A pattern that starts with `^` and does not match at the start of a line
passes the line. -/
theorem replaceWith_pass_line {m : Matcher} (hm : Anchored m) {l : List Char}
    (hl : ∀ c ∈ l, notLT c = true) (tmpl : List Char) (r : List Char) (prev : Option Char)
    (h0 : m prev (l ++ r) = none) :
    replaceWith m tmpl prev (l ++ r) 0 = l ++ replaceWith m tmpl (advance prev l) r 0 := by
  cases l with
  | nil => rfl
  | cons c cs =>
    have hc : lineStart (some c) = false := by
      have := hl c (by simp)
      simpa [lineStart, notLT] using this
    have h1 : m prev (c :: (cs ++ r)) = none := h0
    rw [List.cons_append, replaceWith_cons_none h1, advance_cons,
      replaceWith_pass_anchored hm hc (fun d hd => hl d (by simp [hd]))]
    rfl

theorem replaceWith_tailLines_id {m : Matcher} (hm : Anchored m) (tmpl : List Char)
    {ls : List (List Char)} (hls : ∀ l ∈ ls, QuietLine m l) (prev : Option Char)
    (hp : lineStart prev = false) :
    replaceWith m tmpl prev (tailLines ls) 0 = tailLines ls := by
  induction ls generalizing prev with
  | nil => simp [tailLines, replaceWith_nil, hm _ _ hp]
  | cons l ls ih =>
    obtain ⟨hne, hl, h0⟩ := hls l (by simp)
    rw [tailLines, replaceWith_cons_none (hm _ _ hp),
      replaceWith_pass_line hm hl tmpl _ _ (h0 _ _),
      ih (fun l1 h1 => hls l1 (by simp [h1])) _ (lineStart_advance_ne hne hl _)]

/-- A call with an anchored pattern returns a text none of whose lines it matches. -/
theorem stage_id_joinLines {m : Matcher} (hm : Anchored m) (tmpl : String)
    {l : List Char} {ls : List (List Char)} (hls : ∀ l1 ∈ l :: ls, QuietLine m l1) :
    stage m tmpl (joinLines (l :: ls)) = joinLines (l :: ls) := by
  obtain ⟨hne, hl, h0⟩ := hls l (by simp)
  unfold stage
  rw [joinLines, replaceWith_pass_line hm hl _ _ _ (h0 _ _),
    replaceWith_tailLines_id hm _ (fun l1 h1 => hls l1 (by simp [h1])) _
      (lineStart_advance_ne hne hl _)]

theorem tailLines_head (ls : List (List Char)) :
    tailLines ls = [] ∨ ∃ r, tailLines ls = '\n' :: r := by
  cases ls with
  | nil => exact Or.inl rfl
  | cons l ls => exact Or.inr ⟨_, rfl⟩

theorem takeWhile_append_tailLines {t : List Char} (ht : ∀ c ∈ t, notLT c = true)
    (ls : List (List Char)) :
    (t ++ tailLines ls).takeWhile notLT = t ∧ (t ++ tailLines ls).dropWhile notLT = tailLines ls := by
  rcases tailLines_head ls with h | ⟨r, h⟩
  · rw [h, List.append_nil]
    exact ⟨takeWhile_eq_self ht, dropWhile_eq_nil ht⟩
  · rw [h]
    induction t with
    | nil => simp [notLT, isLineTerminator]
    | cons c cs ih =>
      have hc := ht c (by simp)
      have := ih (fun d hd => ht d (by simp [hd]))
      simp [hc, this.1, this.2]

/-- A line rule rewrites each of several marked lines. -/
theorem replaceWith_tailLines_marked (d : Char) (ds : List Char) (hd : d ≠ '\n')
    (tmpl : List Char) (out : List Char → List Char)
    (hout : ∀ t m, expand [(1, t)] m tmpl = out t)
    (ts : List (List Char)) (hts : ∀ t ∈ ts, ∀ c ∈ t, notLT c = true) (prev : Option Char) :
    replaceWith (lineM (d :: ds)) tmpl prev (tailLines (ts.map (fun t => (d :: ds) ++ t))) 0 =
      tailLines (ts.map out) := by
  induction ts generalizing prev with
  | nil => simp [tailLines, replaceWith_nil, lineM, chop]
  | cons t ts ih =>
    have ht := hts t (by simp)
    have hsplit := takeWhile_append_tailLines ht (ts.map (fun t => (d :: ds) ++ t))
    have hm : lineM (d :: ds) (some '\n')
        (((d :: ds) ++ t) ++ tailLines (ts.map (fun t => (d :: ds) ++ t))) =
        some (tailLines (ts.map (fun t => (d :: ds) ++ t)), [(1, t)]) := by
      rw [List.append_assoc]
      unfold lineM
      rw [chop_append]
      have hls : lineStart (some '\n') = true := by decide
      simp only [hls, if_true, hsplit.1, hsplit.2]
    simp only [List.map_cons, tailLines]
    rw [replaceWith_cons_none (lineM_none_of_chop (chop_cons_ne (Ne.symm hd) _ _)),
      replaceWith_match hm (by simp), hout, ih (fun u hu => hts u (by simp [hu]))]

theorem stage_joinLines_marked (d : Char) (ds : List Char) (hd : d ≠ '\n')
    (tmpl : String) (out : List Char → List Char)
    (hout : ∀ t m, expand [(1, t)] m tmpl.data = out t)
    (t : List Char) (ts : List (List Char)) (hts : ∀ u ∈ t :: ts, ∀ c ∈ u, notLT c = true) :
    stage (lineM (d :: ds)) tmpl (joinLines ((t :: ts).map (fun t => (d :: ds) ++ t))) =
      joinLines ((t :: ts).map out) := by
  have ht := hts t (by simp)
  have hsplit := takeWhile_append_tailLines ht (ts.map (fun t => (d :: ds) ++ t))
  have hm : lineM (d :: ds) none
      (((d :: ds) ++ t) ++ tailLines (ts.map (fun t => (d :: ds) ++ t))) =
      some (tailLines (ts.map (fun t => (d :: ds) ++ t)), [(1, t)]) := by
    rw [List.append_assoc]
    unfold lineM
    rw [chop_append]
    have hls : lineStart none = true := rfl
    simp only [hls, if_true, hsplit.1, hsplit.2]
  unfold stage
  simp only [List.map_cons, joinLines]
  rw [replaceWith_match hm (by simp), hout,
    replaceWith_tailLines_marked d ds hd _ out hout ts (fun u hu => hts u (by simp [hu]))]

/-! ## Lists -/

theorem replaceWith_mergeM_prev (tag tmpl : List Char) (p q : Option Char) (s : List Char)
    (k : Nat) :
    replaceWith (mergeM tag) tmpl p s k = replaceWith (mergeM tag) tmpl q s k := by
  induction s generalizing p q k with
  | nil => cases k <;> rfl
  | cons c cs ih =>
    cases k with
    | zero =>
      have e : mergeM tag p (c :: cs) = mergeM tag q (c :: cs) := rfl
      cases h : mergeM tag q (c :: cs) with
      | none => rw [replaceWith_cons_none (e.trans h), replaceWith_cons_none h]
      | some x => rw [replaceWith_cons_some (e.trans h), replaceWith_cons_some h]
    | succ k => exact ih (some c) (some c) k

/-- A cleanup rule passes an element `<li>t</li>`. -/
theorem merge_pass_item (x : Char) (xs : List Char) (hx : x ≠ 'l') (t : List Char)
    (ht : ∀ c ∈ t, c ≠ '<') (r : List Char) (p q : Option Char) :
    replaceWith (mergeM (x :: xs)) [] p ("<li>".data ++ (t ++ ("</li>".data ++ r))) 0 =
      "<li>".data ++ (t ++ ("</li>".data ++ replaceWith (mergeM (x :: xs)) [] q r 0)) := by
  have hq : ∀ c ∈ t, ∀ p cs, mergeM (x :: xs) p (c :: cs) = none :=
    fun c hc p cs => mergeM_none_of_ne_lt _ (ht c hc) p cs
  rw [replaceWith_mergeM_prev _ _ q (some '>')]
  simp [replaceWith_cons_none, replaceWith_pass_head hq, mergeM, chop, Ne.symm hx]

theorem merge_pass_items (x : Char) (xs : List Char) (hx : x ≠ 'l') (ts : List (List Char))
    (hts : ∀ t ∈ ts, ∀ c ∈ t, c ≠ '<') (r : List Char) (p q : Option Char) :
    replaceWith (mergeM (x :: xs)) [] p (liItems ts ++ r) 0 =
      liItems ts ++ replaceWith (mergeM (x :: xs)) [] q r 0 := by
  induction ts generalizing p with
  | nil => exact replaceWith_mergeM_prev _ _ _ _ _ _
  | cons t ts ih =>
    have e : liItems (t :: ts) ++ r = "<li>".data ++ (t ++ ("</li>".data ++ (liItems ts ++ r))) := by
      simp [liItems]
    rw [e, merge_pass_item x xs hx t (hts t (by simp)) _ p q,
      ih (fun u hu => hts u (by simp [hu]))]
    simp [liItems]

/-- The cleanup rule for `ul` joins the single-item lists of consecutive lines. -/
theorem merge_lists (t : List Char) (ts : List (List Char))
    (hts : ∀ u ∈ t :: ts, ∀ c ∈ u, c ≠ '<') (p : Option Char) :
    replaceWith (mergeM "ul".data) [] p
        ("<li>".data ++ (t ++ ("</li></ul>".data ++ tailLines (ts.map ulLine)))) 0 =
      liItems (t :: ts) ++ "</ul>".data := by
  induction ts generalizing t p with
  | nil =>
    have h := merge_pass_item 'u' ['l'] (by decide) t (hts t (by simp)) "</ul>".data p none
    have e : replaceWith (mergeM ['u', 'l']) [] none "</ul>".data 0 = "</ul>".data := by decide
    calc replaceWith (mergeM "ul".data) [] p
          ("<li>".data ++ (t ++ ("</li></ul>".data ++ tailLines ([].map ulLine)))) 0
        = replaceWith (mergeM ['u', 'l']) [] p
            ("<li>".data ++ (t ++ ("</li>".data ++ "</ul>".data))) 0 := rfl
      _ = "<li>".data ++ (t ++ ("</li>".data ++ "</ul>".data)) := by rw [h, e]
      _ = liItems [t] ++ "</ul>".data := by simp [liItems]
  | cons u us ih =>
    have hm : mergeM ['u', 'l'] (some '>') ("</ul>\n<ul>".data ++
        ("<li>".data ++ (u ++ ("</li></ul>".data ++ tailLines (us.map ulLine))))) =
        some ("<li>".data ++ (u ++ ("</li></ul>".data ++ tailLines (us.map ulLine))), []) := by
      have w1 : isWhiteSpace '\n' = true := by decide
      have w2 : isWhiteSpace '<' = false := by decide
      simp [mergeM, chop, w1, w2]
    have h := merge_pass_item 'u' ['l'] (by decide) t (hts t (by simp))
      ("</ul>\n<ul>".data ++ ("<li>".data ++ (u ++ ("</li></ul>".data ++
          tailLines (us.map ulLine))))) p (some '>')
    have hu : ∀ v ∈ u :: us, ∀ c ∈ v, c ≠ '<' := fun v hv => hts v (List.mem_cons_of_mem _ hv)
    calc replaceWith (mergeM "ul".data) [] p
          ("<li>".data ++ (t ++ ("</li></ul>".data ++ tailLines ((u :: us).map ulLine)))) 0
        = replaceWith (mergeM ['u', 'l']) [] p
            ("<li>".data ++ (t ++ ("</li>".data ++ ("</ul>\n<ul>".data ++
              ("<li>".data ++ (u ++ ("</li></ul>".data ++ tailLines (us.map ulLine)))))))) 0 := by
          simp [tailLines, ulLine]
      _ = "<li>".data ++ (t ++ ("</li>".data ++ (liItems (u :: us) ++ "</ul>".data))) := by
          rw [h, replaceWith_match hm (by simp)]
          have e := ih u hu (advance (some '>') "</ul>\n<ul>".data)
          have e0 : expand [] "</ul>\n<ul>".data [] = [] := rfl
          rw [e0, List.nil_append]
          exact congrArg (fun z => "<li>".data ++ (t ++ ("</li>".data ++ z))) e
      _ = liItems (t :: u :: us) ++ "</ul>".data := by simp [liItems]

theorem mem_liItems {c : Char} {ts : List (List Char)} (h : c ∈ liItems ts) :
    c ∈ "<li>".data ∨ c ∈ "</li>".data ∨ ∃ t ∈ ts, c ∈ t := by
  induction ts with
  | nil => simp [liItems] at h
  | cons t ts ih =>
    have e : liItems (t :: ts) = "<li>".data ++ (t ++ ("</li>".data ++ liItems ts)) := by
      simp [liItems]
    rw [e] at h
    rcases List.mem_append.mp h with h | h
    · exact Or.inl h
    · rcases List.mem_append.mp h with h | h
      · exact Or.inr (Or.inr ⟨t, by simp, h⟩)
      · rcases List.mem_append.mp h with h | h
        · exact Or.inr (Or.inl h)
        · rcases ih h with h1 | h1 | ⟨u, hu, hc⟩
          · exact Or.inl h1
          · exact Or.inr (Or.inl h1)
          · exact Or.inr (Or.inr ⟨u, by simp [hu], hc⟩)

theorem quiet_dash (d : Char) (ds : List Char) (hd : d ≠ '-') {u : List Char}
    (hu : ∀ c ∈ u, notLT c = true) : QuietLine (lineM (d :: ds)) ("- ".data ++ u) := by
  refine ⟨by simp, ?_, ?_⟩
  · simp only [List.forall_mem_append]
    exact ⟨by decide, hu⟩
  · intro p r
    exact lineM_none_of_chop (chop_cons_ne (Ne.symm hd) _ _)

theorem ulLine_notLT {u : List Char} (hu : ∀ c ∈ u, notLT c = true) :
    ∀ c ∈ ulLine u, notLT c = true := by
  unfold ulLine
  simp only [List.forall_mem_append]
  exact ⟨by decide, hu, by decide⟩

theorem quiet_ulLine_lineM (d : Char) (ds : List Char) (hd : d ≠ '<') {u : List Char}
    (hu : ∀ c ∈ u, notLT c = true) : QuietLine (lineM (d :: ds)) (ulLine u) := by
  refine ⟨by simp [ulLine], ulLine_notLT hu, ?_⟩
  intro p r
  exact lineM_none_of_chop (chop_cons_ne (Ne.symm hd) _ _)

theorem quiet_ulLine_orderedM {u : List Char} (hu : ∀ c ∈ u, notLT c = true) :
    QuietLine orderedM (ulLine u) := by
  refine ⟨by simp [ulLine], ulLine_notLT hu, ?_⟩
  intro p r
  simp [orderedM, ulLine, isDigit]

theorem quiet_ulLine_paragraphM {u : List Char} (hu : ∀ c ∈ u, notLT c = true) :
    QuietLine paragraphM (ulLine u) := by
  refine ⟨by simp [ulLine], ulLine_notLT hu, ?_⟩
  intro p r
  simp [paragraphM, ulLine, tagAhead, isAsciiLetter]

/-- The list form of the list-merge property. -/
theorem transform_list (anchor : String) (t : List Char) (ts : List (List Char))
    (hit : ∀ u ∈ t :: ts, ∀ c ∈ u, isPlain c = true) :
    transform anchor (joinLines ((t :: ts).map (fun u => "- ".data ++ u))) =
      "<ul>".data ++ (liItems (t :: ts) ++ "</ul>".data) := by
  have hin : ∀ u ∈ t :: ts, ∀ c ∈ u, inert c = true := fun u hu c hc => plain_inert (hit u hu c hc)
  have hLT : ∀ u ∈ t :: ts, ∀ c ∈ u, notLT c = true := fun u hu c hc => (inert_spec (hin u hu c hc)).1
  have hlt : ∀ u ∈ t :: ts, ∀ c ∈ u, c ≠ '<' :=
    fun u hu c hc => (inert_spec (hin u hu c hc)).2.2.2.2.2
  have key : ∀ x, inert x = true → x ≠ '*' ∧ x ≠ '_' ∧ x ≠ Char.ofNat 96 ∧ x ≠ '[' := by
    intro x hx
    have := inert_spec hx
    exact ⟨this.2.1, this.2.2.1, this.2.2.2.1, this.2.2.2.2.1⟩
  -- the calls before the list rule
  have hch : ∀ c ∈ joinLines ((t :: ts).map (fun u => "- ".data ++ u)),
      c ≠ '*' ∧ c ≠ '_' ∧ c ≠ Char.ofNat 96 ∧ c ≠ '[' := by
    intro c hc
    rcases mem_joinLines hc with rfl | ⟨l, hl, hcl⟩
    · decide
    · obtain ⟨u, hu, rfl⟩ := List.mem_map.mp hl
      rcases List.mem_append.mp hcl with h | h
      · exact (by decide : ∀ c ∈ "- ".data, c ≠ '*' ∧ c ≠ '_' ∧ c ≠ Char.ofNat 96 ∧ c ≠ '[') c h
      · exact key c (hin u hu c h)
  have hquiet : ∀ d ds, d ≠ '-' →
      ∀ l ∈ (t :: ts).map (fun u => "- ".data ++ u), QuietLine (lineM (d :: ds)) l := by
    intro d ds hd l hl
    obtain ⟨u, hu, rfl⟩ := List.mem_map.mp hl
    exact quiet_dash d ds hd (hLT u hu)
  obtain ⟨i1, i2, i3, i4, i5, i6, -, -⟩ := inline_stage_id anchor hch
  have hpre : ∀ f ∈ (stages anchor).take 10,
      f (joinLines ((t :: ts).map (fun u => "- ".data ++ u))) =
        joinLines ((t :: ts).map (fun u => "- ".data ++ u)) := by
    intro f hf
    simp only [stages, List.take_succ_cons, List.take_zero, List.mem_cons, List.not_mem_nil,
      or_false] at hf
    rcases hf with rfl | rfl | rfl | rfl | rfl | rfl | rfl | rfl | rfl | rfl
    · exact stage_id_joinLines (lineM_anchored _) _ (hquiet _ _ (by decide))
    · exact stage_id_joinLines (lineM_anchored _) _ (hquiet _ _ (by decide))
    · exact stage_id_joinLines (lineM_anchored _) _ (hquiet _ _ (by decide))
    · exact i1
    · exact i2
    · exact i3
    · exact i4
    · exact i5
    · exact i6
    · exact stage_id_joinLines (lineM_anchored _) _ (hquiet _ _ (by decide))
  -- the list rule
  have h10 : stage (lineM "- ".data) "<ul><li>$1</li></ul>"
      (joinLines ((t :: ts).map (fun u => "- ".data ++ u))) = joinLines ((t :: ts).map ulLine) :=
    stage_joinLines_marked '-' [' '] (by decide) "<ul><li>$1</li></ul>" ulLine
      (fun _ _ => rfl) t ts hLT
  -- the calls between the list rule and the cleanup
  have hch2 : ∀ c ∈ joinLines ((t :: ts).map ulLine),
      c ≠ '*' ∧ c ≠ '_' ∧ c ≠ Char.ofNat 96 ∧ c ≠ '[' := by
    intro c hc
    rcases mem_joinLines hc with rfl | ⟨l, hl, hcl⟩
    · decide
    · obtain ⟨u, hu, rfl⟩ := List.mem_map.mp hl
      unfold ulLine at hcl
      rcases List.mem_append.mp hcl with h | h
      · exact (by decide : ∀ c ∈ "<ul><li>".data, c ≠ '*' ∧ c ≠ '_' ∧ c ≠ Char.ofNat 96 ∧ c ≠ '[') c h
      · rcases List.mem_append.mp h with h | h
        · exact key c (hin u hu c h)
        · exact (by decide : ∀ c ∈ "</li></ul>".data, c ≠ '*' ∧ c ≠ '_' ∧ c ≠ Char.ofNat 96 ∧ c ≠ '[') c h
  obtain ⟨-, -, -, -, -, -, j7, j8⟩ := inline_stage_id anchor hch2
  have hmid : ∀ f ∈ ((stages anchor).drop 11).take 6,
      f (joinLines ((t :: ts).map ulLine)) = joinLines ((t :: ts).map ulLine) := by
    intro f hf
    simp only [stages, List.drop_succ_cons, List.drop_zero, List.take_succ_cons, List.take_zero,
      List.mem_cons, List.not_mem_nil, or_false] at hf
    have hq : ∀ m : Matcher, (∀ u, (∀ c ∈ u, notLT c = true) → QuietLine m (ulLine u)) →
        ∀ l ∈ (t :: ts).map ulLine, QuietLine m l := by
      intro m hm l hl
      obtain ⟨u, hu, rfl⟩ := List.mem_map.mp hl
      exact hm u (hLT u hu)
    rcases hf with rfl | rfl | rfl | rfl | rfl | rfl
    · exact stage_id_joinLines (lineM_anchored _) _
        (hq _ (fun u hu => quiet_ulLine_lineM _ _ (by decide) hu))
    · exact stage_id_joinLines orderedM_anchored _ (hq _ (fun u hu => quiet_ulLine_orderedM hu))
    · exact j7
    · exact j8
    · exact stage_id_joinLines (lineM_anchored _) _
        (hq _ (fun u hu => quiet_ulLine_lineM _ _ (by decide) hu))
    · exact stage_id_joinLines paragraphM_anchored _
        (hq _ (fun u hu => quiet_ulLine_paragraphM hu))
  -- the cleanup
  have h17 : stage (mergeM "ul".data) "" (joinLines ((t :: ts).map ulLine)) =
      "<ul>".data ++ (liItems (t :: ts) ++ "</ul>".data) := by
    have e := merge_lists t ts hlt (some '>')
    calc stage (mergeM "ul".data) "" (joinLines ((t :: ts).map ulLine))
        = replaceWith (mergeM "ul".data) [] none ("<ul>".data ++ ("<li>".data ++
            (t ++ ("</li></ul>".data ++ tailLines (ts.map ulLine))))) 0 := by
          simp [stage, joinLines, ulLine]
      _ = "<ul>".data ++ replaceWith (mergeM "ul".data) [] (some '>') ("<li>".data ++
            (t ++ ("</li></ul>".data ++ tailLines (ts.map ulLine)))) 0 := by
          simp [replaceWith_cons_none, mergeM, chop]
      _ = "<ul>".data ++ (liItems (t :: ts) ++ "</ul>".data) := by rw [e]
  have h18 : stage (mergeM "ol".data) "" ("<ul>".data ++ (liItems (t :: ts) ++ "</ul>".data)) =
      "<ul>".data ++ (liItems (t :: ts) ++ "</ul>".data) := by
    have e := merge_pass_items 'o' ['l'] (by decide) (t :: ts) hlt "</ul>".data (some '>') none
    have e2 : replaceWith (mergeM ['o', 'l']) [] none "</ul>".data 0 = "</ul>".data := by decide
    calc stage (mergeM "ol".data) "" ("<ul>".data ++ (liItems (t :: ts) ++ "</ul>".data))
        = "<ul>".data ++ replaceWith (mergeM ['o', 'l']) [] (some '>')
            (liItems (t :: ts) ++ "</ul>".data) 0 := by
          simp [stage, replaceWith_cons_none, mergeM, chop]
      _ = "<ul>".data ++ (liItems (t :: ts) ++ "</ul>".data) := by rw [e, e2]
  have h19 : stage newlineM "<br />" ("<ul>".data ++ (liItems (t :: ts) ++ "</ul>".data)) =
      "<ul>".data ++ (liItems (t :: ts) ++ "</ul>".data) := by
    apply stage_id_of_needs (needs_of_startsWith newlineM_startsWith)
    simp only [List.forall_mem_append]
    refine ⟨by decide, ?_, by decide⟩
    intro c hc
    rcases mem_liItems hc with h | h | ⟨u, hu, h⟩
    · exact (by decide : ∀ c ∈ "<li>".data, c ≠ '\n') c h
    · exact (by decide : ∀ c ∈ "</li>".data, c ≠ '\n') c h
    · exact notLT_ne_newline (hLT u hu c h)
  rw [transform_eq_runStages,
    runStages_at 10 (stages anchor) (stage (lineM "- ".data) "<ul><li>$1</li></ul>") rfl,
    runStages_id hpre, h10, runStages_split 6, runStages_id hmid]
  have e : runStages (List.drop 6 (List.drop (10 + 1) (stages anchor)))
      (joinLines ((t :: ts).map ulLine)) =
      stage newlineM "<br />" (stage (mergeM "ol".data) "" (stage (mergeM "ul".data) ""
        (joinLines ((t :: ts).map ulLine)))) := rfl
  rw [e, h17, h18, h19]


/-! ## What a call can put into its output -/

theorem capture_mem {caps : Captures} {i : Nat} {c : Char} (h : c ∈ capture caps i) :
    ∃ x ∈ caps, c ∈ x.2 := by
  induction caps with
  | nil => simp [capture] at h
  | cons x xs ih =>
    obtain ⟨j, txt⟩ := x
    by_cases hij : i = j
    · subst hij
      simp only [capture, List.lookup_cons, beq_self_eq_true, Option.getD_some] at h
      exact ⟨(i, txt), by simp, h⟩
    · have hne : (i == j) = false := by simpa using hij
      simp only [capture, List.lookup_cons, hne] at h
      obtain ⟨y, hy, hc⟩ := ih h
      exact ⟨y, by simp [hy], hc⟩

/-- Every character of an expanded template comes from the template, from the
matched text or from a capture. -/
theorem expand_mem (caps : Captures) (matched : List Char) (tmpl : List Char) {c : Char}
    (h : c ∈ expand caps matched tmpl) :
    c ∈ tmpl ∨ c ∈ matched ∨ ∃ x ∈ caps, c ∈ x.2 := by
  induction tmpl using expand.induct caps matched with
  | case1 => simp [expand] at h
  | case2 d =>
    simp only [expand, List.mem_singleton] at h
    exact Or.inl (by simp [h])
  | case3 cs ih =>
    simp only [expand, if_true] at h
    rcases List.mem_cons.mp h with h | h
    · left; simp [h]
    · rcases ih h with h1 | h1 | h1
      · left; simp [h1]
      · exact Or.inr (Or.inl h1)
      · exact Or.inr (Or.inr h1)
  | case4 cs hd ih =>
    simp only [expand, if_true, hd, if_false] at h
    rcases List.mem_append.mp h with h | h
    · exact Or.inr (Or.inl h)
    · rcases ih h with h1 | h1 | h1
      · left; simp [h1]
      · exact Or.inr (Or.inl h1)
      · exact Or.inr (Or.inr h1)
  | case5 d cs hd1 hd2 hd3 ih =>
    simp only [expand, if_true, hd1, hd2, hd3, if_false] at h
    rcases List.mem_append.mp h with h | h
    · exact Or.inr (Or.inr (capture_mem h))
    · rcases ih h with h1 | h1 | h1
      · left; simp [h1]
      · exact Or.inr (Or.inl h1)
      · exact Or.inr (Or.inr h1)
  | case6 d cs hd1 hd2 hd3 ih =>
    simp only [expand, if_true, hd1, hd2, hd3, if_false] at h
    rcases List.mem_cons.mp h with h | h
    · left; simp [h]
    · rcases ih h with h1 | h1 | h1
      · left; simp only [List.mem_cons] at h1 ⊢; tauto
      · exact Or.inr (Or.inl h1)
      · exact Or.inr (Or.inr h1)
  | case7 c0 d cs hc ih =>
    simp only [expand, hc, if_false] at h
    rcases List.mem_cons.mp h with h | h
    · left; simp [h]
    · rcases ih h with h1 | h1 | h1
      · left; simp only [List.mem_cons] at h1 ⊢; tauto
      · exact Or.inr (Or.inl h1)
      · exact Or.inr (Or.inr h1)

/-- A property of characters that holds on the input, on the template and on
the captures holds on the output of the replacement loop. -/
theorem replaceWith_forall {m : Matcher} (hm : CapsFrom m) (tmpl : List Char)
    (P : Char → Prop) (htmpl : ∀ c ∈ tmpl, P c) (s : List Char) (hs : ∀ c ∈ s, P c)
    (prev : Option Char) (k : Nat) :
    ∀ c ∈ replaceWith m tmpl prev s k, P c := by
  have hexp : ∀ (p : Option Char) (u r : List Char) (caps : Captures) (matched : List Char),
      m p u = some (r, caps) → (∀ c ∈ u, P c) → (∀ c ∈ matched, P c) →
      ∀ c ∈ expand caps matched tmpl, P c := by
    intro p u r caps matched hmu hu hmat c hc
    rcases expand_mem caps matched tmpl hc with h | h | ⟨x, hx, hcx⟩
    · exact htmpl c h
    · exact hmat c h
    · exact hu c (hm p u r caps hmu x hx c hcx)
  induction s generalizing prev k with
  | nil =>
    cases k with
    | succ k => simp [replaceWith]
    | zero =>
      rw [replaceWith_nil]
      cases hmu : m prev [] with
      | none => simp
      | some x =>
        obtain ⟨r, caps⟩ := x
        exact hexp prev [] r caps [] hmu (by simp) (by simp)
  | cons c cs ih =>
    have hcs : ∀ d ∈ cs, P d := fun d hd => hs d (by simp [hd])
    cases k with
    | succ k =>
      simp only [replaceWith]
      exact ih hcs _ _
    | zero =>
      cases hmu : m prev (c :: cs) with
      | none =>
        rw [replaceWith_cons_none hmu]
        intro d hd
        rcases List.mem_cons.mp hd with h | h
        · rw [h]; exact hs c (by simp)
        · exact ih hcs _ _ d h
      | some x =>
        obtain ⟨r, caps⟩ := x
        rw [replaceWith_cons_some hmu]
        intro d hd
        rcases List.mem_append.mp hd with h | h
        · exact hexp prev (c :: cs) r caps _ hmu hs
            (fun e he => hs e (List.mem_of_mem_take he)) d h
        · split at h
          · rcases List.mem_cons.mp h with h | h
            · rw [h]; exact hs c (by simp)
            · exact ih hcs _ _ d h
          · exact ih hcs _ _ d h

theorem stage_forall {m : Matcher} (hm : CapsFrom m) (tmpl : String)
    (P : Char → Prop) (htmpl : ∀ c ∈ tmpl.data, P c) {s : List Char} (hs : ∀ c ∈ s, P c) :
    ∀ c ∈ stage m tmpl s, P c :=
  replaceWith_forall hm tmpl.data P htmpl s hs none 0

/-- What the lazy search returns comes from its continuation, after a stretch
of the input that it has added to the captured text. -/
theorem lazyFind_some {α : Type} {p : Char → Bool}
    {g : List Char → Option Char → List Char → Option α} {acc : List Char} {prev : Option Char}
    {r : List Char} {x : α} (h : lazyFind p g acc prev r = some x) :
    ∃ a b q, r = a ++ b ∧ (∀ c ∈ a, p c = true) ∧ g (acc ++ a) q b = some x := by
  induction r generalizing acc prev with
  | nil => exact ⟨[], [], prev, rfl, by simp, by simpa [lazyFind] using h⟩
  | cons c cs ih =>
    simp only [lazyFind] at h
    cases hg : g acc prev (c :: cs) with
    | some y =>
      rw [hg] at h
      exact ⟨[], c :: cs, prev, rfl, by simp, by simpa [hg] using h⟩
    | none =>
      rw [hg] at h
      by_cases hc : p c = true
      · simp only [hc, if_true] at h
        obtain ⟨a, b, q, hab, hap, hgab⟩ := ih h
        refine ⟨c :: a, b, q, by simp [hab], ?_, by simpa using hgab⟩
        intro d hd
        rcases List.mem_cons.mp hd with h1 | h1
        · rw [h1]; exact hc
        · exact hap d h1
      · simp [hc] at h

/-- The shape of a match of a span rule. -/
theorem spanM_some {d : List Char} {p : Option Char} {s r : List Char} {caps : Captures}
    (h : spanM d p s = some (r, caps)) :
    ∃ t, s = d ++ (t ++ (d ++ r)) ∧ caps = [(1, t)] ∧ ∀ c ∈ t, notLT c = true := by
  unfold spanM at h
  cases hc : chop d s with
  | none => simp [hc] at h
  | some r0 =>
    simp only [hc] at h
    obtain ⟨a, b, q, hab, hap, hg⟩ := lazyFind_some h
    cases hc2 : chop d b with
    | none => simp [hc2] at hg
    | some r2 =>
      simp only [hc2, Option.map_some', Option.some.injEq, Prod.mk.injEq, List.nil_append] at hg
      refine ⟨a, ?_, hg.2.symm, hap⟩
      rw [chop_eq_some.mp hc, hab, chop_eq_some.mp hc2, hg.1]

theorem spanM_capsFrom (d : List Char) : CapsFrom (spanM d) := by
  intro p s r caps h x hx c hc
  obtain ⟨t, hs, hcaps, -⟩ := spanM_some h
  rw [hcaps] at hx
  simp only [List.mem_singleton] at hx
  subst hx
  rw [hs]
  simp [show c ∈ t from hc]

theorem mergeM_capsFrom (tag : List Char) : CapsFrom (mergeM tag) := by
  intro p s r caps h x hx c hc
  unfold mergeM at h
  cases hc1 : chop ('<' :: '/' :: (tag ++ ['>'])) s with
  | none => simp [hc1] at h
  | some r0 =>
    simp only [hc1] at h
    cases hc2 : chop ('<' :: (tag ++ ['>'])) (r0.dropWhile isWhiteSpace) with
    | none => simp [hc2] at h
    | some r1 =>
      simp only [hc2, Option.some.injEq, Prod.mk.injEq] at h
      rw [← h.2] at hx
      simp at hx

/-- The shape of a match of the link or image rule. -/
theorem bracketM_some {opener : List Char} {p : Option Char} {s r : List Char} {caps : Captures}
    (h : bracketM opener p s = some (r, caps)) :
    ∃ label url, s = opener ++ (label ++ (']' :: '(' :: (url ++ (')' :: r)))) ∧
      caps = [(2, url), (1, label)] := by
  unfold bracketM at h
  cases hc : chop opener s with
  | none => simp [hc] at h
  | some r0 =>
    simp only [hc] at h
    by_cases h1 : r0.takeWhile (fun c => !(c == ']')) = []
    · simp [h1] at h
    · simp only [h1, if_false] at h
      cases hc1 : chop [']', '('] (r0.dropWhile (fun c => !(c == ']'))) with
      | none => simp [hc1] at h
      | some r1 =>
        simp only [hc1] at h
        by_cases h2 : r1.takeWhile (fun c => !(c == ')')) = []
        · simp [h2] at h
        · simp only [h2, if_false] at h
          cases hc2 : chop [')'] (r1.dropWhile (fun c => !(c == ')'))) with
          | none => simp [hc2] at h
          | some r2 =>
            simp only [hc2, Option.some.injEq, Prod.mk.injEq] at h
            refine ⟨r0.takeWhile (fun c => !(c == ']')), r1.takeWhile (fun c => !(c == ')')),
              ?_, h.2.symm⟩
            have e0 := chop_eq_some.mp hc
            have e1 := chop_eq_some.mp hc1
            have e2 := chop_eq_some.mp hc2
            have t0 := List.takeWhile_append_dropWhile (fun c => !(c == ']')) r0
            have t1 := List.takeWhile_append_dropWhile (fun c => !(c == ')')) r1
            rw [e0, ← h.1]
            conv_lhs => rw [← t0, e1, ← t1, e2]
            simp

theorem bracketM_capsFrom (opener : List Char) : CapsFrom (bracketM opener) := by
  intro p s r caps h x hx c hc
  obtain ⟨label, url, hs, hcaps⟩ := bracketM_some h
  rw [hcaps] at hx
  rw [hs]
  simp only [List.mem_cons, List.mem_singleton, List.not_mem_nil, or_false] at hx
  rcases hx with rfl | rfl
  · simp [show c ∈ url from hc]
  · simp [show c ∈ label from hc]

/-! ## Calls that keep the ends of a text -/

/-- The loop leaves a final stretch in which no match starts as it is. -/
theorem replaceWith_tail_id {m : Matcher} (tmpl suf : List Char)
    (hsuf : ∀ p a b, suf = a ++ b → m p b = none) (prev : Option Char) :
    replaceWith m tmpl prev suf 0 = suf := by
  have h := replaceWith_pass (m := m) tmpl suf [] prev (by
    intro a c b hab
    rw [List.append_nil]
    exact hsuf _ a (c :: b) hab)
  rw [List.append_nil] at h
  rw [h, replaceWith_nil, hsuf _ suf [] (by simp)]
  simp

/-- If every match that starts before the final stretch `suf` ends before it,
and no match starts inside it, then the output ends with `suf`. -/
theorem replaceWith_frame {m : Matcher} (tmpl suf : List Char)
    (hmid : ∀ p x r caps, m p (x ++ suf) = some (r, caps) → ∃ y, r = y ++ suf)
    (hsuf : ∀ p a b, suf = a ++ b → m p b = none) :
    ∀ (n : Nat) (mid : List Char), mid.length = n → ∀ prev,
      ∃ mid1, replaceWith m tmpl prev (mid ++ suf) 0 = mid1 ++ suf := by
  intro n
  induction n using Nat.strong_induction_on with
  | _ n ih =>
    intro mid hlen prev
    cases mid with
    | nil => exact ⟨[], by simp [replaceWith_tail_id tmpl suf hsuf]⟩
    | cons c cs =>
      have hlt : cs.length < n := by rw [← hlen]; simp
      cases hmu : m prev (c :: (cs ++ suf)) with
      | none =>
        obtain ⟨mid1, h1⟩ := ih cs.length hlt cs rfl (some c)
        exact ⟨c :: mid1, by rw [List.cons_append, replaceWith_cons_none hmu, h1]; rfl⟩
      | some x =>
        obtain ⟨r, caps⟩ := x
        obtain ⟨y, hy⟩ := hmid prev (c :: cs) r caps hmu
        rw [List.cons_append, replaceWith_cons_some hmu]
        split
        · obtain ⟨mid1, h1⟩ := ih cs.length hlt cs rfl (some c)
          exact ⟨expand caps ((c :: (cs ++ suf)).take ((c :: (cs ++ suf)).length - r.length)) tmpl
            ++ c :: mid1, by rw [h1]; simp⟩
        · rename_i hn
          have hk : (c :: (cs ++ suf)).length - r.length - 1 ≤ cs.length := by
            rw [hy]
            simp only [List.length_cons, List.length_append]
            omega
          have e : cs ++ suf = cs.take ((c :: (cs ++ suf)).length - r.length - 1) ++
              (cs.drop ((c :: (cs ++ suf)).length - r.length - 1) ++ suf) := by
            rw [← List.append_assoc, List.take_append_drop]
          have hl : (cs.take ((c :: (cs ++ suf)).length - r.length - 1)).length =
              (c :: (cs ++ suf)).length - r.length - 1 := by
            rw [List.length_take]
            omega
          have hlt2 : (cs.drop ((c :: (cs ++ suf)).length - r.length - 1)).length < n := by
            rw [List.length_drop]
            omega
          obtain ⟨mid1, h1⟩ := ih _ hlt2 (cs.drop ((c :: (cs ++ suf)).length - r.length - 1)) rfl
            (advance (some c) (cs.take ((c :: (cs ++ suf)).length - r.length - 1)))
          have h2 := replaceWith_skip m tmpl (cs.take ((c :: (cs ++ suf)).length - r.length - 1))
            (cs.drop ((c :: (cs ++ suf)).length - r.length - 1) ++ suf) (some c)
          rw [hl, ← e, h1] at h2
          exact ⟨expand caps ((c :: (cs ++ suf)).take ((c :: (cs ++ suf)).length - r.length)) tmpl
            ++ mid1, by rw [h2]; simp⟩

theorem append_tail_of_not_mem {x suf a r : List Char} {d : Char}
    (h : x ++ suf = a ++ d :: r) (hd : d ∉ suf) : ∃ y, r = y ++ suf := by
  rcases List.append_eq_append_iff.mp h with ⟨a1, -, h2⟩ | ⟨c1, -, h2⟩
  · exact absurd (by rw [h2]; simp) hd
  · cases c1 with
    | nil =>
      rw [List.nil_append] at h2
      exact absurd (by rw [← h2]; simp) hd
    | cons e es =>
      simp only [List.cons_append, List.cons.injEq] at h2
      exact ⟨es, h2.2⟩

/-- A match of the link or image rule ends before a final stretch without `)`. -/
theorem bracketM_ends_before (opener suf : List Char) (hs : ')' ∉ suf) :
    ∀ p x r caps, bracketM opener p (x ++ suf) = some (r, caps) → ∃ y, r = y ++ suf := by
  intro p x r caps h
  obtain ⟨label, url, hs1, -⟩ := bracketM_some h
  have e : x ++ suf = (opener ++ (label ++ (']' :: '(' :: url))) ++ ')' :: r := by
    rw [hs1]; simp
  exact append_tail_of_not_mem e hs

theorem none_in_tail_of_needs {m : Matcher} {d : Char} (hm : Needs m d) {suf : List Char}
    (hs : d ∉ suf) : ∀ p a b, suf = a ++ b → m p b = none := by
  intro p a b hab
  cases hmb : m p b with
  | none => rfl
  | some x =>
    have := hm p b x.1 x.2 hmb
    exact absurd (by rw [hab]; simp [this]) hs

/-- The shape of a match of a cleanup rule. -/
theorem mergeM_some {tag : List Char} {p : Option Char} {s r : List Char} {caps : Captures}
    (h : mergeM tag p s = some (r, caps)) :
    ∃ ws, s = ('<' :: '/' :: (tag ++ '>' :: (ws ++ ('<' :: tag)))) ++ '>' :: r ∧
      ∀ c ∈ ws, isWhiteSpace c = true := by
  unfold mergeM at h
  cases hc1 : chop ('<' :: '/' :: (tag ++ ['>'])) s with
  | none => simp [hc1] at h
  | some r0 =>
    simp only [hc1] at h
    cases hc2 : chop ('<' :: (tag ++ ['>'])) (r0.dropWhile isWhiteSpace) with
    | none => simp [hc2] at h
    | some r1 =>
      simp only [hc2, Option.some.injEq, Prod.mk.injEq] at h
      refine ⟨r0.takeWhile isWhiteSpace, ?_, fun c hc => (List.mem_takeWhile_imp hc)⟩
      have e1 := chop_eq_some.mp hc1
      have e2 := chop_eq_some.mp hc2
      have t0 := List.takeWhile_append_dropWhile isWhiteSpace r0
      rw [e1, ← h.1]
      conv_lhs => rw [← t0, e2]
      simp

/-- A match of a cleanup rule ends before a final `</li...`. -/
theorem mergeM_ends_before (tag rest : List Char) (ht : 'i' ∉ tag) :
    ∀ p x r caps, mergeM tag p (x ++ ('<' :: '/' :: 'l' :: 'i' :: rest)) = some (r, caps) →
      ∃ y, r = y ++ ('<' :: '/' :: 'l' :: 'i' :: rest) := by
  intro p x r caps h
  obtain ⟨ws, hs, hws⟩ := mergeM_some h
  have hi : 'i' ∉ ('<' :: '/' :: (tag ++ '>' :: (ws ++ ('<' :: tag)))) := by
    simp only [List.mem_cons, List.mem_append, not_or]
    refine ⟨by decide, by decide, ht, by decide, ?_, by decide, ht⟩
    intro hmem
    exact absurd (hws _ hmem) (by decide)
  rcases List.append_eq_append_iff.mp hs with ⟨a1, h1, h2⟩ | ⟨c1, h1, h2⟩
  · -- the match would end inside the final stretch
    rcases a1 with _ | ⟨c1, _ | ⟨c2, _ | ⟨c3, _ | ⟨c4, a4⟩⟩⟩⟩
    · have h3 : [] ++ ('>' :: r) = '<' :: '/' :: 'l' :: 'i' :: rest := h2.symm
      simp at h3
    · have h3 : [c1] ++ ('>' :: r) = '<' :: '/' :: 'l' :: 'i' :: rest := h2.symm
      simp at h3
    · have h3 : [c1, c2] ++ ('>' :: r) = '<' :: '/' :: 'l' :: 'i' :: rest := h2.symm
      simp at h3
    · have h3 : [c1, c2, c3] ++ ('>' :: r) = '<' :: '/' :: 'l' :: 'i' :: rest := h2.symm
      simp at h3
    · have h3 : (c1 :: c2 :: c3 :: c4 :: a4) ++ ('>' :: r) = '<' :: '/' :: 'l' :: 'i' :: rest :=
        h2.symm
      simp only [List.cons_append, List.cons.injEq] at h3
      exfalso
      apply hi
      rw [h1, h3.2.2.2.1]
      simp
  · cases c1 with
    | nil =>
      rw [List.nil_append] at h2
      simp at h2
    | cons e es =>
      simp only [List.cons_append, List.cons.injEq] at h2
      exact ⟨es, h2.2⟩

theorem runStages_inv {Q : List Char → Prop} {fs : List (List Char → List Char)}
    (h : ∀ f ∈ fs, ∀ s, Q s → Q (f s)) {s : List Char} (hs : Q s) : Q (runStages fs s) := by
  unfold runStages
  induction fs generalizing s with
  | nil => exact hs
  | cons f fs ih =>
    rw [List.foldl_cons]
    exact ih (fun g hg => h g (by simp [hg])) (h f (by simp) s hs)

theorem framed_notLT {pre suf s : List Char} (hpre : ∀ c ∈ pre, notLT c = true)
    (hsuf : ∀ c ∈ suf, notLT c = true) (h : Framed pre suf s) : ∀ c ∈ s, notLT c = true := by
  obtain ⟨t, rfl, ht⟩ := h
  simp only [List.forall_mem_append]
  exact ⟨hpre, ht, hsuf⟩

/-- A call keeps the two ends of a framed line if no match starts in them and
every match ends before the final one. -/
theorem stage_framed {m : Matcher} (hm : CapsFrom m) (tmpl : String)
    (htmpl : ∀ c ∈ tmpl.data, notLT c = true) (pre suf : List Char)
    (hpreLT : ∀ c ∈ pre, notLT c = true) (hsufLT : ∀ c ∈ suf, notLT c = true)
    (hpre : ∀ rest, replaceWith m tmpl.data none (pre ++ rest) 0 =
      pre ++ replaceWith m tmpl.data (advance none pre) rest 0)
    (hmid : ∀ p x r caps, m p (x ++ suf) = some (r, caps) → ∃ y, r = y ++ suf)
    (hsuf : ∀ p a b, suf = a ++ b → m p b = none)
    {s : List Char} (hs : Framed pre suf s) : Framed pre suf (stage m tmpl s) := by
  have hall := stage_forall hm tmpl (fun c => notLT c = true) htmpl (framed_notLT hpreLT hsufLT hs)
  obtain ⟨t, rfl, ht⟩ := hs
  obtain ⟨mid1, h1⟩ := replaceWith_frame tmpl.data suf hmid hsuf t.length t rfl (advance none pre)
  have e : stage m tmpl (pre ++ (t ++ suf)) = pre ++ (mid1 ++ suf) := by
    unfold stage
    rw [hpre, h1]
  rw [e] at hall ⊢
  exact ⟨mid1, rfl, fun c hc => hall c (by simp [hc])⟩

theorem mergeM_none_in_item_tail :
    (∀ b ∈ "</li></ul>".data.tails, mergeM "ul".data none b = none) ∧
    (∀ b ∈ "</li></ol>".data.tails, mergeM "ul".data none b = none) ∧
    (∀ b ∈ "</li></ul>".data.tails, mergeM "ol".data none b = none) ∧
    (∀ b ∈ "</li></ol>".data.tails, mergeM "ol".data none b = none) := by
  decide

/-- The calls after the list rules keep the opening and closing text around
the item of a `ul` or `ol` list. -/
theorem post_stage_framed (anchor : String) (hanchor : ∀ c ∈ anchor.data, notLT c = true)
    (x : Char) (hx : x = 'u' ∨ x = 'o') :
    ∀ f ∈ (stages anchor).drop 10, ∀ s,
      Framed ('<' :: x :: "l><li>".data) ('<' :: '/' :: 'l' :: 'i' :: '>' :: '<' :: '/' :: x :: "l>".data) s →
      Framed ('<' :: x :: "l><li>".data) ('<' :: '/' :: 'l' :: 'i' :: '>' :: '<' :: '/' :: x :: "l>".data)
        (f s) := by
  intro f hf s hs
  have hxl : isAsciiLetter x = true := by rcases hx with rfl | rfl <;> decide
  have hpreLT : ∀ c ∈ '<' :: x :: "l><li>".data, notLT c = true := by
    rcases hx with rfl | rfl <;> decide
  have hsufLT : ∀ c ∈ '<' :: '/' :: 'l' :: 'i' :: '>' :: '<' :: '/' :: x :: "l>".data,
      notLT c = true := by
    rcases hx with rfl | rfl <;> decide
  have hLT := framed_notLT hpreLT hsufLT hs
  have hhead : ∀ d, d ≠ '<' → s.head? ≠ some d := by
    obtain ⟨t, rfl, -⟩ := hs
    intro d hd h
    simp only [List.cons_append, List.head?_cons, Option.some.injEq] at h
    exact hd h.symm
  have hid : ∀ {g : List Char → List Char}, g s = s →
      Framed ('<' :: x :: "l><li>".data)
        ('<' :: '/' :: 'l' :: 'i' :: '>' :: '<' :: '/' :: x :: "l>".data) (g s) := by
    intro g hg
    rw [hg]
    exact hs
  simp only [stages, List.drop_succ_cons, List.drop_zero, List.mem_cons, List.not_mem_nil,
    or_false] at hf
  rcases hf with rfl | rfl | rfl | rfl | rfl | rfl | rfl | rfl | rfl | rfl
  · exact hid (stage_lineM_id _ _ _ hLT (hhead _ (by decide)))
  · exact hid (stage_lineM_id _ _ _ hLT (hhead _ (by decide)))
  · apply hid
    apply stage_id_of_anchored orderedM_anchored _ hLT
    obtain ⟨t, rfl, -⟩ := hs
    simp [orderedM, isDigit]
  · refine stage_framed (bracketM_capsFrom _) _ hanchor _ _ hpreLT hsufLT ?_ ?_ ?_ hs
    · intro rest
      apply replaceWith_pass_head
      intro c hc p cs
      apply (bracketM_startsWith _ _).2
      revert c
      rcases hx with rfl | rfl <;> decide
    · apply bracketM_ends_before
      rcases hx with rfl | rfl <;> decide
    · apply none_in_tail_of_needs (bracketM_needs (by decide))
      rcases hx with rfl | rfl <;> decide
  · refine stage_framed (bracketM_capsFrom _) _ (by decide) _ _ hpreLT hsufLT ?_ ?_ ?_ hs
    · intro rest
      apply replaceWith_pass_head
      intro c hc p cs
      apply (bracketM_startsWith _ _).2
      revert c
      rcases hx with rfl | rfl <;> decide
    · apply bracketM_ends_before
      rcases hx with rfl | rfl <;> decide
    · apply none_in_tail_of_needs (bracketM_needs (by decide))
      rcases hx with rfl | rfl <;> decide
  · exact hid (stage_lineM_id _ _ _ hLT (hhead _ (by decide)))
  · apply hid
    apply stage_id_of_anchored paragraphM_anchored _ hLT
    obtain ⟨t, rfl, -⟩ := hs
    simp [paragraphM, tagAhead, hxl]
  · refine stage_framed (mergeM_capsFrom _) _ (by decide) _ _ hpreLT hsufLT ?_ ?_ ?_ hs
    · intro rest
      rcases hx with rfl | rfl <;> simp [replaceWith_cons_none, mergeM, chop]
    · exact mergeM_ends_before _ _ (by decide)
    · intro p a b hab
      have hb : b ∈ ('<' :: '/' :: 'l' :: 'i' :: '>' :: '<' :: '/' :: x :: "l>".data).tails := by
        rw [List.mem_tails]
        exact ⟨a, hab.symm⟩
      have e : mergeM "ul".data p b = mergeM "ul".data none b := rfl
      rw [e]
      rcases hx with rfl | rfl
      · exact mergeM_none_in_item_tail.1 b hb
      · exact mergeM_none_in_item_tail.2.1 b hb
  · refine stage_framed (mergeM_capsFrom _) _ (by decide) _ _ hpreLT hsufLT ?_ ?_ ?_ hs
    · intro rest
      rcases hx with rfl | rfl <;> simp [replaceWith_cons_none, mergeM, chop]
    · exact mergeM_ends_before _ _ (by decide)
    · intro p a b hab
      have hb : b ∈ ('<' :: '/' :: 'l' :: 'i' :: '>' :: '<' :: '/' :: x :: "l>".data).tails := by
        rw [List.mem_tails]
        exact ⟨a, hab.symm⟩
      have e : mergeM "ol".data p b = mergeM "ol".data none b := rfl
      rw [e]
      rcases hx with rfl | rfl
      · exact mergeM_none_in_item_tail.2.2.1 b hb
      · exact mergeM_none_in_item_tail.2.2.2 b hb
  · apply hid
    exact stage_id_of_needs (needs_of_startsWith newlineM_startsWith) _
      (fun c hc => notLT_ne_newline (hLT c hc))

/-! ## List markers -/

theorem fenceM_needs_newline : Needs fenceM '\n' := by
  intro p s r caps h
  unfold fenceM at h
  cases hc : chop "```".data s with
  | none => simp [hc] at h
  | some r0 =>
    simp only [hc] at h
    obtain ⟨a, b, q, hab, -, hg⟩ := lazyFind_some h
    cases b with
    | nil => simp at hg
    | cons c r2 =>
      by_cases hcn : c = '\n'
      · rw [chop_eq_some.mp hc, hab, hcn]
        simp
      · simp [hcn] at hg

theorem spanM_none_of_no_close (d0 : Char) (ds r : List Char) (p : Option Char)
    (hr : d0 ∉ r) : spanM (d0 :: ds) p ((d0 :: ds) ++ r) = none := by
  cases h : spanM (d0 :: ds) p ((d0 :: ds) ++ r) with
  | none => rfl
  | some x =>
    obtain ⟨r1, caps1⟩ := x
    obtain ⟨t, hs, -, -⟩ := spanM_some h
    have e := List.append_cancel_left hs
    exact absurd (by rw [e]; simp) hr

/-- A span rule rewrites the text after a marker without its opening
character, and keeps a property of the characters that its template has. -/
theorem stage_marked_span (d0 : Char) (ds : List Char) (tmpl : String) (mk : List Char)
    (hmk : ∀ c ∈ mk, c ≠ d0) (P : Char → Prop) (htmpl : ∀ c ∈ tmpl.data, P c)
    {s : List Char} (hs : Marked mk P s) : Marked mk P (stage (spanM (d0 :: ds)) tmpl s) := by
  obtain ⟨t, rfl, ht⟩ := hs
  refine ⟨replaceWith (spanM (d0 :: ds)) tmpl.data (advance none mk) t 0, ?_, ?_⟩
  · unfold stage
    exact replaceWith_pass_head (fun c hc p cs => (spanM_startsWith d0 ds).2 p c cs (hmk c hc))
      _ _ _
  · exact replaceWith_forall (spanM_capsFrom _) _ P htmpl t ht _ _

theorem marked_notLT {mk s : List Char} {P : Char → Prop} (hmk : ∀ c ∈ mk, notLT c = true)
    (hP : ∀ c, P c → notLT c = true) (h : Marked mk P s) : ∀ c ∈ s, notLT c = true := by
  obtain ⟨t, rfl, ht⟩ := h
  simp only [List.forall_mem_append]
  exact ⟨hmk, fun c hc => hP c (ht c hc)⟩

/-- The calls before the list rules keep a marker that is none of their
opening characters, and keep the text after it free of line terminators. -/
theorem pre_stage_marked (anchor : String) (d : Char) (ds : List Char) (hd : d ≠ '#')
    (hmk : ∀ c ∈ d :: ds, notLT c = true ∧ c ≠ '*' ∧ c ≠ '_' ∧ c ≠ Char.ofNat 96) :
    ∀ f ∈ (stages anchor).take 9, ∀ s,
      Marked (d :: ds) (fun c => notLT c = true) s →
      Marked (d :: ds) (fun c => notLT c = true) (f s) := by
  intro f hf s hs
  have hLT := marked_notLT (fun c hc => (hmk c hc).1) (fun c hc => hc) hs
  have hhead : s.head? = some d := by
    obtain ⟨t, rfl, -⟩ := hs
    rfl
  have hid : ∀ {g : List Char → List Char}, g s = s →
      Marked (d :: ds) (fun c => notLT c = true) (g s) := by
    intro g hg
    rw [hg]
    exact hs
  simp only [stages, List.take_succ_cons, List.take_zero, List.mem_cons, List.not_mem_nil,
    or_false] at hf
  rcases hf with rfl | rfl | rfl | rfl | rfl | rfl | rfl | rfl | rfl
  · exact hid (stage_lineM_id _ _ _ hLT (by rw [hhead]; simpa using hd))
  · exact hid (stage_lineM_id _ _ _ hLT (by rw [hhead]; simpa using hd))
  · exact hid (stage_lineM_id _ _ _ hLT (by rw [hhead]; simpa using hd))
  · exact stage_marked_span _ _ _ _ (fun c hc => (hmk c hc).2.1) _ (by decide) hs
  · exact stage_marked_span _ _ _ _ (fun c hc => (hmk c hc).2.2.1) _ (by decide) hs
  · exact stage_marked_span _ _ _ _ (fun c hc => (hmk c hc).2.1) _ (by decide) hs
  · exact stage_marked_span _ _ _ _ (fun c hc => (hmk c hc).2.2.1) _ (by decide) hs
  · exact hid (stage_id_of_needs fenceM_needs_newline _
      (fun c hc => notLT_ne_newline (hLT c hc)))
  · exact stage_marked_span _ _ _ _ (fun c hc => (hmk c hc).2.2.2) _ (by decide) hs

/-- The calls before the list rules keep the marker `* ` when the text after
it has no `*`. -/
theorem pre_stage_star (anchor : String) :
    ∀ f ∈ (stages anchor).take 9, ∀ s,
      Marked "* ".data (fun c => notLT c = true ∧ c ≠ '*') s →
      Marked "* ".data (fun c => notLT c = true ∧ c ≠ '*') (f s) := by
  intro f hf s hs
  have hLT := marked_notLT (by decide) (fun c hc => hc.1) hs
  have hhead : s.head? = some '*' := by
    obtain ⟨t, rfl, -⟩ := hs
    rfl
  have hid : ∀ {g : List Char → List Char}, g s = s →
      Marked "* ".data (fun c => notLT c = true ∧ c ≠ '*') (g s) := by
    intro g hg
    rw [hg]
    exact hs
  simp only [stages, List.take_succ_cons, List.take_zero, List.mem_cons, List.not_mem_nil,
    or_false] at hf
  rcases hf with rfl | rfl | rfl | rfl | rfl | rfl | rfl | rfl | rfl
  · exact hid (stage_lineM_id _ _ _ hLT (by rw [hhead]; decide))
  · exact hid (stage_lineM_id _ _ _ hLT (by rw [hhead]; decide))
  · exact hid (stage_lineM_id _ _ _ hLT (by rw [hhead]; decide))
  · apply hid
    obtain ⟨t, rfl, ht⟩ := hs
    have hq : ∀ c ∈ ' ' :: t, ∀ p cs, spanM "**".data p (c :: cs) = none := by
      intro c hc p cs
      apply (spanM_startsWith _ _).2
      rcases List.mem_cons.mp hc with h | h
      · rw [h]; decide
      · exact (ht c h).2
    have h0 : spanM "**".data none ('*' :: (' ' :: t)) = none := by simp [spanM, chop]
    have h1 := replaceWith_pass_head hq "<strong>$1</strong>".data [] (some '*')
    rw [List.append_nil] at h1
    show replaceWith (spanM "**".data) "<strong>$1</strong>".data none ('*' :: (' ' :: t)) 0 = _
    rw [replaceWith_cons_none h0, h1, replaceWith_nil, (spanM_startsWith _ _).1]
    simp
  · exact stage_marked_span _ _ _ _ (by decide) _ (by decide) hs
  · apply hid
    obtain ⟨t, rfl, ht⟩ := hs
    have hq : ∀ c ∈ ' ' :: t, ∀ p cs, spanM "*".data p (c :: cs) = none := by
      intro c hc p cs
      apply (spanM_startsWith _ _).2
      rcases List.mem_cons.mp hc with h | h
      · rw [h]; decide
      · exact (ht c h).2
    have h0 : spanM "*".data none ('*' :: (' ' :: t)) = none := by
      apply spanM_none_of_no_close '*' [] (' ' :: t) none
      intro hmem
      rcases List.mem_cons.mp hmem with h | h
      · exact absurd h (by decide)
      · exact (ht _ h).2 rfl
    have h1 := replaceWith_pass_head hq "<em>$1</em>".data [] (some '*')
    rw [List.append_nil] at h1
    show replaceWith (spanM "*".data) "<em>$1</em>".data none ('*' :: (' ' :: t)) 0 = _
    rw [replaceWith_cons_none h0, h1, replaceWith_nil, (spanM_startsWith _ _).1]
    simp
  · exact stage_marked_span _ _ _ _ (by decide) _ (by decide) hs
  · exact hid (stage_id_of_needs fenceM_needs_newline _
      (fun c hc => notLT_ne_newline (hLT c hc)))
  · exact stage_marked_span _ _ _ _ (by decide) _ (by decide) hs

theorem mem_drop_of_le {f : List Char → List Char} {l : List (List Char → List Char)}
    {k j : Nat} (hkj : k ≤ j) (h : f ∈ l.drop j) : f ∈ l.drop k := by
  have e : l.drop j = (l.drop k).drop (j - k) := by
    rw [List.drop_drop]
    congr 1
    omega
  rw [e] at h
  exact List.mem_of_mem_drop h

theorem runStages_drop_succ (l : List (List Char → List Char)) (k : Nat)
    (f : List Char → List Char) (h : l.get? k = some f) (s : List Char) :
    runStages (l.drop k) s = runStages (l.drop (k + 1)) (f s) := by
  induction l generalizing k with
  | nil => simp at h
  | cons g gs ih =>
    cases k with
    | zero =>
      simp only [List.get?_cons_zero, Option.some.injEq] at h
      subst h
      rfl
    | succ k =>
      simp only [List.get?_cons_succ] at h
      exact ih k h

theorem expand_ul (t m : List Char) :
    expand [(1, t)] m "<ul><li>$1</li></ul>".data = "<ul><li>".data ++ (t ++ "</li></ul>".data) :=
  rfl

theorem expand_ol (t m : List Char) :
    expand [(1, t)] m "<ol><li>$1</li></ol>".data = "<ol><li>".data ++ (t ++ "</li></ol>".data) :=
  rfl

/-- The list form of the property of the markers `- ` and `+ `. -/
theorem transform_bullet_framed (anchor : String) (hanchor : ∀ c ∈ anchor.data, notLT c = true)
    (t : List Char) (ht : ∀ c ∈ t, notLT c = true) :
    Framed "<ul><li>".data "</li></ul>".data (transform anchor ("- ".data ++ t)) ∧
    Framed "<ul><li>".data "</li></ul>".data (transform anchor ("+ ".data ++ t)) := by
  have hpost := post_stage_framed anchor hanchor 'u' (Or.inl rfl)
  constructor
  · have h1 : Marked "- ".data (fun c => notLT c = true)
        (runStages ((stages anchor).take 9) ("- ".data ++ t)) :=
      runStages_inv (pre_stage_marked anchor '-' [' '] (by decide) (by decide)) ⟨t, rfl, ht⟩
    obtain ⟨t1, e1, ht1⟩ := h1
    have hLT : ∀ c ∈ "- ".data ++ t1, notLT c = true := by
      simp only [List.forall_mem_append]
      exact ⟨by decide, ht1⟩
    rw [transform_eq_runStages, runStages_split 9, e1]
    rw [runStages_drop_succ (stages anchor) 9 (stage (lineM "* ".data) "<ul><li>$1</li></ul>") rfl,
      runStages_drop_succ (stages anchor) 10 (stage (lineM "- ".data) "<ul><li>$1</li></ul>") rfl,
      stage_lineM_id _ _ _ hLT (by simp),
      stage_line_of_anchored (lineM_anchored _) _ hLT (by simp) (lineM_marked _ _ ht1), expand_ul]
    exact runStages_inv (fun f hf => hpost f (mem_drop_of_le (by omega) hf)) ⟨t1, rfl, ht1⟩
  · have h1 : Marked "+ ".data (fun c => notLT c = true)
        (runStages ((stages anchor).take 9) ("+ ".data ++ t)) :=
      runStages_inv (pre_stage_marked anchor '+' [' '] (by decide) (by decide)) ⟨t, rfl, ht⟩
    obtain ⟨t1, e1, ht1⟩ := h1
    have hLT : ∀ c ∈ "+ ".data ++ t1, notLT c = true := by
      simp only [List.forall_mem_append]
      exact ⟨by decide, ht1⟩
    rw [transform_eq_runStages, runStages_split 9, e1]
    rw [runStages_drop_succ (stages anchor) 9 (stage (lineM "* ".data) "<ul><li>$1</li></ul>") rfl,
      runStages_drop_succ (stages anchor) 10 (stage (lineM "- ".data) "<ul><li>$1</li></ul>") rfl,
      runStages_drop_succ (stages anchor) 11 (stage (lineM "+ ".data) "<ul><li>$1</li></ul>") rfl,
      stage_lineM_id _ _ _ hLT (by simp), stage_lineM_id _ _ _ hLT (by simp),
      stage_line_of_anchored (lineM_anchored _) _ hLT (by simp) (lineM_marked _ _ ht1), expand_ul]
    exact runStages_inv (fun f hf => hpost f (mem_drop_of_le (by omega) hf)) ⟨t1, rfl, ht1⟩

/-- The list form of the property of the marker `* `. -/
theorem transform_star_framed (anchor : String) (hanchor : ∀ c ∈ anchor.data, notLT c = true)
    (t : List Char) (ht : ∀ c ∈ t, notLT c = true) (hstar : ∀ c ∈ t, c ≠ '*') :
    Framed "<ul><li>".data "</li></ul>".data (transform anchor ("* ".data ++ t)) := by
  have hpost := post_stage_framed anchor hanchor 'u' (Or.inl rfl)
  have h1 : Marked "* ".data (fun c => notLT c = true ∧ c ≠ '*')
      (runStages ((stages anchor).take 9) ("* ".data ++ t)) :=
    runStages_inv (pre_stage_star anchor) ⟨t, rfl, fun c hc => ⟨ht c hc, hstar c hc⟩⟩
  obtain ⟨t1, e1, ht1⟩ := h1
  have ht1LT : ∀ c ∈ t1, notLT c = true := fun c hc => (ht1 c hc).1
  have hLT : ∀ c ∈ "* ".data ++ t1, notLT c = true := by
    simp only [List.forall_mem_append]
    exact ⟨by decide, ht1LT⟩
  rw [transform_eq_runStages, runStages_split 9, e1]
  rw [runStages_drop_succ (stages anchor) 9 (stage (lineM "* ".data) "<ul><li>$1</li></ul>") rfl,
    stage_line_of_anchored (lineM_anchored _) _ hLT (by simp) (lineM_marked _ _ ht1LT),
    expand_ul]
  exact runStages_inv hpost ⟨t1, rfl, ht1LT⟩

theorem digit_facts {c : Char} (h : isDigit c = true) :
    notLT c = true ∧ c ≠ '*' ∧ c ≠ '_' ∧ c ≠ Char.ofNat 96 ∧ c ≠ '#' ∧ c ≠ '-' ∧ c ≠ '+' := by
  have key : ∀ d : Char, isDigit d = false → c ≠ d := by
    intro d hd e
    rw [e, hd] at h
    exact absurd h (by decide)
  have h1 := key '\n' (by decide)
  have h2 := key '\r' (by decide)
  have h3 := key (Char.ofNat 0x2028) (by decide)
  have h4 := key (Char.ofNat 0x2029) (by decide)
  refine ⟨by simp [notLT, isLineTerminator, h1, h2, h3, h4], key _ (by decide), key _ (by decide),
    key _ (by decide), key _ (by decide), key _ (by decide), key _ (by decide)⟩

theorem orderedM_marked (d : Char) (ds t : List Char) (hd : ∀ c ∈ d :: ds, isDigit c = true)
    (ht : ∀ c ∈ t, notLT c = true) :
    orderedM none ((d :: ds) ++ (". ".data ++ t)) = some ([], [(1, t)]) := by
  have h0 : isDigit d = true := hd d (by simp)
  have hdrop : (ds ++ ('.' :: ' ' :: t)).dropWhile isDigit = '.' :: ' ' :: t := by
    have hdsd : ∀ c ∈ ds, isDigit c = true := fun c hc => hd c (by simp [hc])
    clear hd h0
    induction ds with
    | nil =>
      have hdot : isDigit '.' = false := by decide
      simp [hdot]
    | cons c cs ih =>
      rw [List.cons_append, List.dropWhile_cons_of_pos (hdsd c (by simp))]
      exact ih (fun e he => hdsd e (by simp [he]))
  have hc : chop ['.', ' '] ('.' :: ' ' :: t) = some t := chop_append ['.', ' '] t
  show orderedM none (d :: (ds ++ ('.' :: ' ' :: t))) = some ([], [(1, t)])
  simp only [orderedM, lineStart, if_true, h0, hdrop, hc, takeWhile_eq_self ht,
    dropWhile_eq_nil ht]

/-- The list form of the property of the marker `N. `. -/
theorem transform_ordered_framed (anchor : String) (hanchor : ∀ c ∈ anchor.data, notLT c = true)
    (d : Char) (ds t : List Char) (hd : ∀ c ∈ d :: ds, isDigit c = true)
    (ht : ∀ c ∈ t, notLT c = true) :
    Framed "<ol><li>".data "</li></ol>".data
      (transform anchor ((d :: ds) ++ (". ".data ++ t))) := by
  have hpost := post_stage_framed anchor hanchor 'o' (Or.inr rfl)
  have hmk : ∀ c ∈ d :: (ds ++ ". ".data),
      notLT c = true ∧ c ≠ '*' ∧ c ≠ '_' ∧ c ≠ Char.ofNat 96 := by
    intro c hc
    rcases List.mem_cons.mp hc with h | h
    · have := digit_facts (hd c (by simp [h]))
      exact ⟨this.1, this.2.1, this.2.2.1, this.2.2.2.1⟩
    · rcases List.mem_append.mp h with h | h
      · have := digit_facts (hd c (by simp [h]))
        exact ⟨this.1, this.2.1, this.2.2.1, this.2.2.2.1⟩
      · exact (by decide : ∀ c ∈ ". ".data,
          notLT c = true ∧ c ≠ '*' ∧ c ≠ '_' ∧ c ≠ Char.ofNat 96) c h
  have hd0 := digit_facts (hd d (by simp))
  have e0 : (d :: ds) ++ (". ".data ++ t) = (d :: (ds ++ ". ".data)) ++ t := by simp
  have h1 : Marked (d :: (ds ++ ". ".data)) (fun c => notLT c = true)
      (runStages ((stages anchor).take 9) ((d :: (ds ++ ". ".data)) ++ t)) :=
    runStages_inv (pre_stage_marked anchor d (ds ++ ". ".data) hd0.2.2.2.2.1 hmk) ⟨t, rfl, ht⟩
  obtain ⟨t1, e1, ht1⟩ := h1
  have hLT : ∀ c ∈ (d :: ds) ++ (". ".data ++ t1), notLT c = true := by
    intro c hc
    have e3 : (d :: ds) ++ (". ".data ++ t1) = (d :: (ds ++ ". ".data)) ++ t1 := by simp
    rw [e3] at hc
    rcases List.mem_append.mp hc with h | h
    · exact (hmk c h).1
    · exact ht1 c h
  have e4 : (d :: (ds ++ ". ".data)) ++ t1 = (d :: ds) ++ (". ".data ++ t1) := by simp
  rw [transform_eq_runStages, runStages_split 9, e0, e1, e4]
  rw [runStages_drop_succ (stages anchor) 9 (stage (lineM "* ".data) "<ul><li>$1</li></ul>") rfl,
    runStages_drop_succ (stages anchor) 10 (stage (lineM "- ".data) "<ul><li>$1</li></ul>") rfl,
    runStages_drop_succ (stages anchor) 11 (stage (lineM "+ ".data) "<ul><li>$1</li></ul>") rfl,
    runStages_drop_succ (stages anchor) 12 (stage orderedM "<ol><li>$1</li></ol>") rfl,
    stage_lineM_id _ _ _ hLT (by simpa using hd0.2.1),
    stage_lineM_id _ _ _ hLT (by simpa using hd0.2.2.2.2.2.1),
    stage_lineM_id _ _ _ hLT (by simpa using hd0.2.2.2.2.2.2),
    stage_line_of_anchored orderedM_anchored _ hLT (by simp) (orderedM_marked d ds t1 hd ht1),
    expand_ol]
  exact runStages_inv (fun f hf => hpost f (mem_drop_of_le (by omega) hf)) ⟨t1, rfl, ht1⟩

theorem framed_string {pre suf : String} {s : List Char} (h : Framed pre.data suf.data s) :
    startsWithStr (String.mk s) pre = true ∧ endsWithStr (String.mk s) suf = true := by
  obtain ⟨t, rfl, -⟩ := h
  constructor
  · simp [startsWithStr, chop_append]
  · have e : (pre.data ++ (t ++ suf.data)).reverse =
        suf.data.reverse ++ (t.reverse ++ pre.data.reverse) := by simp
    simp only [endsWithStr]
    rw [e, chop_append]
    rfl


/-! ## Links -/

theorem takeWhile_append_stop {p : Char → Bool} {l : List Char} (hl : ∀ c ∈ l, p c = true)
    {d : Char} (hd : p d = false) (r : List Char) :
    (l ++ d :: r).takeWhile p = l ∧ (l ++ d :: r).dropWhile p = d :: r := by
  induction l with
  | nil => simp [hd]
  | cons c cs ih =>
    have hc := hl c (by simp)
    have := ih (fun e he => hl e (by simp [he]))
    simp [hc, this.1, this.2]

/-- The link and image rules match an opener, a non-empty label without `]`,
`](`, a non-empty url without `)`, and `)`. -/
theorem bracketM_match (opener label url r : List Char) (p : Option Char)
    (hl0 : label ≠ []) (hu0 : url ≠ []) (hl : ∀ c ∈ label, c ≠ ']') (hu : ∀ c ∈ url, c ≠ ')') :
    bracketM opener p (opener ++ (label ++ (']' :: '(' :: (url ++ (')' :: r))))) =
      some (r, [(2, url), (1, label)]) := by
  have h1 := takeWhile_append_stop (p := fun c => !(c == ']')) (l := label)
    (fun c hc => by simpa using hl c hc) (d := ']') (by simp) ('(' :: (url ++ (')' :: r)))
  have h2 := takeWhile_append_stop (p := fun c => !(c == ')')) (l := url)
    (fun c hc => by simpa using hu c hc) (d := ')') (by simp) r
  have c1 : chop [']', '('] (']' :: '(' :: (url ++ (')' :: r))) = some (url ++ (')' :: r)) :=
    chop_append [']', '('] _
  have c2 : chop [')'] (')' :: r) = some r := chop_append [')'] r
  unfold bracketM
  rw [chop_append]
  simp only [h1.1, h1.2, hl0, if_false, c1, h2.1, h2.2, hu0, c2]

theorem expand_plainAnchor (label url m : List Char) :
    expand [(2, url), (1, label)] m plainAnchor.data =
      "<a href=\"".data ++ (url ++ ("\" target=\"_blank\" rel=\"noopener noreferrer\">".data ++
        (label ++ "</a>".data))) := rfl

/-- What `parseMarkdown` of `GetNotes.jsx` makes of an image: the link rule
takes the `[alt](url)` part, the image rule finds nothing, and the paragraph
rule wraps the line, which starts with `!`. -/
theorem transform_image (alt url : List Char) (ha0 : alt ≠ []) (hu0 : url ≠ [])
    (ha : ∀ c ∈ alt, c.isAlphanum = true) (hu : ∀ c ∈ url, c.isAlphanum = true) :
    transform plainAnchor ("![".data ++ (alt ++ ("](".data ++ (url ++ ")".data)))) =
      "<p>!<a href=\"".data ++ (url ++
        ("\" target=\"_blank\" rel=\"noopener noreferrer\">".data ++ (alt ++ "</a></p>".data))) := by
  have hap : ∀ c ∈ alt, isPlain c = true := fun c hc => alnum_plain (ha c hc)
  have hup : ∀ c ∈ url, isPlain c = true := fun c hc => alnum_plain (hu c hc)
  have hne : ∀ d, isPlain d = false → (∀ c ∈ alt, c ≠ d) ∧ (∀ c ∈ url, c ≠ d) :=
    fun d hd => ⟨fun c hc => plain_ne (hap c hc) hd, fun c hc => plain_ne (hup c hc) hd⟩
  have haLT : ∀ c ∈ alt, notLT c = true := fun c hc => plain_notLT (hap c hc)
  have huLT : ∀ c ∈ url, notLT c = true := fun c hc => plain_notLT (hup c hc)
  -- the calls before the link rule
  have hLT0 : ∀ c ∈ "![".data ++ (alt ++ ("](".data ++ (url ++ ")".data))), notLT c = true := by
    simp only [List.forall_mem_append]
    exact ⟨by decide, haLT, by decide, huLT, by decide⟩
  have hno : ∀ d, isPlain d = false → d ≠ '!' → d ≠ '[' → d ≠ ']' → d ≠ '(' → d ≠ ')' →
      ∀ c ∈ "![".data ++ (alt ++ ("](".data ++ (url ++ ")".data))), c ≠ d := by
    intro d hd h1 h2 h3 h4 h5
    simp only [List.forall_mem_append]
    refine ⟨?_, (hne d hd).1, ?_, (hne d hd).2, ?_⟩
    · intro c hc
      simp only [String.data, List.mem_cons, List.mem_singleton, List.not_mem_nil, or_false] at hc
      rcases hc with rfl | rfl
      · exact Ne.symm h1
      · exact Ne.symm h2
    · intro c hc
      simp only [String.data, List.mem_cons, List.mem_singleton, List.not_mem_nil, or_false] at hc
      rcases hc with rfl | rfl
      · exact Ne.symm h3
      · exact Ne.symm h4
    · intro c hc
      simp only [String.data, List.mem_cons, List.mem_singleton, List.not_mem_nil, or_false] at hc
      rw [hc]
      exact Ne.symm h5
  have hpre : ∀ f ∈ (stages plainAnchor).take 13,
      f ("![".data ++ (alt ++ ("](".data ++ (url ++ ")".data)))) =
        "![".data ++ (alt ++ ("](".data ++ (url ++ ")".data))) := by
    intro f hf
    simp only [stages, List.take_succ_cons, List.take_zero, List.mem_cons, List.not_mem_nil,
      or_false] at hf
    rcases hf with rfl | rfl | rfl | rfl | rfl | rfl | rfl | rfl | rfl | rfl | rfl | rfl | rfl
    · exact stage_lineM_id _ _ _ hLT0 (by simp)
    · exact stage_lineM_id _ _ _ hLT0 (by simp)
    · exact stage_lineM_id _ _ _ hLT0 (by simp)
    · exact stage_id_of_needs (needs_of_startsWith (spanM_startsWith _ _)) _
        (hno _ (by decide) (by decide) (by decide) (by decide) (by decide) (by decide))
    · exact stage_id_of_needs (needs_of_startsWith (spanM_startsWith _ _)) _
        (hno _ (by decide) (by decide) (by decide) (by decide) (by decide) (by decide))
    · exact stage_id_of_needs (needs_of_startsWith (spanM_startsWith _ _)) _
        (hno _ (by decide) (by decide) (by decide) (by decide) (by decide) (by decide))
    · exact stage_id_of_needs (needs_of_startsWith (spanM_startsWith _ _)) _
        (hno _ (by decide) (by decide) (by decide) (by decide) (by decide) (by decide))
    · exact stage_id_of_needs (needs_of_startsWith fenceM_startsWith) _
        (hno _ (by decide) (by decide) (by decide) (by decide) (by decide) (by decide))
    · exact stage_id_of_needs (needs_of_startsWith (spanM_startsWith _ _)) _
        (hno _ (by decide) (by decide) (by decide) (by decide) (by decide) (by decide))
    · exact stage_lineM_id _ _ _ hLT0 (by simp)
    · exact stage_lineM_id _ _ _ hLT0 (by simp)
    · exact stage_lineM_id _ _ _ hLT0 (by simp)
    · exact stage_id_of_anchored orderedM_anchored _ hLT0 (by simp [orderedM, isDigit])
  -- the link rule
  have h13 : stage (bracketM "[".data) plainAnchor
      ("![".data ++ (alt ++ ("](".data ++ (url ++ ")".data)))) =
      "!<a href=\"".data ++ (url ++
        ("\" target=\"_blank\" rel=\"noopener noreferrer\">".data ++ (alt ++ "</a>".data))) := by
    have hm := bracketM_match ['['] alt url [] (some '!') ha0 hu0
      (hne ']' (by decide)).1 (hne ')' (by decide)).2
    have hm2 : bracketM "[".data (some '!')
        (("[".data ++ (alt ++ ("](".data ++ (url ++ ")".data)))) ++ []) =
        some ([], [(2, url), (1, alt)]) := by
      simpa using hm
    have hr := replaceWith_match hm2 (by simp) plainAnchor.data
    rw [expand_plainAnchor, replaceWith_nil, (bracketM_startsWith _ _).1] at hr
    simp only [List.append_nil] at hr
    have h0 : bracketM "[".data none
        ('!' :: ("[".data ++ (alt ++ ("](".data ++ (url ++ ")".data))))) = none :=
      (bracketM_startsWith _ _).2 _ _ _ (by decide)
    show replaceWith (bracketM "[".data) plainAnchor.data none
      ('!' :: ("[".data ++ (alt ++ ("](".data ++ (url ++ ")".data))))) 0 = _
    rw [replaceWith_cons_none h0, hr]
    rfl
  -- the image rule and the blockquote rule
  have hLT1 : ∀ c ∈ "!<a href=\"".data ++ (url ++
      ("\" target=\"_blank\" rel=\"noopener noreferrer\">".data ++ (alt ++ "</a>".data))),
      notLT c = true := by
    simp only [List.forall_mem_append]
    exact ⟨by decide, huLT, by decide, haLT, by decide⟩
  have h14 : stage (bracketM "![".data)
      "<img src=\"$2\" alt=\"$1\" class=\"max-w-full h-auto\" />"
      ("!<a href=\"".data ++ (url ++
        ("\" target=\"_blank\" rel=\"noopener noreferrer\">".data ++ (alt ++ "</a>".data)))) =
      "!<a href=\"".data ++ (url ++
        ("\" target=\"_blank\" rel=\"noopener noreferrer\">".data ++ (alt ++ "</a>".data))) := by
    apply stage_id_of_needs (bracketM_needs (by decide))
    simp only [List.forall_mem_append]
    exact ⟨by decide, (hne _ (by decide)).2, by decide, (hne _ (by decide)).1, by decide⟩
  have h15 : stage (lineM "> ".data) "<blockquote>$1</blockquote>"
      ("!<a href=\"".data ++ (url ++
        ("\" target=\"_blank\" rel=\"noopener noreferrer\">".data ++ (alt ++ "</a>".data)))) =
      "!<a href=\"".data ++ (url ++
        ("\" target=\"_blank\" rel=\"noopener noreferrer\">".data ++ (alt ++ "</a>".data))) :=
    stage_lineM_id _ _ _ hLT1 (by simp)
  -- the paragraph rule
  have h16 : stage paragraphM "<p>$1</p>"
      ("!<a href=\"".data ++ (url ++
        ("\" target=\"_blank\" rel=\"noopener noreferrer\">".data ++ (alt ++ "</a>".data)))) =
      "<p>!<a href=\"".data ++ (url ++
        ("\" target=\"_blank\" rel=\"noopener noreferrer\">".data ++ (alt ++ "</a></p>".data))) := by
    have hp : paragraphM none ("!<a href=\"".data ++ (url ++
        ("\" target=\"_blank\" rel=\"noopener noreferrer\">".data ++ (alt ++ "</a>".data)))) =
        some ([], [(1, "!<a href=\"".data ++ (url ++
          ("\" target=\"_blank\" rel=\"noopener noreferrer\">".data ++
            (alt ++ "</a>".data))))]) := by
      simp only [paragraphM, takeWhile_eq_self hLT1, dropWhile_eq_nil hLT1]
      simp [lineStart, tagAhead]
    rw [stage_line_of_anchored paragraphM_anchored _ hLT1 (by simp) hp, expand_p]
    simp
  -- the cleanup and the line breaks
  have hqa : ∀ tag, ∀ c ∈ alt, ∀ p cs, mergeM tag p (c :: cs) = none :=
    fun tag c hc p cs => mergeM_none_of_ne_lt tag ((hne _ (by decide)).1 c hc) p cs
  have hqu : ∀ tag, ∀ c ∈ url, ∀ p cs, mergeM tag p (c :: cs) = none :=
    fun tag c hc p cs => mergeM_none_of_ne_lt tag ((hne _ (by decide)).2 c hc) p cs
  have h17 : stage (mergeM "ul".data) ""
      ("<p>!<a href=\"".data ++ (url ++
        ("\" target=\"_blank\" rel=\"noopener noreferrer\">".data ++ (alt ++ "</a></p>".data)))) =
      "<p>!<a href=\"".data ++ (url ++
        ("\" target=\"_blank\" rel=\"noopener noreferrer\">".data ++ (alt ++ "</a></p>".data))) := by
    simp [stage, replaceWith_cons_none, replaceWith_pass_head (hqa _),
      replaceWith_pass_head (hqu _), replaceWith_nil, mergeM, chop]
  have h18 : stage (mergeM "ol".data) ""
      ("<p>!<a href=\"".data ++ (url ++
        ("\" target=\"_blank\" rel=\"noopener noreferrer\">".data ++ (alt ++ "</a></p>".data)))) =
      "<p>!<a href=\"".data ++ (url ++
        ("\" target=\"_blank\" rel=\"noopener noreferrer\">".data ++ (alt ++ "</a></p>".data))) := by
    simp [stage, replaceWith_cons_none, replaceWith_pass_head (hqa _),
      replaceWith_pass_head (hqu _), replaceWith_nil, mergeM, chop]
  have h19 : stage newlineM "<br />"
      ("<p>!<a href=\"".data ++ (url ++
        ("\" target=\"_blank\" rel=\"noopener noreferrer\">".data ++ (alt ++ "</a></p>".data)))) =
      "<p>!<a href=\"".data ++ (url ++
        ("\" target=\"_blank\" rel=\"noopener noreferrer\">".data ++ (alt ++ "</a></p>".data))) := by
    apply stage_id_of_needs (needs_of_startsWith newlineM_startsWith)
    simp only [List.forall_mem_append]
    exact ⟨by decide, (hne _ (by decide)).2, by decide, (hne _ (by decide)).1, by decide⟩
  rw [transform_eq_runStages, runStages_split 13, runStages_id hpre,
    runStages_drop_succ (stages plainAnchor) 13 (stage (bracketM "[".data) plainAnchor) rfl, h13,
    runStages_drop_succ (stages plainAnchor) 14 (stage (bracketM "![".data)
      "<img src=\"$2\" alt=\"$1\" class=\"max-w-full h-auto\" />") rfl, h14,
    runStages_drop_succ (stages plainAnchor) 15
      (stage (lineM "> ".data) "<blockquote>$1</blockquote>") rfl, h15,
    runStages_drop_succ (stages plainAnchor) 16 (stage paragraphM "<p>$1</p>") rfl, h16,
    runStages_drop_succ (stages plainAnchor) 17 (stage (mergeM "ul".data) "") rfl, h17,
    runStages_drop_succ (stages plainAnchor) 18 (stage (mergeM "ol".data) "") rfl, h18,
    runStages_drop_succ (stages plainAnchor) 19 (stage newlineM "<br />") rfl, h19]
  rfl

/-! ## Substrings of a concatenation -/

theorem hasSubstring_append_left (a : String) {s w : String} (h : hasSubstring s w) :
    hasSubstring (a ++ s) w := by
  rw [hasSubstring, occurs_iff] at h ⊢
  obtain ⟨x, y, hxy⟩ := h
  exact ⟨a.data ++ x, y, by simp [hxy]⟩

theorem hasSubstring_prefix (w r : String) : hasSubstring (w ++ r) w := by
  rw [hasSubstring, occurs_iff]
  exact ⟨[], r.data, by simp⟩

theorem hasSubstring_append_right {s w : String} (b : String) (h : hasSubstring s w) :
    hasSubstring (s ++ b) w := by
  rw [hasSubstring, occurs_iff] at h ⊢
  obtain ⟨x, y, hxy⟩ := h
  exact ⟨x, y ++ b.data, by simp [hxy]⟩

theorem hasSubstring_suffix2 (p a b : String) : hasSubstring (p ++ a ++ b) (a ++ b) := by
  rw [hasSubstring, occurs_iff]
  exact ⟨p.data, [], by simp⟩

theorem hasSubstring_suffix3 (p a b c : String) :
    hasSubstring (p ++ a ++ b ++ c) (a ++ b ++ c) := by
  rw [hasSubstring, occurs_iff]
  exact ⟨p.data, [], by simp⟩

theorem hasSubstring_trans {s w v : String} (h1 : hasSubstring s w) (h2 : hasSubstring w v) :
    hasSubstring s v := by
  rw [hasSubstring, occurs_iff] at h1 h2 ⊢
  obtain ⟨x, y, hxy⟩ := h1
  obtain ⟨x2, y2, hxy2⟩ := h2
  exact ⟨x ++ x2, y2 ++ y, by simp [hxy, hxy2]⟩

/-! ## The print export: lemmas -/

theorem filter_ref_of_lt {l : List Element} {n : Nat} (h : ∀ e ∈ l, e.ref < n) :
    l.filter (fun e => e.ref != n) = l := by
  rw [List.filter_eq_self]
  intro e he
  have := h e he
  simp
  omega

/-- Appending a newly created element to the body and removing it again. -/
theorem attach_detach (doc : Document) (c : Element) (hc : ∀ e ∈ doc.body, e.ref < c.ref) :
    (doc.appendChild c).body = doc.body ++ [c] ∧
    (doc.appendChild c).removeChild c = .ok ⟨doc.created, doc.body⟩ := by
  have hb : (doc.appendChild c).body = doc.body ++ [c] := by
    simp [Document.appendChild, filter_ref_of_lt hc]
  refine ⟨hb, ?_⟩
  simp only [Document.removeChild, hb]
  rw [if_pos (by simp)]
  simp [List.filter_append, filter_ref_of_lt hc, Document.appendChild]

/-! ## Captures are made of the input -/

/-- The captures that a greedy star hands on are the ones it was given. -/
theorem starGreedy_caps {P : Char → Prop} (p : Char → Bool) (k : Cont)
    (hk : ∀ s1 res, (∀ c ∈ s1.rest, P c) → (∀ x ∈ s1.caps, ∀ c ∈ x.2, P c) →
      k s1 = some res → ∀ x ∈ res.caps, ∀ c ∈ x.2, P c)
    (caps : Captures) (hc : ∀ x ∈ caps, ∀ c ∈ x.2, P c)
    (prev : Option Char) (rest : List Char) (res : MatchState)
    (hrest : ∀ c ∈ rest, P c)
    (h : starGreedy p k caps prev rest = some res) : ∀ x ∈ res.caps, ∀ c ∈ x.2, P c := by
  induction rest generalizing prev with
  | nil => exact hk ⟨prev, [], caps⟩ res hrest hc h
  | cons c cs ih =>
    unfold starGreedy at h
    by_cases hp : p c = true
    · rw [if_pos hp] at h
      cases hr : starGreedy p k caps (some c) cs with
      | some r =>
        rw [hr] at h
        cases h
        exact ih (some c) (fun d hd => hrest d (by simp [hd])) hr
      | none =>
        rw [hr] at h
        exact hk ⟨prev, c :: cs, caps⟩ res hrest hc h
    · rw [if_neg hp] at h
      exact hk ⟨prev, c :: cs, caps⟩ res hrest hc h

theorem starLazy_caps {P : Char → Prop} (p : Char → Bool) (k : Cont)
    (hk : ∀ s1 res, (∀ c ∈ s1.rest, P c) → (∀ x ∈ s1.caps, ∀ c ∈ x.2, P c) →
      k s1 = some res → ∀ x ∈ res.caps, ∀ c ∈ x.2, P c)
    (caps : Captures) (hc : ∀ x ∈ caps, ∀ c ∈ x.2, P c)
    (prev : Option Char) (rest : List Char) (res : MatchState)
    (hrest : ∀ c ∈ rest, P c)
    (h : starLazy p k caps prev rest = some res) : ∀ x ∈ res.caps, ∀ c ∈ x.2, P c := by
  induction rest generalizing prev with
  | nil => exact hk ⟨prev, [], caps⟩ res hrest hc h
  | cons c cs ih =>
    unfold starLazy at h
    cases hr : k ⟨prev, c :: cs, caps⟩ with
    | some r =>
      rw [hr] at h
      cases h
      exact hk ⟨prev, c :: cs, caps⟩ _ hrest hc hr
    | none =>
      rw [hr] at h
      by_cases hp : p c = true
      · rw [if_pos hp] at h
        exact ih (some c) (fun d hd => hrest d (by simp [hd])) h
      · rw [if_neg hp] at h
        cases h

/-- The captures of a successful run of the matcher are made of characters of
the input: if every character of the input has the property `P`, so has
every character of every capture. -/
theorem run_caps (f : Flags) {P : Char → Prop} (r : Regex) :
    ∀ (s : MatchState) (k : Cont) (res : MatchState),
      (∀ c ∈ s.rest, P c) → (∀ x ∈ s.caps, ∀ c ∈ x.2, P c) →
      (∀ s1 res1, (∀ c ∈ s1.rest, P c) → (∀ x ∈ s1.caps, ∀ c ∈ x.2, P c) →
        k s1 = some res1 → ∀ x ∈ res1.caps, ∀ c ∈ x.2, P c) →
      r.run f s k = some res → ∀ x ∈ res.caps, ∀ c ∈ x.2, P c := by
  induction r with
  | empty =>
    intro s k res hs hc hk h
    exact hk s res hs hc h
  | atom a =>
    intro s k res hs hc hk h
    obtain ⟨prev, rest, caps⟩ := s
    cases rest with
    | nil => simp [Regex.run] at h
    | cons c cs =>
      simp only [Regex.run] at h
      by_cases ht : a.test f c = true
      · rw [if_pos ht] at h
        exact hk ⟨some c, cs, caps⟩ res (fun d hd => hs d (by simp [hd])) hc h
      · rw [if_neg ht] at h
        cases h
  | bol =>
    intro s k res hs hc hk h
    obtain ⟨prev, rest, caps⟩ := s
    cases prev with
    | none => exact hk _ _ hs hc h
    | some c =>
      simp only [Regex.run] at h
      split at h
      · exact hk _ _ hs hc h
      · cases h
  | eol =>
    intro s k res hs hc hk h
    obtain ⟨prev, rest, caps⟩ := s
    cases rest with
    | nil => exact hk _ _ hs hc h
    | cons c cs =>
      simp only [Regex.run] at h
      split at h
      · exact hk _ _ hs hc h
      · cases h
  | seq a b iha ihb =>
    intro s k res hs hc hk h
    simp only [Regex.run] at h
    exact iha s _ res hs hc (fun s1 res1 hs1 hc1 h1 => ihb s1 k res1 hs1 hc1 hk h1) h
  | alt a b iha ihb =>
    intro s k res hs hc hk h
    simp only [Regex.run] at h
    cases hr : a.run f s k with
    | some r =>
      rw [hr] at h
      cases h
      exact iha s k _ hs hc hk hr
    | none =>
      rw [hr] at h
      exact ihb s k res hs hc hk h
  | star a =>
    intro s k res hs hc hk h
    simp only [Regex.run] at h
    exact starGreedy_caps (a.test f) k hk s.caps hc s.prev s.rest res hs h
  | lazyStar a =>
    intro s k res hs hc hk h
    simp only [Regex.run] at h
    exact starLazy_caps (a.test f) k hk s.caps hc s.prev s.rest res hs h
  | plus a =>
    intro s k res hs hc hk h
    obtain ⟨prev, rest, caps⟩ := s
    cases rest with
    | nil => simp [Regex.run] at h
    | cons c cs =>
      simp only [Regex.run] at h
      by_cases ht : a.test f c = true
      · rw [if_pos ht] at h
        exact starGreedy_caps (a.test f) k hk caps hc (some c) cs res
          (fun d hd => hs d (by simp [hd])) h
      · rw [if_neg ht] at h
        cases h
  | group i r ih =>
    intro s k res hs hc hk h
    simp only [Regex.run] at h
    refine ih s _ res hs hc ?_ h
    intro s1 res1 hs1 hc1 h1
    refine hk ⟨s1.prev, s1.rest, (i, s.rest.take (s.rest.length - s1.rest.length)) :: s1.caps⟩
      res1 hs1 ?_ h1
    intro x hx c hcx
    rcases List.mem_cons.mp hx with hx | hx
    · rw [hx] at hcx
      exact hs c (List.mem_of_mem_take hcx)
    · exact hc1 x hx c hcx
  | notAhead r _ =>
    intro s k res hs hc hk h
    simp only [Regex.run] at h
    split at h
    · cases h
    · exact hk _ _ hs hc h

/-- The captures of every pattern are made of characters of the input. -/
theorem matchAt_capsFrom (f : Flags) (re : Regex) : CapsFrom (matchAt f re) := by
  intro p s r caps h x hx c hc
  simp only [matchAt, Option.map_eq_some'] at h
  obtain ⟨st, hst, hpair⟩ := h
  have hcaps : st.caps = caps := (Prod.mk.inj hpair).2
  have := run_caps f (P := fun c => c ∈ s) re ⟨p, s, []⟩ some st (fun c hc => hc)
    (by simp) (fun s1 res1 _ hc1 h1 => by cases h1; exact hc1) hst
  exact this x (hcaps ▸ hx) c hc

/-- What a call of `replace` puts into its output: characters of the template
and characters of its input. -/
theorem replace_forall (f : Flags) (re : Regex) (tmpl : String) (P : Char → Prop)
    (htmpl : ∀ c ∈ tmpl.data, P c) {s : List Char} (hs : ∀ c ∈ s, P c) :
    ∀ c ∈ replace f re tmpl s, P c :=
  replaceWith_forall (matchAt_capsFrom f re) tmpl.data P htmpl s hs none 0

/-! ## Line breaks -/

/-- The last call of the chain replaces each newline by `<br />` and copies
every other character. -/
theorem replaceWith_newline (prev : Option Char) (s : List Char) :
    replaceWith newlineM "<br />".data prev s 0 =
      s.flatMap (fun c => if c = '\n' then "<br />".data else [c]) := by
  induction s generalizing prev with
  | nil => rfl
  | cons c cs ih =>
    by_cases hc : c = '\n'
    · have hm : newlineM prev (c :: cs) = some (cs, []) := by simp [newlineM, hc]
      rw [replaceWith_cons_some hm]
      have hlen : (c :: cs).length - cs.length = 1 := by
        simp only [List.length_cons]
        omega
      rw [hlen, if_neg (by omega), Nat.sub_self, ih]
      simp only [List.flatMap_cons, if_pos hc]
      rfl
    · have hm : newlineM prev (c :: cs) = none := by simp [newlineM, hc]
      rw [replaceWith_cons_none hm, ih]
      simp only [List.flatMap_cons, if_neg hc]
      rfl

theorem flatMap_break_ne (s : List Char) :
    ∀ c ∈ s.flatMap (fun c => if c = '\n' then "<br />".data else [c]), c ≠ '\n' := by
  intro c hc
  simp only [List.mem_flatMap] at hc
  obtain ⟨d, _, hcd⟩ := hc
  by_cases hd : d = '\n'
  · rw [if_pos hd] at hcd
    exact (by decide : ∀ c ∈ "<br />".data, c ≠ '\n') c hcd
  · rw [if_neg hd] at hcd
    simp only [List.mem_singleton] at hcd
    rw [hcd]
    exact hd

/-- The output of the chain has no newline. -/
theorem transform_no_newline (anchor : String) (md : List Char) :
    ∀ c ∈ transform anchor md, c ≠ '\n' := by
  have e : (stages anchor).drop 20 = [] := rfl
  rw [transform_eq_runStages, runStages_split 19,
    runStages_drop_succ (stages anchor) 19 (stage newlineM "<br />") rfl, e]
  have h19 : ∀ x, stage newlineM "<br />" x =
      x.flatMap (fun c => if c = '\n' then "<br />".data else [c]) :=
    fun x => replaceWith_newline none x
  have h20 : ∀ x, runStages [] x = x := fun _ => rfl
  rw [h19, h20]
  exact flatMap_break_ne _

/-! ## Markers that are never closed -/

/-- A call changes nothing when its pattern matches at no position. -/
theorem stage_id_of_none {m : Matcher} (tmpl : String) {s : List Char}
    (hnil : ∀ p, m p [] = none)
    (h : ∀ a c b, s = a ++ c :: b → m (advance none a) (c :: b) = none) :
    stage m tmpl s = s := by
  have := replaceWith_pass (m := m) tmpl.data s [] none
    (fun a c b hab => by simpa using h a c b hab)
  unfold stage
  simp only [List.append_nil] at this
  rw [this, replaceWith_nil, hnil]
  simp

/-- A span rule finds nothing in a text that starts with its delimiter
character, once or twice, and has it nowhere else. -/
theorem stage_span_unclosed (d0 : Char) (ds : List Char) (tmpl : String) (pre t : List Char)
    (hpre : pre = [d0] ∨ pre = [d0, d0]) (ht : ∀ c ∈ t, c ≠ d0)
    (h0 : spanM (d0 :: ds) none (pre ++ t) = none)
    (h1 : ∀ p, spanM (d0 :: ds) p (d0 :: t) = none) :
    stage (spanM (d0 :: ds)) tmpl (pre ++ t) = pre ++ t := by
  apply stage_id_of_none tmpl (spanM_startsWith d0 ds).1
  intro a c b hab
  have hrest : ∀ a2 : List Char, t = a2 ++ c :: b → spanM (d0 :: ds) (advance none (pre ++ a2))
      (c :: b) = none := by
    intro a2 h2
    apply (spanM_startsWith d0 ds).2
    exact ht c (by rw [h2]; simp)
  rcases hpre with rfl | rfl
  · cases a with
    | nil =>
      have e : c :: b = _ := hab.symm
      show spanM (d0 :: ds) none (c :: b) = none
      rw [e]
      exact h0
    | cons x a2 =>
      simp only [List.cons_append, List.nil_append, List.cons.injEq] at hab
      obtain ⟨rfl, h2⟩ := hab
      exact hrest a2 h2
  · cases a with
    | nil =>
      have e : c :: b = _ := hab.symm
      show spanM (d0 :: ds) none (c :: b) = none
      rw [e]
      exact h0
    | cons x a2 =>
      simp only [List.cons_append, List.nil_append, List.cons.injEq] at hab
      obtain ⟨rfl, h2⟩ := hab
      cases a2 with
      | nil =>
        simp only [List.nil_append, List.cons.injEq] at h2
        obtain ⟨rfl, rfl⟩ := h2
        exact h1 _
      | cons y a3 =>
        simp only [List.cons_append, List.cons.injEq] at h2
        obtain ⟨rfl, h3⟩ := h2
        exact hrest a3 h3

/-- The italic rule takes a doubled delimiter as an empty span. -/
theorem stage_span_empty (d0 : Char) (t : List Char)
    (ht : ∀ c ∈ t, c ≠ d0) :
    stage (spanM [d0]) "<em>$1</em>" (d0 :: d0 :: t) = "<em></em>".data ++ t := by
  have hm := spanM_match d0 [] [] t none (by simp)
  have hm2 : spanM [d0] none ([d0, d0] ++ t) = some (t, [(1, [])]) := by
    simpa using hm
  have hq : ∀ c ∈ t, ∀ p cs, spanM [d0] p (c :: cs) = none :=
    fun c hc p cs => (spanM_startsWith _ _).2 p c cs (ht c hc)
  have hp := replaceWith_pass_head hq "<em>$1</em>".data [] (advance none [d0, d0])
  simp only [List.append_nil] at hp
  show replaceWith (spanM [d0]) "<em>$1</em>".data none ([d0, d0] ++ t) 0 = _
  rw [replaceWith_match hm2 (by simp), expand_em, hp, replaceWith_nil,
    (spanM_startsWith d0 []).1]
  simp

theorem settled_empty_em (t : List Char) (ht : ∀ c ∈ t, inert c = true) :
    Settled ("<em></em>".data ++ t) := by
  have hq : ∀ tag, ∀ c ∈ t, ∀ p cs, mergeM tag p (c :: cs) = none :=
    fun tag c hc p cs => mergeM_none_of_ne_lt tag (inert_spec (ht c hc)).2.2.2.2.2 p cs
  refine ⟨?_, by simp [tagAhead, isAsciiLetter], ?_, ?_⟩
  · simp only [List.forall_mem_append]
    refine ⟨by decide, fun c hc => ?_⟩
    have := inert_spec (ht c hc)
    exact ⟨this.1, this.2.1, this.2.2.1, this.2.2.2.1, this.2.2.2.2.1⟩
  · have hp := replaceWith_pass_head (hq "ul".data) "".data [] (some '>')
    simp only [List.append_nil] at hp
    simp [stage, replaceWith_cons_none, hp, replaceWith_nil, mergeM, chop]
  · have hp := replaceWith_pass_head (hq "ol".data) "".data [] (some '>')
    simp only [List.append_nil] at hp
    simp [stage, replaceWith_cons_none, hp, replaceWith_nil, mergeM, chop]

/-- A doubled `*` or `_` that is never closed: the italic rule takes the pair
as an empty span, and no paragraph is made. -/
theorem transform_double_marker (anchor : String) (t : List Char) (hne : t ≠ [])
    (ht : ∀ c ∈ t, c.isAlphanum = true) :
    transform anchor ("**".data ++ t) = "<em></em>".data ++ t ∧
    transform anchor ("__".data ++ t) = "<em></em>".data ++ t := by
  have hti : ∀ c ∈ t, inert c = true := fun c hc => plain_inert (alnum_plain (ht c hc))
  have htLT : ∀ c ∈ t, notLT c = true := fun c hc => (inert_spec (hti c hc)).1
  have hne2 : ∀ d, isPlain d = false → ∀ c ∈ t, c ≠ d :=
    fun d hd c hc => plain_ne (alnum_plain (ht c hc)) hd
  obtain ⟨t0, ts, rfl⟩ := List.exists_cons_of_ne_nil hne
  have hLT : ∀ d, notLT d = true → ∀ c ∈ d :: d :: t0 :: ts, notLT c = true := by
    intro d hd c hc
    simp only [List.mem_cons] at hc
    rcases hc with rfl | rfl | hc
    · exact hd
    · exact hd
    · exact htLT c (by simpa using hc)
  have hno : ∀ d e, isPlain e = false → d ≠ e → ∀ c ∈ d :: d :: t0 :: ts, c ≠ e := by
    intro d e he hde c hc
    simp only [List.mem_cons] at hc
    rcases hc with rfl | rfl | hc
    · exact hde
    · exact hde
    · exact hne2 e he c (by simpa using hc)
  have hem : ∀ e, isPlain e = false → e ≠ '<' → e ≠ '/' → e ≠ '>' → e ≠ 'e' → e ≠ 'm' →
      ∀ c ∈ "<em></em>".data ++ t0 :: ts, c ≠ e := by
    intro e he h1 h2 h3 h4 h5 c hc
    simp only [List.mem_append] at hc
    rcases hc with hc | hc
    · have : c = '<' ∨ c = '/' ∨ c = '>' ∨ c = 'e' ∨ c = 'm' := by
        revert hc
        simp only [String.data, List.mem_cons, List.not_mem_nil, or_false]
        tauto
      rcases this with rfl | rfl | rfl | rfl | rfl
      · exact Ne.symm h1
      · exact Ne.symm h2
      · exact Ne.symm h3
      · exact Ne.symm h4
      · exact Ne.symm h5
    · exact hne2 e he c hc
  have hdd : ∀ d : Char, isPlain d = false →
      stage (spanM [d, d]) "<strong>$1</strong>" (d :: d :: t0 :: ts) = d :: d :: t0 :: ts := by
    intro d hd
    have ht0 : t0 ≠ d := hne2 d hd t0 (by simp)
    exact stage_span_unclosed d [d] _ [d, d] (t0 :: ts) (Or.inr rfl) (hne2 d hd)
      (spanM_none_of_no_close d [d] (t0 :: ts) none (fun h => hne2 d hd d h rfl))
      (fun p => by simp [spanM, chop, ht0])
  constructor
  · rw [transform_eq_runStages, runStages_split 7]
    have e : runStages ((stages anchor).take 7) ("**".data ++ t0 :: ts) =
        stage (spanM "_".data) "<em>$1</em>" (stage (spanM "*".data) "<em>$1</em>"
          (stage (spanM "__".data) "<strong>$1</strong>"
            (stage (spanM "**".data) "<strong>$1</strong>" (stage (lineM "# ".data) "<h1>$1</h1>"
              (stage (lineM "## ".data) "<h2>$1</h2>" (stage (lineM "### ".data) "<h3>$1</h3>"
                ('*' :: '*' :: t0 :: ts))))))) := rfl
    rw [e, stage_lineM_id _ _ _ (hLT '*' (by decide)) (by simp),
      stage_lineM_id _ _ _ (hLT '*' (by decide)) (by simp),
      stage_lineM_id _ _ _ (hLT '*' (by decide)) (by simp)]
    rw [show "**".data = ['*', '*'] from rfl, hdd '*' (by decide),
      stage_id_of_needs (needs_of_startsWith (spanM_startsWith _ _)) _
        (hno '*' '_' (by decide) (by decide)),
      show "*".data = ['*'] from rfl, stage_span_empty '*' (t0 :: ts) (hne2 '*' (by decide)),
      stage_id_of_needs (needs_of_startsWith (spanM_startsWith _ _)) _
        (hem '_' (by decide) (by decide) (by decide) (by decide) (by decide) (by decide))]
    exact runStages_settled anchor 7 (settled_empty_em _ hti)
  · rw [transform_eq_runStages, runStages_split 7]
    have e : runStages ((stages anchor).take 7) ("__".data ++ t0 :: ts) =
        stage (spanM "_".data) "<em>$1</em>" (stage (spanM "*".data) "<em>$1</em>"
          (stage (spanM "__".data) "<strong>$1</strong>"
            (stage (spanM "**".data) "<strong>$1</strong>" (stage (lineM "# ".data) "<h1>$1</h1>"
              (stage (lineM "## ".data) "<h2>$1</h2>" (stage (lineM "### ".data) "<h3>$1</h3>"
                ('_' :: '_' :: t0 :: ts))))))) := rfl
    rw [e, stage_lineM_id _ _ _ (hLT '_' (by decide)) (by simp),
      stage_lineM_id _ _ _ (hLT '_' (by decide)) (by simp),
      stage_lineM_id _ _ _ (hLT '_' (by decide)) (by simp)]
    rw [stage_id_of_needs (needs_of_startsWith (spanM_startsWith _ _)) _
        (hno '_' '*' (by decide) (by decide)),
      show "__".data = ['_', '_'] from rfl, hdd '_' (by decide),
      stage_id_of_needs (needs_of_startsWith (spanM_startsWith _ _)) _
        (hno '_' '*' (by decide) (by decide)),
      show "_".data = ['_'] from rfl, stage_span_empty '_' (t0 :: ts) (hne2 '_' (by decide))]
    exact runStages_settled anchor 7 (settled_empty_em _ hti)

/-- The paragraph rule and the calls after it on a single line without `<` that
the calls before have left as it is. -/
theorem transform_paragraph (anchor : String) (s : List Char) (hne : s ≠ [])
    (hLT : ∀ c ∈ s, notLT c = true) (hlt : ∀ c ∈ s, c ≠ '<')
    (hpre : ∀ f ∈ (stages anchor).take 16, f s = s) :
    transform anchor s = "<p>".data ++ (s ++ "</p>".data) := by
  have hp : paragraphM none s = some ([], [(1, s)]) := by
    have hta : tagAhead s = false := by
      cases s with
      | nil => rfl
      | cons c cs =>
        cases cs with
        | nil => rfl
        | cons d ds => simp [tagAhead, hlt c (by simp)]
    simp [paragraphM, lineStart, hta, takeWhile_eq_self hLT, dropWhile_eq_nil hLT]
  have hq : ∀ tag, ∀ c ∈ s, ∀ p cs, mergeM tag p (c :: cs) = none :=
    fun tag c hc p cs => mergeM_none_of_ne_lt tag (hlt c hc) p cs
  have h17 : ∀ tag, tag = "ul".data ∨ tag = "ol".data →
      stage (mergeM tag) "" ("<p>".data ++ (s ++ "</p>".data)) =
      "<p>".data ++ (s ++ "</p>".data) := by
    intro tag htag
    rcases htag with rfl | rfl
    · simp [stage, replaceWith_cons_none, replaceWith_pass_head (hq _), replaceWith_nil, mergeM,
        chop]
    · simp [stage, replaceWith_cons_none, replaceWith_pass_head (hq _), replaceWith_nil, mergeM,
        chop]
  have h19 : stage newlineM "<br />" ("<p>".data ++ (s ++ "</p>".data)) =
      "<p>".data ++ (s ++ "</p>".data) := by
    apply stage_id_of_needs (needs_of_startsWith newlineM_startsWith)
    simp only [List.forall_mem_append]
    exact ⟨by decide, fun c hc => notLT_ne_newline (hLT c hc), by decide⟩
  rw [transform_eq_runStages, runStages_split 16, runStages_id hpre,
    runStages_drop_succ (stages anchor) 16 (stage paragraphM "<p>$1</p>") rfl,
    stage_line_of_anchored paragraphM_anchored _ hLT hne hp, expand_p,
    runStages_drop_succ (stages anchor) 17 (stage (mergeM "ul".data) "") rfl,
    h17 _ (Or.inl rfl),
    runStages_drop_succ (stages anchor) 18 (stage (mergeM "ol".data) "") rfl,
    h17 _ (Or.inr rfl),
    runStages_drop_succ (stages anchor) 19 (stage newlineM "<br />") rfl, h19]
  rfl

/-- A single `*` or `_` that is never closed stays as it is, in a paragraph. -/
theorem transform_single_marker (anchor : String) (t : List Char) (hne : t ≠ [])
    (ht : ∀ c ∈ t, c.isAlphanum = true) :
    transform anchor ("*".data ++ t) = "<p>*".data ++ (t ++ "</p>".data) ∧
    transform anchor ("_".data ++ t) = "<p>_".data ++ (t ++ "</p>".data) := by
  have hti : ∀ c ∈ t, inert c = true := fun c hc => plain_inert (alnum_plain (ht c hc))
  have htLT : ∀ c ∈ t, notLT c = true := fun c hc => (inert_spec (hti c hc)).1
  have hne2 : ∀ d, isPlain d = false → ∀ c ∈ t, c ≠ d :=
    fun d hd c hc => plain_ne (alnum_plain (ht c hc)) hd
  obtain ⟨t0, ts, rfl⟩ := List.exists_cons_of_ne_nil hne
  have hLT : ∀ d, notLT d = true → ∀ c ∈ d :: t0 :: ts, notLT c = true := by
    intro d hd c hc
    simp only [List.mem_cons] at hc
    rcases hc with rfl | hc
    · exact hd
    · exact htLT c (by simpa using hc)
  have hno : ∀ d e, isPlain e = false → d ≠ e → ∀ c ∈ d :: t0 :: ts, c ≠ e := by
    intro d e he hde c hc
    simp only [List.mem_cons] at hc
    rcases hc with rfl | hc
    · exact hde
    · exact hne2 e he c (by simpa using hc)
  have hdd : ∀ d : Char, isPlain d = false →
      stage (spanM [d, d]) "<strong>$1</strong>" (d :: t0 :: ts) = d :: t0 :: ts := by
    intro d hd
    have ht0 : t0 ≠ d := hne2 d hd t0 (by simp)
    exact stage_span_unclosed d [d] _ [d] (t0 :: ts) (Or.inl rfl) (hne2 d hd)
      (by simp [spanM, chop, ht0]) (fun p => by simp [spanM, chop, ht0])
  have hd1 : ∀ d : Char, isPlain d = false →
      stage (spanM [d]) "<em>$1</em>" (d :: t0 :: ts) = d :: t0 :: ts := by
    intro d hd
    have h0 : ∀ p, spanM [d] p (d :: t0 :: ts) = none := fun p =>
      spanM_none_of_no_close d [] (t0 :: ts) p (fun h => hne2 d hd d h rfl)
    exact stage_span_unclosed d [] _ [d] (t0 :: ts) (Or.inl rfl) (hne2 d hd) (h0 none) h0
  have hpre : ∀ d : Char, isPlain d = false → notLT d = true → d ≠ '#' → d ≠ '-' → d ≠ '+' →
      d ≠ '>' → d ≠ Char.ofNat 96 → d ≠ '[' → d ≠ '.' → isDigit d = false →
      (d = '*' ∨ d = '_') →
      ∀ f ∈ (stages anchor).take 16, f (d :: t0 :: ts) = d :: t0 :: ts := by
    intro d hd hdLT h1 h2 h3 h4 h5 h6 h7 h8 hd2 f hf
    simp only [stages, List.take_succ_cons, List.take_zero, List.mem_cons, List.not_mem_nil,
      or_false] at hf
    have hs : ∀ e, e = '*' ∨ e = '_' → stage (spanM [e, e]) "<strong>$1</strong>"
        (d :: t0 :: ts) = d :: t0 :: ts ∧
        stage (spanM [e]) "<em>$1</em>" (d :: t0 :: ts) = d :: t0 :: ts := by
      intro e he
      by_cases hde : d = e
      · subst hde
        exact ⟨hdd d hd, hd1 d hd⟩
      · have hpl : isPlain e = false := by rcases he with rfl | rfl <;> decide
        exact ⟨stage_id_of_needs (needs_of_startsWith (spanM_startsWith _ _)) _
            (hno d e hpl hde),
          stage_id_of_needs (needs_of_startsWith (spanM_startsWith _ _)) _ (hno d e hpl hde)⟩
    have ht0sp : t0 ≠ ' ' := by
      intro h
      have h0 := ht t0 (by simp)
      rw [h] at h0
      exact absurd h0 (by decide)
    rcases hf with rfl | rfl | rfl | rfl | rfl | rfl | rfl | rfl | rfl | rfl | rfl | rfl | rfl |
      rfl | rfl | rfl
    · exact stage_lineM_id _ _ _ (hLT d hdLT) (by simpa using h1)
    · exact stage_lineM_id _ _ _ (hLT d hdLT) (by simpa using h1)
    · exact stage_lineM_id _ _ _ (hLT d hdLT) (by simpa using h1)
    · exact (hs '*' (Or.inl rfl)).1
    · exact (hs '_' (Or.inr rfl)).1
    · exact (hs '*' (Or.inl rfl)).2
    · exact (hs '_' (Or.inr rfl)).2
    · exact stage_id_of_needs (needs_of_startsWith fenceM_startsWith) _
        (hno d _ (by decide) h5)
    · exact stage_id_of_needs (needs_of_startsWith (spanM_startsWith _ _)) _
        (hno d _ (by decide) h5)
    · exact stage_id_of_anchored (lineM_anchored _) _ (hLT d hdLT)
        (by simp [lineM, chop, ht0sp])
    · exact stage_lineM_id _ _ _ (hLT d hdLT) (by simpa using h2)
    · exact stage_lineM_id _ _ _ (hLT d hdLT) (by simpa using h3)
    · exact stage_id_of_anchored orderedM_anchored _ (hLT d hdLT)
        (orderedM_none_of_no_dot (hno d '.' (by decide) h7))
    · exact stage_id_of_needs (bracketM_needs (by decide)) _ (hno d '[' (by decide) h6)
    · exact stage_id_of_needs (bracketM_needs (by decide)) _ (hno d '[' (by decide) h6)
    · exact stage_lineM_id _ _ _ (hLT d hdLT) (by simpa using h4)
  constructor
  · exact transform_paragraph anchor ('*' :: t0 :: ts) (by simp) (hLT '*' (by decide))
      (hno '*' '<' (by decide) (by decide))
      (hpre '*' (by decide) (by decide) (by decide) (by decide) (by decide) (by decide)
        (by decide) (by decide) (by decide) (by decide) (Or.inl rfl))
  · exact transform_paragraph anchor ('_' :: t0 :: ts) (by simp) (hLT '_' (by decide))
      (hno '_' '<' (by decide) (by decide))
      (hpre '_' (by decide) (by decide) (by decide) (by decide) (by decide) (by decide)
        (by decide) (by decide) (by decide) (by decide) (Or.inr rfl))

/-! ## Raw HTML -/

theorem hasMatch_false {m : Matcher} {s : List Char} {prev : Option Char}
    (h : hasMatch m prev s = false) :
    ∀ a c b, s = a ++ c :: b → m (advance prev a) (c :: b) = none := by
  induction s generalizing prev with
  | nil =>
    intro a c b hab
    simp at hab
  | cons x xs ih =>
    intro a c b hab
    simp only [hasMatch, Bool.or_eq_false_iff] at h
    cases a with
    | nil =>
      simp only [List.nil_append, List.cons.injEq] at hab
      obtain ⟨rfl, rfl⟩ := hab
      simpa using h.1
    | cons y a2 =>
      simp only [List.cons_append, List.cons.injEq] at hab
      obtain ⟨rfl, h2⟩ := hab
      exact ih h.2 a2 c b h2

/-- A single line that starts with a tag, has none of `*`, `_`, the backtick
and `[`, and in which the cleanup patterns find nothing, is settled. -/
theorem settled_of_raw {s : List Char} (hline : ∀ c ∈ s, notLT c = true)
    (hstart : tagAhead s = true)
    (hch : ∀ c ∈ s, c ≠ '*' ∧ c ≠ '_' ∧ c ≠ Char.ofNat 96 ∧ c ≠ '[')
    (hul : hasMatch (matchAt .g (mergeRule "ul")) none s = false)
    (hol : hasMatch (matchAt .g (mergeRule "ol")) none s = false) : Settled s := by
  rw [matchAt_mergeRule] at hul hol
  refine ⟨fun c hc => ⟨hline c hc, hch c hc⟩, hstart, ?_, ?_⟩
  · exact stage_id_of_none _ (mergeM_startsWith _).1 (hasMatch_false hul)
  · exact stage_id_of_none _ (mergeM_startsWith _).1 (hasMatch_false hol)

/-! ## Fenced code blocks -/

/-- The fenced code rule on a fence with the language tag `lang` and the body
`body`: the tag has no line terminator, the body no backtick. -/
theorem fenceM_match (lang body r : List Char) (prev : Option Char)
    (hl : ∀ c ∈ lang, notLT c = true) (hb : ∀ c ∈ body, c ≠ Char.ofNat 96) :
    fenceM prev ("```".data ++ (lang ++ '\n' :: (body ++ ("```".data ++ r)))) =
      some (r, [(2, body), (1, lang)]) := by
  unfold fenceM
  rw [chop_append]
  simp only []
  rw [lazyFind_pass notLT _ lang
    (fun c hc => ⟨hl c hc, fun acc q cs => by
      have : c ≠ '\n' := notLT_ne_newline (hl c hc)
      simp [this]⟩)]
  apply lazyFind_found
  simp only [if_true, List.nil_append]
  rw [lazyFind_pass (fun _ => true) _ body
    (fun c hc => ⟨rfl, fun acc q cs => by
      have : c ≠ Char.ofNat 96 := hb c hc
      simp [chop, this]⟩)]
  apply lazyFind_found
  rw [chop_append]
  rfl

theorem expand_pre (lang body m : List Char) :
    expand [(2, body), (1, lang)] m "<pre><code class=\"language-$1\">$2</code></pre>".data =
      "<pre><code class=\"language-".data ++ (lang ++ ("\">".data ++
        (body ++ "</code></pre>".data))) := rfl

/-- The fenced code rule on a text that is one fenced block. -/
theorem stage_fence (lang body : List Char)
    (hl : ∀ c ∈ lang, notLT c = true) (hb : ∀ c ∈ body, c ≠ Char.ofNat 96) :
    stage fenceM "<pre><code class=\"language-$1\">$2</code></pre>"
      ("```".data ++ (lang ++ '\n' :: (body ++ "```".data))) =
      "<pre><code class=\"language-".data ++ (lang ++ ("\">".data ++
        (body ++ "</code></pre>".data))) := by
  have hm := fenceM_match lang body [] none hl hb
  have e : "```".data ++ (lang ++ '\n' :: (body ++ ("```".data ++ []))) =
      ("```".data ++ (lang ++ '\n' :: (body ++ "```".data))) ++ [] := by simp
  rw [e] at hm
  have hr := replaceWith_match hm (by simp)
    "<pre><code class=\"language-$1\">$2</code></pre>".data
  rw [expand_pre, replaceWith_nil, fenceM_startsWith.1] at hr
  simp only [List.append_nil] at hr
  exact hr

theorem quiet_lineM_head (d : Char) (ds : List Char) {l : List Char} (hne : l ≠ [])
    (hl : ∀ c ∈ l, notLT c = true) (hh : l.head? ≠ some d) : QuietLine (lineM (d :: ds)) l := by
  refine ⟨hne, hl, fun p r => ?_⟩
  obtain ⟨c, cs, rfl⟩ := List.exists_cons_of_ne_nil hne
  have hc : c ≠ d := fun h => hh (by simp [h])
  simp [lineM, chop, hc]

theorem quiet_orderedM_head {l : List Char} (hne : l ≠ []) (hl : ∀ c ∈ l, notLT c = true)
    (hh : ∀ c, l.head? = some c → isDigit c = false) : QuietLine orderedM l := by
  refine ⟨hne, hl, fun p r => ?_⟩
  obtain ⟨c, cs, rfl⟩ := List.exists_cons_of_ne_nil hne
  have hc : isDigit c = false := hh c rfl
  simp [orderedM, hc]

/-- The paragraph rule on two lines of which the first starts with a tag and
the second does not: the second line is wrapped. -/
theorem stage_paragraph_second (l1 l2 : List Char) (h1 : tagAhead l1 = true)
    (hl1 : ∀ c ∈ l1, notLT c = true) (h2 : tagAhead l2 = false) (hne2 : l2 ≠ [])
    (hl2 : ∀ c ∈ l2, notLT c = true) :
    stage paragraphM "<p>$1</p>" (l1 ++ '\n' :: l2) =
      l1 ++ '\n' :: ("<p>".data ++ (l2 ++ "</p>".data)) := by
  obtain ⟨d, rest, rfl, hd⟩ := tagAhead_head h1
  have hne1 : ('<' :: d :: rest) ≠ [] := by simp
  have hq : paragraphM none (('<' :: d :: rest) ++ '\n' :: l2) = none := by
    simp [paragraphM, tagAhead, hd]
  have hnl : paragraphM (advance none ('<' :: d :: rest)) ('\n' :: l2) = none :=
    paragraphM_anchored _ _ (lineStart_advance_ne hne1 hl1 none)
  have hm : paragraphM (some '\n') (l2 ++ []) = some ([], [(1, l2)]) := by
    simp [paragraphM, lineStart, isLineTerminator, h2, takeWhile_eq_self hl2,
      dropWhile_eq_nil hl2]
  have hend : paragraphM (advance (some '\n') l2) [] = none :=
    paragraphM_anchored _ _ (lineStart_advance_ne hne2 hl2 _)
  have hr := replaceWith_match hm hne2 "<p>$1</p>".data
  rw [expand_p, replaceWith_nil, hend] at hr
  simp only [List.append_nil] at hr
  unfold stage
  rw [replaceWith_pass_line paragraphM_anchored hl1 _ _ _ hq, replaceWith_cons_none hnl, hr]

theorem flatMap_break_id {t : List Char} (ht : ∀ c ∈ t, c ≠ '\n') :
    t.flatMap (fun c => if c = '\n' then "<br />".data else [c]) = t := by
  induction t with
  | nil => rfl
  | cons c cs ih =>
    rw [List.flatMap_cons, if_neg (ht c (by simp)), ih (fun d hd => ht d (by simp [hd]))]
    rfl

/-- A stretch of calls that leave the text as it is. -/
theorem runStages_skip (fs : List (List Char → List Char)) (k n j : Nat) (hj : k + n = j)
    (x : List Char) (h : ∀ f ∈ (fs.drop k).take n, f x = x) :
    runStages (fs.drop k) x = runStages (fs.drop j) x := by
  rw [runStages_split n (fs.drop k), runStages_id h, List.drop_drop, hj]

/-- What the chain makes of a fenced block with a language tag and one line of
code, the closing fence on a line of its own: the paragraph rule wraps the line
`</code></pre>`. -/
theorem transform_fence (anchor : String) (lang body : List Char) (hb0 : body ≠ []) (hl : ∀ c ∈ lang, c.isAlphanum = true)
    (hb : ∀ c ∈ body, c.isAlphanum = true) :
    transform anchor ("```".data ++ (lang ++ '\n' :: (body ++ '\n' :: "```".data))) =
      "<pre><code class=\"language-".data ++ (lang ++ ("\">".data ++
        (body ++ "<br /><p></code></pre></p>".data))) := by
  have hlp : ∀ c ∈ lang, isPlain c = true := fun c hc => alnum_plain (hl c hc)
  have hbp : ∀ c ∈ body, isPlain c = true := fun c hc => alnum_plain (hb c hc)
  have hlLT : ∀ c ∈ lang, notLT c = true := fun c hc => plain_notLT (hlp c hc)
  have hbLT : ∀ c ∈ body, notLT c = true := fun c hc => plain_notLT (hbp c hc)
  have hne : ∀ d, isPlain d = false → (∀ c ∈ lang, c ≠ d) ∧ (∀ c ∈ body, c ≠ d) :=
    fun d hd => ⟨fun c hc => plain_ne (hlp c hc) hd, fun c hc => plain_ne (hbp c hc) hd⟩
  obtain ⟨b0, bs, rfl⟩ := List.exists_cons_of_ne_nil hb0
  -- the input, line by line
  have hin : "```".data ++ (lang ++ '\n' :: (b0 :: bs ++ '\n' :: "```".data)) =
      joinLines ["```".data ++ lang, b0 :: bs, "```".data] := by
    simp [joinLines, tailLines]
  have hq0 : ∀ d ds, d ≠ Char.ofNat 96 → isPlain d = false →
      ∀ l1 ∈ ["```".data ++ lang, b0 :: bs, "```".data], QuietLine (lineM (d :: ds)) l1 := by
    intro d ds hd1 hd2 l1 hl1
    simp only [List.mem_cons, List.not_mem_nil, or_false] at hl1
    rcases hl1 with rfl | rfl | rfl
    · refine quiet_lineM_head d ds (by simp) ?_ (by simpa using Ne.symm hd1)
      simp only [List.forall_mem_append]
      exact ⟨by decide, hlLT⟩
    · exact quiet_lineM_head d ds (by simp) hbLT
        (by simpa using plain_ne (hbp b0 (by simp)) hd2)
    · exact quiet_lineM_head d ds (by simp) (by decide) (by simpa using Ne.symm hd1)
  have hno0 : ∀ d, isPlain d = false → d ≠ Char.ofNat 96 → d ≠ '\n' →
      ∀ c ∈ "```".data ++ (lang ++ '\n' :: (b0 :: bs ++ '\n' :: "```".data)), c ≠ d := by
    intro d hd h1 h2 c hc
    have key : ∀ c ∈ "```".data, c ≠ d := by
      intro c hc
      simp only [String.data, List.mem_cons, List.not_mem_nil, or_false, or_self] at hc
      rw [hc]
      exact Ne.symm h1
    rcases List.mem_append.mp hc with hc | hc
    · exact key c hc
    rcases List.mem_append.mp hc with hc | hc
    · exact (hne d hd).1 c hc
    rcases List.mem_cons.mp hc with hc | hc
    · rw [hc]
      exact Ne.symm h2
    rcases List.mem_append.mp hc with hc | hc
    · exact (hne d hd).2 c hc
    rcases List.mem_cons.mp hc with hc | hc
    · rw [hc]
      exact Ne.symm h2
    · exact key c hc
  have hpre : ∀ f ∈ (stages anchor).take 7,
      f ("```".data ++ (lang ++ '\n' :: (b0 :: bs ++ '\n' :: "```".data))) =
        "```".data ++ (lang ++ '\n' :: (b0 :: bs ++ '\n' :: "```".data)) := by
    intro f hf
    simp only [stages, List.take_succ_cons, List.take_zero, List.mem_cons, List.not_mem_nil,
      or_false] at hf
    rcases hf with rfl | rfl | rfl | rfl | rfl | rfl | rfl
    · rw [hin]
      exact stage_id_joinLines (lineM_anchored _) _ (hq0 _ _ (by decide) (by decide))
    · rw [hin]
      exact stage_id_joinLines (lineM_anchored _) _ (hq0 _ _ (by decide) (by decide))
    · rw [hin]
      exact stage_id_joinLines (lineM_anchored _) _ (hq0 _ _ (by decide) (by decide))
    · exact stage_id_of_needs (needs_of_startsWith (spanM_startsWith _ _)) _
        (hno0 _ (by decide) (by decide) (by decide))
    · exact stage_id_of_needs (needs_of_startsWith (spanM_startsWith _ _)) _
        (hno0 _ (by decide) (by decide) (by decide))
    · exact stage_id_of_needs (needs_of_startsWith (spanM_startsWith _ _)) _
        (hno0 _ (by decide) (by decide) (by decide))
    · exact stage_id_of_needs (needs_of_startsWith (spanM_startsWith _ _)) _
        (hno0 _ (by decide) (by decide) (by decide))
  -- the fenced code rule
  have h7 : stage fenceM "<pre><code class=\"language-$1\">$2</code></pre>"
      ("```".data ++ (lang ++ '\n' :: (b0 :: bs ++ '\n' :: "```".data))) =
      ("<pre><code class=\"language-".data ++ (lang ++ ("\">".data ++ (b0 :: bs)))) ++
        '\n' :: "</code></pre>".data := by
    have h := stage_fence lang (b0 :: bs ++ ['\n']) hlLT (by
      intro c hc
      simp only [List.mem_append, List.mem_singleton] at hc
      rcases hc with hc | rfl
      · exact (hne _ (by decide)).2 c hc
      · decide)
    simpa using h
  -- the calls between the fenced code rule and the paragraph rule
  have hL1 : ∀ c ∈ "<pre><code class=\"language-".data ++ (lang ++ ("\">".data ++ (b0 :: bs))),
      notLT c = true := by
    simp only [List.forall_mem_append]
    exact ⟨by decide, hlLT, by decide, hbLT⟩
  have hX : ("<pre><code class=\"language-".data ++ (lang ++ ("\">".data ++ (b0 :: bs)))) ++
      '\n' :: "</code></pre>".data =
      joinLines ["<pre><code class=\"language-".data ++ (lang ++ ("\">".data ++ (b0 :: bs))),
        "</code></pre>".data] := by
    simp [joinLines, tailLines]
  have hnoX : ∀ d, isPlain d = false → d ≠ '\n' →
      (∀ c ∈ "<pre><code class=\"language-\"></code></pre>".data, c ≠ d) →
      ∀ c ∈ ("<pre><code class=\"language-".data ++ (lang ++ ("\">".data ++ (b0 :: bs)))) ++
        '\n' :: "</code></pre>".data, c ≠ d := by
    intro d hd h2 hlit c hc
    rcases List.mem_append.mp hc with hc | hc
    · rcases List.mem_append.mp hc with hc | hc
      · exact hlit c (by
          have : "<pre><code class=\"language-\"></code></pre>".data =
            "<pre><code class=\"language-".data ++ "\"></code></pre>".data := rfl
          rw [this]
          exact List.mem_append_left _ hc)
      rcases List.mem_append.mp hc with hc | hc
      · exact (hne d hd).1 c hc
      rcases List.mem_append.mp hc with hc | hc
      · exact hlit c (by
          have : "<pre><code class=\"language-\"></code></pre>".data =
            "<pre><code class=\"language-".data ++ ("\">".data ++ "</code></pre>".data) := rfl
          rw [this]
          exact List.mem_append_right _ (List.mem_append_left _ hc))
      · exact (hne d hd).2 c hc
    · rcases List.mem_cons.mp hc with hc | hc
      · rw [hc]
        exact Ne.symm h2
      · exact hlit c (by
          have : "<pre><code class=\"language-\"></code></pre>".data =
            "<pre><code class=\"language-\">".data ++ "</code></pre>".data := rfl
          rw [this]
          exact List.mem_append_right _ hc)
  have hqX : ∀ d ds, d ≠ '<' →
      ∀ l1 ∈ ["<pre><code class=\"language-".data ++ (lang ++ ("\">".data ++ (b0 :: bs))),
        "</code></pre>".data], QuietLine (lineM (d :: ds)) l1 := by
    intro d ds hd l1 hl1
    simp only [List.mem_cons, List.not_mem_nil, or_false] at hl1
    rcases hl1 with rfl | rfl
    · exact quiet_lineM_head d ds (by simp) hL1 (by simpa using Ne.symm hd)
    · exact quiet_lineM_head d ds (by simp) (by decide) (by simpa using Ne.symm hd)
  have hmid : ∀ f ∈ ((stages anchor).drop 8).take 8,
      f (("<pre><code class=\"language-".data ++ (lang ++ ("\">".data ++ (b0 :: bs)))) ++
        '\n' :: "</code></pre>".data) =
      ("<pre><code class=\"language-".data ++ (lang ++ ("\">".data ++ (b0 :: bs)))) ++
        '\n' :: "</code></pre>".data := by
    intro f hf
    simp only [stages, List.drop_succ_cons, List.drop_zero, List.take_succ_cons, List.take_zero,
      List.mem_cons, List.not_mem_nil, or_false] at hf
    rcases hf with rfl | rfl | rfl | rfl | rfl | rfl | rfl | rfl
    · exact stage_id_of_needs (needs_of_startsWith (spanM_startsWith _ _)) _
        (hnoX _ (by decide) (by decide) (by decide))
    · rw [hX]
      exact stage_id_joinLines (lineM_anchored _) _ (hqX _ _ (by decide))
    · rw [hX]
      exact stage_id_joinLines (lineM_anchored _) _ (hqX _ _ (by decide))
    · rw [hX]
      exact stage_id_joinLines (lineM_anchored _) _ (hqX _ _ (by decide))
    · rw [hX]
      refine stage_id_joinLines orderedM_anchored _ ?_
      intro l1 hl1
      simp only [List.mem_cons, List.not_mem_nil, or_false] at hl1
      rcases hl1 with rfl | rfl
      · exact quiet_orderedM_head (by simp) hL1 (by simp [isDigit])
      · exact quiet_orderedM_head (by simp) (by decide) (by simp [isDigit])
    · exact stage_id_of_needs (bracketM_needs (by decide)) _
        (hnoX _ (by decide) (by decide) (by decide))
    · exact stage_id_of_needs (bracketM_needs (by decide)) _
        (hnoX _ (by decide) (by decide) (by decide))
    · rw [hX]
      exact stage_id_joinLines (lineM_anchored _) _ (hqX _ _ (by decide))
  -- the paragraph rule
  have h16 := stage_paragraph_second
    ("<pre><code class=\"language-".data ++ (lang ++ ("\">".data ++ (b0 :: bs))))
    "</code></pre>".data (by simp [tagAhead, isAsciiLetter]) hL1 (by decide) (by simp)
    (by decide)
  -- the cleanup and the line breaks
  have hlt : ∀ c ∈ "<pre><code class=\"language-".data ++ (lang ++ ("\">".data ++ (b0 :: bs))),
      c ≠ '\n' := fun c hc => notLT_ne_newline (hL1 c hc)
  have hqa : ∀ tag, ∀ c ∈ lang, ∀ p cs, mergeM tag p (c :: cs) = none :=
    fun tag c hc p cs => mergeM_none_of_ne_lt tag ((hne _ (by decide)).1 c hc) p cs
  have hqb : ∀ tag, ∀ c ∈ bs, ∀ p cs, mergeM tag p (c :: cs) = none :=
    fun tag c hc p cs => mergeM_none_of_ne_lt tag ((hne _ (by decide)).2 c (by simp [hc])) p cs
  have hb0lt : b0 ≠ '<' := (hne _ (by decide)).2 b0 (by simp)
  have h17 : ∀ tag, tag = "ul".data ∨ tag = "ol".data → stage (mergeM tag) ""
      (("<pre><code class=\"language-".data ++ (lang ++ ("\">".data ++ (b0 :: bs)))) ++
        '\n' :: ("<p>".data ++ ("</code></pre>".data ++ "</p>".data))) =
      ("<pre><code class=\"language-".data ++ (lang ++ ("\">".data ++ (b0 :: bs)))) ++
        '\n' :: ("<p>".data ++ ("</code></pre>".data ++ "</p>".data)) := by
    intro tag htag
    rcases htag with rfl | rfl
    · simp [stage, replaceWith_cons_none, replaceWith_pass_head (hqa _),
        replaceWith_pass_head (hqb _), replaceWith_nil, mergeM, chop, hb0lt]
    · simp [stage, replaceWith_cons_none, replaceWith_pass_head (hqa _),
        replaceWith_pass_head (hqb _), replaceWith_nil, mergeM, chop, hb0lt]
  have h19 : stage newlineM "<br />"
      (("<pre><code class=\"language-".data ++ (lang ++ ("\">".data ++ (b0 :: bs)))) ++
        '\n' :: ("<p>".data ++ ("</code></pre>".data ++ "</p>".data))) =
      "<pre><code class=\"language-".data ++ (lang ++ ("\">".data ++
        (b0 :: bs ++ "<br /><p></code></pre></p>".data))) := by
    unfold stage
    rw [replaceWith_newline, List.flatMap_append, flatMap_break_id hlt, List.flatMap_cons,
      if_pos rfl, flatMap_break_id (by decide)]
    simp
  rw [transform_eq_runStages, runStages_split 7, runStages_id hpre,
    runStages_drop_succ (stages anchor) 7
      (stage fenceM "<pre><code class=\"language-$1\">$2</code></pre>") rfl, h7,
    runStages_skip (stages anchor) 8 8 16 rfl _ hmid,
    runStages_drop_succ (stages anchor) 16 (stage paragraphM "<p>$1</p>") rfl, h16,
    runStages_drop_succ (stages anchor) 17 (stage (mergeM "ul".data) "") rfl,
    h17 _ (Or.inl rfl),
    runStages_drop_succ (stages anchor) 18 (stage (mergeM "ol".data) "") rfl,
    h17 _ (Or.inr rfl),
    runStages_drop_succ (stages anchor) 19 (stage newlineM "<br />") rfl, h19]
  rfl

theorem startsWithStr_append (p r : String) : startsWithStr (p ++ r) p = true := by
  simp [startsWithStr, chop_append]

/-! ## Triple markers -/

/-- The bold rule on `***t***`: the shortest text that is followed by `**` is
`*t`, and the last `*` is left over. -/
theorem spanM_bold_triple (t : List Char) (prev : Option Char) (hne : t ≠ [])
    (ht : ∀ c ∈ t, notLT c = true ∧ c ≠ '*') :
    spanM "**".data prev ("***".data ++ (t ++ "***".data)) = some ("*".data, [(1, '*' :: t)]) := by
  obtain ⟨t0, ts, rfl⟩ := List.exists_cons_of_ne_nil hne
  have ht0 : t0 ≠ '*' := (ht t0 (by simp)).2
  have e : "***".data ++ (t0 :: ts ++ "***".data) =
      "**".data ++ ('*' :: ((t0 :: ts) ++ "***".data)) := rfl
  rw [e]
  unfold spanM
  rw [chop_append]
  simp only []
  have h1 : ∀ (g : List Char → Option Char → List Char → Option (List Char × Captures))
      (q : Option Char), g [] q ('*' :: ((t0 :: ts) ++ "***".data)) = none →
      lazyFind notLT g [] q ('*' :: ((t0 :: ts) ++ "***".data)) =
        lazyFind notLT g ['*'] (some '*') ((t0 :: ts) ++ "***".data) := by
    intro g q hg
    rw [lazyFind, hg]
    rfl
  rw [h1 _ _ (by simp [chop, ht0])]
  rw [lazyFind_pass notLT _ (t0 :: ts)
    (fun c hc => ⟨(ht c hc).1, fun acc q cs => by simp [chop, (ht c hc).2]⟩)]
  apply lazyFind_found
  rfl

theorem transform_triple (anchor : String) (t : List Char) (hne : t ≠ [])
    (ht : ∀ c ∈ t, c.isAlphanum = true) :
    transform anchor ("***".data ++ (t ++ "***".data)) =
      "<strong><em>".data ++ (t ++ "</strong></em>".data) := by
  have hti : ∀ c ∈ t, inert c = true := fun c hc => plain_inert (alnum_plain (ht c hc))
  have htLT : ∀ c ∈ t, notLT c = true := fun c hc => (inert_spec (hti c hc)).1
  have htstar : ∀ c ∈ t, c ≠ '*' := fun c hc => (inert_spec (hti c hc)).2.1
  have hLT0 : ∀ c ∈ "***".data ++ (t ++ "***".data), notLT c = true := by
    simp only [List.forall_mem_append]
    exact ⟨by decide, htLT, by decide⟩
  have hq2 : ∀ c ∈ t, ∀ p cs, spanM "**".data p (c :: cs) = none :=
    fun c hc p cs => (spanM_startsWith _ _).2 p c cs (htstar c hc)
  have hq1 : ∀ c ∈ t, ∀ p cs, spanM "*".data p (c :: cs) = none :=
    fun c hc p cs => (spanM_startsWith _ _).2 p c cs (htstar c hc)
  -- the bold rule
  have s3 : stage (spanM "**".data) "<strong>$1</strong>" ("***".data ++ (t ++ "***".data)) =
      "<strong>*".data ++ (t ++ "</strong>*".data) := by
    have hm := spanM_bold_triple t none hne (fun c hc => ⟨htLT c hc, htstar c hc⟩)
    have e : "***".data ++ (t ++ "***".data) = ("***".data ++ (t ++ "**".data)) ++ "*".data := by
      simp
    rw [e] at hm ⊢
    unfold stage
    rw [replaceWith_match hm (by simp), expand_strong]
    simp [replaceWith_cons_none, replaceWith_nil, spanM, chop]
  have s4 : stage (spanM "__".data) "<strong>$1</strong>"
      ("<strong>*".data ++ (t ++ "</strong>*".data)) =
      "<strong>*".data ++ (t ++ "</strong>*".data) := by
    apply stage_id_of_needs (needs_of_startsWith (spanM_startsWith _ _))
    simp only [List.forall_mem_append]
    exact ⟨by decide, fun c hc => (inert_spec (hti c hc)).2.2.1, by decide⟩
  -- the italic rule
  have s5 : stage (spanM "*".data) "<em>$1</em>"
      ("<strong>*".data ++ (t ++ "</strong>*".data)) =
      "<strong><em>".data ++ (t ++ "</strong></em>".data) := by
    have hm := spanM_match '*' [] (t ++ "</strong>".data) [] (some '>') (by
      intro c hc
      rcases List.mem_append.mp hc with hc | hc
      · exact ⟨htLT c hc, htstar c hc⟩
      · exact (by decide : ∀ c ∈ "</strong>".data, notLT c = true ∧ c ≠ '*') c hc)
    have hm2 : spanM "*".data (some '>') (("*".data ++ (t ++ "</strong>*".data)) ++ []) =
        some ([], [(1, t ++ "</strong>".data)]) := by
      simpa using hm
    have hr := replaceWith_match hm2 (by simp) "<em>$1</em>".data
    rw [expand_em] at hr
    simp only [List.append_nil] at hr
    unfold stage
    simp [replaceWith_cons_none, spanM, chop]
    simpa [replaceWith_nil, spanM, chop] using hr
  -- what is left is settled
  have hset : Settled ("<strong><em>".data ++ (t ++ "</strong></em>".data)) := by
    have hqa : ∀ tag, ∀ c ∈ t, ∀ p cs, mergeM tag p (c :: cs) = none :=
      fun tag c hc p cs => mergeM_none_of_ne_lt tag (inert_spec (hti c hc)).2.2.2.2.2 p cs
    refine ⟨?_, by simp [tagAhead, isAsciiLetter], ?_, ?_⟩
    · simp only [List.forall_mem_append]
      refine ⟨by decide, fun c hc => ?_, by decide⟩
      have := inert_spec (hti c hc)
      exact ⟨this.1, this.2.1, this.2.2.1, this.2.2.2.1, this.2.2.2.2.1⟩
    · simp [stage, replaceWith_cons_none, replaceWith_pass_head (hqa _), replaceWith_nil, mergeM,
        chop]
    · simp [stage, replaceWith_cons_none, replaceWith_pass_head (hqa _), replaceWith_nil, mergeM,
        chop]
  rw [transform_eq_runStages, runStages_split 6]
  have e : runStages ((stages anchor).take 6) ("***".data ++ (t ++ "***".data)) =
      stage (spanM "*".data) "<em>$1</em>" (stage (spanM "__".data) "<strong>$1</strong>"
        (stage (spanM "**".data) "<strong>$1</strong>" (stage (lineM "# ".data) "<h1>$1</h1>"
          (stage (lineM "## ".data) "<h2>$1</h2>" (stage (lineM "### ".data) "<h3>$1</h3>"
            ("***".data ++ (t ++ "***".data))))))) := rfl
  rw [e, stage_lineM_id _ _ _ hLT0 (by simp), stage_lineM_id _ _ _ hLT0 (by simp),
    stage_lineM_id _ _ _ hLT0 (by simp), s3, s4, s5]
  exact runStages_settled anchor 6 hset

/-! ## Links with an underscore in the url -/

/-- What the chain makes of the link `[t](p_q_r)`: the italic rule, which runs
before the link rule, takes `_q_`, and the link rule then takes the url with
the `<em>` element in it. -/
theorem transform_link_underscore (t p q r : List Char) (ht0 : t ≠ []) (hq0 : q ≠ [])
    (hr0 : r ≠ []) (ht : ∀ c ∈ t, c.isAlphanum = true) (hp : ∀ c ∈ p, c.isAlphanum = true)
    (hq : ∀ c ∈ q, c.isAlphanum = true) (hr : ∀ c ∈ r, c.isAlphanum = true) :
    transform plainAnchor ("[".data ++ (t ++ ("](".data ++ (p ++ ('_' :: (q ++
      ('_' :: (r ++ ")".data)))))))) =
      "<a href=\"".data ++ ((p ++ ("<em>".data ++ (q ++ ("</em>".data ++ r)))) ++
        ("\" target=\"_blank\" rel=\"noopener noreferrer\">".data ++ (t ++ "</a>".data))) := by
  have hpl : ∀ x : List Char, (∀ c ∈ x, c.isAlphanum = true) → ∀ c ∈ x, isPlain c = true :=
    fun x hx c hc => alnum_plain (hx c hc)
  have hne : ∀ x : List Char, (∀ c ∈ x, c.isAlphanum = true) → ∀ d, isPlain d = false →
      ∀ c ∈ x, c ≠ d := fun x hx d hd c hc => plain_ne (hpl x hx c hc) hd
  have hLTx : ∀ x : List Char, (∀ c ∈ x, c.isAlphanum = true) → ∀ c ∈ x, notLT c = true :=
    fun x hx c hc => plain_notLT (hpl x hx c hc)
  obtain ⟨q0, qs, rfl⟩ := List.exists_cons_of_ne_nil hq0
  obtain ⟨r0, rs, rfl⟩ := List.exists_cons_of_ne_nil hr0
  have hqs : ∀ c ∈ qs, c.isAlphanum = true := fun c hc => hq c (by simp [hc])
  have hrs : ∀ c ∈ rs, c.isAlphanum = true := fun c hc => hr c (by simp [hc])
  have hq0u : q0 ≠ '_' := hne _ hq '_' (by decide) q0 (by simp)
  have hr0u : r0 ≠ '_' := hne _ hr '_' (by decide) r0 (by simp)
  -- the characters of the input
  have hno0 : ∀ d, isPlain d = false → d ≠ '[' → d ≠ ']' → d ≠ '(' → d ≠ ')' → d ≠ '_' →
      ∀ c ∈ ("[".data ++ (t ++ ("](".data ++ (p ++ ('_' :: (q0 :: qs ++ ('_' :: (r0 :: rs ++ ")".data)))))))), c ≠ d := by
    intro d hd h1 h2 h3 h4 h5 c hc
    have k1 : ∀ c ∈ "[".data, c ≠ d := by
      intro c hc
      simp only [String.data, List.mem_singleton] at hc
      rw [hc]
      exact Ne.symm h1
    have k2 : ∀ c ∈ "](".data, c ≠ d := by
      intro c hc
      simp only [String.data, List.mem_cons, List.mem_singleton, List.not_mem_nil, or_false] at hc
      rcases hc with rfl | rfl
      · exact Ne.symm h2
      · exact Ne.symm h3
    have k3 : ∀ c ∈ ")".data, c ≠ d := by
      intro c hc
      simp only [String.data, List.mem_singleton] at hc
      rw [hc]
      exact Ne.symm h4
    rcases List.mem_append.mp hc with hc | hc
    · exact k1 c hc
    rcases List.mem_append.mp hc with hc | hc
    · exact hne t ht d hd c hc
    rcases List.mem_append.mp hc with hc | hc
    · exact k2 c hc
    rcases List.mem_append.mp hc with hc | hc
    · exact hne p hp d hd c hc
    rcases List.mem_cons.mp hc with hc | hc
    · rw [hc]
      exact Ne.symm h5
    rcases List.mem_append.mp hc with hc | hc
    · exact hne _ hq d hd c hc
    rcases List.mem_cons.mp hc with hc | hc
    · rw [hc]
      exact Ne.symm h5
    rcases List.mem_append.mp hc with hc | hc
    · exact hne _ hr d hd c hc
    · exact k3 c hc
  have hLT0 : ∀ c ∈ ("[".data ++ (t ++ ("](".data ++ (p ++ ('_' :: (q0 :: qs ++ ('_' :: (r0 :: rs ++ ")".data)))))))), notLT c = true := by
    intro c hc
    by_contra h
    have hlt : isLineTerminator c = true := by simpa [notLT] using h
    simp only [isLineTerminator, Bool.or_eq_true, beq_iff_eq] at hlt
    rcases hlt with ((h1 | h1) | h1) | h1
    · exact hno0 _ (by decide) (by decide) (by decide) (by decide) (by decide) (by decide)
        c hc h1
    · exact hno0 _ (by decide) (by decide) (by decide) (by decide) (by decide) (by decide)
        c hc h1
    · exact hno0 _ (by decide) (by decide) (by decide) (by decide) (by decide) (by decide)
        c hc h1
    · exact hno0 _ (by decide) (by decide) (by decide) (by decide) (by decide) (by decide)
        c hc h1
  -- the calls before the italic rule for `_`
  have hq4 : ∀ x : List Char, (∀ c ∈ x, c.isAlphanum = true) → ∀ c ∈ x, ∀ pr cs,
      spanM "__".data pr (c :: cs) = none :=
    fun x hx c hc pr cs => (spanM_startsWith _ _).2 pr c cs (hne x hx '_' (by decide) c hc)
  have s4 : stage (spanM "__".data) "<strong>$1</strong>" ("[".data ++ (t ++ ("](".data ++ (p ++ ('_' :: (q0 :: qs ++ ('_' :: (r0 :: rs ++ ")".data)))))))) = ("[".data ++ (t ++ ("](".data ++ (p ++ ('_' :: (q0 :: qs ++ ('_' :: (r0 :: rs ++ ")".data)))))))) := by
    simp [stage, replaceWith_cons_none, replaceWith_pass_head (hq4 t ht),
      replaceWith_pass_head (hq4 p hp), replaceWith_pass_head (hq4 qs hqs),
      replaceWith_pass_head (hq4 rs hrs), replaceWith_nil, spanM, chop, hq0u, hr0u]
  have hpre6 : ∀ f ∈ (stages plainAnchor).take 6, f ("[".data ++ (t ++ ("](".data ++ (p ++ ('_' :: (q0 :: qs ++ ('_' :: (r0 :: rs ++ ")".data)))))))) = ("[".data ++ (t ++ ("](".data ++ (p ++ ('_' :: (q0 :: qs ++ ('_' :: (r0 :: rs ++ ")".data)))))))) := by
    intro f hf
    simp only [stages, List.take_succ_cons, List.take_zero, List.mem_cons, List.not_mem_nil,
      or_false] at hf
    rcases hf with rfl | rfl | rfl | rfl | rfl | rfl
    · exact stage_lineM_id _ _ _ hLT0 (by simp)
    · exact stage_lineM_id _ _ _ hLT0 (by simp)
    · exact stage_lineM_id _ _ _ hLT0 (by simp)
    · exact stage_id_of_needs (needs_of_startsWith (spanM_startsWith _ _)) _
        (hno0 _ (by decide) (by decide) (by decide) (by decide) (by decide) (by decide))
    · exact s4
    · exact stage_id_of_needs (needs_of_startsWith (spanM_startsWith _ _)) _
        (hno0 _ (by decide) (by decide) (by decide) (by decide) (by decide) (by decide))
  -- the italic rule for `_`
  have s6 : stage (spanM "_".data) "<em>$1</em>" ("[".data ++ (t ++ ("](".data ++ (p ++ ('_' :: (q0 :: qs ++ ('_' :: (r0 :: rs ++ ")".data)))))))) = ("[".data ++ (t ++ ("](".data ++ (p ++ ("<em>".data ++ (q0 :: qs ++ ("</em>".data ++ (r0 :: rs ++ ")".data)))))))) := by
    have hpre : ∀ c ∈ ("[".data ++ (t ++ ("](".data ++ p))), ∀ pr cs, spanM "_".data pr (c :: cs) = none := by
      intro c hc pr cs
      apply (spanM_startsWith _ _).2
      rcases List.mem_append.mp hc with hc | hc
      · exact (by decide : ∀ c ∈ "[".data, c ≠ '_') c hc
      rcases List.mem_append.mp hc with hc | hc
      · exact hne t ht '_' (by decide) c hc
      rcases List.mem_append.mp hc with hc | hc
      · exact (by decide : ∀ c ∈ "](".data, c ≠ '_') c hc
      · exact hne p hp '_' (by decide) c hc
    have hrest : ∀ c ∈ (r0 :: rs ++ ")".data), ∀ pr cs, spanM "_".data pr (c :: cs) = none := by
      intro c hc pr cs
      apply (spanM_startsWith _ _).2
      rcases List.mem_append.mp hc with hc | hc
      · exact hne _ hr '_' (by decide) c hc
      · exact (by decide : ∀ c ∈ ")".data, c ≠ '_') c hc
    have hm := spanM_match '_' [] (q0 :: qs) (r0 :: rs ++ ")".data) (advance none ("[".data ++ (t ++ ("](".data ++ p))))
      (fun c hc => ⟨hLTx _ hq c hc, hne _ hq '_' (by decide) c hc⟩)
    have hm2 : spanM "_".data (advance none ("[".data ++ (t ++ ("](".data ++ p)))) (('_' :: (q0 :: qs ++ ['_'])) ++ (r0 :: rs ++ ")".data)) =
        some ((r0 :: rs ++ ")".data), [(1, q0 :: qs)]) := by
      simpa using hm
    have hp := replaceWith_pass_head hrest "<em>$1</em>".data []
      (advance (advance none ("[".data ++ (t ++ ("](".data ++ p)))) ('_' :: (q0 :: qs ++ ['_'])))
    simp only [List.append_nil] at hp
    have e : ("[".data ++ (t ++ ("](".data ++ (p ++ ('_' :: (q0 :: qs ++ ('_' :: (r0 :: rs ++ ")".data)))))))) = ("[".data ++ (t ++ ("](".data ++ p))) ++ (('_' :: (q0 :: qs ++ ['_'])) ++ (r0 :: rs ++ ")".data)) := by simp
    rw [e]
    unfold stage
    rw [replaceWith_pass_head hpre, replaceWith_match hm2 (by simp), expand_em, hp,
      replaceWith_nil, (spanM_startsWith _ _).1]
    simp
  -- the calls between the italic rule and the link rule
  have hno6 : ∀ d, isPlain d = false → d ≠ '[' → d ≠ ']' → d ≠ '(' → d ≠ ')' →
      (∀ c ∈ "<em></em>".data, c ≠ d) → ∀ c ∈ ("[".data ++ (t ++ ("](".data ++ (p ++ ("<em>".data ++ (q0 :: qs ++ ("</em>".data ++ (r0 :: rs ++ ")".data)))))))), c ≠ d := by
    intro d hd h1 h2 h3 h4 hem c hc
    rcases List.mem_append.mp hc with hc | hc
    · simp only [String.data, List.mem_singleton] at hc
      rw [hc]
      exact Ne.symm h1
    rcases List.mem_append.mp hc with hc | hc
    · exact hne t ht d hd c hc
    rcases List.mem_append.mp hc with hc | hc
    · simp only [String.data, List.mem_cons, List.mem_singleton, List.not_mem_nil, or_false] at hc
      rcases hc with rfl | rfl
      · exact Ne.symm h2
      · exact Ne.symm h3
    rcases List.mem_append.mp hc with hc | hc
    · exact hne p hp d hd c hc
    rcases List.mem_append.mp hc with hc | hc
    · exact hem c (by
        have : "<em></em>".data = "<em>".data ++ "</em>".data := rfl
        rw [this]
        exact List.mem_append_left _ hc)
    rcases List.mem_append.mp hc with hc | hc
    · exact hne _ hq d hd c hc
    rcases List.mem_append.mp hc with hc | hc
    · exact hem c (by
        have : "<em></em>".data = "<em>".data ++ "</em>".data := rfl
        rw [this]
        exact List.mem_append_right _ hc)
    rcases List.mem_append.mp hc with hc | hc
    · exact hne _ hr d hd c hc
    · simp only [String.data, List.mem_singleton] at hc
      rw [hc]
      exact Ne.symm h4
  have hLT6 : ∀ c ∈ ("[".data ++ (t ++ ("](".data ++ (p ++ ("<em>".data ++ (q0 :: qs ++ ("</em>".data ++ (r0 :: rs ++ ")".data)))))))), notLT c = true := by
    intro c hc
    by_contra h
    have hlt : isLineTerminator c = true := by simpa [notLT] using h
    simp only [isLineTerminator, Bool.or_eq_true, beq_iff_eq] at hlt
    rcases hlt with ((h1 | h1) | h1) | h1
    · exact hno6 _ (by decide) (by decide) (by decide) (by decide) (by decide) (by decide)
        c hc h1
    · exact hno6 _ (by decide) (by decide) (by decide) (by decide) (by decide) (by decide)
        c hc h1
    · exact hno6 _ (by decide) (by decide) (by decide) (by decide) (by decide) (by decide)
        c hc h1
    · exact hno6 _ (by decide) (by decide) (by decide) (by decide) (by decide) (by decide)
        c hc h1
  have hmid : ∀ f ∈ ((stages plainAnchor).drop 7).take 6, f ("[".data ++ (t ++ ("](".data ++ (p ++ ("<em>".data ++ (q0 :: qs ++ ("</em>".data ++ (r0 :: rs ++ ")".data)))))))) = ("[".data ++ (t ++ ("](".data ++ (p ++ ("<em>".data ++ (q0 :: qs ++ ("</em>".data ++ (r0 :: rs ++ ")".data)))))))) := by
    intro f hf
    simp only [stages, List.drop_succ_cons, List.drop_zero, List.take_succ_cons, List.take_zero,
      List.mem_cons, List.not_mem_nil, or_false] at hf
    rcases hf with rfl | rfl | rfl | rfl | rfl | rfl
    · exact stage_id_of_needs (needs_of_startsWith fenceM_startsWith) _
        (hno6 _ (by decide) (by decide) (by decide) (by decide) (by decide) (by decide))
    · exact stage_id_of_needs (needs_of_startsWith (spanM_startsWith _ _)) _
        (hno6 _ (by decide) (by decide) (by decide) (by decide) (by decide) (by decide))
    · exact stage_lineM_id _ _ _ hLT6 (by simp)
    · exact stage_lineM_id _ _ _ hLT6 (by simp)
    · exact stage_lineM_id _ _ _ hLT6 (by simp)
    · exact stage_id_of_anchored orderedM_anchored _ hLT6 (by simp [orderedM, isDigit])
  -- the link rule
  have h13 : stage (bracketM "[".data) plainAnchor ("[".data ++ (t ++ ("](".data ++ (p ++ ("<em>".data ++ (q0 :: qs ++ ("</em>".data ++ (r0 :: rs ++ ")".data)))))))) = ("<a href=\"".data ++ ((p ++ ("<em>".data ++ (q0 :: qs ++ ("</em>".data ++ (r0 :: rs))))) ++ ("\" target=\"_blank\" rel=\"noopener noreferrer\">".data ++ (t ++ "</a>".data)))) := by
    have hm := bracketM_match ['['] t (p ++ ("<em>".data ++ (q0 :: qs ++ ("</em>".data ++ (r0 :: rs))))) [] none ht0 (by simp)
      (hne t ht ']' (by decide)) (by
        intro c hc
        rcases List.mem_append.mp hc with hc | hc
        · exact hne p hp ')' (by decide) c hc
        rcases List.mem_append.mp hc with hc | hc
        · exact (by decide : ∀ c ∈ "<em>".data, c ≠ ')') c hc
        rcases List.mem_append.mp hc with hc | hc
        · exact hne _ hq ')' (by decide) c hc
        rcases List.mem_append.mp hc with hc | hc
        · exact (by decide : ∀ c ∈ "</em>".data, c ≠ ')') c hc
        · exact hne _ hr ')' (by decide) c hc)
    have hm2 : bracketM "[".data none (("[".data ++ (t ++ ("](".data ++ (p ++ ("<em>".data ++ (q0 :: qs ++ ("</em>".data ++ (r0 :: rs ++ ")".data)))))))) ++ []) = some ([], [(2, (p ++ ("<em>".data ++ (q0 :: qs ++ ("</em>".data ++ (r0 :: rs)))))), (1, t)]) := by
      simpa using hm
    have hr2 := replaceWith_match hm2 (by simp) plainAnchor.data
    rw [expand_plainAnchor, replaceWith_nil, (bracketM_startsWith _ _).1] at hr2
    simp only [List.append_nil] at hr2
    exact hr2
  -- the calls after the link rule
  have hno13 : ∀ d, isPlain d = false →
      (∀ c ∈ "<a href=\"<em></em>\" target=\"_blank\" rel=\"noopener noreferrer\"></a>".data,
        c ≠ d) → ∀ c ∈ ("<a href=\"".data ++ ((p ++ ("<em>".data ++ (q0 :: qs ++ ("</em>".data ++ (r0 :: rs))))) ++ ("\" target=\"_blank\" rel=\"noopener noreferrer\">".data ++ (t ++ "</a>".data)))), c ≠ d := by
    intro d hd hlit c hc
    have hl : ∀ x : List Char, (∀ c ∈ x, c ∈
        "<a href=\"<em></em>\" target=\"_blank\" rel=\"noopener noreferrer\"></a>".data) →
        ∀ c ∈ x, c ≠ d := fun x hx c hc => hlit c (hx c hc)
    rcases List.mem_append.mp hc with hc | hc
    · exact hl _ (by decide) c hc
    rcases List.mem_append.mp hc with hc | hc
    · rcases List.mem_append.mp hc with hc | hc
      · exact hne p hp d hd c hc
      rcases List.mem_append.mp hc with hc | hc
      · exact hl _ (by decide) c hc
      rcases List.mem_append.mp hc with hc | hc
      · exact hne _ hq d hd c hc
      rcases List.mem_append.mp hc with hc | hc
      · exact hl _ (by decide) c hc
      · exact hne _ hr d hd c hc
    rcases List.mem_append.mp hc with hc | hc
    · exact hl _ (by decide) c hc
    rcases List.mem_append.mp hc with hc | hc
    · exact hne t ht d hd c hc
    · exact hl _ (by decide) c hc
  have hLT13 : ∀ c ∈ ("<a href=\"".data ++ ((p ++ ("<em>".data ++ (q0 :: qs ++ ("</em>".data ++ (r0 :: rs))))) ++ ("\" target=\"_blank\" rel=\"noopener noreferrer\">".data ++ (t ++ "</a>".data)))), notLT c = true := by
    intro c hc
    by_contra h
    have hlt : isLineTerminator c = true := by simpa [notLT] using h
    simp only [isLineTerminator, Bool.or_eq_true, beq_iff_eq] at hlt
    rcases hlt with ((h1 | h1) | h1) | h1
    · exact hno13 _ (by decide) (by decide) c hc h1
    · exact hno13 _ (by decide) (by decide) c hc h1
    · exact hno13 _ (by decide) (by decide) c hc h1
    · exact hno13 _ (by decide) (by decide) c hc h1
  have hlast : ∀ f ∈ ((stages plainAnchor).drop 14).take 6, f ("<a href=\"".data ++ ((p ++ ("<em>".data ++ (q0 :: qs ++ ("</em>".data ++ (r0 :: rs))))) ++ ("\" target=\"_blank\" rel=\"noopener noreferrer\">".data ++ (t ++ "</a>".data)))) = ("<a href=\"".data ++ ((p ++ ("<em>".data ++ (q0 :: qs ++ ("</em>".data ++ (r0 :: rs))))) ++ ("\" target=\"_blank\" rel=\"noopener noreferrer\">".data ++ (t ++ "</a>".data)))) := by
    intro f hf
    simp only [stages, List.drop_succ_cons, List.drop_zero, List.take_succ_cons, List.take_zero,
      List.mem_cons, List.not_mem_nil, or_false] at hf
    have hqm : ∀ x : List Char, (∀ c ∈ x, c.isAlphanum = true) → ∀ tag, ∀ c ∈ x, ∀ pr cs,
        mergeM tag pr (c :: cs) = none :=
      fun x hx tag c hc pr cs => mergeM_none_of_ne_lt tag (hne x hx '<' (by decide) c hc) pr cs
    have hq0lt : q0 ≠ '<' := hne _ hq '<' (by decide) q0 (by simp)
    have hr0lt : r0 ≠ '<' := hne _ hr '<' (by decide) r0 (by simp)
    rcases hf with rfl | rfl | rfl | rfl | rfl | rfl
    · exact stage_id_of_needs (bracketM_needs (by decide)) _ (hno13 _ (by decide) (by decide))
    · exact stage_lineM_id _ _ _ hLT13 (by simp)
    · exact stage_id_of_anchored paragraphM_anchored _ hLT13
        (by simp [paragraphM, tagAhead, isAsciiLetter])
    · simp [stage, replaceWith_cons_none, replaceWith_pass_head (hqm t ht _),
        replaceWith_pass_head (hqm p hp _), replaceWith_pass_head (hqm qs hqs _),
        replaceWith_pass_head (hqm rs hrs _), replaceWith_nil, mergeM, chop, hq0lt, hr0lt]
    · simp [stage, replaceWith_cons_none, replaceWith_pass_head (hqm t ht _),
        replaceWith_pass_head (hqm p hp _), replaceWith_pass_head (hqm qs hqs _),
        replaceWith_pass_head (hqm rs hrs _), replaceWith_nil, mergeM, chop, hq0lt, hr0lt]
    · exact stage_id_of_needs (needs_of_startsWith newlineM_startsWith) _
        (fun c hc => notLT_ne_newline (hLT13 c hc))
  have e20 : (stages plainAnchor).drop 20 = [] := rfl
  have h20 : ∀ x, runStages [] x = x := fun _ => rfl
  rw [transform_eq_runStages, runStages_split 6, runStages_id hpre6,
    runStages_drop_succ (stages plainAnchor) 6 (stage (spanM "_".data) "<em>$1</em>") rfl, s6,
    runStages_skip (stages plainAnchor) 7 6 13 rfl _ hmid,
    runStages_drop_succ (stages plainAnchor) 13 (stage (bracketM "[".data) plainAnchor) rfl, h13,
    runStages_skip (stages plainAnchor) 14 6 20 rfl _ hlast, e20, h20]

/-! ## Empty lines -/

theorem lineM_startsWith (d : Char) (ds : List Char) : StartsWith (lineM (d :: ds)) d := by
  constructor
  · intro p
    simp [lineM, chop]
  · intro p c cs hc
    simp [lineM, chop, hc]

theorem orderedM_needs_dot : Needs orderedM '.' := by
  intro p s r caps h
  by_contra hd
  rw [orderedM_none_of_no_dot (fun c hc hcd => hd (hcd ▸ hc))] at h
  cases h

/-- The calls before the paragraph rule leave a text of plain lines as it is,
empty lines included. -/
theorem plain_lines_stage_id (anchor : String) {s : List Char}
    (hs : ∀ c ∈ s, isPlain c = true ∨ c = '\n') :
    ∀ f ∈ (stages anchor).take 16, f s = s := by
  have hd : ∀ d, isPlain d = false → d ≠ '\n' → ∀ c ∈ s, c ≠ d := by
    intro d hd1 hd2 c hc
    rcases hs c hc with h | h
    · exact plain_ne h hd1
    · rw [h]
      exact Ne.symm hd2
  intro f hf
  simp only [stages, List.take_succ_cons, List.take_zero, List.mem_cons, List.not_mem_nil,
    or_false] at hf
  rcases hf with rfl | rfl | rfl | rfl | rfl | rfl | rfl | rfl | rfl | rfl | rfl | rfl | rfl |
    rfl | rfl | rfl
  · exact stage_id_of_startsWith (lineM_startsWith _ _) _ (hd _ (by decide) (by decide))
  · exact stage_id_of_startsWith (lineM_startsWith _ _) _ (hd _ (by decide) (by decide))
  · exact stage_id_of_startsWith (lineM_startsWith _ _) _ (hd _ (by decide) (by decide))
  · exact stage_id_of_needs (needs_of_startsWith (spanM_startsWith _ _)) _
      (hd _ (by decide) (by decide))
  · exact stage_id_of_needs (needs_of_startsWith (spanM_startsWith _ _)) _
      (hd _ (by decide) (by decide))
  · exact stage_id_of_needs (needs_of_startsWith (spanM_startsWith _ _)) _
      (hd _ (by decide) (by decide))
  · exact stage_id_of_needs (needs_of_startsWith (spanM_startsWith _ _)) _
      (hd _ (by decide) (by decide))
  · exact stage_id_of_needs (needs_of_startsWith fenceM_startsWith) _
      (hd _ (by decide) (by decide))
  · exact stage_id_of_needs (needs_of_startsWith (spanM_startsWith _ _)) _
      (hd _ (by decide) (by decide))
  · exact stage_id_of_startsWith (lineM_startsWith _ _) _ (hd _ (by decide) (by decide))
  · exact stage_id_of_startsWith (lineM_startsWith _ _) _ (hd _ (by decide) (by decide))
  · exact stage_id_of_startsWith (lineM_startsWith _ _) _ (hd _ (by decide) (by decide))
  · exact stage_id_of_needs orderedM_needs_dot _ (hd _ (by decide) (by decide))
  · exact stage_id_of_needs (bracketM_needs (by decide)) _ (hd _ (by decide) (by decide))
  · exact stage_id_of_needs (bracketM_needs (by decide)) _ (hd _ (by decide) (by decide))
  · exact stage_id_of_startsWith (lineM_startsWith _ _) _ (hd _ (by decide) (by decide))

/-- The paragraph rule on a plain line that is followed by other lines. -/
theorem paragraphM_line (t r : List Char) (prev : Option Char) (hp : lineStart prev = true)
    (hne : t ≠ []) (ht : ∀ c ∈ t, isPlain c = true) :
    paragraphM prev (t ++ '\n' :: r) = some ('\n' :: r, [(1, t)]) := by
  have hLT : ∀ c ∈ t, notLT c = true := fun c hc => plain_notLT (ht c hc)
  have h := takeWhile_append_stop hLT (by decide : notLT '\n' = false) r
  obtain ⟨t0, ts, rfl⟩ := List.exists_cons_of_ne_nil hne
  have hta : tagAhead (t0 :: ts ++ '\n' :: r) = false := by
    have : t0 ≠ '<' := plain_ne (ht t0 (by simp)) (by decide)
    cases ts <;> simp [tagAhead, this]
  simp only [paragraphM, hp, hta, h.1, h.2]
  rfl

/-- The paragraph rule at the end of a plain last line. -/
theorem paragraphM_last (t : List Char) (prev : Option Char) (hp : lineStart prev = true)
    (ht : ∀ c ∈ t, isPlain c = true) :
    paragraphM prev t = some ([], [(1, t)]) := by
  have hLT : ∀ c ∈ t, notLT c = true := fun c hc => plain_notLT (ht c hc)
  have hta : tagAhead t = false := by
    cases t with
    | nil => rfl
    | cons c cs =>
      have : c ≠ '<' := plain_ne (ht c (by simp)) (by decide)
      cases cs <;> simp [tagAhead, this]
  simp [paragraphM, hp, hta, takeWhile_eq_self hLT, dropWhile_eq_nil hLT]

/-- The paragraph rule on an empty line. -/
theorem paragraphM_empty_line (r : List Char) (prev : Option Char) (hp : lineStart prev = true) :
    paragraphM prev ('\n' :: r) = some ('\n' :: r, [(1, [])]) := by
  have hta : tagAhead ('\n' :: r) = false := by
    cases r <;> simp [tagAhead]
  simp only [paragraphM, hp, hta]
  rfl

/-- The paragraph rule on a plain line with a newline after it: the empty last
line becomes an empty paragraph. -/
theorem stage_paragraph_trailing (t : List Char) (hne : t ≠ [])
    (ht : ∀ c ∈ t, isPlain c = true) :
    stage paragraphM "<p>$1</p>" (t ++ ['\n']) =
      "<p>".data ++ (t ++ ("</p>".data ++ '\n' :: "<p></p>".data)) := by
  have hLT : ∀ c ∈ t, notLT c = true := fun c hc => plain_notLT (ht c hc)
  have hm := paragraphM_line t [] none rfl hne ht
  have hnl : paragraphM (advance none t) ['\n'] = none :=
    paragraphM_anchored _ _ (lineStart_advance_ne hne hLT none)
  have hend : paragraphM (some '\n') [] = some ([], [(1, [])]) := paragraphM_last [] _ rfl (by simp)
  unfold stage
  rw [replaceWith_match hm hne, expand_p, replaceWith_cons_none hnl, replaceWith_nil, hend]
  have he : expand [(1, [])] [] ['<', 'p', '>', '$', '1', '<', '/', 'p', '>'] =
      ['<', 'p', '>', '<', '/', 'p', '>'] := rfl
  simp [he]

/-- The paragraph rule on two plain lines with an empty line between them. -/
theorem stage_paragraph_blank (t u : List Char) (hne : t ≠ []) (hu : u ≠ [])
    (ht : ∀ c ∈ t, isPlain c = true) (hut : ∀ c ∈ u, isPlain c = true) :
    stage paragraphM "<p>$1</p>" (t ++ '\n' :: '\n' :: u) =
      "<p>".data ++ (t ++ ("</p>".data ++ '\n' :: ("<p></p>".data ++ '\n' ::
        ("<p>".data ++ (u ++ "</p>".data))))) := by
  have hLT : ∀ c ∈ t, notLT c = true := fun c hc => plain_notLT (ht c hc)
  have huLT : ∀ c ∈ u, notLT c = true := fun c hc => plain_notLT (hut c hc)
  have hm := paragraphM_line t ('\n' :: u) none rfl hne ht
  have hnl : paragraphM (advance none t) ('\n' :: '\n' :: u) = none :=
    paragraphM_anchored _ _ (lineStart_advance_ne hne hLT none)
  have hblank := paragraphM_empty_line u (some '\n') rfl
  have hu2 : paragraphM (some '\n') (u ++ []) = some ([], [(1, u)]) := by
    rw [List.append_nil]
    exact paragraphM_last u _ rfl hut
  have hend : paragraphM (advance (some '\n') u) [] = none :=
    paragraphM_anchored _ _ (lineStart_advance_ne hu huLT _)
  have hr := replaceWith_match hu2 hu "<p>$1</p>".data
  rw [expand_p, replaceWith_nil, hend, List.append_nil] at hr
  simp only [List.append_nil] at hr
  unfold stage
  rw [replaceWith_match hm hne, expand_p, replaceWith_cons_none hnl,
    replaceWith_match_empty hblank, hr]
  have he : expand [(1, [])] [] ['<', 'p', '>', '$', '1', '<', '/', 'p', '>'] =
      ['<', 'p', '>', '<', '/', 'p', '>'] := rfl
  simp [he]

/-- The calls after the paragraph rule on paragraphs of plain text with
newlines between them. -/
theorem transform_trailing_newline (anchor : String) (t : List Char) (hne : t ≠ [])
    (ht : ∀ c ∈ t, isPlain c = true) :
    transform anchor (t ++ ['\n']) = "<p>".data ++ (t ++ "</p><br /><p></p>".data) := by
  have hs : ∀ c ∈ t ++ ['\n'], isPlain c = true ∨ c = '\n' := by
    intro c hc
    rcases List.mem_append.mp hc with hc | hc
    · exact Or.inl (ht c hc)
    · exact Or.inr (by simpa using hc)
  have hq : ∀ tag, ∀ c ∈ t, ∀ p cs, mergeM tag p (c :: cs) = none :=
    fun tag c hc p cs => mergeM_none_of_ne_lt tag (plain_ne (ht c hc) (by decide)) p cs
  have hnl : ∀ c ∈ t, c ≠ '\n' := fun c hc => plain_ne (ht c hc) (by decide)
  have h17 : ∀ tag, tag = "ul".data ∨ tag = "ol".data → stage (mergeM tag) ""
      ("<p>".data ++ (t ++ ("</p>".data ++ '\n' :: "<p></p>".data))) =
      "<p>".data ++ (t ++ ("</p>".data ++ '\n' :: "<p></p>".data)) := by
    intro tag htag
    rcases htag with rfl | rfl
    · simp [stage, replaceWith_cons_none, replaceWith_pass_head (hq _), replaceWith_nil, mergeM,
        chop]
    · simp [stage, replaceWith_cons_none, replaceWith_pass_head (hq _), replaceWith_nil, mergeM,
        chop]
  have h19 : stage newlineM "<br />"
      ("<p>".data ++ (t ++ ("</p>".data ++ '\n' :: "<p></p>".data))) =
      "<p>".data ++ (t ++ "</p><br /><p></p>".data) := by
    unfold stage
    rw [replaceWith_newline, List.flatMap_append, flatMap_break_id (by decide),
      List.flatMap_append, flatMap_break_id hnl, List.flatMap_append,
      flatMap_break_id (by decide), List.flatMap_cons, if_pos rfl, flatMap_break_id (by decide)]
    simp
  rw [transform_eq_runStages, runStages_split 16, runStages_id (plain_lines_stage_id anchor hs),
    runStages_drop_succ (stages anchor) 16 (stage paragraphM "<p>$1</p>") rfl,
    stage_paragraph_trailing t hne ht,
    runStages_drop_succ (stages anchor) 17 (stage (mergeM "ul".data) "") rfl,
    h17 _ (Or.inl rfl),
    runStages_drop_succ (stages anchor) 18 (stage (mergeM "ol".data) "") rfl,
    h17 _ (Or.inr rfl),
    runStages_drop_succ (stages anchor) 19 (stage newlineM "<br />") rfl, h19]
  rfl

theorem transform_blank_line (anchor : String) (t u : List Char) (hne : t ≠ []) (hu : u ≠ [])
    (ht : ∀ c ∈ t, isPlain c = true) (hut : ∀ c ∈ u, isPlain c = true) :
    transform anchor (t ++ '\n' :: '\n' :: u) =
      "<p>".data ++ (t ++ ("</p><br /><p></p><br /><p>".data ++ (u ++ "</p>".data))) := by
  have hs : ∀ c ∈ t ++ '\n' :: '\n' :: u, isPlain c = true ∨ c = '\n' := by
    intro c hc
    rcases List.mem_append.mp hc with hc | hc
    · exact Or.inl (ht c hc)
    rcases List.mem_cons.mp hc with hc | hc
    · exact Or.inr hc
    rcases List.mem_cons.mp hc with hc | hc
    · exact Or.inr hc
    · exact Or.inl (hut c hc)
  have hq : ∀ x : List Char, (∀ c ∈ x, isPlain c = true) → ∀ tag, ∀ c ∈ x, ∀ p cs,
      mergeM tag p (c :: cs) = none :=
    fun x hx tag c hc p cs => mergeM_none_of_ne_lt tag (plain_ne (hx c hc) (by decide)) p cs
  have hnl : ∀ x : List Char, (∀ c ∈ x, isPlain c = true) → ∀ c ∈ x, c ≠ '\n' :=
    fun x hx c hc => plain_ne (hx c hc) (by decide)
  have h17 : ∀ tag, tag = "ul".data ∨ tag = "ol".data → stage (mergeM tag) ""
      ("<p>".data ++ (t ++ ("</p>".data ++ '\n' :: ("<p></p>".data ++ '\n' ::
        ("<p>".data ++ (u ++ "</p>".data)))))) =
      "<p>".data ++ (t ++ ("</p>".data ++ '\n' :: ("<p></p>".data ++ '\n' ::
        ("<p>".data ++ (u ++ "</p>".data))))) := by
    intro tag htag
    rcases htag with rfl | rfl
    · simp [stage, replaceWith_cons_none, replaceWith_pass_head (hq t ht _),
        replaceWith_pass_head (hq u hut _), replaceWith_nil, mergeM, chop]
    · simp [stage, replaceWith_cons_none, replaceWith_pass_head (hq t ht _),
        replaceWith_pass_head (hq u hut _), replaceWith_nil, mergeM, chop]
  have h19 : stage newlineM "<br />"
      ("<p>".data ++ (t ++ ("</p>".data ++ '\n' :: ("<p></p>".data ++ '\n' ::
        ("<p>".data ++ (u ++ "</p>".data)))))) =
      "<p>".data ++ (t ++ ("</p><br /><p></p><br /><p>".data ++ (u ++ "</p>".data))) := by
    unfold stage
    rw [replaceWith_newline, List.flatMap_append, flatMap_break_id (by decide),
      List.flatMap_append, flatMap_break_id (hnl t ht), List.flatMap_append,
      flatMap_break_id (by decide), List.flatMap_cons, if_pos rfl, List.flatMap_append,
      flatMap_break_id (by decide), List.flatMap_cons, if_pos rfl, List.flatMap_append,
      flatMap_break_id (by decide), List.flatMap_append, flatMap_break_id (hnl u hut),
      flatMap_break_id (by decide)]
    simp
  rw [transform_eq_runStages, runStages_split 16, runStages_id (plain_lines_stage_id anchor hs),
    runStages_drop_succ (stages anchor) 16 (stage paragraphM "<p>$1</p>") rfl,
    stage_paragraph_blank t u hne hu ht hut,
    runStages_drop_succ (stages anchor) 17 (stage (mergeM "ul".data) "") rfl,
    h17 _ (Or.inl rfl),
    runStages_drop_succ (stages anchor) 18 (stage (mergeM "ol".data) "") rfl,
    h17 _ (Or.inr rfl),
    runStages_drop_succ (stages anchor) 19 (stage newlineM "<br />") rfl, h19]
  rfl

/-! ## The resource headings of the roadmap -/

theorem run_lits_ci (ds : List Char) (prev : Option Char) (rest : List Char) (caps : Captures)
    (k : Cont) :
    (ds.foldr (fun c r => Regex.seq (.atom (.lit c)) r) .empty).run .gi ⟨prev, rest, caps⟩ k =
      match chopCI ds rest with
      | some r => k ⟨advance prev (rest.take ds.length), r, caps⟩
      | none => none := by
  induction ds generalizing prev rest with
  | nil => simp [Regex.run, chopCI]
  | cons d ds ih =>
    cases rest with
    | nil => simp [Regex.run, chopCI]
    | cons c cs =>
      have ht : Atom.test .gi (.lit d) c = (canonicalize true c == canonicalize true d) := rfl
      simp only [List.foldr_cons, Regex.run, chopCI, ht, beq_iff_eq,
        List.length_cons, List.take_succ_cons, advance_cons]
      by_cases h : canonicalize true c = canonicalize true d
      · simp [h, ih]
      · simp [h]

theorem run_str_ci (s : String) (prev : Option Char) (rest : List Char) (caps : Captures)
    (k : Cont) :
    (Regex.str s).run .gi ⟨prev, rest, caps⟩ k =
      match chopCI s.data rest with
      | some r => k ⟨advance prev (rest.take s.data.length), r, caps⟩
      | none => none :=
  run_lits_ci s.data prev rest caps k

theorem chopCI_length {ds rest r : List Char} (h : chopCI ds rest = some r) :
    rest.length = ds.length + r.length := by
  induction ds generalizing rest with
  | nil => simp [chopCI] at h; simp [h]
  | cons d ds ih =>
    cases rest with
    | nil => simp [chopCI] at h
    | cons c cs =>
      simp only [chopCI] at h
      split at h
      · have := ih h
        simp [this]; omega
      · simp at h

/-- One name of the alternation, with what follows the group. -/
theorem run_name (n : String) (p : Option Char) (r1 : List Char) :
    ((Regex.str n).run .gi ⟨p, r1, []⟩ (fun s1 =>
      (Regex.str "</h2>").run .gi
        ⟨s1.prev, s1.rest, (1, r1.take (r1.length - s1.rest.length)) :: s1.caps⟩
        (fun s2 => Regex.empty.run .gi s2 some))).map (fun s => (s.rest, s.caps)) =
    match (chopCI n.data r1).bind (chopCI "</h2>".data) with
    | some r3 => some (r3, [(1, r1.take n.length)])
    | none => none := by
  rw [run_str_ci]
  cases h : chopCI n.data r1 with
  | none => simp
  | some r2 =>
    have hl := chopCI_length h
    simp only [run_seq, run_str_ci, run_empty, Option.some_bind]
    cases h2 : chopCI "</h2>".data r2 with
    | none => simp
    | some r3 =>
      have e : r1.length - r2.length = n.length := by
        simp only [hl, String.length]; omega
      simp [e]

theorem run_alt_map (f : Flags) (a b : Regex) (s : MatchState) (k : Cont)
    (g : MatchState → List Char × Captures) :
    ((Regex.alt a b).run f s k).map g =
      match (a.run f s k).map g with
      | some x => some x
      | none => (b.run f s k).map g := by
  simp only [Regex.run]
  cases a.run f s k <;> simp

theorem matchAt_resourceRule : matchAt .gi resourceRule = resourceM := by
  funext prev rest
  simp only [matchAt, resourceRule, Regex.cat, List.foldr, run_seq, resourceM]
  rw [run_str_ci]
  cases h : chopCI "<h2>".data rest with
  | none => simp
  | some r1 =>
    simp only [Regex.run.eq_10, run_alt_map, run_name, resourceTail, resourceNames]
    generalize (chopCI "Online Courses".data r1).bind (chopCI "</h2>".data) = o1
    generalize (chopCI "Tutorials".data r1).bind (chopCI "</h2>".data) = o2
    generalize (chopCI "Books".data r1).bind (chopCI "</h2>".data) = o3
    generalize (chopCI "YouTube".data r1).bind (chopCI "</h2>".data) = o4
    generalize (chopCI "Community".data r1).bind (chopCI "</h2>".data) = o5
    generalize (chopCI "Resources".data r1).bind (chopCI "</h2>".data) = o6
    generalize (chopCI "Free Resources".data r1).bind (chopCI "</h2>".data) = o7
    cases o1 <;> cases o2 <;> cases o3 <;> cases o4 <;> cases o5 <;> cases o6 <;> cases o7 <;> rfl

theorem canon_not_lt {c : Char} (h : isPlain c = true) : canonicalize true c ≠ '<' := by
  unfold canonicalize
  split
  · rename_i hr
    simp only [Bool.true_and, Bool.and_eq_true, decide_eq_true_eq, char_le_iff] at hr
    have h1 : 97 ≤ c.toNat := hr.1
    have hx : (Char.ofNat (c.toNat - 32)).toNat = c.toNat - 32 :=
      toNat_ofNat_small _ (by have h2 : c.toNat ≤ 122 := hr.2; omega)
    intro e
    have e2 : (Char.ofNat (c.toNat - 32)).toNat = 60 := by rw [e]; rfl
    omega
  · exact plain_ne h (by decide)

/-- A character that the `i` flag does not tell from a letter, a digit or a
space is none of the characters `x` that are neither. -/
theorem canon_ne {c d x : Char} (h : canonicalize true c = canonicalize true d)
    (hd : isPlain d = true) (hx : isPlain x = false) (hx2 : isAsciiLetter x = false) : c ≠ x := by
  rintro rfl
  rw [canonicalize_of_not_letter true hx2] at h
  unfold canonicalize at h
  split at h
  · rename_i hr
    simp only [Bool.true_and, Bool.and_eq_true, decide_eq_true_eq, char_le_iff] at hr
    have h1 : 97 ≤ d.toNat := hr.1
    have h2 : d.toNat ≤ 122 := hr.2
    have hx3 : (Char.ofNat (d.toNat - 32)).toNat = d.toNat - 32 :=
      toNat_ofNat_small _ (by omega)
    rw [h] at hx2
    simp only [isAsciiLetter, Bool.or_eq_false_iff, Bool.and_eq_false_iff, decide_eq_false_iff_not,
      char_le_iff, hx3] at hx2
    have := hx2.2
    have e1 : 'A'.toNat = 65 := rfl
    have e2 : 'Z'.toNat = 90 := rfl
    omega
  · rw [h] at hx
    rw [hd] at hx
    exact absurd hx (by decide)

theorem canon_inert {c d : Char} (h : canonicalize true c = canonicalize true d)
    (hd : isPlain d = true) : inert c = true := by
  have h1 := canon_ne h hd (x := '\n') (by decide) (by decide)
  have h2 := canon_ne h hd (x := '\r') (by decide) (by decide)
  have h3 := canon_ne h hd (x := Char.ofNat 0x2028) (by decide) (by decide)
  have h4 := canon_ne h hd (x := Char.ofNat 0x2029) (by decide) (by decide)
  have h5 := canon_ne h hd (x := '*') (by decide) (by decide)
  have h6 := canon_ne h hd (x := '_') (by decide) (by decide)
  have h7 := canon_ne h hd (x := Char.ofNat 96) (by decide) (by decide)
  have h8 := canon_ne h hd (x := '[') (by decide) (by decide)
  have h9 := canon_ne h hd (x := '<') (by decide) (by decide)
  simp [inert, notLT, isLineTerminator, h1, h2, h3, h4, h5, h6, h7, h8, h9]

theorem same_inert {t n : List Char} (h : t.map (canonicalize true) = n.map (canonicalize true))
    (hn : ∀ c ∈ n, isPlain c = true) : ∀ c ∈ t, inert c = true := by
  induction t generalizing n with
  | nil => simp
  | cons c t ih =>
    cases n with
    | nil => simp at h
    | cons d n =>
      simp only [List.map_cons, List.cons.injEq] at h
      intro x hx
      rcases List.mem_cons.mp hx with rfl | hx
      · exact canon_inert h.1 (hn d (by simp))
      · exact ih h.2 (fun c hc => hn c (by simp [hc])) x hx

theorem chopCI_same {t ds : List Char} (h : t.map (canonicalize true) = ds.map (canonicalize true))
    (r : List Char) : chopCI ds (t ++ r) = some r := by
  induction ds generalizing t with
  | nil =>
    cases t with
    | nil => cases r <;> rfl
    | cons c t => simp at h
  | cons d ds ih =>
    cases t with
    | nil => simp at h
    | cons c t =>
      simp only [List.map_cons, List.cons.injEq] at h
      simp [chopCI, h.1, ih h.2]

theorem name_miss {c d : Char} (h : canonicalize true c ≠ canonicalize true d)
    (ds cs : List Char) : (chopCI (d :: ds) (c :: cs)).bind (chopCI "</h2>".data) = none := by
  simp [chopCI, h]

theorem name_hit {t n : List Char} (h : t.map (canonicalize true) = n.map (canonicalize true)) :
    (chopCI n (t ++ "</h2>".data)).bind (chopCI "</h2>".data) = some [] := by
  rw [chopCI_same h]
  rfl

/-- A name that is not the text `t`, whatever the case of the letters, is not
read off `t</h2>` with `</h2>` after it. -/
theorem name_other {n t : List Char} (hn : ∀ c ∈ n, isPlain c = true)
    (ht : ∀ c ∈ t, isPlain c = true)
    (hne : t.map (canonicalize true) ≠ n.map (canonicalize true)) :
    (chopCI n (t ++ "</h2>".data)).bind (chopCI "</h2>".data) = none := by
  induction n generalizing t with
  | nil =>
    cases t with
    | nil => simp at hne
    | cons c t =>
      have hc := canon_not_lt (ht c (by simp))
      have e : canonicalize true '<' = '<' := by decide
      simp [chopCI, e, hc]
  | cons d n ih =>
    cases t with
    | nil =>
      have hd := canon_not_lt (hn d (by simp))
      have e : canonicalize true '<' = '<' := by decide
      have hd2 : ¬ '<' = canonicalize true d := fun h => hd h.symm
      simp [chopCI, e, hd2]
    | cons c t =>
      by_cases hcd : canonicalize true c = canonicalize true d
      · have hne2 : t.map (canonicalize true) ≠ n.map (canonicalize true) := by
          intro h
          exact hne (by simp [hcd, h])
        have := ih (fun c hc => hn c (by simp [hc])) (fun c hc => ht c (by simp [hc])) hne2
        simpa [chopCI, hcd] using this
      · simp [chopCI, hcd]

theorem resourceNames_plain : ∀ n ∈ resourceNames, ∀ c ∈ n.data, isPlain c = true := by
  decide

theorem resourceTail_none {t : List Char} (ht : ∀ c ∈ t, isPlain c = true)
    (names : List String) (hn : ∀ n ∈ names, ∀ c ∈ n.data, isPlain c = true)
    (hne : ∀ n ∈ names, t.map (canonicalize true) ≠ n.data.map (canonicalize true)) :
    resourceTail (t ++ "</h2>".data) names = none := by
  induction names with
  | nil => rfl
  | cons n ns ih =>
    simp only [resourceTail]
    rw [name_other (hn n (by simp)) ht (hne n (by simp))]
    exact ih (fun m hm => hn m (by simp [hm])) (fun m hm => hne m (by simp [hm]))

theorem resourceM_needs_lt {c : Char} (h : c ≠ '<') (p : Option Char) (cs : List Char) :
    resourceM p (c :: cs) = none := by
  have e : canonicalize true '<' = '<' := by decide
  have hc : canonicalize true c ≠ '<' := by
    unfold canonicalize
    split
    · rename_i hr
      simp only [Bool.true_and, Bool.and_eq_true, decide_eq_true_eq, char_le_iff] at hr
      have h1 : 97 ≤ c.toNat := hr.1
      have hx : (Char.ofNat (c.toNat - 32)).toNat = c.toNat - 32 :=
        toNat_ofNat_small _ (by have h2 : c.toNat ≤ 122 := hr.2; omega)
      intro e
      have e2 : (Char.ofNat (c.toNat - 32)).toNat = 60 := by rw [e]; rfl
      omega
    · exact h
  simp [resourceM, chopCI, e, hc]

/-- The resource rule leaves a plain heading that is none of the names. -/
theorem stage_resource_other {t : List Char} (ht : ∀ c ∈ t, isPlain c = true)
    (hne : ∀ n ∈ resourceNames, t.map (canonicalize true) ≠ n.data.map (canonicalize true))
    (tmpl : String) :
    stage resourceM tmpl ("<h2>".data ++ (t ++ "</h2>".data)) =
      "<h2>".data ++ (t ++ "</h2>".data) := by
  have h0 : resourceM none ('<' :: ("h2>".data ++ t ++ '<' :: "/h2>".data)) = none := by
    have e : '<' :: ("h2>".data ++ t ++ '<' :: "/h2>".data) =
        "<h2>".data ++ (t ++ "</h2>".data) := by simp
    rw [e]
    have e2 : chopCI "<h2>".data ("<h2>".data ++ (t ++ "</h2>".data)) =
        some (t ++ "</h2>".data) := chopCI_same rfl _
    simp only [resourceM, e2]
    exact resourceTail_none ht _ resourceNames_plain hne
  have h1 : ∀ c ∈ "h2>".data ++ t, ∀ p cs, resourceM p (c :: cs) = none := by
    intro c hc p cs
    apply resourceM_needs_lt
    rcases List.mem_append.mp hc with hc | hc
    · exact (by decide : ∀ c ∈ "h2>".data, c ≠ '<') c hc
    · exact plain_ne (ht c hc) (by decide)
  have h2 : ∀ p, resourceM p ('<' :: "/h2>".data) = none := fun p => rfl
  have h3 : ∀ c ∈ "/h2>".data, ∀ p cs, resourceM p (c :: cs) = none := by
    intro c hc p cs
    exact resourceM_needs_lt ((by decide : ∀ c ∈ "/h2>".data, c ≠ '<') c hc) p cs
  have h4 : ∀ p, resourceM p [] = none := fun p => rfl
  have e : "<h2>".data ++ (t ++ "</h2>".data) =
      '<' :: ("h2>".data ++ t ++ '<' :: "/h2>".data) := by simp
  rw [e]
  unfold stage
  rw [replaceWith_cons_none h0, replaceWith_pass_head h1, replaceWith_cons_none (h2 _)]
  have e3 : "/h2>".data = "/h2>".data ++ [] := by simp
  rw [e3, replaceWith_pass_head h3, replaceWith_nil, h4]

theorem same_length {t n : List Char}
    (h : t.map (canonicalize true) = n.map (canonicalize true)) : t.length = n.length := by
  have := congrArg List.length h
  simpa using this

theorem resourceNames_first : ∀ n ∈ resourceNames, ∀ m ∈ resourceNames, m ≠ n →
    m.data.head?.map (canonicalize true) ≠ n.data.head?.map (canonicalize true) ∧
    m.data ≠ [] ∧ n.data ≠ [] := by
  decide

theorem resourceTail_hit_of {t : List Char} {n : String} (hnR : n ∈ resourceNames)
    (h : t.map (canonicalize true) = n.data.map (canonicalize true))
    (names : List String) (hsub : ∀ m ∈ names, m ∈ resourceNames) (hn : n ∈ names) :
    resourceTail (t ++ "</h2>".data) names = some ([], [(1, t)]) := by
  have hl := same_length h
  induction names with
  | nil => simp at hn
  | cons m ms ih =>
    by_cases hmn : m = n
    · subst hmn
      have htake : List.take m.length (t ++ "</h2>".data) = t := by
        have e : m.length = t.length := hl.symm
        rw [e]
        simp
      simp only [resourceTail, name_hit h, htake]
    · obtain ⟨hf, hm0, hn0⟩ := resourceNames_first n hnR m (hsub m (by simp)) hmn
      have hn2 : n ∈ ms := by
        rcases List.mem_cons.mp hn with e | e
        · exact absurd e.symm hmn
        · exact e
      obtain ⟨e, es, hme⟩ := List.exists_cons_of_ne_nil hm0
      obtain ⟨d, ds, hnd⟩ := List.exists_cons_of_ne_nil hn0
      rw [hme, hnd] at hf
      rw [hnd] at h
      cases t with
      | nil => simp at h
      | cons c t =>
        have hc : canonicalize true c = canonicalize true d := (List.cons.inj h).1
        have hce : canonicalize true c ≠ canonicalize true e := by
          rw [hc]
          intro x
          apply hf
          simp [x]
        have hmiss := name_miss hce es (t ++ "</h2>".data)
        rw [← hme] at hmiss
        simp only [resourceTail, List.cons_append, hmiss]
        rw [← hnd] at h
        exact ih (fun m hm => hsub m (by simp [hm])) hn2

/-- The alternation reads a name off `t</h2>` when `t` is that name, whatever
the case of the letters. -/
theorem resourceTail_hit {t : List Char} {n : String} (hn : n ∈ resourceNames)
    (h : t.map (canonicalize true) = n.data.map (canonicalize true)) :
    resourceTail (t ++ "</h2>".data) resourceNames = some ([], [(1, t)]) :=
  resourceTail_hit_of hn h resourceNames (fun _ hm => hm) hn

/-- The resource rule puts the colour on a heading whose text is one of the
names, whatever the case of the letters. -/
theorem stage_resource_hit {t : List Char} {n : String} (hn : n ∈ resourceNames)
    (h : t.map (canonicalize true) = n.data.map (canonicalize true)) :
    stage resourceM "<h2 style=\"color: #93c5fd;\">$1</h2>" ("<h2>".data ++ (t ++ "</h2>".data)) =
      "<h2 style=\"color: #93c5fd;\">".data ++ (t ++ "</h2>".data) := by
  have hm : resourceM none (("<h2>".data ++ (t ++ "</h2>".data)) ++ []) = some ([], [(1, t)]) := by
    have e2 : chopCI "<h2>".data ("<h2>".data ++ (t ++ "</h2>".data)) =
        some (t ++ "</h2>".data) := chopCI_same rfl _
    simp only [List.append_nil, resourceM, e2]
    exact resourceTail_hit hn h
  have h4 : ∀ p, resourceM p [] = none := fun p => rfl
  have e : "<h2>".data ++ (t ++ "</h2>".data) = ("<h2>".data ++ (t ++ "</h2>".data)) ++ [] := by
    simp
  unfold stage
  rw [e, replaceWith_match hm (by simp), replaceWith_nil, h4]
  simp [expand, capture]

/-! ## The four copies of the chain -/

theorem transform_links (anchor : String) (md : List Char) :
    transform anchor md = afterLinks (replace .gim linkRule anchor (beforeLinks md)) := rfl

/-- The calls before the link rule write no `[`. -/
theorem beforeLinks_no_bracket {md : List Char} (h : ∀ c ∈ md, c ≠ '[') :
    ∀ c ∈ beforeLinks md, c ≠ '[' := by
  unfold beforeLinks
  iterate 13 refine replace_forall _ _ _ (fun c => c ≠ '[') (by decide) ?_
  exact h

/-- The link rule finds nothing in a text without `[`. -/
theorem replace_link_id (anchor : String) {s : List Char} (h : ∀ c ∈ s, c ≠ '[') :
    replace .gim linkRule anchor s = s := by
  unfold replace
  rw [matchAt_linkRule]
  exact stage_id_of_needs (bracketM_needs (by simp)) anchor h


theorem transform_no_link (anchor : String) {md : List Char} (h : ∀ c ∈ md, c ≠ '[') :
    transform anchor md = afterLinks (beforeLinks md) := by
  rw [transform_links, replace_link_id anchor (beforeLinks_no_bracket h)]

/-- The resource rule leaves a text in which it finds nothing. -/
theorem replace_resource_id (tmpl : String) {s : List Char}
    (h : hasMatch (matchAt .gi resourceRule) none s = false) :
    replace .gi resourceRule tmpl s = s := by
  unfold replace
  refine stage_id_of_none tmpl ?_ (hasMatch_false h)
  intro p
  rw [matchAt_resourceRule]
  rfl

/-! ## Tags that stay whole -/

theorem chop_append_some {w x r : List Char} (h : chop w x = some r) (y : List Char) :
    chop w (x ++ y) = some (r ++ y) := by
  rw [chop_eq_some] at h ⊢
  rw [h, List.append_assoc]

theorem chop_cut {w x y : List Char} {d : Char} (hd : d ∉ w)
    (h : (chop w (x ++ d :: y)).isSome = true) : (chop w x).isSome = true := by
  induction w generalizing x with
  | nil => simp
  | cons e w ih =>
    cases x with
    | nil =>
      have hne : d ≠ e := fun h => hd (by simp [h])
      simp [chop, hne] at h
    | cons c x =>
      simp only [List.cons_append, chop] at h ⊢
      split
      · rename_i hce
        simp only [hce, if_true] at h
        exact ih (fun hm => hd (by simp [hm])) h
      · rename_i hce
        simp [hce] at h

theorem okAfter_iff {b : List Char} :
    okAfter b = true ↔ ∃ w ∈ tagTokens, ∃ r, b = w ++ r := by
  simp only [okAfter, List.any_eq_true, Option.isSome_iff_exists, chop_eq_some]

theorem okAfter_append {x : List Char} (h : okAfter x = true) (y : List Char) :
    okAfter (x ++ y) = true := by
  rw [okAfter_iff] at h ⊢
  obtain ⟨w, hw, r, hr⟩ := h
  exact ⟨w, hw, r ++ y, by rw [hr, List.append_assoc]⟩

theorem tokenChar_false {d : Char} (h : tokenChar d = false) : ∀ w ∈ tagTokens, d ∉ w := by
  intro w hw hd
  have : tokenChar d = true := by
    simp only [tokenChar, List.any_eq_true]
    exact ⟨w, hw, by simpa using hd⟩
  rw [h] at this
  exact absurd this (by decide)

theorem okAfter_cut {x y : List Char} {d : Char} (hd : tokenChar d = false)
    (h : okAfter (x ++ d :: y) = true) : okAfter x = true := by
  simp only [okAfter, List.any_eq_true] at h ⊢
  obtain ⟨w, hw, hc⟩ := h
  exact ⟨w, hw, chop_cut (tokenChar_false hd w hw) hc⟩

theorem wellTagged_cons {c : Char} {cs : List Char} :
    wellTagged (c :: cs) = true ↔ (c = '<' → okAfter cs = true) ∧ wellTagged cs = true := by
  simp only [wellTagged, Bool.and_eq_true, Bool.or_eq_true, bne_iff_ne, ne_eq]
  constructor
  · rintro ⟨h1, h2⟩
    exact ⟨fun hc => by rcases h1 with h1 | h1; exact absurd hc h1; exact h1, h2⟩
  · rintro ⟨h1, h2⟩
    refine ⟨?_, h2⟩
    by_cases hc : c = '<'
    · exact Or.inr (h1 hc)
    · exact Or.inl hc

theorem wellTagged_append {a b : List Char} (ha : wellTagged a = true)
    (hb : wellTagged b = true) : wellTagged (a ++ b) = true := by
  induction a with
  | nil => simpa using hb
  | cons c cs ih =>
    rw [wellTagged_cons] at ha
    rw [List.cons_append, wellTagged_cons]
    exact ⟨fun hc => okAfter_append (ha.1 hc) b, ih ha.2⟩

theorem wellTagged_suffix {a b : List Char} (h : wellTagged (a ++ b) = true) :
    wellTagged b = true := by
  induction a with
  | nil => simpa using h
  | cons c cs ih =>
    rw [List.cons_append, wellTagged_cons] at h
    exact ih h.2

theorem wellTagged_cut {x y : List Char} {d : Char} (hd : tokenChar d = false)
    (h : wellTagged (x ++ d :: y) = true) : wellTagged x = true := by
  induction x with
  | nil => rfl
  | cons c cs ih =>
    rw [List.cons_append, wellTagged_cons] at h
    rw [wellTagged_cons]
    exact ⟨fun hc => okAfter_cut hd (h.1 hc), ih h.2⟩

theorem wellTagged_of_no_lt {s : List Char} (h : ∀ c ∈ s, c ≠ '<') : wellTagged s = true := by
  induction s with
  | nil => rfl
  | cons c cs ih =>
    rw [wellTagged_cons]
    exact ⟨fun hc => absurd hc (h c (by simp)), ih (fun c hc => h c (by simp [hc]))⟩

theorem wellTagged_takeWhile {p : Char → Bool} (hp : ∀ c, p c = false → tokenChar c = false)
    {r : List Char} (h : wellTagged r = true) : wellTagged (r.takeWhile p) = true := by
  have e := List.takeWhile_append_dropWhile p r
  cases hd : r.dropWhile p with
  | nil =>
    rw [hd, List.append_nil] at e
    rw [e]
    exact h
  | cons d y =>
    have hpd : p d = false := by
      have := List.head_dropWhile_not p r
      simp only [hd] at this
      simpa using this (by simp)
    rw [hd] at e
    rw [← e] at h
    exact wellTagged_cut (hp d hpd) h

theorem tokenChar_notLT : ∀ c, notLT c = false → tokenChar c = false := by
  intro c hc
  cases ht : tokenChar c with
  | false => rfl
  | true =>
    exfalso
    simp only [tokenChar, List.any_eq_true] at ht
    obtain ⟨w, hw, hcw⟩ := ht
    have hall : ∀ w ∈ tagTokens, ∀ c ∈ w, notLT c = true := by decide
    have := hall w hw c (by simpa using hcw)
    rw [hc] at this
    exact absurd this (by decide)

/-- What the loop of `replace` writes after a `<` that it copies is the tag
token that stood there. -/
theorem replaceWith_token {m : Matcher} (H1 : NoStartInToken m) (tmpl : List Char)
    {cs : List Char} (h : okAfter cs = true) :
    okAfter (replaceWith m tmpl (some '<') cs 0) = true := by
  obtain ⟨w, hw, r, hr⟩ := okAfter_iff.mp h
  rw [hr, replaceWith_pass tmpl w r (some '<') (fun a c b hab => by
    exact H1 w hw a c b hab r)]
  exact okAfter_iff.mpr ⟨w, hw, _, rfl⟩

/-- The loop of `replace` keeps every tag whole when its pattern finds nothing
inside a tag token and the texts it writes for a match are well tagged. -/
theorem replaceWith_wellTagged {m : Matcher} {tmpl : List Char} (H1 : NoStartInToken m)
    (H2 : ∀ p s r caps, wellTagged s = true → m p s = some (r, caps) →
      wellTagged (expand caps (s.take (s.length - r.length)) tmpl) = true)
    (s : List Char) (hs : wellTagged s = true) (prev : Option Char) (k : Nat) :
    wellTagged (replaceWith m tmpl prev s k) = true := by
  induction s generalizing prev k with
  | nil =>
    cases k with
    | succ k => simp [replaceWith, wellTagged]
    | zero =>
      rw [replaceWith_nil]
      cases hmu : m prev [] with
      | none => rfl
      | some x =>
        obtain ⟨r, caps⟩ := x
        have := H2 prev [] r caps rfl hmu
        simpa using this
  | cons c cs ih =>
    have hcs := (wellTagged_cons.mp hs).2
    have hcopy : wellTagged (c :: replaceWith m tmpl (some c) cs 0) = true := by
      rw [wellTagged_cons]
      refine ⟨fun hc => ?_, ih hcs _ _⟩
      subst hc
      exact replaceWith_token H1 tmpl ((wellTagged_cons.mp hs).1 rfl)
    cases k with
    | succ k =>
      simp only [replaceWith]
      exact ih hcs _ _
    | zero =>
      cases hmu : m prev (c :: cs) with
      | none =>
        rw [replaceWith_cons_none hmu]
        exact hcopy
      | some x =>
        obtain ⟨r, caps⟩ := x
        rw [replaceWith_cons_some hmu]
        refine wellTagged_append (H2 prev (c :: cs) r caps hs hmu) ?_
        split
        · exact hcopy
        · exact ih hcs _ _

theorem capture_wellTagged {caps : Captures} (h : ∀ x ∈ caps, wellTagged x.2 = true) (i : Nat) :
    wellTagged (capture caps i) = true := by
  unfold capture
  cases hl : caps.lookup i with
  | none => rfl
  | some t =>
    have hm : (i, t) ∈ caps := by
      induction caps with
      | nil => simp at hl
      | cons x xs ih =>
        obtain ⟨j, u⟩ := x
        simp only [List.lookup] at hl
        split at hl
        · rename_i hij
          simp only [Option.some.injEq] at hl
          have : i = j := by simpa using hij
          simp [this, hl]
        · have := ih (fun x hx => h x (by simp [hx])) hl
          simp [this]
    exact h (i, t) hm

/-- One call of the chain keeps every tag whole. -/
theorem stage_wellTagged {m : Matcher} {tmpl : String} (H1 : NoStartInToken m)
    (Hcaps : ∀ p s r caps, wellTagged s = true → m p s = some (r, caps) →
      ∀ x ∈ caps, wellTagged x.2 = true)
    (Htmpl : TemplateOK tmpl)
    {s : List Char} (hs : wellTagged s = true) : wellTagged (stage m tmpl s) = true :=
  replaceWith_wellTagged H1 (fun p s r caps hs hm => Htmpl caps _ (Hcaps p s r caps hs hm))
    s hs none 0

theorem advance_some_mem (x : Char) (a : List Char) :
    ∃ y, advance (some x) a = some y ∧ (y = x ∨ y ∈ a) := by
  induction a generalizing x with
  | nil => exact ⟨x, rfl, Or.inl rfl⟩
  | cons c cs ih =>
    obtain ⟨y, hy, hm⟩ := ih c
    refine ⟨y, by simpa using hy, Or.inr ?_⟩
    rcases hm with h | h
    · simp [h]
    · simp [h]

theorem tagTokens_notLT : ∀ w ∈ tagTokens, ∀ c ∈ w, notLT c = true := by decide

theorem lineStart_in_token {w a b : List Char} {c : Char} (hw : w ∈ tagTokens)
    (hab : w = a ++ c :: b) : lineStart (advance (some '<') a) = false := by
  obtain ⟨y, hy, hm⟩ := advance_some_mem '<' a
  rw [hy]
  rcases hm with h | h
  · subst h
    rfl
  · have := tagTokens_notLT w hw y (by rw [hab]; simp [h])
    simpa [lineStart, notLT] using this

theorem noStart_of_anchored {m : Matcher} (h : Anchored m) : NoStartInToken m := by
  intro w hw a c b hab r
  exact h _ _ (lineStart_in_token hw hab)

theorem noStart_of_startsWith {m : Matcher} {d : Char} (h : StartsWith m d)
    (hd : tokenChar d = false) : NoStartInToken m := by
  intro w hw a c b hab r
  apply h.2
  rintro rfl
  exact tokenChar_false hd w hw (by rw [hab]; simp)

theorem tagTokens_inner : ∀ w ∈ tagTokens, ∀ t ∈ w.tails, t.head? = some '<' →
    t.tail.head?.isSome = true ∧ t.tail.head? ≠ some '/' := by
  decide

theorem noStart_mergeM (tag : List Char) : NoStartInToken (mergeM tag) := by
  intro w hw a c b hab r
  by_cases hc : c = '<'
  · subst hc
    have ht : ('<' :: b) ∈ w.tails := by
      rw [List.mem_tails]
      exact ⟨a, hab.symm⟩
    obtain ⟨h1, h2⟩ := tagTokens_inner w hw _ ht rfl
    cases b with
    | nil => simp at h1
    | cons e b =>
      have he : e ≠ '/' := by
        intro h
        apply h2
        simp [h]
      simp [mergeM, chop, he]
  · exact (mergeM_startsWith tag).2 _ _ _ hc

/-! ### The captures of the patterns -/

theorem lineM_caps_wellTagged (mk : List Char) (p : Option Char) (s r : List Char)
    (caps : Captures) (hs : wellTagged s = true) (h : lineM mk p s = some (r, caps)) :
    ∀ x ∈ caps, wellTagged x.2 = true := by
  unfold lineM at h
  split at h
  · cases hc : chop mk s with
    | none => simp [hc] at h
    | some r0 =>
      simp only [hc, Option.some.injEq, Prod.mk.injEq] at h
      rw [chop_eq_some.mp hc] at hs
      have h0 := wellTagged_suffix hs
      intro x hx
      rw [← h.2] at hx
      simp only [List.mem_singleton] at hx
      subst hx
      exact wellTagged_takeWhile tokenChar_notLT h0
  · simp at h

theorem orderedM_caps_wellTagged (p : Option Char) (s r : List Char)
    (caps : Captures) (hs : wellTagged s = true) (h : orderedM p s = some (r, caps)) :
    ∀ x ∈ caps, wellTagged x.2 = true := by
  unfold orderedM at h
  split at h
  · cases s with
    | nil => simp at h
    | cons c cs =>
      simp only at h
      split at h
      · cases hc : chop ['.', ' '] (cs.dropWhile isDigit) with
        | none => simp [hc] at h
        | some r0 =>
          simp only [hc, Option.some.injEq, Prod.mk.injEq] at h
          have e := List.takeWhile_append_dropWhile isDigit cs
          rw [chop_eq_some.mp hc] at e
          have h1 : wellTagged cs = true := (wellTagged_cons.mp hs).2
          rw [← e] at h1
          have h0 := wellTagged_suffix (wellTagged_suffix h1)
          intro x hx
          rw [← h.2] at hx
          simp only [List.mem_singleton] at hx
          subst hx
          exact wellTagged_takeWhile tokenChar_notLT h0
      · simp at h
  · simp at h

theorem paragraphM_caps_wellTagged (p : Option Char) (s r : List Char)
    (caps : Captures) (hs : wellTagged s = true) (h : paragraphM p s = some (r, caps)) :
    ∀ x ∈ caps, wellTagged x.2 = true := by
  unfold paragraphM at h
  split at h
  · simp only [Option.some.injEq, Prod.mk.injEq] at h
    intro x hx
    rw [← h.2] at hx
    simp only [List.mem_singleton] at hx
    subst hx
    exact wellTagged_takeWhile tokenChar_notLT hs
  · simp at h

theorem spanM_caps_wellTagged (d : Char) (ds : List Char) (hd : tokenChar d = false)
    (p : Option Char) (s r : List Char)
    (caps : Captures) (hs : wellTagged s = true) (h : spanM (d :: ds) p s = some (r, caps)) :
    ∀ x ∈ caps, wellTagged x.2 = true := by
  obtain ⟨t, e, hcaps, -⟩ := spanM_some h
  rw [e] at hs
  have h0 := wellTagged_suffix hs
  rw [List.cons_append] at h0
  intro x hx
  rw [hcaps] at hx
  simp only [List.mem_singleton] at hx
  subst hx
  exact wellTagged_cut hd h0

theorem bracketM_caps_wellTagged (opener : List Char) (p : Option Char) (s r : List Char)
    (caps : Captures) (hs : wellTagged s = true) (h : bracketM opener p s = some (r, caps)) :
    ∀ x ∈ caps, wellTagged x.2 = true := by
  obtain ⟨label, url, e, hcaps⟩ := bracketM_some h
  rw [e] at hs
  have h0 := wellTagged_suffix hs
  have hl : wellTagged label = true := wellTagged_cut (by decide) h0
  have h1 : wellTagged (url ++ ')' :: r) = true := by
    have := wellTagged_suffix h0
    exact (wellTagged_cons.mp (wellTagged_cons.mp this).2).2
  have hu : wellTagged url = true := wellTagged_cut (by decide) h1
  intro x hx
  rw [hcaps] at hx
  simp only [List.mem_cons, List.mem_singleton, List.not_mem_nil, or_false] at hx
  rcases hx with rfl | rfl
  · exact hu
  · exact hl

theorem mergeM_caps_wellTagged (tag : List Char) (p : Option Char) (s r : List Char)
    (caps : Captures) (_hs : wellTagged s = true) (h : mergeM tag p s = some (r, caps)) :
    ∀ x ∈ caps, wellTagged x.2 = true := by
  unfold mergeM at h
  cases hc1 : chop ('<' :: '/' :: (tag ++ ['>'])) s with
  | none => simp [hc1] at h
  | some r0 =>
    simp only [hc1] at h
    cases hc2 : chop ('<' :: (tag ++ ['>'])) (r0.dropWhile isWhiteSpace) with
    | none => simp [hc2] at h
    | some r1 =>
      simp only [hc2, Option.some.injEq, Prod.mk.injEq] at h
      rw [← h.2]
      simp

theorem newlineM_caps_wellTagged (p : Option Char) (s r : List Char)
    (caps : Captures) (_hs : wellTagged s = true) (h : newlineM p s = some (r, caps)) :
    ∀ x ∈ caps, wellTagged x.2 = true := by
  unfold newlineM at h
  cases s with
  | nil => simp at h
  | cons c cs =>
    simp only at h
    split at h
    · simp only [Option.some.injEq, Prod.mk.injEq] at h
      rw [← h.2]
      simp
    · simp at h

/-- The shape of a match of the fenced code rule. -/
theorem fenceM_some {p : Option Char} {s r : List Char} {caps : Captures}
    (h : fenceM p s = some (r, caps)) :
    ∃ lang body, s = "```".data ++ (lang ++ ('\n' :: (body ++ ("```".data ++ r)))) ∧
      caps = [(2, body), (1, lang)] := by
  unfold fenceM at h
  cases hc : chop "```".data s with
  | none => simp [hc] at h
  | some r0 =>
    simp only [hc] at h
    obtain ⟨a, b, q, hab, -, hg⟩ := lazyFind_some h
    cases b with
    | nil => simp at hg
    | cons c r2 =>
      simp only at hg
      split at hg
      · rename_i hcn
        obtain ⟨a2, b2, q2, hab2, -, hg2⟩ := lazyFind_some hg
        cases hc3 : chop "```".data b2 with
        | none => simp [hc3] at hg2
        | some r4 =>
          simp only [hc3, Option.map_some', Option.some.injEq, Prod.mk.injEq,
            List.nil_append] at hg2
          refine ⟨a, a2, ?_, hg2.2.symm⟩
          rw [chop_eq_some.mp hc, hab, hcn, hab2, chop_eq_some.mp hc3, hg2.1]
      · simp at hg

theorem fenceM_caps_wellTagged (p : Option Char) (s r : List Char)
    (caps : Captures) (hs : wellTagged s = true) (h : fenceM p s = some (r, caps)) :
    ∀ x ∈ caps, wellTagged x.2 = true := by
  obtain ⟨lang, body, e, hcaps⟩ := fenceM_some h
  rw [e] at hs
  have h0 := wellTagged_suffix hs
  have hl : wellTagged lang = true := wellTagged_cut (by decide) h0
  have h1 : wellTagged (body ++ (Char.ofNat 96) :: (Char.ofNat 96 :: Char.ofNat 96 :: r)) = true :=
    (wellTagged_cons.mp (wellTagged_suffix h0)).2
  have hb : wellTagged body = true := wellTagged_cut (by decide) h1
  intro x hx
  rw [hcaps] at hx
  simp only [List.mem_cons, List.mem_singleton, List.not_mem_nil, or_false] at hx
  rcases hx with rfl | rfl
  · exact hb
  · exact hl

/-! ### The templates -/

theorem template_one (tmpl : String) (l0 l1 : List Char)
    (he : ∀ caps matched, expand caps matched tmpl.data = l0 ++ (capture caps 1 ++ l1))
    (h0 : wellTagged l0 = true) (h1 : wellTagged l1 = true) : TemplateOK tmpl := by
  intro caps matched h
  rw [he]
  exact wellTagged_append h0 (wellTagged_append (capture_wellTagged h 1) h1)

theorem template_none (tmpl : String) (l0 : List Char)
    (he : ∀ caps matched, expand caps matched tmpl.data = l0)
    (h0 : wellTagged l0 = true) : TemplateOK tmpl := by
  intro caps matched _
  rw [he]
  exact h0

theorem template_two (tmpl : String) (i j : Nat) (l0 l1 l2 : List Char)
    (he : ∀ caps matched, expand caps matched tmpl.data =
      l0 ++ (capture caps i ++ (l1 ++ (capture caps j ++ l2))))
    (h0 : wellTagged l0 = true) (h1 : wellTagged l1 = true) (h2 : wellTagged l2 = true) :
    TemplateOK tmpl := by
  intro caps matched h
  rw [he]
  exact wellTagged_append h0 (wellTagged_append (capture_wellTagged h i)
    (wellTagged_append h1 (wellTagged_append (capture_wellTagged h j) h2)))

theorem template_h3 : TemplateOK "<h3>$1</h3>" :=
  template_one "<h3>$1</h3>" "<h3>".data "</h3>".data (fun _ _ => rfl)
    (by decide) (by decide)

theorem template_h2 : TemplateOK "<h2>$1</h2>" :=
  template_one "<h2>$1</h2>" "<h2>".data "</h2>".data (fun _ _ => rfl)
    (by decide) (by decide)

theorem template_h1 : TemplateOK "<h1>$1</h1>" :=
  template_one "<h1>$1</h1>" "<h1>".data "</h1>".data (fun _ _ => rfl)
    (by decide) (by decide)

theorem template_strong : TemplateOK "<strong>$1</strong>" :=
  template_one "<strong>$1</strong>" "<strong>".data "</strong>".data (fun _ _ => rfl)
    (by decide) (by decide)

theorem template_em : TemplateOK "<em>$1</em>" :=
  template_one "<em>$1</em>" "<em>".data "</em>".data (fun _ _ => rfl)
    (by decide) (by decide)

theorem template_code : TemplateOK "<code>$1</code>" :=
  template_one "<code>$1</code>" "<code>".data "</code>".data (fun _ _ => rfl)
    (by decide) (by decide)

theorem template_ul : TemplateOK "<ul><li>$1</li></ul>" :=
  template_one "<ul><li>$1</li></ul>" "<ul><li>".data "</li></ul>".data (fun _ _ => rfl)
    (by decide) (by decide)

theorem template_ol : TemplateOK "<ol><li>$1</li></ol>" :=
  template_one "<ol><li>$1</li></ol>" "<ol><li>".data "</li></ol>".data (fun _ _ => rfl)
    (by decide) (by decide)

theorem template_blockquote : TemplateOK "<blockquote>$1</blockquote>" :=
  template_one "<blockquote>$1</blockquote>" "<blockquote>".data "</blockquote>".data (fun _ _ => rfl)
    (by decide) (by decide)

theorem template_p : TemplateOK "<p>$1</p>" :=
  template_one "<p>$1</p>" "<p>".data "</p>".data (fun _ _ => rfl)
    (by decide) (by decide)

theorem template_empty : TemplateOK "" :=
  template_none "" [] (fun _ _ => rfl) rfl

theorem template_br : TemplateOK "<br />" :=
  template_none "<br />" "<br />".data (fun _ _ => rfl) (by decide)

theorem template_pre : TemplateOK "<pre><code class=\"language-$1\">$2</code></pre>" := by
  set_option maxRecDepth 100000 in
  exact template_two "<pre><code class=\"language-$1\">$2</code></pre>" 1 2
    "<pre><code class=\"language-".data "\">".data "</code></pre>".data
    (fun _ _ => rfl) (by decide) (by decide) (by decide)

theorem template_img : TemplateOK "<img src=\"$2\" alt=\"$1\" class=\"max-w-full h-auto\" />" := by
  set_option maxRecDepth 100000 in
  exact template_two "<img src=\"$2\" alt=\"$1\" class=\"max-w-full h-auto\" />" 2 1
    "<img src=\"".data "\" alt=\"".data "\" class=\"max-w-full h-auto\" />".data
    (fun _ _ => rfl) (by decide) (by decide) (by decide)

theorem template_plainAnchor : TemplateOK plainAnchor := by
  set_option maxRecDepth 100000 in
  exact template_two plainAnchor 2 1 "<a href=\"".data
    "\" target=\"_blank\" rel=\"noopener noreferrer\">".data "</a>".data
    (fun _ _ => rfl) (by decide) (by decide) (by decide)

theorem template_styledAnchor : TemplateOK styledAnchor := by
  set_option maxRecDepth 100000 in
  exact template_two styledAnchor 2 1 "<a href=\"".data
    "\" target=\"_blank\" rel=\"noopener noreferrer\" style=\"color: #60a5fa; text-decoration: underline;\">".data
    "</a>".data (fun _ _ => rfl) (by decide) (by decide) (by decide)

/-- Every call of the chain keeps every tag whole. -/
theorem stages_wellTagged (anchor : String) (hanchor : TemplateOK anchor) :
    ∀ f ∈ stages anchor, ∀ s, wellTagged s = true → wellTagged (f s) = true := by
  intro f hf s hs
  simp only [stages, List.mem_cons, List.mem_singleton, List.not_mem_nil, or_false] at hf
  rcases hf with rfl | rfl | rfl | rfl | rfl | rfl | rfl | rfl | rfl | rfl | rfl | rfl | rfl |
    rfl | rfl | rfl | rfl | rfl | rfl | rfl
  · exact stage_wellTagged (noStart_of_anchored (lineM_anchored _)) (lineM_caps_wellTagged _)
      template_h3 hs
  · exact stage_wellTagged (noStart_of_anchored (lineM_anchored _)) (lineM_caps_wellTagged _)
      template_h2 hs
  · exact stage_wellTagged (noStart_of_anchored (lineM_anchored _)) (lineM_caps_wellTagged _)
      template_h1 hs
  · exact stage_wellTagged (noStart_of_startsWith (spanM_startsWith _ _) (by decide))
      (spanM_caps_wellTagged _ _ (by decide)) template_strong hs
  · exact stage_wellTagged (noStart_of_startsWith (spanM_startsWith _ _) (by decide))
      (spanM_caps_wellTagged _ _ (by decide)) template_strong hs
  · exact stage_wellTagged (noStart_of_startsWith (spanM_startsWith _ _) (by decide))
      (spanM_caps_wellTagged _ _ (by decide)) template_em hs
  · exact stage_wellTagged (noStart_of_startsWith (spanM_startsWith _ _) (by decide))
      (spanM_caps_wellTagged _ _ (by decide)) template_em hs
  · exact stage_wellTagged (noStart_of_startsWith fenceM_startsWith (by decide))
      fenceM_caps_wellTagged template_pre hs
  · exact stage_wellTagged (noStart_of_startsWith (spanM_startsWith _ _) (by decide))
      (spanM_caps_wellTagged _ _ (by decide)) template_code hs
  · exact stage_wellTagged (noStart_of_anchored (lineM_anchored _)) (lineM_caps_wellTagged _)
      template_ul hs
  · exact stage_wellTagged (noStart_of_anchored (lineM_anchored _)) (lineM_caps_wellTagged _)
      template_ul hs
  · exact stage_wellTagged (noStart_of_anchored (lineM_anchored _)) (lineM_caps_wellTagged _)
      template_ul hs
  · exact stage_wellTagged (noStart_of_anchored orderedM_anchored) orderedM_caps_wellTagged
      template_ol hs
  · exact stage_wellTagged (noStart_of_startsWith (bracketM_startsWith _ _) (by decide))
      (bracketM_caps_wellTagged _) hanchor hs
  · exact stage_wellTagged (noStart_of_startsWith (bracketM_startsWith _ _) (by decide))
      (bracketM_caps_wellTagged _) template_img hs
  · exact stage_wellTagged (noStart_of_anchored (lineM_anchored _)) (lineM_caps_wellTagged _)
      template_blockquote hs
  · exact stage_wellTagged (noStart_of_anchored paragraphM_anchored) paragraphM_caps_wellTagged
      template_p hs
  · exact stage_wellTagged (noStart_mergeM _) (mergeM_caps_wellTagged _) template_empty hs
  · exact stage_wellTagged (noStart_mergeM _) (mergeM_caps_wellTagged _) template_empty hs
  · exact stage_wellTagged (noStart_of_startsWith newlineM_startsWith (by decide))
      newlineM_caps_wellTagged template_br hs

theorem transform_wellTagged (anchor : String) (hanchor : TemplateOK anchor)
    {md : List Char} (h : ∀ c ∈ md, c ≠ '<') : wellTagged (transform anchor md) = true := by
  rw [transform_eq_runStages]
  exact runStages_inv (Q := fun s => wellTagged s = true) (stages_wellTagged anchor hanchor)
    (wellTagged_of_no_lt h)

/-- Every tag token is a tag name, or `/` and a tag name, up to the `>` or the
space that ends the name. -/
theorem tagTokens_names : ∀ w ∈ tagTokens, ∃ n ∈ tagNames, ∃ d x, (d = '>' ∨ d = ' ') ∧
    (w = n.data ++ d :: x ∨ w = '/' :: (n.data ++ d :: x)) := by
  have hall : ∀ w ∈ tagTokens, tagNames.any (fun n =>
      (chop (n.data ++ ['>']) w).isSome || (chop (n.data ++ [' ']) w).isSome ||
      (chop ('/' :: (n.data ++ ['>'])) w).isSome) = true := by decide
  intro w hw
  have h := hall w hw
  simp only [List.any_eq_true, Bool.or_eq_true, Option.isSome_iff_exists, chop_eq_some] at h
  obtain ⟨n, hn, (⟨r, hr⟩ | ⟨r, hr⟩) | ⟨r, hr⟩⟩ := h
  · exact ⟨n, hn, '>', r, Or.inl rfl, Or.inl (by simp [hr])⟩
  · exact ⟨n, hn, ' ', r, Or.inr rfl, Or.inl (by simp [hr])⟩
  · exact ⟨n, hn, '>', r, Or.inl rfl, Or.inr (by simp [hr])⟩

theorem wellTagged_split {a b : List Char} (h : wellTagged (a ++ '<' :: b) = true) :
    okAfter b = true :=
  (wellTagged_cons.mp (wellTagged_suffix h)).1 rfl

/-! ## The cleanup calls on a well tagged text -/

theorem sealedText_cons {e : Char} {x : List Char} (h : sealedText (e :: x) = true) :
    sealedText x = true ∧
      (e = '<' → ∃ d y, x = d :: y ∧ d ≠ 'l' ∧ d ≠ 'b') := by
  simp only [sealedText, Bool.and_eq_true, Bool.or_eq_true, bne_iff_ne, ne_eq] at h
  refine ⟨h.2, fun he => ?_⟩
  rcases h.1 with h1 | h1
  · exact absurd he h1
  · cases x with
    | nil => simp at h1
    | cons d y =>
      refine ⟨d, y, rfl, ?_, ?_⟩
      · intro hd
        simp [hd] at h1
      · intro hd
        simp [hd] at h1

/-- After a match of a cleanup rule on a well tagged text comes `<li>`. -/
theorem mergeM_then_item {tag : List Char} (htag : tag = "ul".data ∨ tag = "ol".data)
    {p : Option Char} {s r : List Char} {caps : Captures} (hs : wellTagged s = true)
    (hm : mergeM tag p s = some (r, caps)) :
    ∃ a r1, a ≠ [] ∧ s = a ++ r ∧ r = '<' :: 'l' :: r1 := by
  obtain ⟨ws, hse, -⟩ := mergeM_some hm
  have e1 : s = ('<' :: '/' :: (tag ++ '>' :: ws)) ++ '<' :: (tag ++ '>' :: r) := by
    rw [hse]
    simp
  have hok : okAfter (tag ++ '>' :: r) = true := by
    rw [e1] at hs
    exact wellTagged_split hs
  have hr : ∃ r1, r = '<' :: 'l' :: r1 := by
    rcases htag with rfl | rfl
    · have h2 : (chop "<li>".data r).isSome = true := by
        simpa [okAfter, tagTokens, chop] using hok
      obtain ⟨r2, hr2⟩ := Option.isSome_iff_exists.mp h2
      exact ⟨'i' :: '>' :: r2, by rw [chop_eq_some.mp hr2]; rfl⟩
    · have h2 : (chop "<li>".data r).isSome = true := by
        simpa [okAfter, tagTokens, chop] using hok
      obtain ⟨r2, hr2⟩ := Option.isSome_iff_exists.mp h2
      exact ⟨'i' :: '>' :: r2, by rw [chop_eq_some.mp hr2]; rfl⟩
  obtain ⟨r1, hr1⟩ := hr
  exact ⟨('<' :: '/' :: (tag ++ '>' :: (ws ++ ('<' :: tag)))) ++ ['>'], r1, by simp,
    by rw [hse]; simp, hr1⟩

/-- What a cleanup call writes for a text that starts with a match. -/
theorem merge_out_match {tag : List Char} (htag : tag = "ul".data ∨ tag = "ol".data)
    {p : Option Char} {s r : List Char} {caps : Captures} (hs : wellTagged s = true)
    (hm : mergeM tag p s = some (r, caps)) :
    ∃ a r1 q, a ≠ [] ∧ s = a ++ r ∧ r = '<' :: 'l' :: r1 ∧
      replaceWith (mergeM tag) [] p s 0 = replaceWith (mergeM tag) [] q r 0 ∧
      replaceWith (mergeM tag) [] p s 0 =
        '<' :: 'l' :: replaceWith (mergeM tag) [] (some 'l') r1 0 := by
  obtain ⟨a, r1, ha, hsa, hr⟩ := mergeM_then_item htag hs hm
  have hm2 : mergeM tag p (a ++ r) = some (r, caps) := by rw [← hsa]; exact hm
  have e1 : replaceWith (mergeM tag) [] p s 0 =
      replaceWith (mergeM tag) [] (advance p a) r 0 := by
    have := replaceWith_match hm2 ha []
    rw [← hsa] at this
    rw [this]
    cases a <;> simp [expand]
  refine ⟨a, r1, advance p a, ha, hsa, hr, e1, ?_⟩
  rw [e1, hr]
  have n1 : mergeM tag (advance p a) ('<' :: 'l' :: r1) = none := by
    simp [mergeM, chop]
  rw [replaceWith_cons_none n1,
    replaceWith_cons_none (mergeM_none_of_ne_lt tag (by decide) _ _)]

/-- A sealed text at the start of what a cleanup call writes stood at the start
of the input. -/
theorem merge_head {tag : List Char} (htag : tag = "ul".data ∨ tag = "ol".data) (x : List Char)
    (hx : sealedText x = true) (s : List Char) (prev : Option Char)
    (hs : wellTagged s = true)
    (h : (chop x (replaceWith (mergeM tag) [] prev s 0)).isSome = true) :
    (chop x s).isSome = true := by
  induction x generalizing s prev with
  | nil => simp
  | cons e x ih =>
    obtain ⟨hx1, hx2⟩ := sealedText_cons hx
    cases s with
    | nil =>
      rw [replaceWith_nil, (mergeM_startsWith tag).1] at h
      simp [chop] at h
    | cons c cs =>
      cases hm : mergeM tag prev (c :: cs) with
      | none =>
        rw [replaceWith_cons_none hm] at h
        simp only [chop] at h ⊢
        split
        · rename_i hce
          simp only [hce, if_true] at h
          exact ih hx1 cs _ (wellTagged_cons.mp hs).2 h
        · rename_i hce
          simp [hce] at h
      | some y =>
        obtain ⟨r, caps⟩ := y
        obtain ⟨a, r1, q, -, -, -, -, e2⟩ := merge_out_match htag hs hm
        rw [e2] at h
        exfalso
        simp only [chop] at h
        split at h
        · rename_i hce
          obtain ⟨d, y, hxy, hdl, -⟩ := hx2 hce.symm
          rw [hxy] at h
          simp [chop, Ne.symm hdl] at h
        · simp at h

theorem occurs_suffix {w a b : List Char} (h : (chop w b).isSome = true) :
    occurs w (a ++ b) = true := by
  obtain ⟨r, hr⟩ := Option.isSome_iff_exists.mp h
  rw [occurs_iff]
  exact ⟨a, r, by rw [chop_eq_some.mp hr]; simp⟩

/-- A cleanup call on a well tagged text leaves no occurrence of a sealed text
every occurrence of which, in the input, is the start of a match. -/
theorem merge_no_occurrence {tag : List Char} (htag : tag = "ul".data ∨ tag = "ol".data)
    (w : List Char) (hw : sealedText w = true) (hw0 : w ≠ []) (n : Nat) :
    ∀ s : List Char, s.length ≤ n → wellTagged s = true →
      (∀ a b, s = a ++ b → (chop w b).isSome = true → ∀ p, mergeM tag p b ≠ none) →
      ∀ prev, occurs w (replaceWith (mergeM tag) [] prev s 0) = false := by
  induction n with
  | zero =>
    intro s hn _ _ prev
    have : s = [] := List.length_eq_zero.mp (Nat.le_zero.mp hn)
    subst this
    rw [replaceWith_nil, (mergeM_startsWith tag).1]
    cases w with
    | nil => exact absurd rfl hw0
    | cons e w => simp [occurs, chop]
  | succ n ih =>
    intro s hn hs hocc prev
    cases s with
    | nil =>
      rw [replaceWith_nil, (mergeM_startsWith tag).1]
      cases w with
      | nil => exact absurd rfl hw0
      | cons e w => simp [occurs, chop]
    | cons c cs =>
      have hlen : cs.length ≤ n := by
        simp only [List.length_cons] at hn
        omega
      cases hm : mergeM tag prev (c :: cs) with
      | none =>
        rw [replaceWith_cons_none hm]
        simp only [occurs, Bool.or_eq_false_iff]
        constructor
        · cases hch : (chop w (c :: replaceWith (mergeM tag) [] (some c) cs 0)).isSome with
          | false => rfl
          | true =>
            exfalso
            have h1 : (chop w (replaceWith (mergeM tag) [] prev (c :: cs) 0)).isSome = true := by
              rw [replaceWith_cons_none hm]
              exact hch
            have h2 := merge_head htag w hw (c :: cs) prev hs h1
            exact hocc [] (c :: cs) rfl h2 prev hm
        · exact ih cs hlen (wellTagged_cons.mp hs).2
            (fun a b hab hb p => hocc (c :: a) b (by rw [hab]; rfl) hb p) _
      | some y =>
        obtain ⟨r, caps⟩ := y
        obtain ⟨a, r1, q, ha, hsa, -, e1, -⟩ := merge_out_match htag hs hm
        rw [e1]
        have hlr : r.length ≤ n := by
          have := congrArg List.length hsa
          simp only [List.length_cons, List.length_append] at this hn
          have ha1 : 0 < a.length := List.length_pos.mpr ha
          omega
        have hsr : wellTagged r = true := by
          rw [hsa] at hs
          exact wellTagged_suffix hs
        exact ih r hlr hsr
          (fun a2 b hab hb p => hocc (a ++ a2) b (by rw [hsa, hab]; simp) hb p) _

/-- A cleanup rule finds a match where the closing and the opening tag meet. -/
theorem mergeM_of_adjacent (tag : List Char) (b : List Char) (p : Option Char)
    (h : (chop (('<' :: '/' :: (tag ++ ['>'])) ++ ('<' :: (tag ++ ['>']))) b).isSome = true) :
    mergeM tag p b ≠ none := by
  obtain ⟨r, hr⟩ := Option.isSome_iff_exists.mp h
  have e := chop_eq_some.mp hr
  have e1 : chop ('<' :: '/' :: (tag ++ ['>'])) b = some (('<' :: (tag ++ ['>'])) ++ r) := by
    rw [chop_eq_some, e]
    simp
  have e2 : chop ('<' :: (tag ++ ['>'])) ((('<' :: (tag ++ ['>'])) ++ r).dropWhile isWhiteSpace) =
      some r := by
    rw [chop_eq_some]
    simp [List.dropWhile, show isWhiteSpace '<' = false from by decide]
  unfold mergeM
  rw [e1]
  simp only []
  rw [e2]
  simp

/-! ### The last call -/

theorem break_head (x : List Char) (hx : sealedText x = true) (s : List Char)
    (h : (chop x (s.flatMap (fun c => if c = '\n' then "<br />".data else [c]))).isSome = true) :
    (chop x s).isSome = true := by
  induction x generalizing s with
  | nil => simp
  | cons e x ih =>
    obtain ⟨hx1, hx2⟩ := sealedText_cons hx
    cases s with
    | nil => simp [chop] at h
    | cons c cs =>
      rw [List.flatMap_cons] at h
      by_cases hc : c = '\n'
      · exfalso
        rw [if_pos hc] at h
        have e1 : "<br />".data = '<' :: 'b' :: "r />".data := rfl
        rw [e1] at h
        simp only [List.cons_append, chop] at h
        split at h
        · rename_i hce
          obtain ⟨d, y, hxy, -, hdb⟩ := hx2 hce.symm
          rw [hxy] at h
          simp [chop, Ne.symm hdb] at h
        · simp at h
      · rw [if_neg hc] at h
        simp only [List.singleton_append, chop] at h ⊢
        split
        · rename_i hce
          simp only [hce, if_true] at h
          exact ih hx1 cs h
        · rename_i hce
          simp [hce] at h

theorem occurs_break (w : List Char) (hw : sealedText ('<' :: w) = true) (y : List Char) :
    occurs ('<' :: w) ("<br />".data ++ y) = occurs ('<' :: w) y := by
  have e1 : "<br />".data ++ y = '<' :: ("br />".data ++ y) := rfl
  have e2 : chop ('<' :: w) ('<' :: ("br />".data ++ y)) = none := by
    obtain ⟨-, hx2⟩ := sealedText_cons hw
    obtain ⟨d, z, hxy, -, hdb⟩ := hx2 rfl
    rw [hxy]
    have e3 : "br />".data ++ y = 'b' :: ("r />".data ++ y) := rfl
    rw [e3]
    simp [chop, Ne.symm hdb]
  rw [e1]
  simp only [occurs, e2, Option.isSome_none, Bool.false_or]
  exact occurs_append_of_not_mem w (by decide) y

/-- The last call of the chain brings no occurrence of a sealed text that
starts with `<`. -/
theorem break_no_occurrence (w : List Char) (hw : sealedText ('<' :: w) = true) (s : List Char)
    (h : occurs ('<' :: w) s = false) :
    occurs ('<' :: w) (s.flatMap (fun c => if c = '\n' then "<br />".data else [c])) = false := by
  induction s with
  | nil => simpa using h
  | cons c cs ih =>
    simp only [occurs, Bool.or_eq_false_iff] at h
    have ih2 := ih h.2
    rw [List.flatMap_cons]
    by_cases hc : c = '\n'
    · rw [if_pos hc, occurs_break w hw]
      exact ih2
    · rw [if_neg hc, List.singleton_append]
      simp only [occurs, Bool.or_eq_false_iff]
      refine ⟨?_, ih2⟩
      cases hch : (chop ('<' :: w) (c :: cs.flatMap
          (fun c => if c = '\n' then "<br />".data else [c]))).isSome with
      | false => rfl
      | true =>
        exfalso
        have h1 : (chop ('<' :: w) ((c :: cs).flatMap
            (fun c => if c = '\n' then "<br />".data else [c]))).isSome = true := by
          rw [List.flatMap_cons, if_neg hc, List.singleton_append]
          exact hch
        have h2 := break_head _ hw (c :: cs) h1
        rw [h.1] at h2
        exact absurd h2 (by decide)

/-- After the chain, a text without `<` holds neither `</ul><ul>` nor
`</ol><ol>`. -/
theorem transform_no_adjacent (anchor : String) (hanchor : TemplateOK anchor) {md : List Char}
    (h : ∀ c ∈ md, c ≠ '<') :
    occurs "</ul><ul>".data (transform anchor md) = false ∧
    occurs "</ol><ol>".data (transform anchor md) = false := by
  have hX : wellTagged (runStages ((stages anchor).take 17) md) = true :=
    runStages_inv (Q := fun s => wellTagged s = true)
      (fun f hf => stages_wellTagged anchor hanchor f (List.mem_of_mem_take hf))
      (wellTagged_of_no_lt h)
  have e20 : (stages anchor).drop 20 = [] := rfl
  have h20 : ∀ x, runStages [] x = x := fun _ => rfl
  rw [transform_eq_runStages, runStages_split 17,
    runStages_drop_succ (stages anchor) 17 (stage (mergeM "ul".data) "") rfl,
    runStages_drop_succ (stages anchor) 18 (stage (mergeM "ol".data) "") rfl,
    runStages_drop_succ (stages anchor) 19 (stage newlineM "<br />") rfl, e20, h20]
  generalize runStages ((stages anchor).take 17) md = x at hX
  have hX1 : wellTagged (stage (mergeM "ul".data) "" x) = true :=
    stage_wellTagged (noStart_mergeM _) (mergeM_caps_wellTagged _) template_empty hX
  have u1 : occurs "</ul><ul>".data (stage (mergeM "ul".data) "" x) = false :=
    merge_no_occurrence (Or.inl rfl) "</ul><ul>".data (by decide) (by decide) x.length x
      (Nat.le_refl _) hX (fun a b _ hb p => mergeM_of_adjacent "ul".data b p hb) none
  generalize stage (mergeM "ul".data) "" x = x1 at hX1 u1
  have u2 : occurs "</ul><ul>".data (stage (mergeM "ol".data) "" x1) = false :=
    merge_no_occurrence (Or.inr rfl) "</ul><ul>".data (by decide) (by decide) x1.length x1
      (Nat.le_refl _) hX1 (fun a b hab hb p => by
        exfalso
        have := occurs_suffix (a := a) hb
        rw [← hab, u1] at this
        exact absurd this (by decide)) none
  have o2 : occurs "</ol><ol>".data (stage (mergeM "ol".data) "" x1) = false :=
    merge_no_occurrence (Or.inr rfl) "</ol><ol>".data (by decide) (by decide) x1.length x1
      (Nat.le_refl _) hX1 (fun a b _ hb p => mergeM_of_adjacent "ol".data b p hb) none
  generalize stage (mergeM "ol".data) "" x1 = x2 at u2 o2
  have e3 : stage newlineM "<br />" x2 =
      x2.flatMap (fun c => if c = '\n' then "<br />".data else [c]) := replaceWith_newline none x2
  rw [e3]
  exact ⟨break_no_occurrence "/ul><ul>".data (by decide) x2 u2,
    break_no_occurrence "/ol><ol>".data (by decide) x2 o2⟩

/-! ## The call on any value: lemmas -/

theorem callReplace_mk (f : Flags) (re : Regex) (tmpl : String) (l : List Char) :
    Value.callReplace f re tmpl (.string (String.mk l)) =
      .ok (.string (String.mk (replace f re tmpl l))) :=
  rfl

theorem ok_bind_callReplace (f : Flags) (re : Regex) (tmpl : String) (l : List Char) :
    ((Except.ok (.string (String.mk l)) : Except JSError Value) >>=
        Value.callReplace f re tmpl) =
      .ok (.string (String.mk (replace f re tmpl l))) :=
  rfl

theorem ok_bind (v : Value) (k : Value → Except JSError Value) :
    ((Except.ok v : Except JSError Value) >>= k) = k v :=
  rfl

theorem toBoolean_cons (c : Char) (cs : List Char) :
    (Value.string (String.mk (c :: cs))).toBoolean = true := by
  simp [Value.toBoolean, String.ext_iff]

theorem parseMarkdownValue_cons (c : Char) (cs : List Char) :
    GetNotes.parseMarkdownValue (.string (String.mk (c :: cs))) =
      .ok (.string (String.mk (transform plainAnchor (c :: cs)))) := by
  unfold GetNotes.parseMarkdownValue
  rw [toBoolean_cons]
  generalize c :: cs = l
  rw [if_neg (by decide)]
  rw [callReplace_mk]
  iterate 16 rw [ok_bind_callReplace]
  iterate 3 rw [ok_bind, callReplace_mk]
  rw [ok_bind]
  rfl

theorem parseMarkdownValue_string (s : String) :
    GetNotes.parseMarkdownValue (.string s) = .ok (.string (GetNotes.parseMarkdown (some s))) := by
  by_cases hs : s = ""
  · subst hs
    rfl
  · rw [parseMarkdown_some s hs]
    obtain ⟨c, cs, hl⟩ := List.exists_cons_of_ne_nil (data_ne_nil hs)
    have e : s = String.mk (c :: cs) := by
      apply String.ext
      simpa using hl
    rw [e]
    exact parseMarkdownValue_cons c cs

/-! ## A bullet `*` and a later `*` -/

/-- What the chain makes of the line `* a*b`: the italic rule, which runs before
the list rules, takes the bullet and the next `*` as the ends of a span. -/
theorem transform_star_bullet (anchor : String) (a b : List Char)
    (ha : ∀ c ∈ a, isPlain c = true) (hb : ∀ c ∈ b, isPlain c = true) :
    transform anchor ("* ".data ++ (a ++ ("*".data ++ b))) =
      "<em> ".data ++ (a ++ ("</em>".data ++ b)) := by
  have hai : ∀ c ∈ a, inert c = true := fun c hc => plain_inert (ha c hc)
  have hbi : ∀ c ∈ b, inert c = true := fun c hc => plain_inert (hb c hc)
  have hLT0 : ∀ c ∈ "* ".data ++ (a ++ ("*".data ++ b)), notLT c = true := by
    simp only [List.forall_mem_append]
    exact ⟨by decide, fun c hc => (inert_spec (hai c hc)).1, by decide,
      fun c hc => (inert_spec (hbi c hc)).1⟩
  have hq2 : ∀ x : List Char, (∀ c ∈ x, inert c = true) →
      ∀ c ∈ x, ∀ p cs, spanM "**".data p (c :: cs) = none :=
    fun x hx c hc p cs => (spanM_startsWith _ _).2 p c cs (inert_spec (hx c hc)).2.1
  have hq1 : ∀ x : List Char, (∀ c ∈ x, inert c = true) →
      ∀ c ∈ x, ∀ p cs, spanM "*".data p (c :: cs) = none :=
    fun x hx c hc p cs => (spanM_startsWith _ _).2 p c cs (inert_spec (hx c hc)).2.1
  have hstar : ∀ p, spanM "**".data p ('*' :: b) = none := by
    intro p
    cases b with
    | nil => simp [spanM, chop]
    | cons c cs =>
      have hc : c ≠ '*' := (inert_spec (hbi c (by simp))).2.1
      simp [spanM, chop, hc]
  -- the bold rule finds nothing
  have s3 : stage (spanM "**".data) "<strong>$1</strong>" ("* ".data ++ (a ++ ("*".data ++ b))) =
      "* ".data ++ (a ++ ("*".data ++ b)) := by
    have e : "* ".data ++ (a ++ ("*".data ++ b)) = '*' :: ' ' :: (a ++ ('*' :: (b ++ []))) := by
      simp
    have h0 : ∀ p cs, spanM "**".data p ('*' :: ' ' :: cs) = none := by
      intro p cs
      simp [spanM, chop]
    have hstar2 : ∀ p, spanM "**".data p ('*' :: (b ++ [])) = none := by
      simpa using hstar
    rw [e]
    unfold stage
    rw [replaceWith_cons_none (h0 _ _),
      replaceWith_cons_none ((spanM_startsWith _ _).2 _ _ _ (by decide)),
      replaceWith_pass_head (hq2 a hai), replaceWith_cons_none (hstar2 _),
      replaceWith_pass_head (hq2 b hbi), replaceWith_nil]
    simp [spanM, chop]
  have s4 : stage (spanM "__".data) "<strong>$1</strong>" ("* ".data ++ (a ++ ("*".data ++ b))) =
      "* ".data ++ (a ++ ("*".data ++ b)) := by
    apply stage_id_of_needs (needs_of_startsWith (spanM_startsWith _ _))
    simp only [List.forall_mem_append]
    exact ⟨by decide, fun c hc => (inert_spec (hai c hc)).2.2.1, by decide,
      fun c hc => (inert_spec (hbi c hc)).2.2.1⟩
  -- the italic rule takes the bullet
  have s5 : stage (spanM "*".data) "<em>$1</em>" ("* ".data ++ (a ++ ("*".data ++ b))) =
      "<em> ".data ++ (a ++ ("</em>".data ++ b)) := by
    have hm := spanM_match '*' [] (' ' :: a) b none (by
      intro c hc
      rcases List.mem_cons.mp hc with rfl | hc
      · exact ⟨by decide, by decide⟩
      · exact ⟨(inert_spec (hai c hc)).1, (inert_spec (hai c hc)).2.1⟩)
    have e : "* ".data ++ (a ++ ("*".data ++ b)) = ('*' :: ' ' :: (a ++ ['*'])) ++ b := by simp
    have hm2 : spanM "*".data none (('*' :: ' ' :: (a ++ ['*'])) ++ b) =
        some (b, [(1, ' ' :: a)]) := by
      simpa using hm
    rw [e]
    unfold stage
    rw [replaceWith_match hm2 (by simp), expand_em]
    have eb : b = b ++ [] := by simp
    rw [eb, replaceWith_pass_head (hq1 b hbi), replaceWith_nil]
    simp [spanM, chop]
  -- what is left is settled
  have hset : Settled ("<em> ".data ++ (a ++ ("</em>".data ++ b))) := by
    have hqa : ∀ x : List Char, (∀ c ∈ x, inert c = true) →
        ∀ tag, ∀ c ∈ x, ∀ p cs, mergeM tag p (c :: cs) = none :=
      fun x hx tag c hc p cs => mergeM_none_of_ne_lt tag (inert_spec (hx c hc)).2.2.2.2.2 p cs
    have hall : ∀ x : List Char, (∀ c ∈ x, inert c = true) → ∀ c ∈ x,
        notLT c = true ∧ c ≠ '*' ∧ c ≠ '_' ∧ c ≠ Char.ofNat 96 ∧ c ≠ '[' := by
      intro x hx c hc
      have := inert_spec (hx c hc)
      exact ⟨this.1, this.2.1, this.2.2.1, this.2.2.2.1, this.2.2.2.2.1⟩
    have hbm : ∀ tag p, replaceWith (mergeM tag) [] p b 0 = b := by
      intro tag p
      have h := replaceWith_pass_head (m := mergeM tag) (t := b) (hqa b hbi tag) [] [] p
      rw [List.append_nil] at h
      rw [h, replaceWith_nil, (mergeM_startsWith tag).1]
      simp
    refine ⟨?_, by simp [tagAhead, isAsciiLetter], ?_, ?_⟩
    · simp only [List.forall_mem_append]
      exact ⟨by decide, hall a hai, by decide, hall b hbi⟩
    · simp [stage, replaceWith_cons_none, replaceWith_pass_head (hqa a hai _), hbm, mergeM, chop]
    · simp [stage, replaceWith_cons_none, replaceWith_pass_head (hqa a hai _), hbm, mergeM, chop]
  rw [transform_eq_runStages, runStages_split 6]
  have e : runStages ((stages anchor).take 6) ("* ".data ++ (a ++ ("*".data ++ b))) =
      stage (spanM "*".data) "<em>$1</em>" (stage (spanM "__".data) "<strong>$1</strong>"
        (stage (spanM "**".data) "<strong>$1</strong>" (stage (lineM "# ".data) "<h1>$1</h1>"
          (stage (lineM "## ".data) "<h2>$1</h2>" (stage (lineM "### ".data) "<h3>$1</h3>"
            ("* ".data ++ (a ++ ("*".data ++ b)))))))) := rfl
  rw [e, stage_lineM_id _ _ _ hLT0 (by simp), stage_lineM_id _ _ _ hLT0 (by simp),
    stage_lineM_id _ _ _ hLT0 (by simp), s3, s4, s5]
  exact runStages_settled anchor 6 hset

/-! # The properties of the specification -/

/-! ## Totality -/

/-- C1: `parseMarkdown` of `GetNotes.jsx` does not throw on an absent argument,
on the empty string or on any string: for `undefined`, for `null` and for the
empty string it returns the empty string, and for every string it returns a
string, the result of the chain of `replace` calls.  The guard is what makes
the absent argument safe, and every call of the chain gets a string because
the call before it returned one; a truthy value that is not a string makes the
first call throw. -/
theorem parseMarkdown_total :
    GetNotes.parseMarkdownValue .undefined = .ok (.string "") ∧
    GetNotes.parseMarkdownValue .null = .ok (.string "") ∧
    GetNotes.parseMarkdownValue (.string "") = .ok (.string "") ∧
    (∀ s : String, ∃ out : String, GetNotes.parseMarkdownValue (.string s) = .ok (.string out)) ∧
    (∀ s : String,
      GetNotes.parseMarkdownValue (.string s) = .ok (.string (GetNotes.parseMarkdown (some s)))) ∧
    GetNotes.parseMarkdownValue (.other true) = .error .typeError :=
  ⟨rfl, rfl, rfl, fun s => ⟨_, parseMarkdownValue_string s⟩, parseMarkdownValue_string, rfl⟩

/-! ## Paragraphs -/

/-- C10: a non-empty single line of ASCII letters, digits and spaces becomes
one paragraph: `parseMarkdown(t) = '<p>' + t + '</p>'`. -/
theorem paragraph_fallback (t : String) (hne : t ≠ "") (ht : ∀ c ∈ t.data, isPlain c = true) :
    GetNotes.parseMarkdown (some t) = "<p>" ++ t ++ "</p>" := by
  rw [parseMarkdown_some t hne, transform_plain _ _ (data_ne_nil hne) ht]
  apply String.ext
  simp

/-- C10 at the text `plain text 42`. -/
theorem paragraph_fallback_witness :
    "plain text 42" ≠ "" ∧ (∀ c ∈ "plain text 42".data, isPlain c = true) ∧
    GetNotes.parseMarkdown (some "plain text 42") = "<p>" ++ "plain text 42" ++ "</p>" :=
  ⟨by decide, by decide, paragraph_fallback "plain text 42" (by decide) (by decide)⟩

/-! ## Headings and blockquotes -/

/-- C3: for a non-empty text `t` of ASCII letters, digits and spaces, the lines
`### t`, `## t` and `# t` give `<h3>t</h3>`, `<h2>t</h2>` and `<h1>t</h1>`; the
output for `### t` and for `## t` contains no `<h1>`. -/
theorem heading_levels (t : String) (_hne : t ≠ "") (ht : ∀ c ∈ t.data, isPlain c = true) :
    GetNotes.parseMarkdown (some ("### " ++ t)) = "<h3>" ++ t ++ "</h3>" ∧
    GetNotes.parseMarkdown (some ("## " ++ t)) = "<h2>" ++ t ++ "</h2>" ∧
    GetNotes.parseMarkdown (some ("# " ++ t)) = "<h1>" ++ t ++ "</h1>" ∧
    ¬ hasSubstring (GetNotes.parseMarkdown (some ("### " ++ t))) "<h1>" ∧
    ¬ hasSubstring (GetNotes.parseMarkdown (some ("## " ++ t))) "<h1>" := by
  have hi : ∀ c ∈ t.data, inert c = true := fun c hc => plain_inert (ht c hc)
  have hlt : ∀ c ∈ t.data, c ≠ '<' := fun c hc => (inert_spec (hi c hc)).2.2.2.2.2
  have h3 : GetNotes.parseMarkdown (some ("### " ++ t)) = "<h3>" ++ t ++ "</h3>" := by
    rw [parseMarkdown_some _ (by simp [String.ext_iff])]
    apply String.ext
    simpa using transform_heading3 plainAnchor t.data hi
  have h2 : GetNotes.parseMarkdown (some ("## " ++ t)) = "<h2>" ++ t ++ "</h2>" := by
    rw [parseMarkdown_some _ (by simp [String.ext_iff])]
    apply String.ext
    simpa using transform_heading2 plainAnchor t.data hi
  have h1 : GetNotes.parseMarkdown (some ("# " ++ t)) = "<h1>" ++ t ++ "</h1>" := by
    rw [parseMarkdown_some _ (by simp [String.ext_iff])]
    apply String.ext
    simpa using transform_heading1 plainAnchor t.data hi
  refine ⟨h3, h2, h1, ?_, ?_⟩
  · rw [h3]
    simp [hasSubstring, occurs, chop, occurs_append_of_not_mem _ hlt]
  · rw [h2]
    simp [hasSubstring, occurs, chop, occurs_append_of_not_mem _ hlt]

/-- C3 at the text `Chapter 1`. -/
theorem heading_levels_witness :
    "Chapter 1" ≠ "" ∧ (∀ c ∈ "Chapter 1".data, isPlain c = true) ∧
    GetNotes.parseMarkdown (some ("### " ++ "Chapter 1")) = "<h3>" ++ "Chapter 1" ++ "</h3>" ∧
    GetNotes.parseMarkdown (some ("## " ++ "Chapter 1")) = "<h2>" ++ "Chapter 1" ++ "</h2>" ∧
    GetNotes.parseMarkdown (some ("# " ++ "Chapter 1")) = "<h1>" ++ "Chapter 1" ++ "</h1>" ∧
    ¬ hasSubstring (GetNotes.parseMarkdown (some ("### " ++ "Chapter 1"))) "<h1>" ∧
    ¬ hasSubstring (GetNotes.parseMarkdown (some ("## " ++ "Chapter 1"))) "<h1>" :=
  ⟨by decide, by decide, heading_levels "Chapter 1" (by decide) (by decide)⟩

/-- C9: for a non-empty text `t` of ASCII letters, digits and spaces, the line
`> t` gives `<blockquote>t</blockquote>`, without a `<p>` around it. -/
theorem blockquote_line (t : String) (_hne : t ≠ "") (ht : ∀ c ∈ t.data, isPlain c = true) :
    GetNotes.parseMarkdown (some ("> " ++ t)) = "<blockquote>" ++ t ++ "</blockquote>" := by
  have hi : ∀ c ∈ t.data, inert c = true := fun c hc => plain_inert (ht c hc)
  rw [parseMarkdown_some _ (by simp [String.ext_iff])]
  apply String.ext
  simpa using transform_blockquote plainAnchor t.data hi

/-- C9 at the text `quoted text`. -/
theorem blockquote_line_witness :
    "quoted text" ≠ "" ∧ (∀ c ∈ "quoted text".data, isPlain c = true) ∧
    GetNotes.parseMarkdown (some ("> " ++ "quoted text")) =
      "<blockquote>" ++ "quoted text" ++ "</blockquote>" :=
  ⟨by decide, by decide, blockquote_line "quoted text" (by decide) (by decide)⟩

/-- C2, as the code has it: for a text `t` without line terminators and without
`*`, `_`, backtick, `[` and `<`, the line `# t` gives exactly `<h1>t</h1>`, so
the output contains `<h1>t</h1>`. -/
theorem heading_property (t : String) (ht : ∀ c ∈ t.data, inert c = true) :
    GetNotes.parseMarkdown (some ("# " ++ t)) = "<h1>" ++ t ++ "</h1>" ∧
    hasSubstring (GetNotes.parseMarkdown (some ("# " ++ t))) ("<h1>" ++ t ++ "</h1>") := by
  have h1 : GetNotes.parseMarkdown (some ("# " ++ t)) = "<h1>" ++ t ++ "</h1>" := by
    rw [parseMarkdown_some _ (by simp [String.ext_iff])]
    apply String.ext
    simpa using transform_heading1 plainAnchor t.data ht
  refine ⟨h1, ?_⟩
  rw [h1, hasSubstring, occurs_iff]
  exact ⟨[], [], by simp⟩

/-- The amended C2 at a heading text with punctuation. -/
theorem heading_property_witness :
    (∀ c ∈ "Intro: part 1.2 (draft)!".data, inert c = true) ∧
    GetNotes.parseMarkdown (some ("# " ++ "Intro: part 1.2 (draft)!")) =
      "<h1>" ++ "Intro: part 1.2 (draft)!" ++ "</h1>" ∧
    hasSubstring (GetNotes.parseMarkdown (some ("# " ++ "Intro: part 1.2 (draft)!")))
      ("<h1>" ++ "Intro: part 1.2 (draft)!" ++ "</h1>") :=
  ⟨by decide, heading_property "Intro: part 1.2 (draft)!" (by decide)⟩

/-- C2 as stated fails: `*a*` has no line terminator, and the output for
`# *a*` is `<h1><em>a</em></h1>`, which does not contain `<h1>*a*</h1>`. -/
theorem heading_property_counterexample :
    (∀ c ∈ "*a*".data, notLT c = true) ∧
    GetNotes.parseMarkdown (some ("# " ++ "*a*")) = "<h1><em>a</em></h1>" ∧
    ¬ hasSubstring (GetNotes.parseMarkdown (some ("# " ++ "*a*"))) ("<h1>" ++ "*a*" ++ "</h1>") := by
  decide

/-! ## Bold and italic -/

/-- C4: for non-empty texts `a` and `b` of ASCII letters and digits,
`**a** and *b*` gives exactly `<strong>a</strong> and <em>b</em>`. -/
theorem bold_before_italic (a b : String) (ha0 : a ≠ "") (hb0 : b ≠ "")
    (ha : ∀ c ∈ a.data, c.isAlphanum = true) (hb : ∀ c ∈ b.data, c.isAlphanum = true) :
    GetNotes.parseMarkdown (some ("**" ++ a ++ "** and *" ++ b ++ "*")) =
      "<strong>" ++ a ++ "</strong> and <em>" ++ b ++ "</em>" := by
  rw [parseMarkdown_some _ (by simp [String.ext_iff])]
  apply String.ext
  simpa using transform_bold_italic plainAnchor a.data b.data (data_ne_nil ha0) (data_ne_nil hb0)
    ha hb

/-- C4 at the texts `bold` and `italic`. -/
theorem bold_before_italic_witness :
    "bold" ≠ "" ∧ "italic" ≠ "" ∧ (∀ c ∈ "bold".data, c.isAlphanum = true) ∧
    (∀ c ∈ "italic".data, c.isAlphanum = true) ∧
    GetNotes.parseMarkdown (some ("**" ++ "bold" ++ "** and *" ++ "italic" ++ "*")) =
      "<strong>" ++ "bold" ++ "</strong> and <em>" ++ "italic" ++ "</em>" :=
  ⟨by decide, by decide, by decide, by decide,
    bold_before_italic "bold" "italic" (by decide) (by decide) (by decide) (by decide)⟩

/-! ## Links and images -/

/-- C7, as the code has it: at the two link-enabled call sites the anchor
carries the `style` attribute of their link template. -/
theorem link_scenario_styled :
    QuestionBank.parseMarkdown (some "[docs](https://example.com)") =
      "<a href=\"https://example.com\" target=\"_blank\" rel=\"noopener noreferrer\" style=\"color: #60a5fa; text-decoration: underline;\">docs</a>" ∧
    RoadmapGenerator.parseMarkdown (some "[docs](https://example.com)") =
      "<a href=\"https://example.com\" target=\"_blank\" rel=\"noopener noreferrer\" style=\"color: #60a5fa; text-decoration: underline;\">docs</a>" := by
  decide

/-- C7 as stated fails: neither link-enabled call site produces the anchor
without the `style` attribute. -/
theorem link_scenario_counterexample :
    QuestionBank.parseMarkdown (some "[docs](https://example.com)") ≠
      "<a href=\"https://example.com\" target=\"_blank\" rel=\"noopener noreferrer\">docs</a>" ∧
    RoadmapGenerator.parseMarkdown (some "[docs](https://example.com)") ≠
      "<a href=\"https://example.com\" target=\"_blank\" rel=\"noopener noreferrer\">docs</a>" := by
  decide

/-- C8 fails on the code: for every non-empty alt text and url of ASCII letters
and digits, the link rule, which runs before the image rule, takes the
`[alt](url)` part of `![alt](url)`; the output is a paragraph with `!` and an
anchor, and does not contain the `<img>` element. -/
theorem image_taken_by_link_rule (alt url : String) (ha0 : alt ≠ "") (hu0 : url ≠ "")
    (ha : ∀ c ∈ alt.data, c.isAlphanum = true) (hu : ∀ c ∈ url.data, c.isAlphanum = true) :
    GetNotes.parseMarkdown (some ("![" ++ alt ++ "](" ++ url ++ ")")) =
      "<p>!<a href=\"" ++ url ++ "\" target=\"_blank\" rel=\"noopener noreferrer\">" ++ alt ++
        "</a></p>" ∧
    ¬ hasSubstring (GetNotes.parseMarkdown (some ("![" ++ alt ++ "](" ++ url ++ ")")))
      ("<img src=\"" ++ url ++ "\" alt=\"" ++ alt ++ "\" class=\"max-w-full h-auto\" />") := by
  have hal : ∀ c ∈ alt.data, c ≠ '<' := fun c hc => plain_ne (alnum_plain (ha c hc)) (by decide)
  have hul : ∀ c ∈ url.data, c ≠ '<' := fun c hc => plain_ne (alnum_plain (hu c hc)) (by decide)
  have h : GetNotes.parseMarkdown (some ("![" ++ alt ++ "](" ++ url ++ ")")) =
      "<p>!<a href=\"" ++ url ++ "\" target=\"_blank\" rel=\"noopener noreferrer\">" ++ alt ++
        "</a></p>" := by
    rw [parseMarkdown_some _ (by simp [String.ext_iff])]
    apply String.ext
    simpa using transform_image alt.data url.data (data_ne_nil ha0) (data_ne_nil hu0) ha hu
  refine ⟨h, ?_⟩
  rw [h]
  simp [hasSubstring, occurs, chop, occurs_append_of_not_mem _ hal,
    occurs_append_of_not_mem _ hul]

/-- C8 at the image `![logo](pic1)`: the output is
`<p>!<a href="pic1" target="_blank" rel="noopener noreferrer">logo</a></p>`. -/
theorem image_taken_by_link_rule_witness :
    "logo" ≠ "" ∧ "pic1" ≠ "" ∧ (∀ c ∈ "logo".data, c.isAlphanum = true) ∧
    (∀ c ∈ "pic1".data, c.isAlphanum = true) ∧
    GetNotes.parseMarkdown (some ("![" ++ "logo" ++ "](" ++ "pic1" ++ ")")) =
      "<p>!<a href=\"" ++ "pic1" ++ "\" target=\"_blank\" rel=\"noopener noreferrer\">" ++
        "logo" ++ "</a></p>" ∧
    ¬ hasSubstring (GetNotes.parseMarkdown (some ("![" ++ "logo" ++ "](" ++ "pic1" ++ ")")))
      ("<img src=\"" ++ "pic1" ++ "\" alt=\"" ++ "logo" ++ "\" class=\"max-w-full h-auto\" />") :=
  ⟨by decide, by decide, by decide, by decide,
    image_taken_by_link_rule "logo" "pic1" (by decide) (by decide) (by decide) (by decide)⟩

/-! ## Lists -/

/-- C5: for `n ≥ 1` non-empty item texts of ASCII letters, digits and spaces, the
lines `- item_1`, ..., `- item_n` joined by newlines give exactly one `<ul>` with
the elements `<li>item_i</li>` in order. -/
theorem list_merge (items : List String) (hne : items ≠ [])
    (hit : ∀ t ∈ items, t ≠ "" ∧ ∀ c ∈ t.data, isPlain c = true) :
    GetNotes.parseMarkdown (some ("\n".intercalate (items.map (fun t => "- " ++ t)))) =
      "<ul>" ++ String.join (items.map (fun t => "<li>" ++ t ++ "</li>")) ++ "</ul>" := by
  obtain ⟨t, ts, rfl⟩ := List.exists_cons_of_ne_nil hne
  have hd : ("\n".intercalate ((t :: ts).map (fun t => "- " ++ t))).data =
      joinLines (((t :: ts).map String.data).map (fun u => "- ".data ++ u)) := by
    rw [intercalate_data]
    simp [List.map_map, Function.comp_def]
  have hne2 : "\n".intercalate ((t :: ts).map (fun t => "- " ++ t)) ≠ "" := by
    intro h
    have := congrArg String.data h
    rw [hd] at this
    simp [joinLines] at this
  have hpl : ∀ u ∈ (t :: ts).map String.data, ∀ c ∈ u, isPlain c = true := by
    intro u hu c hc
    obtain ⟨v, hv, rfl⟩ := List.mem_map.mp hu
    exact (hit v hv).2 c hc
  rw [parseMarkdown_some _ hne2]
  apply String.ext
  rw [hd]
  have e := transform_list plainAnchor t.data (ts.map String.data) hpl
  simp only [List.map_cons] at e ⊢
  rw [e]
  simp [liItems, List.map_map, Function.comp_def]

/-- C5 at the two items `item1` and `item2`. -/
theorem list_merge_witness :
    ["item1", "item2"] ≠ [] ∧
    (∀ t ∈ ["item1", "item2"], t ≠ "" ∧ ∀ c ∈ t.data, isPlain c = true) ∧
    GetNotes.parseMarkdown (some ("\n".intercalate (["item1", "item2"].map (fun t => "- " ++ t)))) =
      "<ul>" ++ String.join (["item1", "item2"].map (fun t => "<li>" ++ t ++ "</li>")) ++ "</ul>" :=
  ⟨by decide, by decide, list_merge ["item1", "item2"] (by decide) (by decide)⟩

/-! ## List markers -/

/-- Where the list rules wrap the line: for a text `t` without line
terminators, the single lines `- t` and `+ t` give an output that starts with
`<ul><li>` and ends with `</li></ul>`, the line `* t` does so when `t` has no
`*`, and a line of one or more digits, `. ` and `t` gives an output that starts
with `<ol><li>` and ends with `</li></ol>`. -/
theorem list_markers (t : String) (ht : ∀ c ∈ t.data, notLT c = true) :
    ((∀ c ∈ t.data, c ≠ '*') →
      startsWithStr (GetNotes.parseMarkdown (some ("* " ++ t))) "<ul><li>" = true ∧
      endsWithStr (GetNotes.parseMarkdown (some ("* " ++ t))) "</li></ul>" = true) ∧
    (startsWithStr (GetNotes.parseMarkdown (some ("- " ++ t))) "<ul><li>" = true ∧
      endsWithStr (GetNotes.parseMarkdown (some ("- " ++ t))) "</li></ul>" = true) ∧
    (startsWithStr (GetNotes.parseMarkdown (some ("+ " ++ t))) "<ul><li>" = true ∧
      endsWithStr (GetNotes.parseMarkdown (some ("+ " ++ t))) "</li></ul>" = true) ∧
    ∀ digits : String, digits ≠ "" → (∀ c ∈ digits.data, isDigit c = true) →
      startsWithStr (GetNotes.parseMarkdown (some (digits ++ ". " ++ t))) "<ol><li>" = true ∧
      endsWithStr (GetNotes.parseMarkdown (some (digits ++ ". " ++ t))) "</li></ol>" = true := by
  have hanchor : ∀ c ∈ plainAnchor.data, notLT c = true := by decide
  have hb := transform_bullet_framed plainAnchor hanchor t.data ht
  refine ⟨?_, ?_, ?_, ?_⟩
  · intro hstar
    rw [parseMarkdown_some _ (by simp [String.ext_iff])]
    have e : ("* " ++ t).data = "* ".data ++ t.data := by simp
    rw [e]
    exact framed_string (transform_star_framed plainAnchor hanchor t.data ht hstar)
  · rw [parseMarkdown_some _ (by simp [String.ext_iff])]
    have e : ("- " ++ t).data = "- ".data ++ t.data := by simp
    rw [e]
    exact framed_string hb.1
  · rw [parseMarkdown_some _ (by simp [String.ext_iff])]
    have e : ("+ " ++ t).data = "+ ".data ++ t.data := by simp
    rw [e]
    exact framed_string hb.2
  · intro digits hne hd
    obtain ⟨d, ds, hds⟩ := List.exists_cons_of_ne_nil (data_ne_nil hne)
    rw [parseMarkdown_some _ (by simp [String.ext_iff, hds])]
    have e : (digits ++ ". " ++ t).data = (d :: ds) ++ (". ".data ++ t.data) := by simp [hds]
    rw [e]
    rw [hds] at hd
    exact framed_string (transform_ordered_framed plainAnchor hanchor d ds t.data hd ht)

/-- The list rules at a text with a link and a span, for the markers `* ` and `12. `. -/
theorem list_markers_witness :
    (∀ c ∈ "see [docs](u) and _this_".data, notLT c = true) ∧
    (∀ c ∈ "see [docs](u) and _this_".data, c ≠ '*') ∧
    "12" ≠ "" ∧ (∀ c ∈ "12".data, isDigit c = true) ∧
    (startsWithStr (GetNotes.parseMarkdown (some ("* " ++ "see [docs](u) and _this_")))
        "<ul><li>" = true ∧
      endsWithStr (GetNotes.parseMarkdown (some ("* " ++ "see [docs](u) and _this_")))
        "</li></ul>" = true) ∧
    (startsWithStr (GetNotes.parseMarkdown (some ("12" ++ ". " ++ "see [docs](u) and _this_")))
        "<ol><li>" = true ∧
      endsWithStr (GetNotes.parseMarkdown (some ("12" ++ ". " ++ "see [docs](u) and _this_")))
        "</li></ol>" = true) :=
  ⟨by decide, by decide, by decide, by decide,
    (list_markers "see [docs](u) and _this_" (by decide)).1 (by decide),
    (list_markers "see [docs](u) and _this_" (by decide)).2.2.2 "12" (by decide) (by decide)⟩

/-- C6, where the code goes wrong: a line that starts with the bullet `* ` and
has a further `*` is not wrapped as a list item.  For texts `a` and `b` of ASCII
letters, digits and spaces, `parseMarkdown('* ' + a + '*' + b)` is
`'<em> ' + a + '</em>' + b`, which does not start with `<ul><li>`: the italic
rule runs before the list rules and takes the bullet as the start of a span.
The rules for `- ` and `+ ` wrap the same text. -/
theorem star_bullet_taken_by_italic_rule (a b : String) (ha : ∀ c ∈ a.data, isPlain c = true)
    (hb : ∀ c ∈ b.data, isPlain c = true) :
    GetNotes.parseMarkdown (some ("* " ++ (a ++ "*" ++ b))) = "<em> " ++ a ++ "</em>" ++ b ∧
    startsWithStr (GetNotes.parseMarkdown (some ("* " ++ (a ++ "*" ++ b)))) "<ul><li>" = false ∧
    (startsWithStr (GetNotes.parseMarkdown (some ("- " ++ (a ++ "*" ++ b)))) "<ul><li>" = true ∧
      endsWithStr (GetNotes.parseMarkdown (some ("- " ++ (a ++ "*" ++ b)))) "</li></ul>" = true) ∧
    (startsWithStr (GetNotes.parseMarkdown (some ("+ " ++ (a ++ "*" ++ b)))) "<ul><li>" = true ∧
      endsWithStr (GetNotes.parseMarkdown (some ("+ " ++ (a ++ "*" ++ b)))) "</li></ul>" = true) := by
  have hLT : ∀ c ∈ (a ++ "*" ++ b).data, notLT c = true := by
    simp only [String.data_append, List.forall_mem_append]
    exact ⟨⟨fun c hc => plain_notLT (ha c hc), by decide⟩, fun c hc => plain_notLT (hb c hc)⟩
  have hlm := list_markers (a ++ "*" ++ b) hLT
  have h1 : GetNotes.parseMarkdown (some ("* " ++ (a ++ "*" ++ b))) =
      "<em> " ++ a ++ "</em>" ++ b := by
    rw [parseMarkdown_some _ (by simp [String.ext_iff])]
    have h := transform_star_bullet plainAnchor a.data b.data ha hb
    apply String.ext
    simpa using h
  refine ⟨h1, ?_, hlm.2.1, hlm.2.2.1⟩
  rw [h1]
  simp [startsWithStr, chop]

/-- C6 at the texts `This is ` and `important`, and at the line
`* This is *important*`, which ends with one more `*`. -/
theorem star_bullet_taken_by_italic_rule_witness :
    (∀ c ∈ "This is ".data, isPlain c = true) ∧ (∀ c ∈ "important".data, isPlain c = true) ∧
    GetNotes.parseMarkdown (some ("* " ++ ("This is " ++ "*" ++ "important"))) =
      "<em> " ++ "This is " ++ "</em>" ++ "important" ∧
    GetNotes.parseMarkdown (some "* This is *important*") = "<em> This is </em>important*" ∧
    startsWithStr (GetNotes.parseMarkdown (some "* This is *important*")) "<ul><li>" = false ∧
    startsWithStr (GetNotes.parseMarkdown (some "- This is *important*")) "<ul><li>" = true :=
  ⟨by decide, by decide,
    (star_bullet_taken_by_italic_rule "This is " "important" (by decide) (by decide)).1,
    by decide, by decide, by decide⟩

/-! ## Idempotence -/

/-- C15: `parseMarkdown` is not idempotent: for the two links `[a](b)` and
`[c](d)` on two lines, applying it to its own output gives another text (the
italic rule takes the text between the two `_blank`). -/
theorem parseMarkdown_not_idempotent :
    GetNotes.parseMarkdown (some "[a](b)\n[c](d)") =
      "<a href=\"b\" target=\"_blank\" rel=\"noopener noreferrer\">a</a><br /><a href=\"d\" target=\"_blank\" rel=\"noopener noreferrer\">c</a>" ∧
    GetNotes.parseMarkdown (some (GetNotes.parseMarkdown (some "[a](b)\n[c](d)"))) =
      "<a href=\"b\" target=\"<em>blank\" rel=\"noopener noreferrer\">a</a><br /><a href=\"d\" target=\"</em>blank\" rel=\"noopener noreferrer\">c</a>" ∧
    ∃ x : String, GetNotes.parseMarkdown (some (GetNotes.parseMarkdown (some x))) ≠
      GetNotes.parseMarkdown (some x) :=
  by
  set_option maxRecDepth 100000 in
  exact ⟨by decide, by decide, "[a](b)\n[c](d)", by decide⟩

/-! ## The print export -/

/-- C17: the markup that `handlePrintPDF` of `GetNotes.jsx` assigns to the print
container holds `<div>` + `parseMarkdown(notes)` + `</div>` and `Source: ` +
`youtubeUrl` as they are, with no sanitizing step between; the same holds for
the `<div>` of `SummarizeFile.jsx` and of `QuestionBank.jsx`; and for the notes
`<script>alert(1)</script>` the markup contains `<script`. -/
theorem print_markup_unsanitized (youtubeUrl notes : String) (doc : Document) :
    (GetNotes.printContent youtubeUrl notes doc).1.innerHTML =
      GetNotes.printMarkup youtubeUrl notes ∧
    hasSubstring (GetNotes.printMarkup youtubeUrl notes)
      ("<div>" ++ GetNotes.parseMarkdown (some notes) ++ "</div>") ∧
    hasSubstring (GetNotes.printMarkup youtubeUrl notes) ("Source: " ++ youtubeUrl) ∧
    hasSubstring (GetNotes.printMarkup youtubeUrl "<script>alert(1)</script>") "<script" ∧
    (∀ fileData : Option String,
      hasSubstring (SummarizeFile.printMarkup fileData notes)
        ("<div>" ++ SummarizeFile.parseMarkdown (some notes) ++ "</div>") ∧
      hasSubstring (QuestionBank.printMarkup fileData notes)
        ("<div>" ++ QuestionBank.parseMarkdown (some notes) ++ "</div>")) := by
  have hdiv : ∀ n : String, hasSubstring (GetNotes.printMarkup youtubeUrl n)
      ("<div>" ++ GetNotes.parseMarkdown (some n) ++ "</div>") := by
    intro n
    unfold GetNotes.printMarkup
    iterate 6 apply hasSubstring_append_right
    exact hasSubstring_suffix3 _ _ _ _
  refine ⟨rfl, hdiv notes, ?_, ?_, ?_⟩
  · unfold GetNotes.printMarkup
    iterate 12 apply hasSubstring_append_right
    exact hasSubstring_suffix2 _ _ _
  · have hs : GetNotes.parseMarkdown (some "<script>alert(1)</script>") =
        "<script>alert(1)</script>" := by decide
    have h := hdiv "<script>alert(1)</script>"
    rw [hs] at h
    exact hasSubstring_trans h (by decide)
  · intro fileData
    constructor
    · unfold SummarizeFile.printMarkup
      iterate 6 apply hasSubstring_append_right
      exact hasSubstring_suffix3 _ _ _ _
    · unfold QuestionBank.printMarkup
      iterate 6 apply hasSubstring_append_right
      exact hasSubstring_suffix3 _ _ _ _

/-- C18: when the print action returns normally, `handlePrintPDF` returns
normally and the children of the body are the ones before the call; in between,
the body is the old children followed by the element with the id
`print-container`. -/
theorem print_attach_detach (windowPrint : Document → Except String Unit)
    (youtubeUrl notes : String) (doc : Document)
    (hdoc : ∀ e ∈ doc.body, e.ref < doc.created)
    (hprint : windowPrint ((GetNotes.printContent youtubeUrl notes doc).2.appendChild
      (GetNotes.printContent youtubeUrl notes doc).1) = .ok ()) :
    (GetNotes.printContent youtubeUrl notes doc).1.id = "print-container" ∧
    ((GetNotes.printContent youtubeUrl notes doc).2.appendChild
      (GetNotes.printContent youtubeUrl notes doc).1).body =
      doc.body ++ [(GetNotes.printContent youtubeUrl notes doc).1] ∧
    (GetNotes.handlePrintPDF windowPrint youtubeUrl notes doc).1 = .ok () ∧
    (GetNotes.handlePrintPDF windowPrint youtubeUrl notes doc).2.body = doc.body := by
  have hc : ∀ e ∈ (GetNotes.printContent youtubeUrl notes doc).2.body,
      e.ref < (GetNotes.printContent youtubeUrl notes doc).1.ref := hdoc
  obtain ⟨hb, hd⟩ := attach_detach _ _ hc
  refine ⟨rfl, hb, ?_, ?_⟩
  · simp only [GetNotes.handlePrintPDF, hprint, hd]
  · simp only [GetNotes.handlePrintPDF, hprint, hd]
    rfl

/-- C18 on a body with two children and a print action that returns. -/
theorem print_attach_detach_witness :
    (∀ e ∈ (Document.mk 2 [⟨0, "div", "root", "", []⟩, ⟨1, "p", "", "", []⟩]).body,
      e.ref < (Document.mk 2 [⟨0, "div", "root", "", []⟩, ⟨1, "p", "", "", []⟩]).created) ∧
    (GetNotes.handlePrintPDF (fun _ => .ok ()) "https://youtu.be/x" "# Notes"
      ⟨2, [⟨0, "div", "root", "", []⟩, ⟨1, "p", "", "", []⟩]⟩).1 = .ok () ∧
    (GetNotes.handlePrintPDF (fun _ => .ok ()) "https://youtu.be/x" "# Notes"
      ⟨2, [⟨0, "div", "root", "", []⟩, ⟨1, "p", "", "", []⟩]⟩).2.body =
      [⟨0, "div", "root", "", []⟩, ⟨1, "p", "", "", []⟩] :=
  ⟨by decide, (print_attach_detach (fun _ => .ok ()) "https://youtu.be/x" "# Notes"
    ⟨2, [⟨0, "div", "root", "", []⟩, ⟨1, "p", "", "", []⟩]⟩ (by decide) rfl).2.2⟩

/-- C19: when the print action throws, `handlePrintPDF` ends with that
exception and the body keeps the element with the id `print-container` after
its old children: `removeChild` is not reached.  This holds in `GetNotes.jsx`
and in `RoadmapGenerator.jsx`. -/
theorem print_detach_not_failure_safe (windowPrint : Document → Except String Unit)
    (youtubeUrl notes : String) (roadmap : Roadmap) (doc : Document) (err : String)
    (hdoc : ∀ e ∈ doc.body, e.ref < doc.created) :
    (windowPrint ((GetNotes.printContent youtubeUrl notes doc).2.appendChild
        (GetNotes.printContent youtubeUrl notes doc).1) = .error err →
      (GetNotes.handlePrintPDF windowPrint youtubeUrl notes doc).1 = .error err ∧
      (GetNotes.handlePrintPDF windowPrint youtubeUrl notes doc).2.body =
        doc.body ++ [(GetNotes.printContent youtubeUrl notes doc).1] ∧
      (GetNotes.printContent youtubeUrl notes doc).1.id = "print-container") ∧
    (windowPrint ((RoadmapGenerator.printContent roadmap doc).2.appendChild
        (RoadmapGenerator.printContent roadmap doc).1) = .error err →
      (RoadmapGenerator.handlePrintPDF windowPrint roadmap doc).1 = .error err ∧
      (RoadmapGenerator.handlePrintPDF windowPrint roadmap doc).2.body =
        doc.body ++ [(RoadmapGenerator.printContent roadmap doc).1] ∧
      (RoadmapGenerator.printContent roadmap doc).1.id = "print-container") := by
  constructor
  · intro hfail
    have hc : ∀ e ∈ (GetNotes.printContent youtubeUrl notes doc).2.body,
        e.ref < (GetNotes.printContent youtubeUrl notes doc).1.ref := hdoc
    refine ⟨?_, ?_, rfl⟩
    · simp only [GetNotes.handlePrintPDF, hfail]
    · simp only [GetNotes.handlePrintPDF, hfail]
      exact (attach_detach _ _ hc).1
  · intro hfail
    have hc : ∀ e ∈ (RoadmapGenerator.printContent roadmap doc).2.body,
        e.ref < (RoadmapGenerator.printContent roadmap doc).1.ref := hdoc
    refine ⟨?_, ?_, rfl⟩
    · simp only [RoadmapGenerator.handlePrintPDF, hfail]
    · simp only [RoadmapGenerator.handlePrintPDF, hfail]
      exact (attach_detach _ _ hc).1

/-- C19 on a body with one child and a print action that is denied: the body
is left with two children, in `GetNotes.jsx` and in `RoadmapGenerator.jsx`. -/
theorem print_detach_not_failure_safe_witness :
    (∀ e ∈ (Document.mk 1 [⟨0, "div", "root", "", []⟩]).body,
      e.ref < (Document.mk 1 [⟨0, "div", "root", "", []⟩]).created) ∧
    (GetNotes.handlePrintPDF (fun _ => .error "denied") "https://youtu.be/x" "# Notes"
      ⟨1, [⟨0, "div", "root", "", []⟩]⟩).1 = .error "denied" ∧
    (GetNotes.handlePrintPDF (fun _ => .error "denied") "https://youtu.be/x" "# Notes"
      ⟨1, [⟨0, "div", "root", "", []⟩]⟩).2.body =
      [⟨0, "div", "root", "", []⟩,
        (GetNotes.printContent "https://youtu.be/x" "# Notes"
          ⟨1, [⟨0, "div", "root", "", []⟩]⟩).1] ∧
    (GetNotes.handlePrintPDF (fun _ => .error "denied") "https://youtu.be/x" "# Notes"
      ⟨1, [⟨0, "div", "root", "", []⟩]⟩).2.body.length = 2 ∧
    (RoadmapGenerator.handlePrintPDF (fun _ => .error "denied")
      ⟨"Lean", some "# Overview", none, none, none⟩
      ⟨1, [⟨0, "div", "root", "", []⟩]⟩).1 = .error "denied" ∧
    (RoadmapGenerator.handlePrintPDF (fun _ => .error "denied")
      ⟨"Lean", some "# Overview", none, none, none⟩
      ⟨1, [⟨0, "div", "root", "", []⟩]⟩).2.body.length = 2 :=
  have h := print_detach_not_failure_safe (fun _ => .error "denied") "https://youtu.be/x"
    "# Notes" ⟨"Lean", some "# Overview", none, none, none⟩ ⟨1, [⟨0, "div", "root", "", []⟩]⟩
    "denied" (by decide)
  have hg := h.1 rfl
  have hr := h.2 rfl
  ⟨by decide, hg.1, hg.2.1, by rw [hg.2.1]; rfl, hr.1, by rw [hr.2.1]; rfl⟩

/-! ## Line breaks -/

/-- C12: the last call of the chain replaces every newline by `<br />` and copies
every other character, and the output of `parseMarkdown` has no newline, in
each of the four copies, for every argument. -/
theorem newline_to_break :
    (∀ s : List Char, replace .g (.atom (.lit '\n')) "<br />" s =
      s.flatMap (fun c => if c = '\n' then "<br />".data else [c])) ∧
    ∀ markdown : Option String,
      (∀ c ∈ (GetNotes.parseMarkdown markdown).data, c ≠ '\n') ∧
      (∀ c ∈ (SummarizeFile.parseMarkdown markdown).data, c ≠ '\n') ∧
      (∀ c ∈ (QuestionBank.parseMarkdown markdown).data, c ≠ '\n') ∧
      (∀ c ∈ (RoadmapGenerator.parseMarkdown markdown).data, c ≠ '\n') := by
  constructor
  · intro s
    unfold replace
    rw [matchAt_newline]
    exact replaceWith_newline none s
  · intro markdown
    cases markdown with
    | none => exact ⟨by decide, by decide, by decide, by decide⟩
    | some md =>
      by_cases h : md = ""
      · subst h
        exact ⟨by decide, by decide, by decide, by decide⟩
      · refine ⟨?_, ?_, ?_, ?_⟩
        · simp only [GetNotes.parseMarkdown, if_neg h]
          exact transform_no_newline _ _
        · simp only [SummarizeFile.parseMarkdown, if_neg h]
          exact transform_no_newline _ _
        · simp only [QuestionBank.parseMarkdown, if_neg h]
          exact transform_no_newline _ _
        · simp only [RoadmapGenerator.parseMarkdown, if_neg h]
          exact replace_forall _ _ _ _ (by decide) (transform_no_newline _ _)

/-! ## Markers that are never closed -/

/-- C11, where the code goes wrong: a doubled marker that is never closed does
not pass through.  For a non-empty text `t` of ASCII letters and digits,
`parseMarkdown('**' + t)` and `parseMarkdown('__' + t)` are `'<em></em>' + t`:
the italic patterns accept an empty text, so the italic rule takes the two
characters of the marker as an empty span.  A single `*` or `_` that is never
closed does pass through inside a paragraph,
`parseMarkdown('*' + t) = '<p>*' + t + '</p>'` and the same for `_`. -/
theorem unclosed_marker (t : String) (hne : t ≠ "") (ht : ∀ c ∈ t.data, c.isAlphanum = true) :
    GetNotes.parseMarkdown (some ("*" ++ t)) = "<p>*" ++ t ++ "</p>" ∧
    GetNotes.parseMarkdown (some ("_" ++ t)) = "<p>_" ++ t ++ "</p>" ∧
    GetNotes.parseMarkdown (some ("**" ++ t)) = "<em></em>" ++ t ∧
    GetNotes.parseMarkdown (some ("__" ++ t)) = "<em></em>" ++ t := by
  have h1 := transform_single_marker plainAnchor t.data (data_ne_nil hne) ht
  have h2 := transform_double_marker plainAnchor t.data (data_ne_nil hne) ht
  refine ⟨?_, ?_, ?_, ?_⟩
  · rw [parseMarkdown_some _ (by simp [String.ext_iff])]
    apply String.ext
    simpa using h1.1
  · rw [parseMarkdown_some _ (by simp [String.ext_iff])]
    apply String.ext
    simpa using h1.2
  · rw [parseMarkdown_some _ (by simp [String.ext_iff])]
    apply String.ext
    simpa using h2.1
  · rw [parseMarkdown_some _ (by simp [String.ext_iff])]
    apply String.ext
    simpa using h2.2

/-- C11 at the text `bold1`. -/
theorem unclosed_marker_witness :
    "bold1" ≠ "" ∧ (∀ c ∈ "bold1".data, c.isAlphanum = true) ∧
    GetNotes.parseMarkdown (some ("*" ++ "bold1")) = "<p>*" ++ "bold1" ++ "</p>" ∧
    GetNotes.parseMarkdown (some ("_" ++ "bold1")) = "<p>_" ++ "bold1" ++ "</p>" ∧
    GetNotes.parseMarkdown (some ("**" ++ "bold1")) = "<em></em>" ++ "bold1" ∧
    GetNotes.parseMarkdown (some ("__" ++ "bold1")) = "<em></em>" ++ "bold1" :=
  ⟨by decide, by decide, unclosed_marker "bold1" (by decide) (by decide)⟩

/-- The failing input of C11: for the text `a`, `parseMarkdown('**a')` and
`parseMarkdown('__a')` are `<em></em>a`, not `<p>**a</p>` and `<p>__a</p>`. -/
theorem unclosed_marker_failing_input :
    "a" ≠ "" ∧ (∀ c ∈ "a".data, c.isAlphanum = true) ∧
    GetNotes.parseMarkdown (some ("**" ++ "a")) = "<em></em>a" ∧
    GetNotes.parseMarkdown (some ("**" ++ "a")) ≠ "<p>**" ++ "a" ++ "</p>" ∧
    GetNotes.parseMarkdown (some ("__" ++ "a")) = "<em></em>a" ∧
    GetNotes.parseMarkdown (some ("__" ++ "a")) ≠ "<p>__" ++ "a" ++ "</p>" := by
  decide

/-! ## Raw HTML -/

/-- C16, as the code has it: a single-line input that starts with `<` and an
ASCII letter, has none of `*`, `_`, the backtick and `[`, and in which the two
cleanup patterns `</ul>\s*<ul>` and `</ol>\s*<ol>` find nothing, is returned
unchanged; and `parseMarkdown('<script>alert(1)</script>')` contains `<script`. -/
theorem raw_html_unchanged (s : String) (hline : ∀ c ∈ s.data, notLT c = true)
    (hstart : tagAhead s.data = true)
    (hch : ∀ c ∈ s.data, c ≠ '*' ∧ c ≠ '_' ∧ c ≠ Char.ofNat 96 ∧ c ≠ '[')
    (hul : hasMatch (matchAt .g (mergeRule "ul")) none s.data = false)
    (hol : hasMatch (matchAt .g (mergeRule "ol")) none s.data = false) :
    GetNotes.parseMarkdown (some s) = s ∧
    hasSubstring (GetNotes.parseMarkdown (some "<script>alert(1)</script>")) "<script" := by
  have hne : s ≠ "" := by
    intro h
    rw [h] at hstart
    exact absurd hstart (by decide)
  refine ⟨?_, by decide⟩
  have h := runStages_settled plainAnchor 0 (settled_of_raw hline hstart hch hul hol)
  rw [List.drop_zero, ← transform_eq_runStages] at h
  rw [parseMarkdown_some s hne]
  apply String.ext
  simpa using h

/-- The amended C16 at the script element of the claim. -/
theorem raw_html_unchanged_witness :
    (∀ c ∈ "<script>alert(1)</script>".data, notLT c = true) ∧
    tagAhead "<script>alert(1)</script>".data = true ∧
    (∀ c ∈ "<script>alert(1)</script>".data,
      c ≠ '*' ∧ c ≠ '_' ∧ c ≠ Char.ofNat 96 ∧ c ≠ '[') ∧
    hasMatch (matchAt .g (mergeRule "ul")) none "<script>alert(1)</script>".data = false ∧
    hasMatch (matchAt .g (mergeRule "ol")) none "<script>alert(1)</script>".data = false ∧
    GetNotes.parseMarkdown (some "<script>alert(1)</script>") = "<script>alert(1)</script>" ∧
    hasSubstring (GetNotes.parseMarkdown (some "<script>alert(1)</script>")) "<script" :=
  ⟨by decide, by decide, by decide, by decide, by decide,
    raw_html_unchanged "<script>alert(1)</script>" (by decide) (by decide) (by decide)
      (by decide) (by decide)⟩

/-- C16 as stated fails: `<b></ul><ul>` is a single line that starts with `<`
and a letter and has none of `*`, `_`, the backtick and `[`, and the cleanup
rule removes `</ul><ul>` from it. -/
theorem raw_html_unchanged_counterexample :
    (∀ c ∈ "<b></ul><ul>".data, notLT c = true) ∧
    tagAhead "<b></ul><ul>".data = true ∧
    (∀ c ∈ "<b></ul><ul>".data, c ≠ '*' ∧ c ≠ '_' ∧ c ≠ Char.ofNat 96 ∧ c ≠ '[') ∧
    GetNotes.parseMarkdown (some "<b></ul><ul>") = "<b>" ∧
    GetNotes.parseMarkdown (some "<b></ul><ul>") ≠ "<b></ul><ul>" := by
  decide

/-! ## Fenced code blocks -/

/-- C13 fails on the code: for a language tag `L` and a body `B` of ASCII
letters and digits, both non-empty, the output for the fenced block with the
closing fence on its own line starts with `<pre><code class="language-L">`, but
the paragraph rule wraps the line `</code></pre>`: the output is
`<pre><code class="language-L">B<br /><p></code></pre></p>`, which contains
`<p>` and does not end with `</code></pre>`. -/
theorem fenced_block_closing_line_wrapped (L B : String) (_hL0 : L ≠ "") (hB0 : B ≠ "")
    (hL : ∀ c ∈ L.data, c.isAlphanum = true) (hB : ∀ c ∈ B.data, c.isAlphanum = true) :
    GetNotes.parseMarkdown (some ("```" ++ L ++ "\n" ++ B ++ "\n```")) =
      "<pre><code class=\"language-" ++ L ++ "\">" ++ B ++ "<br /><p></code></pre></p>" ∧
    startsWithStr (GetNotes.parseMarkdown (some ("```" ++ L ++ "\n" ++ B ++ "\n```")))
      ("<pre><code class=\"language-" ++ L ++ "\">") = true ∧
    endsWithStr (GetNotes.parseMarkdown (some ("```" ++ L ++ "\n" ++ B ++ "\n```")))
      "</code></pre>" = false ∧
    hasSubstring (GetNotes.parseMarkdown (some ("```" ++ L ++ "\n" ++ B ++ "\n```"))) "<p>" := by
  have h : GetNotes.parseMarkdown (some ("```" ++ L ++ "\n" ++ B ++ "\n```")) =
      "<pre><code class=\"language-" ++ L ++ "\">" ++ B ++ "<br /><p></code></pre></p>" := by
    rw [parseMarkdown_some _ (by simp [String.ext_iff])]
    apply String.ext
    simpa using transform_fence plainAnchor L.data B.data (data_ne_nil hB0) hL hB
  refine ⟨h, ?_, ?_, ?_⟩
  · rw [h, String.append_assoc _ B _]
    exact startsWithStr_append _ _
  · rw [h, endsWithStr]
    simp [List.reverse_append, chop]
  · rw [h]
    exact hasSubstring_append_left _ (by decide)

/-- C13 at the block with the tag `js` and the body `abc`. -/
theorem fenced_block_closing_line_wrapped_witness :
    "js" ≠ "" ∧ "abc" ≠ "" ∧ (∀ c ∈ "js".data, c.isAlphanum = true) ∧
    (∀ c ∈ "abc".data, c.isAlphanum = true) ∧
    GetNotes.parseMarkdown (some ("```" ++ "js" ++ "\n" ++ "abc" ++ "\n```")) =
      "<pre><code class=\"language-" ++ "js" ++ "\">" ++ "abc" ++ "<br /><p></code></pre></p>" ∧
    endsWithStr (GetNotes.parseMarkdown (some ("```" ++ "js" ++ "\n" ++ "abc" ++ "\n```")))
      "</code></pre>" = false ∧
    hasSubstring (GetNotes.parseMarkdown (some ("```" ++ "js" ++ "\n" ++ "abc" ++ "\n```")))
      "<p>" :=
  have h := fenced_block_closing_line_wrapped "js" "abc" (by decide) (by decide) (by decide)
    (by decide)
  ⟨by decide, by decide, by decide, by decide, h.1, h.2.2.1, h.2.2.2⟩

/-! ## Code regions and later rules -/

/-- C14: code regions are not protected from later rules: there is an input
whose fenced code block has a body line that starts with a list marker and
whose output contains `<ul><li>x</li></ul>` after the opening `<pre><code` and
before the closing `</code></pre>`.  The input with the lines `` ``` ``, `a`,
`- x`, `` ``` `` is one. -/
theorem code_region_rewritten :
    GetNotes.parseMarkdown (some "```\na\n- x\n```") =
      "<pre><code class=\"language-\">a<br /><ul><li>x</li></ul><br /><p></code></pre></p>" ∧
    ∃ input a b c d : String, hasSubstring input "\n- x\n" ∧
      GetNotes.parseMarkdown (some input) =
        a ++ "<pre><code" ++ b ++ "<ul><li>x</li></ul>" ++ c ++ "</code></pre>" ++ d := by
  set_option maxRecDepth 100000 in
  exact ⟨by decide, "```\na\n- x\n```", "", " class=\"language-\">a<br />", "<br /><p>", "</p>",
    by decide, by decide⟩

/-- The input that C14 names as an example is not such an input: with the lines
`` ``` ``, `- x`, `` ``` `` the line `- x` follows the opening tag on the same
line of the output of the code rule, so the list rule, which works at line
starts, leaves it: the output has no `<ul>`. -/
theorem code_region_first_line_kept :
    GetNotes.parseMarkdown (some "```\n- x\n```") =
      "<pre><code class=\"language-\">- x<br /><p></code></pre></p>" ∧
    ¬ hasSubstring (GetNotes.parseMarkdown (some "```\n- x\n```")) "<ul><li>x</li></ul>" ∧
    ¬ hasSubstring (GetNotes.parseMarkdown (some "```\n- x\n```")) "<ul>" := by
  set_option maxRecDepth 100000 in
  decide

/-! ## The four copies -/

/-- C27: the copies of `parseMarkdown` in `GetNotes.jsx` and `SummarizeFile.jsx`
return the same string for every argument, absent and empty included. -/
theorem getNotes_eq_summarizeFile :
    ∀ markdown : Option String,
      GetNotes.parseMarkdown markdown = SummarizeFile.parseMarkdown markdown :=
  fun _ => rfl

/-! ## The sanitize configurations -/

/-- C21: the configurations of `GetNotes.jsx` and `SummarizeFile.jsx` are the
same (tags h1, h2, h3, ul, ol, li, code, pre; attributes class, target, rel),
those of `RoadmapGenerator.jsx` and `QuestionBank.jsx` are the same, and the
latter list exactly the tag `a` and the attributes `href` and `style` in
addition. -/
theorem sanitize_configurations :
    GetNotes.sanitizeConfig = SummarizeFile.sanitizeConfig ∧
    GetNotes.sanitizeConfig.ADD_TAGS = ["h1", "h2", "h3", "ul", "ol", "li", "code", "pre"] ∧
    GetNotes.sanitizeConfig.ADD_ATTR = ["class", "target", "rel"] ∧
    RoadmapGenerator.sanitizeConfig = QuestionBank.sanitizeConfig ∧
    QuestionBank.sanitizeConfig.ADD_TAGS = GetNotes.sanitizeConfig.ADD_TAGS ++ ["a"] ∧
    QuestionBank.sanitizeConfig.ADD_ATTR = GetNotes.sanitizeConfig.ADD_ATTR ++ ["href", "style"] ∧
    "a" ∉ GetNotes.sanitizeConfig.ADD_TAGS ∧
    "href" ∉ GetNotes.sanitizeConfig.ADD_ATTR ∧ "style" ∉ GetNotes.sanitizeConfig.ADD_ATTR ∧
    (∀ t, t ∈ QuestionBank.sanitizeConfig.ADD_TAGS ↔
      t ∈ GetNotes.sanitizeConfig.ADD_TAGS ∨ t = "a") ∧
    (∀ a, a ∈ QuestionBank.sanitizeConfig.ADD_ATTR ↔
      a ∈ GetNotes.sanitizeConfig.ADD_ATTR ∨ a = "href" ∨ a = "style") := by
  refine ⟨rfl, rfl, rfl, rfl, rfl, rfl, by decide, by decide, by decide, ?_, ?_⟩
  · intro t
    simp [QuestionBank.sanitizeConfig, GetNotes.sanitizeConfig, or_assoc]
  · intro a
    simp [QuestionBank.sanitizeConfig, GetNotes.sanitizeConfig, or_assoc]

/-! ## The file uploader -/

/-- C25: `validateFile` accepts a file exactly when its type is one of the six
allowed types and its size is at most `30 * 1024 * 1024` bytes; a file of that
size is accepted; a wrong type gives the type message whatever the size, a
right type with a larger size gives the size message; and after a rejection
`processFile` leaves the stored file, its name and size and the calls of
`onFileUpload` as they were. -/
theorem validateFile_spec (file : File) (s : FileUploader.State) (hasCallback : Bool) :
    ((FileUploader.validateFile file s).1 = true ↔
      file.type ∈ ["application/pdf", "application/msword",
        "application/vnd.openxmlformats-officedocument.wordprocessingml.document",
        "application/vnd.ms-excel",
        "application/vnd.openxmlformats-officedocument.spreadsheetml.sheet", "text/plain"] ∧
      file.size ≤ 30 * 1024 * 1024) ∧
    (file.type ∈ FileUploader.allowedTypes → file.size = 30 * 1024 * 1024 →
      (FileUploader.validateFile file s).1 = true) ∧
    (file.type ∉ FileUploader.allowedTypes →
      (FileUploader.validateFile file s).2.error =
        some "File type not supported. Please upload PDF, Word, Excel or text files.") ∧
    (file.type ∈ FileUploader.allowedTypes → file.size > 30 * 1024 * 1024 →
      (FileUploader.validateFile file s).2.error = some "File size exceeds 30MB limit.") ∧
    ((FileUploader.validateFile file s).1 = false →
      FileUploader.processFile hasCallback file s = (FileUploader.validateFile file s).2 ∧
      (FileUploader.processFile hasCallback file s).file = s.file ∧
      (FileUploader.processFile hasCallback file s).fileName = s.fileName ∧
      (FileUploader.processFile hasCallback file s).fileSize = s.fileSize ∧
      (FileUploader.processFile hasCallback file s).uploaded = s.uploaded) := by
  have hv1 : file.type ∉ FileUploader.allowedTypes → FileUploader.validateFile file s =
      (false, ⟨s.file, s.fileName, s.fileSize,
        some "File type not supported. Please upload PDF, Word, Excel or text files.",
        s.uploaded⟩) := by
    intro ht
    have hc : FileUploader.allowedTypes.contains file.type = false := by simpa using ht
    simp [FileUploader.validateFile, hc, ht]
  have hv2 : file.type ∈ FileUploader.allowedTypes → file.size > 30 * 1024 * 1024 →
      FileUploader.validateFile file s =
        (false, { s with error := some "File size exceeds 30MB limit." }) := by
    intro ht hs
    have hc : FileUploader.allowedTypes.contains file.type = true := by simpa using ht
    have hs2 : file.size > FileUploader.maxSize := hs
    simp [FileUploader.validateFile, hc, hs2, ht]
  have hv3 : file.type ∈ FileUploader.allowedTypes → file.size ≤ 30 * 1024 * 1024 →
      FileUploader.validateFile file s = (true, s) := by
    intro ht hs
    have hc : FileUploader.allowedTypes.contains file.type = true := by simpa using ht
    have hs2 : ¬ file.size > FileUploader.maxSize := Nat.not_lt.mpr hs
    simp [FileUploader.validateFile, hc, hs2, ht]
  refine ⟨?_, ?_, ?_, ?_, ?_⟩
  · show _ ↔ file.type ∈ FileUploader.allowedTypes ∧ _
    constructor
    · intro h
      by_cases ht : file.type ∈ FileUploader.allowedTypes
      · by_cases hs : file.size ≤ 30 * 1024 * 1024
        · exact ⟨ht, hs⟩
        · rw [hv2 ht (Nat.lt_of_not_le hs)] at h
          cases h
      · rw [hv1 ht] at h
        cases h
    · rintro ⟨ht, hs⟩
      rw [hv3 ht hs]
  · intro ht hs
    rw [hv3 ht (Nat.le_of_eq hs)]
  · intro ht
    rw [hv1 ht]
  · intro ht hs
    rw [hv2 ht hs]
  · intro h
    have hp : FileUploader.processFile hasCallback file s =
        (FileUploader.validateFile file s).2 := by
      simp [FileUploader.processFile, h]
    rw [hp]
    refine ⟨rfl, ?_⟩
    by_cases ht : file.type ∈ FileUploader.allowedTypes
    · by_cases hs : file.size ≤ 30 * 1024 * 1024
      · rw [hv3 ht hs] at h
        cases h
      · rw [hv2 ht (Nat.lt_of_not_le hs)]
        exact ⟨rfl, rfl, rfl, rfl⟩
    · rw [hv1 ht]
      exact ⟨rfl, rfl, rfl, rfl⟩

/-- C25 at a PDF of exactly 30 MB, which is accepted, and at a PNG image, which
is rejected with the type message and not stored. -/
theorem validateFile_spec_witness :
    (FileUploader.validateFile ⟨"a.pdf", "application/pdf", 31457280⟩
      ⟨none, "", "", none, []⟩).1 = true ∧
    (FileUploader.validateFile ⟨"a.png", "image/png", 40000000⟩
      ⟨none, "", "", none, []⟩).2.error =
        some "File type not supported. Please upload PDF, Word, Excel or text files." ∧
    (FileUploader.processFile true ⟨"a.png", "image/png", 40000000⟩
      ⟨none, "", "", none, []⟩).uploaded = [] :=
  ⟨(validateFile_spec ⟨"a.pdf", "application/pdf", 31457280⟩ ⟨none, "", "", none, []⟩
      true).2.1 (by decide) (by decide),
    (validateFile_spec ⟨"a.png", "image/png", 40000000⟩ ⟨none, "", "", none, []⟩
      true).2.2.1 (by decide),
    ((validateFile_spec ⟨"a.png", "image/png", 40000000⟩ ⟨none, "", "", none, []⟩
      true).2.2.2.2 (by decide)).2.2.2.2⟩

/-! ## Triple markers -/

/-- C30: for a non-empty text `t` of ASCII letters and digits, `***t***` gives
`<strong><em>t</strong></em>`: the bold rule takes `***t**` with the text `*t`,
and the italic rule then takes the span from that `*` to the `*` left over, so
`</strong>` comes before `</em>`. -/
theorem triple_marker (t : String) (hne : t ≠ "") (ht : ∀ c ∈ t.data, c.isAlphanum = true) :
    GetNotes.parseMarkdown (some ("***" ++ t ++ "***")) =
      "<strong><em>" ++ t ++ "</strong></em>" := by
  rw [parseMarkdown_some _ (by simp [String.ext_iff])]
  apply String.ext
  simpa using transform_triple plainAnchor t.data (data_ne_nil hne) ht

/-- C30 at the text `both`. -/
theorem triple_marker_witness :
    "both" ≠ "" ∧ (∀ c ∈ "both".data, c.isAlphanum = true) ∧
    GetNotes.parseMarkdown (some ("***" ++ "both" ++ "***")) =
      "<strong><em>" ++ "both" ++ "</strong></em>" :=
  ⟨by decide, by decide, triple_marker "both" (by decide) (by decide)⟩

/-! ## Links with an underscore in the url -/

/-- C29: for non-empty texts `t`, `p`, `q`, `r` of ASCII letters and digits, the
link `[t](p_q_r)` gives an anchor whose `href` is `p<em>q</em>r`: the italic
rule runs before the link rule and rewrites the url, so the `href` is not the
url that was written. -/
theorem link_url_rewritten (t p q r : String) (ht0 : t ≠ "") (_hp0 : p ≠ "") (hq0 : q ≠ "")
    (hr0 : r ≠ "") (ht : ∀ c ∈ t.data, c.isAlphanum = true)
    (hp : ∀ c ∈ p.data, c.isAlphanum = true) (hq : ∀ c ∈ q.data, c.isAlphanum = true)
    (hr : ∀ c ∈ r.data, c.isAlphanum = true) :
    GetNotes.parseMarkdown (some ("[" ++ t ++ "](" ++ p ++ "_" ++ q ++ "_" ++ r ++ ")")) =
      "<a href=\"" ++ p ++ "<em>" ++ q ++ "</em>" ++ r ++
        "\" target=\"_blank\" rel=\"noopener noreferrer\">" ++ t ++ "</a>" ∧
    p ++ "<em>" ++ q ++ "</em>" ++ r ≠ p ++ "_" ++ q ++ "_" ++ r := by
  constructor
  · rw [parseMarkdown_some _ (by simp [String.ext_iff])]
    apply String.ext
    simpa using transform_link_underscore t.data p.data q.data r.data (data_ne_nil ht0)
      (data_ne_nil hq0) (data_ne_nil hr0) ht hp hq hr
  · intro h
    have := congrArg String.data h
    simp at this

/-- C29 at the link `[docs](my_long_url)`. -/
theorem link_url_rewritten_witness :
    "docs" ≠ "" ∧ "my" ≠ "" ∧ "long" ≠ "" ∧ "url" ≠ "" ∧
    (∀ c ∈ "docs".data, c.isAlphanum = true) ∧ (∀ c ∈ "my".data, c.isAlphanum = true) ∧
    (∀ c ∈ "long".data, c.isAlphanum = true) ∧ (∀ c ∈ "url".data, c.isAlphanum = true) ∧
    GetNotes.parseMarkdown
      (some ("[" ++ "docs" ++ "](" ++ "my" ++ "_" ++ "long" ++ "_" ++ "url" ++ ")")) =
      "<a href=\"" ++ "my" ++ "<em>" ++ "long" ++ "</em>" ++ "url" ++
        "\" target=\"_blank\" rel=\"noopener noreferrer\">" ++ "docs" ++ "</a>" :=
  ⟨by decide, by decide, by decide, by decide, by decide, by decide, by decide, by decide,
    (link_url_rewritten "docs" "my" "long" "url" (by decide) (by decide) (by decide) (by decide)
      (by decide) (by decide) (by decide) (by decide)).1⟩

/-! ## Empty lines -/

/-- C28: for non-empty texts `t` and `u` of ASCII letters, digits and spaces, a
trailing newline and a blank line each give an empty paragraph:
`parseMarkdown(t + '\n') = '<p>' + t + '</p><br /><p></p>'` and
`parseMarkdown(t + '\n\n' + u) = '<p>' + t + '</p><br /><p></p><br /><p>' + u + '</p>'`. -/
theorem empty_line_paragraph (t u : String) (ht0 : t ≠ "") (hu0 : u ≠ "")
    (ht : ∀ c ∈ t.data, isPlain c = true) (hu : ∀ c ∈ u.data, isPlain c = true) :
    GetNotes.parseMarkdown (some (t ++ "\n")) = "<p>" ++ t ++ "</p><br /><p></p>" ∧
    GetNotes.parseMarkdown (some (t ++ "\n\n" ++ u)) =
      "<p>" ++ t ++ "</p><br /><p></p><br /><p>" ++ u ++ "</p>" := by
  constructor
  · rw [parseMarkdown_some _ (by simp [String.ext_iff])]
    apply String.ext
    simpa using transform_trailing_newline plainAnchor t.data (data_ne_nil ht0) ht
  · rw [parseMarkdown_some _ (by simp [String.ext_iff])]
    apply String.ext
    simpa using transform_blank_line plainAnchor t.data u.data (data_ne_nil ht0)
      (data_ne_nil hu0) ht hu

/-- C28 at the texts `first line` and `line 3`. -/
theorem empty_line_paragraph_witness :
    "first line" ≠ "" ∧ "line 3" ≠ "" ∧ (∀ c ∈ "first line".data, isPlain c = true) ∧
    (∀ c ∈ "line 3".data, isPlain c = true) ∧
    GetNotes.parseMarkdown (some ("first line" ++ "\n")) =
      "<p>" ++ "first line" ++ "</p><br /><p></p>" ∧
    GetNotes.parseMarkdown (some ("first line" ++ "\n\n" ++ "line 3")) =
      "<p>" ++ "first line" ++ "</p><br /><p></p><br /><p>" ++ "line 3" ++ "</p>" :=
  ⟨by decide, by decide, by decide, by decide,
    empty_line_paragraph "first line" "line 3" (by decide) (by decide) (by decide) (by decide)⟩

/-! ## The resource headings of the roadmap -/

/-- C26: in `RoadmapGenerator.parseMarkdown`, a level-two heading whose text is
one of the seven resource names, whatever the case of its letters, becomes an
`h2` element with the colour `#93c5fd` around the text as it was written; a
heading whose text is made of ASCII letters, digits and spaces and is none of
the names becomes the plain `<h2>t</h2>`, which is also what
`QuestionBank.parseMarkdown` makes of it. -/
theorem resource_heading (t : String) :
    (∀ n ∈ resourceNames, sameIgnoringCase t n = true →
      RoadmapGenerator.parseMarkdown (some ("## " ++ t)) =
        "<h2 style=\"color: #93c5fd;\">" ++ t ++ "</h2>") ∧
    ((∀ c ∈ t.data, isPlain c = true) → (∀ n ∈ resourceNames, sameIgnoringCase t n = false) →
      RoadmapGenerator.parseMarkdown (some ("## " ++ t)) = "<h2>" ++ t ++ "</h2>" ∧
      QuestionBank.parseMarkdown (some ("## " ++ t)) = "<h2>" ++ t ++ "</h2>") := by
  have hne : "## " ++ t ≠ "" := by
    intro h
    have := congrArg String.data h
    simp at this
  have hR : RoadmapGenerator.parseMarkdown (some ("## " ++ t)) =
      String.mk (stage resourceM "<h2 style=\"color: #93c5fd;\">$1</h2>"
        (transform styledAnchor ("## ".data ++ t.data))) := by
    simp only [RoadmapGenerator.parseMarkdown, hne, if_false, replace, matchAt_resourceRule, stage,
      String.data_append]
  have hQ : QuestionBank.parseMarkdown (some ("## " ++ t)) =
      String.mk (transform styledAnchor ("## ".data ++ t.data)) := by
    simp only [QuestionBank.parseMarkdown, hne, if_false, String.data_append]
  constructor
  · intro n hn hs
    have hs2 : t.data.map (canonicalize true) = n.data.map (canonicalize true) := by
      simpa [sameIgnoringCase] using hs
    have hin := same_inert hs2 (resourceNames_plain n hn)
    rw [hR, transform_heading2 styledAnchor t.data hin, stage_resource_hit hn hs2]
    apply String.ext
    simp
  · intro ht hs
    have hs2 : ∀ n ∈ resourceNames,
        t.data.map (canonicalize true) ≠ n.data.map (canonicalize true) := by
      intro n hn
      have := hs n hn
      simpa [sameIgnoringCase] using this
    have hin : ∀ c ∈ t.data, inert c = true := fun c hc => plain_inert (ht c hc)
    rw [hR, hQ, transform_heading2 styledAnchor t.data hin, stage_resource_other ht hs2]
    constructor <;> (apply String.ext; simp)

theorem resource_heading_witness :
    RoadmapGenerator.parseMarkdown (some "## Books") = "<h2 style=\"color: #93c5fd;\">Books</h2>" ∧
    RoadmapGenerator.parseMarkdown (some "## free RESOURCES") =
      "<h2 style=\"color: #93c5fd;\">free RESOURCES</h2>" ∧
    RoadmapGenerator.parseMarkdown (some "## My Books") = "<h2>My Books</h2>" ∧
    QuestionBank.parseMarkdown (some "## My Books") = "<h2>My Books</h2>" :=
  ⟨(resource_heading "Books").1 "Books" (by decide) (by decide),
    (resource_heading "free RESOURCES").1 "Free Resources" (by decide) (by decide),
    (resource_heading "My Books").2 (by decide) (by decide)⟩

/-! ## The four copies of the chain -/

/-- C22, the claim fails: the link `[a](b)` gets a `style` attribute from
`QuestionBank.parseMarkdown` and none from `GetNotes.parseMarkdown`, and the
heading `## Books` gets a colour from `RoadmapGenerator.parseMarkdown` and none
from `QuestionBank.parseMarkdown`. -/
theorem same_output_counterexample :
    ¬ (∀ md : Option String,
      GetNotes.parseMarkdown md = SummarizeFile.parseMarkdown md ∧
      GetNotes.parseMarkdown md = RoadmapGenerator.parseMarkdown md ∧
      GetNotes.parseMarkdown md = QuestionBank.parseMarkdown md) ∧
    GetNotes.parseMarkdown (some "[a](b)") ≠ QuestionBank.parseMarkdown (some "[a](b)") ∧
    RoadmapGenerator.parseMarkdown (some "## Books") ≠
      QuestionBank.parseMarkdown (some "## Books") := by
  have h1 : GetNotes.parseMarkdown (some "[a](b)") ≠ QuestionBank.parseMarkdown (some "[a](b)") := by
    decide
  have h2 : RoadmapGenerator.parseMarkdown (some "## Books") ≠
      QuestionBank.parseMarkdown (some "## Books") := by
    decide
  exact ⟨fun h => h1 (h (some "[a](b)")).2.2, h1, h2⟩

/-- C22, as the code has it: `GetNotes.parseMarkdown` and
`SummarizeFile.parseMarkdown` return the same output for every input;
`QuestionBank.parseMarkdown` returns that output for every input without `[`;
`RoadmapGenerator.parseMarkdown` returns the output of
`QuestionBank.parseMarkdown` with the resource rule applied to it, which is that
output itself whenever the resource rule finds nothing in it. -/
theorem same_output (md : Option String) :
    GetNotes.parseMarkdown md = SummarizeFile.parseMarkdown md ∧
    ((∀ s, md = some s → ∀ c ∈ s.data, c ≠ '[') →
      QuestionBank.parseMarkdown md = GetNotes.parseMarkdown md) ∧
    RoadmapGenerator.parseMarkdown md =
      String.mk (replace .gi resourceRule "<h2 style=\"color: #93c5fd;\">$1</h2>"
        (QuestionBank.parseMarkdown md).data) ∧
    (hasMatch (matchAt .gi resourceRule) none (QuestionBank.parseMarkdown md).data = false →
      RoadmapGenerator.parseMarkdown md = QuestionBank.parseMarkdown md) := by
  have h3 : RoadmapGenerator.parseMarkdown md =
      String.mk (replace .gi resourceRule "<h2 style=\"color: #93c5fd;\">$1</h2>"
        (QuestionBank.parseMarkdown md).data) := by
    cases md with
    | none => rfl
    | some s =>
      by_cases hs : s = ""
      · subst hs
        rfl
      · simp only [RoadmapGenerator.parseMarkdown, QuestionBank.parseMarkdown, if_neg hs]
  refine ⟨rfl, ?_, h3, ?_⟩
  · intro h
    cases md with
    | none => rfl
    | some s =>
      by_cases hs : s = ""
      · subst hs
        rfl
      · have hb := h s rfl
        simp only [QuestionBank.parseMarkdown, GetNotes.parseMarkdown, if_neg hs,
          transform_no_link _ hb]
  · intro h
    rw [h3, replace_resource_id _ h]

theorem same_output_witness :
    QuestionBank.parseMarkdown (some "**a** b") = GetNotes.parseMarkdown (some "**a** b") ∧
    RoadmapGenerator.parseMarkdown (some "## My Books") =
      QuestionBank.parseMarkdown (some "## My Books") :=
  ⟨(same_output (some "**a** b")).2.1 (fun s h => by
      cases h
      decide),
    (same_output (some "## My Books")).2.2.2 (by decide)⟩

/-! ## The output alphabet -/

/-- C24: for every input without `<`, every `<` in the output of
`GetNotes.parseMarkdown` is immediately followed by one of the tag names `h1`,
`h2`, `h3`, `p`, `strong`, `em`, `pre`, `code`, `ul`, `ol`, `li`, `a`, `img`,
`blockquote`, `br`, or by `/` and one of these names; the name ends there, the
next character being `>` or a space. -/
theorem output_alphabet (md : String) (h : ∀ c ∈ md.data, c ≠ '<') (a b : List Char)
    (hab : (GetNotes.parseMarkdown (some md)).data = a ++ '<' :: b) :
    ∃ n ∈ tagNames, ∃ d r, (d = '>' ∨ d = ' ') ∧
      (b = n.data ++ d :: r ∨ b = '/' :: (n.data ++ d :: r)) := by
  by_cases hmd : md = ""
  · subst hmd
    have e : (GetNotes.parseMarkdown (some "")).data = [] := rfl
    rw [e] at hab
    simp at hab
  · rw [parseMarkdown_some md hmd] at hab
    have hw := transform_wellTagged plainAnchor template_plainAnchor h
    have hab2 : transform plainAnchor md.data = a ++ '<' :: b := by simpa using hab
    rw [hab2] at hw
    obtain ⟨w, hwt, r, hr⟩ := okAfter_iff.mp (wellTagged_split hw)
    obtain ⟨n, hn, d, x, hd, hx⟩ := tagTokens_names w hwt
    refine ⟨n, hn, d, x ++ r, hd, ?_⟩
    rcases hx with hx | hx
    · left
      rw [hr, hx]
      simp
    · right
      rw [hr, hx]
      simp

theorem output_alphabet_witness :
    (∀ c ∈ "- *a* [b](c)".data, c ≠ '<') ∧
    ∃ n ∈ tagNames, ∃ d r, (d = '>' ∨ d = ' ') ∧
      ("/em> <a href=\"c\" target=\"_blank\" rel=\"noopener noreferrer\">b</a></li></ul>".data =
          n.data ++ d :: r ∨
        "/em> <a href=\"c\" target=\"_blank\" rel=\"noopener noreferrer\">b</a></li></ul>".data =
          '/' :: (n.data ++ d :: r)) :=
  ⟨by decide, output_alphabet "- *a* [b](c)" (by decide) "<ul><li><em>a".data _ (by
    set_option maxRecDepth 100000 in
    decide)⟩

/-! ## The cleanup calls -/

/-- C23, the claim fails: the cleanup calls make one pass, and on the input
`</ul></ul><ul><ul>` the removal of the inner `</ul><ul>` brings the outer tags
together, so the output of `GetNotes.parseMarkdown` is `<p></ul><ul></p>`,
which contains `</ul><ul>`. -/
theorem cleanup_counterexample :
    GetNotes.parseMarkdown (some "</ul></ul><ul><ul>") = "<p></ul><ul></p>" ∧
    hasSubstring (GetNotes.parseMarkdown (some "</ul></ul><ul><ul>")) "</ul><ul>" ∧
    ¬ (∀ md : String, ¬ hasSubstring (GetNotes.parseMarkdown (some md)) "</ul><ul>" ∧
      ¬ hasSubstring (GetNotes.parseMarkdown (some md)) "</ol><ol>") := by
  have h1 : GetNotes.parseMarkdown (some "</ul></ul><ul><ul>") = "<p></ul><ul></p>" := by
    decide
  have h2 : hasSubstring (GetNotes.parseMarkdown (some "</ul></ul><ul><ul>")) "</ul><ul>" := by
    rw [h1]
    decide
  exact ⟨h1, h2, fun h => (h "</ul></ul><ul><ul>").1 h2⟩

/-- C23, as the code has it: for every input without `<`, the output of
`GetNotes.parseMarkdown` contains neither `</ul><ul>` nor `</ol><ol>`. -/
theorem cleanup_postcondition (md : String) (h : ∀ c ∈ md.data, c ≠ '<') :
    ¬ hasSubstring (GetNotes.parseMarkdown (some md)) "</ul><ul>" ∧
    ¬ hasSubstring (GetNotes.parseMarkdown (some md)) "</ol><ol>" := by
  by_cases hmd : md = ""
  · subst hmd
    exact ⟨by decide, by decide⟩
  · obtain ⟨h1, h2⟩ := transform_no_adjacent plainAnchor template_plainAnchor h
    rw [parseMarkdown_some md hmd]
    simp only [hasSubstring, h1, h2]
    exact ⟨by decide, by decide⟩

theorem cleanup_postcondition_witness :
    (∀ c ∈ "- a\n- b\n\n- c\n1. d\n2. e".data, c ≠ '<') ∧
    ¬ hasSubstring (GetNotes.parseMarkdown (some "- a\n- b\n\n- c\n1. d\n2. e")) "</ul><ul>" ∧
    ¬ hasSubstring (GetNotes.parseMarkdown (some "- a\n- b\n\n- c\n1. d\n2. e")) "</ol><ol>" :=
  ⟨by decide, cleanup_postcondition "- a\n- b\n\n- c\n1. d\n2. e" (by decide)⟩

end Vyasa
